import Mathlib

/-!
# jsonw: scanner, parser, value tree and serializer

A shallow embedding of `src/jsonw.hpp` (classes `octillion::JsonTokenW` and
`octillion::JsonW`).

Modelling conventions, each read off the source:

* A `wchar_t` is a natural number (its code unit); a `std::wstring` and the
  contents of a `std::wistream` are lists of code units.  `ins.peek()` is the
  head of the list, `ins.get()` drops it, and the end-of-file value is the
  empty list.
* `int_fast64_t` is an `Int`; the only place where the 64-bit range matters is
  `std::stoll`, which is modelled with its range check.
* `long double` values are kept symbolic (`LongDouble` records how the value
  was computed).  The three platform facts about floating point that the code
  branches on or prints with are the fields of `FloatEnv`.
* `std::map<std::wstring, JsonW*>` is an association list kept in ascending
  key order with unique keys by `MapW.set`; a stored pointer may be `NULL`
  (`none`).  `std::vector<JsonW*>` is a list.
* Loops whose trip count is bounded by the input are structural recursions on
  the input; the mutually recursive parser carries an explicit fuel and
  returns `none` only when the fuel runs out.
* A member function that changes its object maps the node before the call to
  the node after it.  A returned `JsonW&` is a `Ref` into that node or the
  static instance of `bad()`, whose state is an explicit argument.
* Where a statement is about which object a pointer designates (`add`,
  `copy`), objects are cells of a memory and hold their children by address;
  `new` takes the first unused address and `delete` empties the address.
-/

namespace octillion

/-- Code units of a string literal, used to write inputs readably. -/
def ws (s : String) : List Nat := s.toList.map Char.toNat

/-- The function `iswdigit`: true exactly for the ten decimal digits. -/
def iswdigit (c : Nat) : Bool := decide (48 ≤ c) && decide (c ≤ 57)

/-- The symbolic `long double` values the code can compute. -/
inductive LongDouble where
  /-- the member initialiser `0.0` -/
  | zero
  /-- the result of `std::stold(s)` -/
  | stold (s : List Nat)
  /-- the result of `1.0 * integer_` -/
  | ofInteger (i : Int)
  /-- the result of `x * std::pow(10, e)` -/
  | mulPow10 (x : LongDouble) (e : Int)
  deriving DecidableEq, Repr

/-- Platform facts about floating point used by the code. -/
structure FloatEnv where
  /-- `std::stold` throws `std::out_of_range` on this literal -/
  stoldThrows : List Nat → Bool
  /-- `std::pow(10, e)` equals `HUGE_VAL` -/
  powHuge : Int → Bool
  /-- `std::to_wstring(long double)` -/
  to_wstring : LongDouble → List Nat

/-- An environment in which no literal is out of range; floats print as `?`. -/
def FloatEnv.unbounded : FloatEnv :=
  { stoldThrows := fun _ => false, powHuge := fun _ => false, to_wstring := fun _ => [63] }

/-- An environment in which no literal is out of range and the value read from a literal
with six digits after the point prints as that literal (`0.500000` reads as one half,
which `std::to_wstring` prints as `0.500000`); every other value prints as `?`. -/
def FloatEnv.sixDecimals : FloatEnv :=
  { stoldThrows := fun _ => false, powHuge := fun _ => false,
    to_wstring := fun x =>
      match x with
      | LongDouble.stold s => if (s.dropWhile (fun c => c != 46)).length == 7 then s else [63]
      | _ => [63] }

/-! ## JsonTokenW -/

/-- The enumeration `JsonTokenW::Type`. -/
inductive TokType where
  | NumberInteger | NumberFloat | String
  | LeftCurlyBracket | RightCurlyBracket | LeftSquareBracket | RightSquareBracket
  | Colon | Comma | Boolean | Null | Bad
  deriving DecidableEq, Repr

/-- The data members of `JsonTokenW`, with their member initialisers. -/
structure JsonTokenW where
  type_ : TokType := TokType.Bad
  integer_ : Int := 0
  frac_ : LongDouble := LongDouble.zero
  wstring_ : List Nat := []
  boolean_ : Bool := true
  deriving DecidableEq, Repr

/-- Value of a run of decimal digits, most significant first, continuing `acc`. -/
def decValue (acc : Nat) : List Nat → Nat
  | [] => acc
  | c :: cs => decValue (acc * 10 + (c - 48)) cs

/-- The call `std::stoll(numberstr)`: optional minus sign, then the leading run of
digits; `none` is `std::out_of_range`. -/
def stoll (numberstr : List Nat) : Option Int :=
  let v : Int :=
    if numberstr.head? == some 45 then - (decValue 0 (numberstr.tail.takeWhile iswdigit) : Int)
    else (decValue 0 (numberstr.takeWhile iswdigit) : Int)
  if -9223372036854775808 ≤ v ∧ v ≤ 9223372036854775807 then some v else none

/-- The call `std::stoi(expstr)` on a run of digits; `none` is `std::out_of_range`. -/
def stoi (expstr : List Nat) : Option Int :=
  let v : Int := (decValue 0 (expstr.takeWhile iswdigit) : Int)
  if v ≤ 2147483647 then some v else none

/-- The `while (iswdigit(character) || character == L'.' || character == L'e')` loop of
the number branch.  `Except.error` is a `return` from inside the loop (token stays
`Bad`); otherwise the result is `(numberstr, containdot, containexp, ins)`. -/
def numberLoop : List Nat → Bool → List Nat →
    Except (List Nat) (List Nat × Bool × Bool × List Nat)
  | numberstr, containdot, [] => .ok (numberstr, containdot, false, [])
  | numberstr, containdot, c :: rest =>
    if iswdigit c || c == 46 || c == 101 then
      if c == 46 && (containdot || numberstr.length == 0) then .error (c :: rest)
      else if c == 46 && (numberstr.length == 1 && !iswdigit (numberstr.headD 0)) then
        .error (c :: rest)
      else
        let containdot := containdot || c == 46
        if c == 101 || c == 69 then .ok (numberstr, containdot, true, c :: rest)
        else numberLoop (numberstr ++ [c]) containdot rest
    else .ok (numberstr, containdot, false, c :: rest)

/-- The `while (iswdigit(character))` loop that collects `expstr`. -/
def expLoop : List Nat → List Nat → List Nat × List Nat
  | expstr, [] => (expstr, [])
  | expstr, c :: rest =>
    if iswdigit c then expLoop (expstr ++ [c]) rest else (expstr, c :: rest)

/-- The block `if (character == L'e' || character == L'E')` that reads the exponent:
`(negativeexp, exponent, ins)`, or `Except.error` when it returns with the token
still `Bad` (no digit, or `std::stoi` out of range). -/
def exponentPart (ins : List Nat) : Except (List Nat) (Bool × Int × List Nat) :=
  if ins.head? == some 101 || ins.head? == some 69 then
    let ins := ins.tail
    let negativeexp := ins.head? == some 45
    let ins := if negativeexp then ins.tail else ins
    let ins := if ins.head? == some 43 then ins.tail else ins
    let (expstr, ins) := expLoop [] ins
    if expstr.length == 0 then .error ins
    else
      match stoi expstr with
      | none => .error ins
      | some exponent => .ok (negativeexp, exponent, ins)
  else .ok (false, 0, ins)

/-- The number branch after the `while` loop: the two checks on `numberstr`, the
exponent, the conversion and the multiplier. -/
def numberFinish (env : FloatEnv) (numberstr : List Nat) (containdot containexp : Bool)
    (ins : List Nat) : JsonTokenW × List Nat :=
  -- last character in numberstr has to be a digit
  if numberstr.length == 0 || !iswdigit (numberstr.getLastD 0) then ({}, ins)
  -- first digit cannot be zero except frac or zero
  else if !containdot && numberstr.headD 0 == 48 && decide (numberstr.length > 1) then ({}, ins)
  else
    match exponentPart ins with
    | .error ins => ({}, ins)
    | .ok (negativeexp, exponent, ins) =>
      let conv : Option JsonTokenW :=
        if containdot then
          if env.stoldThrows numberstr then none
          else some { type_ := TokType.NumberFloat, frac_ := LongDouble.stold numberstr }
        else
          match stoll numberstr with
          | none => none
          | some i => some { type_ := TokType.NumberInteger, integer_ := i }
      match conv with
      | none => ({}, ins)
      | some tok =>
        if containexp then
          let e : Int := if negativeexp then -1 * exponent else exponent
          if env.powHuge e then ({ tok with type_ := TokType.Bad }, ins)
          else
            let frac := if tok.type_ == TokType.NumberInteger
              then LongDouble.ofInteger tok.integer_ else tok.frac_
            ({ tok with type_ := TokType.NumberFloat, frac_ := LongDouble.mulPow10 frac e }, ins)
        else (tok, ins)

/-- The number branch of the constructor `JsonTokenW(std::wistream&)`; the stream
stands on a digit or on `-`. -/
def scanNumber (env : FloatEnv) (ins : List Nat) : JsonTokenW × List Nat :=
  -- negative value
  let negative := ins.head? == some 45
  let numberstr : List Nat := if negative then [45] else []
  let ins := if negative then ins.tail else ins
  -- if start with 0, it must followed by . or standalone zero
  if ins.head? == some 48 then
    let ins := ins.tail
    if ins.head? != some 46 then ({ type_ := TokType.NumberInteger, integer_ := 0 }, ins)
    else
      match numberLoop (numberstr ++ [48, 46]) true ins.tail with
      | .error ins => ({}, ins)
      | .ok (numberstr, containdot, containexp, ins) =>
        numberFinish env numberstr containdot containexp ins
  else
    match numberLoop numberstr false ins with
    | .error ins => ({}, ins)
    | .ok (numberstr, containdot, containexp, ins) =>
      numberFinish env numberstr containdot containexp ins

/-- Character-by-character match of the rest of a keyword: `(true, ins)` after
the whole keyword was read, `(false, ins)` at the first deviation or at
end of input. -/
def expect : List Nat → List Nat → Bool × List Nat
  | [], ins => (true, ins)
  | _ :: _, [] => (false, [])
  | k :: ks, c :: rest => if c == k then expect ks rest else (false, c :: rest)

/-- Value of one hexadecimal digit, if it is one. -/
def hexDigit (c : Nat) : Option Nat :=
  if 48 ≤ c ∧ c ≤ 57 then some (c - 48)
  else if 97 ≤ c ∧ c ≤ 102 then some (c - 87)
  else if 65 ≤ c ∧ c ≤ 70 then some (c - 55)
  else none

/-- Value of the leading run of hexadecimal digits, continuing `acc`. -/
def hexValue (acc : Nat) : List Nat → Nat
  | [] => acc
  | c :: cs =>
    match hexDigit c with
    | some d => hexValue (acc * 16 + d) cs
    | none => acc

/-- The call `std::stoul(hexbuf, NULL, 16)` where `hexbuf` is `0x` followed by the
four characters `h`: the value of the longest run of hexadecimal digits at the
start of `h` (zero when there is none, from the leading `0`). -/
def stoulHex (h : List Nat) : Nat := hexValue 0 h

/-- The string loop `while (character != eof)` of the constructor, entered after the
opening quote.  Arguments: the `backslash` flag, `strbuf`, the stream. -/
def stringLoop : Bool → List Nat → List Nat → JsonTokenW × List Nat
  | _, _, [] => ({}, [])
  | true, strbuf, c :: rest =>
    if c == 117 then
      match rest with
      | h1 :: h2 :: h3 :: h4 :: rest4 =>
        stringLoop false (strbuf ++ [stoulHex [h1, h2, h3, h4]]) rest4
      | _ => ({}, [])
    else
      let strbuf :=
        if c == 34 then strbuf ++ [34]
        else if c == 92 then strbuf ++ [92]
        else if c == 47 then strbuf ++ [47]
        else if c == 98 then strbuf ++ [8]
        else if c == 102 then strbuf ++ [12]
        else if c == 110 then strbuf ++ [10]
        else if c == 114 then strbuf ++ [13]
        else if c == 116 then strbuf ++ [9]
        else strbuf
      stringLoop false strbuf rest
  | false, strbuf, c :: rest =>
    if c == 92 then stringLoop true strbuf rest
    else if c == 13 || c == 10 then ({}, c :: rest)
    else if c == 34 then ({ type_ := TokType.String, wstring_ := strbuf }, rest)
    else stringLoop false (strbuf ++ [c]) rest

/-- The constructor `JsonTokenW(std::wistream& ins)`: the token read and the stream
after it. -/
def JsonTokenW.scan (env : FloatEnv) (ins : List Nat) : JsonTokenW × List Nat :=
  match ins with
  | [] => ({}, [])
  | c :: rest =>
    if c == 123 then ({ type_ := TokType.LeftCurlyBracket }, rest)
    else if c == 125 then ({ type_ := TokType.RightCurlyBracket }, rest)
    else if c == 91 then ({ type_ := TokType.LeftSquareBracket }, rest)
    else if c == 93 then ({ type_ := TokType.RightSquareBracket }, rest)
    else if c == 58 then ({ type_ := TokType.Colon }, rest)
    else if c == 44 then ({ type_ := TokType.Comma }, rest)
    else if iswdigit c || c == 45 then scanNumber env (c :: rest)
    else if c == 116 then
      match expect [114, 117, 101] rest with
      | (true, ins) => ({ type_ := TokType.Boolean, boolean_ := true }, ins)
      | (false, ins) => ({}, ins)
    else if c == 102 then
      match expect [97, 108, 115, 101] rest with
      | (true, ins) => ({ type_ := TokType.Boolean, boolean_ := false }, ins)
      | (false, ins) => ({}, ins)
    else if c == 110 then
      match expect [117, 108, 108] rest with
      | (true, ins) => ({ type_ := TokType.Null }, ins)
      | (false, ins) => ({}, ins)
    else if c != 34 then ({}, c :: rest)
    else stringLoop false [] rest

/-- The function `JsonTokenW::isskippable`. -/
def isskippable (character : Nat) : Bool :=
  character == 32 || character == 13 || character == 10 || character == 9

/-- The function `JsonTokenW::findnext`: skip white space; `some ins` when the stream
then stands on a character that may begin a token, `none` when it returns false. -/
def findnext : List Nat → Option (List Nat)
  | [] => none
  | c :: rest =>
    if isskippable c then findnext rest
    else if c == 91 || c == 93 || c == 123 || c == 125 || c == 58 || iswdigit c ||
        c == 44 || c == 34 || c == 45 || c == 116 || c == 102 || c == 110 then
      some (c :: rest)
    else none

/-- The loop of `JsonTokenW::parse`, entered with the result of the first `findnext`
and the queue so far.  Result: the returned flag and the queue; `none` only when the
fuel is exhausted. -/
def scanLoop (env : FloatEnv) : Nat → Option (List Nat) → List JsonTokenW →
    Option (Bool × List JsonTokenW)
  | _, none, tokens => some (true, tokens)
  | 0, some _, _ => none
  | fuel + 1, some ins, tokens =>
    let (token, ins) := JsonTokenW.scan env ins
    if token.type_ == TokType.Bad then some (false, [])
    else scanLoop env fuel (findnext ins) (tokens ++ [token])

/-- The static function `JsonTokenW::parse(ins, tokens)` on an empty queue. -/
def JsonTokenW.parse (env : FloatEnv) (ins : List Nat) : Option (Bool × List JsonTokenW) :=
  scanLoop env (ins.length + 1) (findnext ins) []


/-! ## JsonW -/

/-- The class `JsonW`: its data members.  A child pointer stored in `jobject_` may be
`NULL`. -/
inductive JsonW where
  | mk (type_ : Nat) (valid_ : Bool) (integer_ : Int) (frac_ : LongDouble)
      (wstring_ : List Nat) (boolean_ : Bool)
      (jobject_ : List (List Nat × Option JsonW)) (jarray_ : List JsonW)

namespace JsonW

def BAD : Nat := 0
def OBJECT : Nat := 1
def ARRAY : Nat := 2
def INTEGER : Nat := 3
def FLOAT : Nat := 4
def STRING : Nat := 5
def BOOLEAN : Nat := 6
def NULLVALUE : Nat := 7

def type_ : JsonW → Nat | mk t _ _ _ _ _ _ _ => t
def valid_ : JsonW → Bool | mk _ v _ _ _ _ _ _ => v
def integer_ : JsonW → Int | mk _ _ i _ _ _ _ _ => i
def frac_ : JsonW → LongDouble | mk _ _ _ f _ _ _ _ => f
def wstring_ : JsonW → List Nat | mk _ _ _ _ s _ _ _ => s
def boolean_ : JsonW → Bool | mk _ _ _ _ _ b _ _ => b
def jobject_ : JsonW → List (List Nat × Option JsonW) | mk _ _ _ _ _ _ o _ => o
def jarray_ : JsonW → List JsonW | mk _ _ _ _ _ _ _ a => a

/-- A node holding only the member initialisers (`type_ = NULLVALUE`,
`valid_ = false`): the state in which a constructor body starts. -/
def raw : JsonW := mk NULLVALUE false 0 LongDouble.zero [] true [] []

/-- The default constructor `JsonW()`: a valid null. -/
def new : JsonW := mk NULLVALUE true 0 LongDouble.zero [] true [] []

end JsonW

/-! ### The object container `std::map<std::wstring, JsonW*>` -/

/-- The call `jobject.count(key)`. -/
def MapW.count {α : Type} (m : List (List Nat × α)) (key : List Nat) : Nat :=
  (m.filter (fun e => e.1 == key)).length

/-- The call `jobject.find(key)`: the mapped value, `none` for `end()`. -/
def MapW.find {α : Type} : List (List Nat × α) → List Nat → Option α
  | [], _ => none
  | (k, v) :: rest, key => if k == key then some v else MapW.find rest key

/-- The assignment `jobject[key] = value`: replaces the value of an existing key,
otherwise inserts at the key's place in ascending order. -/
def MapW.set {α : Type} : List (List Nat × α) → List Nat → α → List (List Nat × α)
  | [], key, value => [(key, value)]
  | (k, v) :: rest, key, value =>
    if key < k then (key, value) :: (k, v) :: rest
    else if key = k then (k, value) :: rest
    else (k, v) :: MapW.set rest key value

/-! ### The parser -/

mutual

/-- The member function `JsonW::parse(tokens)`: the node afterwards and the queue
afterwards. -/
def JsonW.parse : Nat → JsonW → List JsonTokenW → Option (JsonW × List JsonTokenW)
  | 0, _, _ => none
  | fuel + 1, JsonW.mk _ valid_ integer_ frac_ wstring_ boolean_ _ _, tokens =>
    -- clean(); type_ = BAD;
    match tokens with
    | [] => some (JsonW.mk JsonW.BAD valid_ integer_ frac_ wstring_ boolean_ [] [], [])
    | front :: rest =>
      match front.type_ with
      | TokType.LeftCurlyBracket =>
        match jobject fuel (front :: rest) [] with
        | none => none
        | some (ok, tokens, jobject_) =>
          some (JsonW.mk (if ok then JsonW.OBJECT else JsonW.BAD) ok integer_ frac_ wstring_
            boolean_ jobject_ [], tokens)
      | TokType.LeftSquareBracket =>
        match jarray fuel (front :: rest) [] with
        | none => none
        | some (ok, tokens, jarray_) =>
          some (JsonW.mk (if ok then JsonW.ARRAY else JsonW.BAD) ok integer_ frac_ wstring_
            boolean_ [] jarray_, tokens)
      | TokType.NumberInteger =>
        some (JsonW.mk JsonW.INTEGER true front.integer_ frac_ wstring_ boolean_ [] [], rest)
      | TokType.NumberFloat =>
        some (JsonW.mk JsonW.FLOAT true integer_ front.frac_ wstring_ boolean_ [] [], rest)
      | TokType.String =>
        some (JsonW.mk JsonW.STRING true integer_ frac_ front.wstring_ boolean_ [] [], rest)
      | TokType.Boolean =>
        some (JsonW.mk JsonW.BOOLEAN true integer_ frac_ wstring_ front.boolean_ [] [], rest)
      | TokType.Null =>
        some (JsonW.mk JsonW.NULLVALUE true integer_ frac_ wstring_ boolean_ [] [], rest)
      | _ =>
        some (JsonW.mk JsonW.BAD false integer_ frac_ wstring_ boolean_ [] [], front :: rest)

/-- The static function `JsonW::jobject(tokens, jobject)`: the returned flag, the queue
afterwards and the map afterwards. -/
def jobject : Nat → List JsonTokenW → List (List Nat × Option JsonW) →
    Option (Bool × List JsonTokenW × List (List Nat × Option JsonW))
  | 0, _, _ => none
  | fuel + 1, tokens, jobject =>
    match tokens with
    | front :: _ :: _ =>
      if front.type_ != TokType.LeftCurlyBracket then some (false, tokens, jobject)
      else jobjectLoop fuel tokens.tail jobject
    | _ => some (false, tokens, jobject)

/-- The loop `while (!tokens.empty())` of `JsonW::jobject`. -/
def jobjectLoop : Nat → List JsonTokenW → List (List Nat × Option JsonW) →
    Option (Bool × List JsonTokenW × List (List Nat × Option JsonW))
  | 0, _, _ => none
  | _ + 1, [], jobject => some (false, [], jobject)
  | fuel + 1, front :: rest, jobject =>
    match front.type_ with
    | TokType.RightCurlyBracket => some (true, rest, jobject)
    | TokType.String =>
      let key := front.wstring_
      if key.length == 0 then some (false, front :: rest, jobject)
      else if MapW.count jobject key > 0 then some (false, front :: rest, jobject)
      else
        match rest with
        | [] => some (false, [], jobject)
        | colon :: rest =>
          if colon.type_ != TokType.Colon then some (false, colon :: rest, jobject)
          else
            match rest with
            | [] => some (false, [], jobject)
            | _ :: _ =>
              match JsonW.parse fuel JsonW.raw rest with
              | none => none
              | some (junit, tokens) =>
                if junit.valid_ == false then some (false, tokens, jobject)
                else
                  let jobject := MapW.set jobject key (some junit)
                  match tokens with
                  | t :: tokens' =>
                    if t.type_ == TokType.Comma then jobjectLoop fuel tokens' jobject
                    else jobjectLoop fuel (t :: tokens') jobject
                  | [] => jobjectLoop fuel [] jobject
    | _ => some (false, front :: rest, jobject)

/-- The static function `JsonW::jarray(tokens, jarray)`: the returned flag, the queue
afterwards and the vector afterwards. -/
def jarray : Nat → List JsonTokenW → List JsonW →
    Option (Bool × List JsonTokenW × List JsonW)
  | 0, _, _ => none
  | fuel + 1, tokens, jarray =>
    match tokens with
    | front :: _ :: _ =>
      if front.type_ != TokType.LeftSquareBracket then some (false, tokens, jarray)
      else jarrayLoop fuel tokens.tail jarray
    | _ => some (false, tokens, jarray)

/-- The loop `while (!tokens.empty())` of `JsonW::jarray`. -/
def jarrayLoop : Nat → List JsonTokenW → List JsonW →
    Option (Bool × List JsonTokenW × List JsonW)
  | 0, _, _ => none
  | _ + 1, [], jarray => some (false, [], jarray)
  | fuel + 1, front :: rest, jarray =>
    match front.type_ with
    | TokType.RightSquareBracket => some (true, rest, jarray)
    | TokType.LeftCurlyBracket | TokType.LeftSquareBracket | TokType.NumberInteger
    | TokType.NumberFloat | TokType.Boolean | TokType.Null =>
      match JsonW.parse fuel JsonW.raw (front :: rest) with
      | none => none
      | some (junit, tokens) =>
        if junit.valid_ == false then some (false, tokens, jarray)
        else
          let jarray := jarray ++ [junit]
          match tokens with
          | t :: tokens' =>
            if t.type_ == TokType.Comma then jarrayLoop fuel tokens' jarray
            else if t.type_ == TokType.RightSquareBracket then some (true, tokens', jarray)
            else some (false, t :: tokens', jarray)
          | [] => some (false, [], jarray)
    | _ => some (false, front :: rest, jarray)

end

/-- The private function `JsonW::init(ins)`, as run by the constructors that take a
text: scan into a fresh queue, then `parse` the queue (which is the cleared queue
when the scan failed).  The fuel covers every token three times over. -/
def JsonW.init (env : FloatEnv) (ins : List Nat) : Option JsonW :=
  match JsonTokenW.parse env ins with
  | none => none
  | some (_, tokens) =>
    (JsonW.parse (3 * tokens.length + 3) JsonW.raw tokens).map Prod.fst


/-! ### Accessors and the explicit container operations -/

/-- The accessor `valid()`. -/
def JsonW.valid (j : JsonW) : Bool := j.valid_

/-- The accessor `type()`. -/
def JsonW.type (j : JsonW) : Nat := j.type_

/-- The accessor `integer()`. -/
def JsonW.integer (j : JsonW) : Int := j.integer_

/-- The accessor `frac()`. -/
def JsonW.frac (j : JsonW) : LongDouble := j.frac_

/-- The accessor `wstr()`. -/
def JsonW.wstr (j : JsonW) : List Nat := j.wstring_

/-- The accessor `boolean()`. -/
def JsonW.boolean (j : JsonW) : Bool := j.boolean_

/-- The member function `wkeys(keys)` on an empty vector: the keys of `jobject_` in
iteration order. -/
def JsonW.wkeys (j : JsonW) : List (List Nat) := j.jobject_.map Prod.fst

/-- The member function `find(wkey)`: `none` is the `NULL` returned for a missing key;
`some none` is a `NULL` pointer stored under the key. -/
def JsonW.find (j : JsonW) (wkey : List Nat) : Option (Option JsonW) :=
  MapW.find j.jobject_ wkey

/-- The member function `size()`. -/
def JsonW.size (j : JsonW) : Nat := j.jarray_.length

/-- The member function `at(idx)`: `none` is `NULL`. -/
def JsonW.at (j : JsonW) (idx : Nat) : Option JsonW :=
  if idx ≥ j.jarray_.length then none else j.jarray_.get? idx

/-- The member function `add(junit)`; it always returns `true`, the result is the node
afterwards. -/
def JsonW.add : JsonW → Option JsonW → JsonW
  | JsonW.mk type_ _ integer_ frac_ wstring_ boolean_ jobject_ jarray_, junit =>
    let jobject_ := if type_ != JsonW.ARRAY then [] else jobject_
    let jarray_ := if type_ != JsonW.ARRAY then [] else jarray_
    JsonW.mk JsonW.ARRAY true integer_ frac_ wstring_ boolean_ jobject_
      (jarray_ ++ [junit.getD JsonW.new])

/-- The assignment `operator=(const std::wstring& value)`. -/
def JsonW.assignWString : JsonW → List Nat → JsonW
  | JsonW.mk _ _ integer_ frac_ _ boolean_ _ _, value =>
    JsonW.mk JsonW.STRING true integer_ frac_ value boolean_ [] []

/-! ### The serializer -/

/-- Decimal digits of a natural number, most significant first, in front of `acc`. -/
def natDigits : Nat → Nat → List Nat → List Nat
  | 0, _, acc => acc
  | fuel + 1, n, acc =>
    if n < 10 then (48 + n) :: acc else natDigits fuel (n / 10) ((48 + n % 10) :: acc)

/-- The call `std::to_wstring(int_fast64_t)`: the standard decimal form. -/
def to_wstring (i : Int) : List Nat :=
  if i < 0 then 45 :: natDigits (i.natAbs + 1) i.natAbs [] else natDigits (i.natAbs + 1) i.natAbs []

/-- The `switch (wchar)` of `wss_json_string`: what one character is written as. -/
def wss_json_char (wchar : Nat) : List Nat :=
  if wchar == 0x22 then [92, 34]
  else if wchar == 0x5C then [92, 92]
  else if wchar == 0x2F then [92, 47]
  else if wchar == 0x08 then [92, 98]
  else if wchar == 0x0C then [92, 102]
  else if wchar == 0x0A then [92, 110]
  else if wchar == 0x0D then [92, 114]
  else if wchar == 0x09 then [92, 116]
  else [wchar]

/-- The `for` loop of `wss_json_string` over the characters of `wstr`. -/
def wss_json_chars : List Nat → List Nat
  | [] => []
  | wchar :: rest => wss_json_char wchar ++ wss_json_chars rest

/-- The function `JsonW::wss_json_string`: an opening quote, each character of `wstr`
as `wss_json_char` writes it, a closing quote. -/
def wss_json_string (wstr : List Nat) : List Nat :=
  [34] ++ wss_json_chars wstr ++ [34]

mutual

/-- The function `JsonW::wss_junit`: the characters written for `junit`; `none` when a
`NULL` child pointer is dereferenced. -/
def wss_junit (env : FloatEnv) : JsonW → Option (List Nat)
  | JsonW.mk type_ valid_ integer_ frac_ wstring_ boolean_ jobject_ jarray_ =>
    if valid_ == false then some []
    else if type_ == JsonW.INTEGER then some (to_wstring integer_)
    else if type_ == JsonW.FLOAT then some (env.to_wstring frac_)
    else if type_ == JsonW.BOOLEAN then
      some (if boolean_ then [116, 114, 117, 101] else [102, 97, 108, 115, 101])
    else if type_ == JsonW.NULLVALUE then some [110, 117, 108, 108]
    else if type_ == JsonW.STRING then some (wss_json_string wstring_)
    else if type_ == JsonW.OBJECT then
      match wss_pairs env jobject_ with
      | none => none
      | some body => some ([123] ++ body ++ [125])
    else if type_ == JsonW.ARRAY then
      match wss_items env jarray_ with
      | none => none
      | some body => some ([91] ++ body ++ [93])
    else some []

/-- The `for` loop of the `OBJECT` case: each key in the order of `wkeys`, a colon,
the child, and a comma after every pair but the last.  The source looks the child up
with `find(wkeys.at(i))`; the keys of a `std::map` are unique, so that is the child
stored with the `i`-th key, and the loop runs over the entries. -/
def wss_pairs (env : FloatEnv) : List (List Nat × Option JsonW) → Option (List Nat)
  | [] => some []
  | (_, none) :: _ => none
  | (key, some child) :: rest =>
    match wss_junit env child, wss_pairs env rest with
    | some a, some b =>
      some (wss_json_string key ++ [58] ++ a ++ (if rest.isEmpty then [] else [44]) ++ b)
    | _, _ => none

/-- The `for` loop of the `ARRAY` case: each element in storage order, and a comma
after every element but the last. -/
def wss_items (env : FloatEnv) : List JsonW → Option (List Nat)
  | [] => some []
  | child :: rest =>
    match wss_junit env child, wss_items env rest with
    | some a, some b => some (a ++ (if rest.isEmpty then [] else [44]) ++ b)
    | _, _ => none

end

/-- The member function `wtext()`. -/
def JsonW.wtext (env : FloatEnv) (j : JsonW) : Option (List Nat) := wss_junit env j


/-! ## JSON documents as token trees

The claims speak about JSON texts.  A `Syn` is the shape of one JSON value at the level
of tokens: a scalar token, an array of values, or an object of key/value members in the
order in which the text lists them (keys may repeat here, and may be empty).  `Syn.toks` is its token
sequence with the standard separators, and `textOf` is the text that writes each token the
way the serializer does, with nothing between tokens. -/

/-- Whether a token is one of the five scalar tokens. -/
def isScalarTok (t : JsonTokenW) : Bool :=
  t.type_ == TokType.NumberInteger || t.type_ == TokType.NumberFloat ||
  t.type_ == TokType.String || t.type_ == TokType.Boolean || t.type_ == TokType.Null

/-- The shape of a JSON value. -/
inductive Syn where
  | scalar (t : JsonTokenW) (h : isScalarTok t = true)
  | arr (items : List Syn)
  | obj (members : List (List Nat × Syn))

/-- A token of the given type with every payload member at its initial value. -/
def tok (type_ : TokType) : JsonTokenW := { type_ := type_ }

/-- The Integer token the scanner builds for the value `i`. -/
def intTok (i : Int) : JsonTokenW := { type_ := TokType.NumberInteger, integer_ := i }

/-- The String token the scanner builds for the payload `w`. -/
def strTok (w : List Nat) : JsonTokenW := { type_ := TokType.String, wstring_ := w }

/-- The Boolean token the scanner builds for `b`. -/
def boolTok (b : Bool) : JsonTokenW := { type_ := TokType.Boolean, boolean_ := b }

/-- The NumberFloat token the scanner builds for a literal without exponent. -/
def floatTok (x : LongDouble) : JsonTokenW := { type_ := TokType.NumberFloat, frac_ := x }

mutual

/-- The token sequence of a value. -/
def Syn.toks : Syn → List JsonTokenW
  | Syn.scalar t _ => [t]
  | Syn.arr items =>
    tok TokType.LeftSquareBracket :: (toksItems items ++ [tok TokType.RightSquareBracket])
  | Syn.obj members =>
    tok TokType.LeftCurlyBracket :: (toksMembers members ++ [tok TokType.RightCurlyBracket])

/-- The token sequence of array elements, a comma between two of them. -/
def toksItems : List Syn → List JsonTokenW
  | [] => []
  | e :: es => e.toks ++ ((if es.isEmpty then [] else [tok TokType.Comma]) ++ toksItems es)

/-- The token sequence of object members, a comma between two of them. -/
def toksMembers : List (List Nat × Syn) → List JsonTokenW
  | [] => []
  | (k, v) :: ms =>
    strTok k :: tok TokType.Colon ::
      (v.toks ++ ((if ms.isEmpty then [] else [tok TokType.Comma]) ++ toksMembers ms))

end

/-- Whether the value is a string literal. -/
def Syn.isString : Syn → Bool
  | Syn.scalar t _ => t.type_ == TokType.String
  | _ => false

mutual

/-- The values the parser accepts: scalars; arrays of accepted values none of
which is a string literal; objects of accepted values under non-empty, pairwise
different keys. -/
def Syn.accepted : Syn → Bool
  | Syn.scalar _ _ => true
  | Syn.arr items => acceptedItems items
  | Syn.obj members => acceptedMembers [] members

/-- Acceptance of array elements. -/
def acceptedItems : List Syn → Bool
  | [] => true
  | e :: es => e.accepted && !e.isString && acceptedItems es

/-- Acceptance of object members, given the keys already seen in this object. -/
def acceptedMembers : List (List Nat) → List (List Nat × Syn) → Bool
  | _, [] => true
  | seen, (k, v) :: ms =>
    !k.isEmpty && !seen.contains k && v.accepted && acceptedMembers (k :: seen) ms

end

mutual

/-- Whether some object inside the value lists the same key twice. -/
def Syn.hasDuplicateKey : Syn → Bool
  | Syn.scalar _ _ => false
  | Syn.arr items => duplicateInItems items
  | Syn.obj members => duplicateInMembers [] members

/-- Whether some element holds an object that lists the same key twice. -/
def duplicateInItems : List Syn → Bool
  | [] => false
  | e :: es => e.hasDuplicateKey || duplicateInItems es

/-- Whether a member repeats a key seen before in this object, or its value holds an
object that lists the same key twice. -/
def duplicateInMembers : List (List Nat) → List (List Nat × Syn) → Bool
  | _, [] => false
  | seen, (k, v) :: ms =>
    seen.contains k || v.hasDuplicateKey || duplicateInMembers (k :: seen) ms

end

/-- The leaf node `JsonW::parse` builds from one scalar token, starting from the member
initialisers. -/
def leafOf (t : JsonTokenW) : JsonW :=
  match t.type_ with
  | TokType.NumberInteger => JsonW.mk JsonW.INTEGER true t.integer_ LongDouble.zero [] true [] []
  | TokType.NumberFloat => JsonW.mk JsonW.FLOAT true 0 t.frac_ [] true [] []
  | TokType.String => JsonW.mk JsonW.STRING true 0 LongDouble.zero t.wstring_ true [] []
  | TokType.Boolean => JsonW.mk JsonW.BOOLEAN true 0 LongDouble.zero [] t.boolean_ [] []
  | TokType.Null => JsonW.mk JsonW.NULLVALUE true 0 LongDouble.zero [] true [] []
  | _ => JsonW.mk JsonW.BAD false 0 LongDouble.zero [] true [] []

mutual

/-- The tree denoted by an accepted value: what the parser builds from its tokens. -/
def Syn.build : Syn → JsonW
  | Syn.scalar t _ => leafOf t
  | Syn.arr items =>
    JsonW.mk JsonW.ARRAY true 0 LongDouble.zero [] true [] (buildItems items)
  | Syn.obj members =>
    JsonW.mk JsonW.OBJECT true 0 LongDouble.zero [] true (buildMembers [] members) []

/-- The elements built in order. -/
def buildItems : List Syn → List JsonW
  | [] => []
  | e :: es => e.build :: buildItems es

/-- The members stored one after the other into the map. -/
def buildMembers : List (List Nat × Option JsonW) → List (List Nat × Syn) →
    List (List Nat × Option JsonW)
  | m, [] => m
  | m, (k, v) :: ms => buildMembers (MapW.set m k (some v.build)) ms

end

/-- The characters the serializer writes for one token. -/
def lexeme (env : FloatEnv) (t : JsonTokenW) : List Nat :=
  match t.type_ with
  | TokType.NumberInteger => to_wstring t.integer_
  | TokType.NumberFloat => env.to_wstring t.frac_
  | TokType.String => wss_json_string t.wstring_
  | TokType.LeftCurlyBracket => [123]
  | TokType.RightCurlyBracket => [125]
  | TokType.LeftSquareBracket => [91]
  | TokType.RightSquareBracket => [93]
  | TokType.Colon => [58]
  | TokType.Comma => [44]
  | TokType.Boolean => if t.boolean_ then [116, 114, 117, 101] else [102, 97, 108, 115, 101]
  | TokType.Null => [110, 117, 108, 108]
  | TokType.Bad => []

/-- The text of a token sequence: the lexemes one after the other. -/
def textOf (env : FloatEnv) : List JsonTokenW → List Nat
  | [] => []
  | t :: ts => lexeme env t ++ textOf env ts

/-- The canonical text of a value. -/
def Syn.text (env : FloatEnv) (s : Syn) : List Nat := textOf env s.toks

/-- A floating-point literal without exponent, `-?(0|[1-9][0-9]*)\.[0-9]+`: an optional
minus sign, the integer part (a single zero, or digits that do not start with zero), a
point and at least one digit. -/
def floatLiteral (s : List Nat) : Bool :=
  let a := if s.head? == some 45 then s.tail else s
  let ip := a.takeWhile iswdigit
  let r := a.dropWhile iswdigit
  (ip == [48] || (!ip.isEmpty && ip.head? != some 48)) && r.head? == some 46 &&
    !r.tail.isEmpty && r.tail.all iswdigit

/-- The float tokens whose lexeme scans back to the token: the value is `std::stold` of
a floating-point literal without exponent that `std::stold` accepts, and
`std::to_wstring` prints that literal for the value (the literal is in the serializer's
form, as `0.500000` is). -/
def canonicalFloat (env : FloatEnv) (t : JsonTokenW) : Bool :=
  match t.frac_ with
  | LongDouble.stold s =>
    t == floatTok (LongDouble.stold s) && floatLiteral s && !env.stoldThrows s &&
      env.to_wstring (LongDouble.stold s) == s
  | _ => false

/-- The scalar tokens whose lexeme scans back to the token: an Integer token in the
64-bit range, a Float token in the serializer's form, a String, Boolean or Null token,
each with its other payload members at their initial values. -/
def canonicalTok (env : FloatEnv) (t : JsonTokenW) : Bool :=
  (t == intTok t.integer_ && decide (-9223372036854775808 ≤ t.integer_) &&
      decide (t.integer_ ≤ 9223372036854775807)) ||
  canonicalFloat env t ||
  t == strTok t.wstring_ || t == boolTok t.boolean_ || t == tok TokType.Null

/-- Keys in strictly ascending order of their code units. -/
def ascending : List (List Nat) → Bool
  | [] => true
  | [_] => true
  | k :: k' :: ks => decide (k < k') && ascending (k' :: ks)

mutual

/-- The values whose canonical text is what the serializer writes for them: canonical
scalar tokens, no string literal as an array element, object keys non-empty and
strictly ascending. -/
def Syn.canonical (env : FloatEnv) : Syn → Bool
  | Syn.scalar t _ => canonicalTok env t
  | Syn.arr items => canonicalItems env items
  | Syn.obj members => ascending (members.map Prod.fst) && canonicalMembers env members

/-- Canonical array elements. -/
def canonicalItems (env : FloatEnv) : List Syn → Bool
  | [] => true
  | e :: es => e.canonical env && !e.isString && canonicalItems env es

/-- Canonical object members. -/
def canonicalMembers (env : FloatEnv) : List (List Nat × Syn) → Bool
  | [] => true
  | (k, v) :: ms => !k.isEmpty && v.canonical env && canonicalMembers env ms

end

/-! ## Input classes used to state the claims -/

/-- Whether the text that follows lets a number end where it stands: nothing, or a
character that is neither a digit nor `.`, `e` or `E`. -/
def endsNumber : List Nat → Bool
  | [] => true
  | c :: _ => !(iswdigit c || c == 46 || c == 101 || c == 69)

/-- Whether a token is one of the six punctuation tokens as the scanner builds them. -/
def isPunctTok (t : JsonTokenW) : Bool :=
  t == tok TokType.LeftCurlyBracket || t == tok TokType.RightCurlyBracket ||
  t == tok TokType.LeftSquareBracket || t == tok TokType.RightSquareBracket ||
  t == tok TokType.Colon || t == tok TokType.Comma

/-- A token sequence whose text, followed by `tail`, scans back to it: every token is
canonical or punctuation, and the text after a number token lets the number end. -/
def scannable (env : FloatEnv) : List JsonTokenW → List Nat → Bool
  | [], _ => true
  | t :: ts, tail =>
    (canonicalTok env t || isPunctTok t) &&
    ((t.type_ != TokType.NumberInteger && t.type_ != TokType.NumberFloat) ||
      endsNumber (textOf env ts ++ tail)) &&
    scannable env ts tail

/-- Whether the body of a string literal (the text after the opening quote) reaches the
end of input without a closing quote.  A quote closes the literal unless it directly
follows the backslash of an escape; a backslash that follows such a backslash is itself
escaped and starts no escape.  The argument says whether the previous character was the
backslash of an escape. -/
def noClosingQuote : Bool → List Nat → Bool
  | _, [] => true
  | true, _ :: rest => noClosingQuote false rest
  | false, c :: rest =>
    if c == 92 then noClosingQuote true rest
    else if c == 34 then false
    else noClosingQuote false rest

/-- Whether every `\u` in the body of a string literal, up to the first unescaped quote,
carriage return or line feed, is followed by four hexadecimal digits. -/
def unicodeEscapesOk : Bool → List Nat → Bool
  | _, [] => true
  | true, c :: rest =>
    if c == 117 then
      match rest with
      | h1 :: h2 :: h3 :: h4 :: rest4 =>
        (hexDigit h1).isSome && (hexDigit h2).isSome && (hexDigit h3).isSome &&
          (hexDigit h4).isSome && unicodeEscapesOk false rest4
      | _ => false
    else unicodeEscapesOk false rest
  | false, c :: rest =>
    if c == 92 then unicodeEscapesOk true rest
    else if c == 13 || c == 10 || c == 34 then true
    else unicodeEscapesOk false rest

/-- The element of an integer array text: the value `i` as the parser stores it. -/
def integerNode (i : Int) : JsonW :=
  JsonW.mk JsonW.INTEGER true i LongDouble.zero [] true [] []

/-- The texts of the elements with a comma between two of them. -/
def commaSeparated : List (List Nat) → List Nat
  | [] => []
  | x :: xs => x ++ ((if xs.isEmpty then [] else [44]) ++ commaSeparated xs)

/-- The text `[i1,i2,...,in]`: the integers in decimal, comma-separated, in brackets. -/
def integerArrayText (l : List Int) : List Nat :=
  [91] ++ commaSeparated (l.map to_wstring) ++ [93]

/-- The value whose text is `[i1,i2,...,in]`. -/
def integerArray (l : List Int) : Syn :=
  Syn.arr (l.map (fun i => Syn.scalar (intTok i) rfl))

/-! ## Operations that change a node

A member function that changes its object is a function from the node before the call to
the node after it.  An operator that returns a `JsonW&` returns, with the node
afterwards, a `Ref` that says which object the reference designates; a write through
the reference is `JsonW.write`. -/

/-- The private function `clean()`: both containers are emptied (their nodes deleted). -/
def JsonW.clean : JsonW → JsonW
  | JsonW.mk type_ valid_ integer_ frac_ wstring_ boolean_ _ _ =>
    JsonW.mk type_ valid_ integer_ frac_ wstring_ boolean_ [] []

/-- The assignment `operator=(long long value)`; the overloads for `short`, `int` and
`long` have the same body and widen `value` to `int_fast64_t`. -/
def JsonW.assignInteger : JsonW → Int → JsonW
  | JsonW.mk _ _ _ frac_ wstring_ boolean_ _ _, value =>
    JsonW.mk JsonW.INTEGER true value frac_ wstring_ boolean_ [] []

/-- The assignment `operator=(long double value)`; the overloads for `double` and
`float` have the same body and widen `value`. -/
def JsonW.assignFloat : JsonW → LongDouble → JsonW
  | JsonW.mk _ _ integer_ _ wstring_ boolean_ _ _, value =>
    JsonW.mk JsonW.FLOAT true integer_ value wstring_ boolean_ [] []

/-- The assignment `operator=(bool boolean)`. -/
def JsonW.assignBool : JsonW → Bool → JsonW
  | JsonW.mk _ _ integer_ frac_ wstring_ _ _ _, boolean =>
    JsonW.mk JsonW.BOOLEAN true integer_ frac_ wstring_ boolean [] []

/-- The member function `set(wkey, jvalue)`: the returned flag and the node afterwards.
An existing child under `wkey` is deleted and its slot overwritten. -/
def JsonW.set : JsonW → List Nat → Option JsonW → Bool × JsonW
  | JsonW.mk type_ valid_ integer_ frac_ wstring_ boolean_ jobject_ jarray_, wkey, jvalue =>
    if wkey.length == 0 then
      (false, JsonW.mk type_ valid_ integer_ frac_ wstring_ boolean_ jobject_ jarray_)
    else
      let jobject_ := if type_ != JsonW.OBJECT then [] else jobject_
      let jarray_ := if type_ != JsonW.OBJECT then [] else jarray_
      (true, JsonW.mk JsonW.OBJECT valid_ integer_ frac_ wstring_ boolean_
        (MapW.set jobject_ wkey jvalue) jarray_)

/-- What a returned `JsonW&` designates: the static instance of `bad()`, the element
`*(at(index))` of the node, or the child `*(jobject_.find(wname)->second)` of the node. -/
inductive Ref where
  | bad
  | element (index : Nat)
  | member (wname : List Nat)
  deriving DecidableEq, Repr

/-- The static function `bad()`: the function-local static `instance` after the call,
which is also the object the returned reference designates.  The argument is the
instance as earlier calls and writes through earlier references left it. -/
def JsonW.bad : JsonW → JsonW
  | JsonW.mk _ _ integer_ frac_ wstring_ boolean_ jobject_ jarray_ =>
    JsonW.mk JsonW.BAD false integer_ frac_ wstring_ boolean_ jobject_ jarray_

/-- The loop `for (size_t i = size(); i <= index; i++) add(NULL);` given the number of
iterations that are left. -/
def JsonW.addNulls : Nat → JsonW → JsonW
  | 0, n => n
  | left + 1, n => JsonW.addNulls left (n.add none)

/-- The operator `operator[](size_t index)`: the node afterwards and the returned
reference.  The loop starts at `i = size()` and runs while `i <= index`, that is
`index + 1 - size()` times for every index below the largest `size_t`. -/
def JsonW.subscript (n : JsonW) (index : Nat) : JsonW × Ref :=
  let n :=
    if n.type_ != JsonW.ARRAY then
      match n.clean with
      | JsonW.mk _ _ integer_ frac_ wstring_ boolean_ jobject_ jarray_ =>
        JsonW.mk JsonW.ARRAY true integer_ frac_ wstring_ boolean_ jobject_ jarray_
    else n
  let n := if index ≥ n.size then JsonW.addNulls (index + 1 - n.size) n else n
  (n, Ref.element index)

/-- The operator `operator[](int index)`: a negative index returns `bad()` before
anything is touched; otherwise the body is that of the `size_t` overload. -/
def JsonW.subscriptInt (n : JsonW) (index : Int) : JsonW × Ref :=
  if index < 0 then (n, Ref.bad) else n.subscript index.toNat

/-- The operator `operator[](const std::wstring& wname)`: the node afterwards and the
returned reference.  `insert` is only reached for a key that is not in the map, where
it places the pair at the key's position, as `MapW.set` does. -/
def JsonW.subscriptKey : JsonW → List Nat → JsonW × Ref
  | JsonW.mk type_ valid_ integer_ frac_ wstring_ boolean_ jobject_ jarray_, wname =>
    if wname.length == 0 then
      (JsonW.mk type_ valid_ integer_ frac_ wstring_ boolean_ jobject_ jarray_, Ref.bad)
    else
      let valid_ := if type_ != JsonW.OBJECT then true else valid_
      let jobject_ := if type_ != JsonW.OBJECT then [] else jobject_
      let jarray_ := if type_ != JsonW.OBJECT then [] else jarray_
      let jobject_ :=
        if (MapW.find jobject_ wname).isNone then MapW.set jobject_ wname (some JsonW.new)
        else jobject_
      (JsonW.mk JsonW.OBJECT valid_ integer_ frac_ wstring_ boolean_ jobject_ jarray_,
        Ref.member wname)

/-- The element of a vector at `index` replaced by `f` of it. -/
def updateAt {α : Type} (f : α → α) : Nat → List α → List α
  | _, [] => []
  | 0, x :: xs => f x :: xs
  | index + 1, x :: xs => x :: updateAt f index xs

/-- The child stored under `wname` replaced by `f` of it (a `NULL` slot stays). -/
def MapW.update {α : Type} (f : α → α) (wname : List Nat) :
    List (List Nat × Option α) → List (List Nat × Option α)
  | [] => []
  | (k, v) :: rest =>
    if k == wname then (k, v.map f) :: rest else (k, v) :: MapW.update f wname rest

/-- A write through a reference obtained from the node: the member function `f` runs on
the designated child, the node afterwards.  A write through the reference of `bad()`
does not touch the node. -/
def JsonW.write : JsonW → Ref → (JsonW → JsonW) → JsonW
  | n, Ref.bad, _ => n
  | JsonW.mk type_ valid_ integer_ frac_ wstring_ boolean_ jobject_ jarray_, Ref.element index, f =>
    JsonW.mk type_ valid_ integer_ frac_ wstring_ boolean_ jobject_ (updateAt f index jarray_)
  | JsonW.mk type_ valid_ integer_ frac_ wstring_ boolean_ jobject_ jarray_, Ref.member wname, f =>
    JsonW.mk type_ valid_ integer_ frac_ wstring_ boolean_ (MapW.update f wname jobject_) jarray_

/-- The statement `n[index] = boolean;` with an `int` index. -/
def JsonW.putBool (n : JsonW) (index : Int) (boolean : Bool) : JsonW :=
  let r := n.subscriptInt index
  r.1.write r.2 (fun e => e.assignBool boolean)

/-- A call `n.find(wkey)` as a step of the program: the returned pointer and the node
after the call.  `find` is a `const` member function whose body only reads `jobject_`. -/
def JsonW.findStep (n : JsonW) (wkey : List Nat) : Option (Option JsonW) × JsonW :=
  (n.find wkey, n)

/-- What a reference designates, read: the static instance for the reference of
`bad()`, otherwise the child of the node; `none` where there is no object (an index
past the end, a key that is not in the map, a stored `NULL`). -/
def JsonW.read (instance_ n : JsonW) : Ref → Option JsonW
  | Ref.bad => some instance_
  | Ref.element index => n.at index
  | Ref.member wname => (n.find wname).join

/-! ## The rendering of strings as the specification words it -/

/-- The escape table in the words of the specification: the eight characters that are
escaped, each with the letter that follows the backslash in its two-character form. -/
def escapeTable : List (Nat × Nat) :=
  [(0x22, 34), (0x5C, 92), (0x2F, 47), (0x08, 98), (0x0C, 102), (0x0A, 110), (0x0D, 114),
    (0x09, 116)]

/-- The rendering of one character in the words of the specification: a character of
the table becomes a backslash and its letter, every other character itself. -/
def escSpec (c : Nat) : List Nat :=
  match escapeTable.lookup c with
  | some letter => [92, letter]
  | none => [c]

/-- The rendering of a string in the words of the specification: a quote, the
renderings of the characters one after the other, a quote. -/
def renderSpec (s : List Nat) : List Nat := [34] ++ s.flatMap escSpec ++ [34]

/-! ## Objects in memory

The operations that hand over or copy objects are about which object a pointer designates.
For them a `JsonW` object is a `Cell` of a memory: its data members, with each child held
by address.  An address is a position in the memory, `new` places an object at the first
unused address, `delete` leaves `none` at the address, and a stored `NULL` is `none`. -/

/-- The data members of a `JsonW` object; `jobject_` and `jarray_` hold addresses. -/
structure Cell where
  type_ : Nat
  valid_ : Bool
  integer_ : Int
  frac_ : LongDouble
  wstring_ : List Nat
  boolean_ : Bool
  jobject_ : List (List Nat × Option Nat)
  jarray_ : List Nat
  deriving DecidableEq, Repr

/-- The memory: the object at address `a` is the entry at position `a`, which is `none`
once the object has been deleted. -/
abbrev Mem := List (Option Cell)

/-- The member initialisers, as in `JsonW.raw`. -/
def Cell.raw : Cell :=
  { type_ := JsonW.NULLVALUE, valid_ := false, integer_ := 0, frac_ := LongDouble.zero,
    wstring_ := [], boolean_ := true, jobject_ := [], jarray_ := [] }

/-- The default constructor `JsonW()`, as in `JsonW.new`. -/
def Cell.new : Cell := { Cell.raw with valid_ := true }

/-- The addresses an object holds, in the order in which `clean()` deletes them: the
non-null pointers of `jobject_`, then those of `jarray_`. -/
def Cell.children (cell : Cell) : List Nat :=
  cell.jobject_.filterMap Prod.snd ++ cell.jarray_

/-- The live object at an address: `none` outside the memory and for a deleted
object. -/
def Mem.obj (mem : Mem) (a : Nat) : Option Cell :=
  match mem[a]? with
  | some (some cell) => some cell
  | _ => none

/-- All of a list of optional results, or `none` if one is missing. -/
def collect {α : Type} : List (Option α) → Option (List α)
  | [] => some []
  | none :: _ => none
  | some x :: rest => (collect rest).map (fun xs => x :: xs)

/-- One entry of an object map read as a value: the key with the tree of the child (as
given by `tree`), or with `NULL`. -/
def treeEntry (tree : Nat → Option JsonW) (e : List Nat × Option Nat) :
    Option (List Nat × Option JsonW) :=
  match e.2 with
  | none => some (e.1, none)
  | some child => (tree child).map (fun v => (e.1, some v))

/-- The tree of values that the object at address `a` and the objects it owns make up;
`none` when an address holds no live object or the depth exceeds the fuel. -/
def Mem.tree : Nat → Mem → Nat → Option JsonW
  | 0, _, _ => none
  | fuel + 1, mem, a =>
    match Mem.obj mem a with
    | none => none
    | some cell =>
      match collect (cell.jobject_.map (treeEntry (Mem.tree fuel mem))),
        collect (cell.jarray_.map (Mem.tree fuel mem)) with
      | some jobject_, some jarray_ =>
        some (JsonW.mk cell.type_ cell.valid_ cell.integer_ cell.frac_ cell.wstring_
          cell.boolean_ jobject_ jarray_)
      | _, _ => none

/-- The addresses of the object at `a` and of the objects it owns, to the depth of the
fuel. -/
def Mem.addrs : Nat → Mem → Nat → List Nat
  | 0, _, _ => []
  | fuel + 1, mem, a =>
    match Mem.obj mem a with
    | none => [a]
    | some cell => a :: cell.children.flatMap (Mem.addrs fuel mem)

/-- The expression `delete p`: the destructor runs `clean()`, which deletes the objects
that the object at `p` holds, and the object is gone.  Nothing happens at an address
without a live object. -/
def Mem.delete : Nat → Mem → Nat → Mem
  | 0, mem, _ => mem
  | fuel + 1, mem, p =>
    match Mem.obj mem p with
    | none => mem
    | some cell => (cell.children.foldl (Mem.delete fuel) mem).set p none

/-- The private function `clean()` on the object at `this`: every object it holds is
deleted and both containers are emptied. -/
def Mem.clean (fuel : Nat) (mem : Mem) (this : Nat) : Mem :=
  match Mem.obj mem this with
  | none => mem
  | some cell =>
    (cell.children.foldl (Mem.delete fuel) mem).set this
      (some { cell with jobject_ := [], jarray_ := [] })

/-- The loop `for (const auto& it : rhs.jobject_)` of `copy`: each child is copied to a
new object by `clone` (the expression `new JsonW(*(it.second))`), and the new address is
stored under the name in `this`.  `none` when a stored `NULL` is dereferenced. -/
def Mem.copyPairs (clone : Mem → Nat → Option (Mem × Nat)) (this : Nat) :
    List (List Nat × Option Nat) → Mem → Option Mem
  | [], mem => some mem
  | (_, none) :: _, _ => none
  | (name, some child) :: rest, mem =>
    match clone mem child with
    | none => none
    | some (mem, jvalue) =>
      match Mem.obj mem this with
      | none => none
      | some cell =>
        Mem.copyPairs clone this rest
          (mem.set this
            (some { cell with jobject_ := MapW.set cell.jobject_ name (some jvalue) }))

/-- The loop `for (const auto& it : rhs.jarray_)` of `copy`. -/
def Mem.copyItems (clone : Mem → Nat → Option (Mem × Nat)) (this : Nat) :
    List Nat → Mem → Option Mem
  | [], mem => some mem
  | child :: rest, mem =>
    match clone mem child with
    | none => none
    | some (mem, jvalue) =>
      match Mem.obj mem this with
      | none => none
      | some cell =>
        Mem.copyItems clone this rest
          (mem.set this (some { cell with jarray_ := cell.jarray_ ++ [jvalue] }))

/-- The part of `copy(rhs)` after `clean()`: the six assignments and the two loops. -/
def Mem.copyAssign (clone : Mem → Nat → Option (Mem × Nat)) (mem : Mem) (this rhs : Nat) :
    Option Mem :=
  match Mem.obj mem rhs with
  | none => none
  | some r =>
    match Mem.copyPairs clone this r.jobject_
        (mem.set this (some { r with jobject_ := [], jarray_ := [] })) with
    | none => none
    | some mem => Mem.copyItems clone this r.jarray_ mem

/-- The body of `copy(rhs)` on the object at `this`: `clean()`, then the assignments and
the loops.  The members of `rhs` are read after `clean()`. -/
def Mem.copyBody (fuel : Nat) (clone : Mem → Nat → Option (Mem × Nat)) (mem : Mem)
    (this rhs : Nat) : Option Mem :=
  match Mem.obj mem this with
  | none => none
  | some _ => Mem.copyAssign clone (Mem.clean fuel mem this) this rhs

/-- The expression `new JsonW(*src)`: an object is placed at the first unused address
with the member initialisers, and the copy constructor runs `copy(src)` on it.  The
memory afterwards and the new address. -/
def Mem.newCopy : Nat → Mem → Nat → Option (Mem × Nat)
  | 0, _, _ => none
  | fuel + 1, mem, src =>
    (Mem.copyBody fuel (Mem.newCopy fuel) (mem ++ [some Cell.raw]) mem.length src).map
      (fun m => (m, mem.length))

/-- The member function `copy(rhs)`, and `operator=(const JsonW& junit)`, on the object
at `this`. -/
def Mem.copy (fuel : Nat) (mem : Mem) (this rhs : Nat) : Option Mem :=
  Mem.copyBody fuel (Mem.newCopy fuel) mem this rhs

/-- The member function `add(junit)` on the object at `this`: the memory afterwards and
the returned flag. -/
def Mem.add (fuel : Nat) (mem : Mem) (this : Nat) (junit : Option Nat) :
    Option (Mem × Bool) :=
  match Mem.obj mem this with
  | none => none
  | some cell =>
    let mem := if cell.type_ != JsonW.ARRAY then Mem.clean fuel mem this else mem
    match Mem.obj mem this with
    | none => none
    | some cell =>
      match junit with
      | none =>
        some ((mem.set this (some { cell with
            type_ := JsonW.ARRAY, valid_ := true,
            jarray_ := cell.jarray_ ++ [mem.length] })) ++ [some Cell.new], true)
      | some p =>
        some (mem.set this (some { cell with
            type_ := JsonW.ARRAY, valid_ := true, jarray_ := cell.jarray_ ++ [p] }), true)

/-- The member function `at(idx)` on the object at `this`: `none` is `NULL`. -/
def Mem.at (mem : Mem) (this idx : Nat) : Option Nat :=
  match Mem.obj mem this with
  | none => none
  | some cell => if idx ≥ cell.jarray_.length then none else cell.jarray_[idx]?

/-! ### Copies as values -/

mutual

/-- The member function `copy(rhs)` on values: the object afterwards.  Every member of
`this` is overwritten; the children are built by the copy constructor from the children
of `rhs` and stored with `jobject_[name] = jvalue` and `push_back`.  `none` when a
stored `NULL` is dereferenced. -/
def JsonW.copy : JsonW → JsonW → Option JsonW
  | _, JsonW.mk type_ valid_ integer_ frac_ wstring_ boolean_ jobject_ jarray_ =>
    match copyMembers jobject_ [], copyElements jarray_ [] with
    | some o, some a => some (JsonW.mk type_ valid_ integer_ frac_ wstring_ boolean_ o a)
    | _, _ => none

/-- The loop over `rhs.jobject_` of `copy`, with the map of `this` built so far. -/
def copyMembers : List (List Nat × Option JsonW) → List (List Nat × Option JsonW) →
    Option (List (List Nat × Option JsonW))
  | [], jobject_ => some jobject_
  | (_, none) :: _, _ => none
  | (name, some child) :: rest, jobject_ =>
    match JsonW.copy JsonW.raw child with
    | none => none
    | some jvalue => copyMembers rest (MapW.set jobject_ name (some jvalue))

/-- The loop over `rhs.jarray_` of `copy`, with the vector of `this` built so far. -/
def copyElements : List JsonW → List JsonW → Option (List JsonW)
  | [], jarray_ => some jarray_
  | child :: rest, jarray_ =>
    match JsonW.copy JsonW.raw child with
    | none => none
    | some jvalue => copyElements rest (jarray_ ++ [jvalue])

end

mutual

/-- A tree as the class builds it: in every object map the keys are strictly ascending
and no stored pointer is `NULL`. -/
def JsonW.wellFormed : JsonW → Bool
  | JsonW.mk _ _ _ _ _ _ jobject_ jarray_ =>
    ascending (jobject_.map Prod.fst) && wellFormedMembers jobject_ &&
      wellFormedElements jarray_

/-- The children of an object map are well formed and not `NULL`. -/
def wellFormedMembers : List (List Nat × Option JsonW) → Bool
  | [] => true
  | (_, none) :: _ => false
  | (_, some child) :: rest => child.wellFormed && wellFormedMembers rest

/-- The elements of a vector are well formed. -/
def wellFormedElements : List JsonW → Bool
  | [] => true
  | child :: rest => child.wellFormed && wellFormedElements rest

end

/-- The statement `A[k] = B;` on values: `operator[]` on `A`, then
`operator=(const JsonW&)`, which is `copy`, on the object the returned reference
designates.  The node `A` afterwards; `none` when a `NULL` is dereferenced. -/
def JsonW.putCopy (instance_ A : JsonW) (k : List Nat) (B : JsonW) : Option JsonW :=
  let r := A.subscriptKey k
  match JsonW.read (JsonW.bad instance_) r.1 r.2 with
  | none => none
  | some this =>
    match JsonW.copy this B with
    | none => none
    | some copied => some (r.1.write r.2 (fun _ => copied))

/-! ### Sample objects -/

/-- The tree `[1,2]`. -/
def sampleTree : JsonW :=
  JsonW.mk JsonW.ARRAY true 0 LongDouble.zero [] true [] [integerNode 1, integerNode 2]

/-- A memory with the object `{"x":null}` at address 0, its child at address 4, and the
tree `[1,2]` at addresses 1, 2 and 3. -/
def sampleMem : Mem :=
  [some { Cell.new with type_ := JsonW.OBJECT, jobject_ := [([120], some 4)] },
    some { Cell.new with type_ := JsonW.ARRAY, jarray_ := [2, 3] },
    some { Cell.new with type_ := JsonW.INTEGER, integer_ := 1 },
    some { Cell.new with type_ := JsonW.INTEGER, integer_ := 2 },
    some Cell.new]

/-! ## Inputs and outcomes as the scanner claims word them

None of these is code of the program: they name the texts the claims quantify over (an
integer literal and its value, a text with white space inserted between its tokens) and
the outcome the claims describe (how a string literal ends, where the value at the front
of a token queue ends), so that the theorems can compare them with what the scanner and
the parser do. -/

/-- An integer literal without fraction or exponent, `-?[1-9][0-9]*`: an optional minus
sign, a first digit `d` and further digits `ds`. -/
def integerLiteral (neg : Bool) (d : Nat) (ds : List Nat) : List Nat :=
  (if neg then [45] else []) ++ d :: ds

/-- The mathematical value of the literal `integerLiteral neg d ds`. -/
def literalValue (neg : Bool) (d : Nat) (ds : List Nat) : Int :=
  if neg then - (decValue 0 (d :: ds) : Int) else (decValue 0 (d :: ds) : Int)

/-- How the body of a string literal (the text after the opening quote) ends. -/
inductive StringEnd where
  /-- the closing quote was found; `rest` is the text after it -/
  | closed (rest : List Nat)
  /-- an unescaped carriage return or line feed comes first -/
  | lineBreak
  /-- the input ends first -/
  | endOfInput
  deriving DecidableEq, Repr

/-- Walks the body of a string literal to the first unescaped quote, carriage return or
line feed.  A character is escaped when it directly follows the backslash of an escape;
a backslash that follows such a backslash is itself escaped and starts no escape.  The
argument says whether the previous character was the backslash of an escape. -/
def stringEnd : Bool → List Nat → StringEnd
  | _, [] => StringEnd.endOfInput
  | true, _ :: rest => stringEnd false rest
  | false, c :: rest =>
    if c == 92 then stringEnd true rest
    else if c == 13 || c == 10 then StringEnd.lineBreak
    else if c == 34 then StringEnd.closed rest
    else stringEnd false rest

/-- What the claim on string termination asks of the token read and the stream left. -/
def StringEnd.holds (body : List Nat) (r : JsonTokenW × List Nat) : StringEnd → Prop
  | StringEnd.closed rest =>
    r.1.type_ = TokType.String ∧ r.2 = rest ∧ ∃ pre, body = pre ++ 34 :: rest
  | _ => r.1.type_ = TokType.Bad

/-- The text `r'` starts with the character `r` starts with (or both are empty), or it
starts with white space. -/
def startsLike (r r' : List Nat) : Prop :=
  r'.head? = r.head? ∨ ∃ c, r'.head? = some c ∧ isskippable c = true

/-- The text `t'` is the text `t` with white space inserted before the first token,
between two tokens or after the last token, the tokens being those the scanner reads
from `t`; existing white space stays. -/
inductive Spaced (env : FloatEnv) : List Nat → List Nat → Prop where
  /-- nothing is inserted once no token follows -/
  | done (t : List Nat) : findnext t = none → Spaced env t t
  /-- one white-space character is inserted where the scanner stands between tokens -/
  | insert (c : Nat) (t t' : List Nat) : isskippable c = true → Spaced env t t' →
      Spaced env t (c :: t')
  /-- white space of `t` between tokens is kept -/
  | keep (c : Nat) (t t' : List Nat) : isskippable c = true → Spaced env t t' →
      Spaced env (c :: t) (c :: t')
  /-- the text `p` of a token is kept as it is -/
  | token (p r r' : List Nat) (tok : JsonTokenW) : findnext (p ++ r) = some (p ++ r) →
      JsonTokenW.scan env (p ++ r) = (tok, r) → tok.type_ ≠ TokType.Bad →
      Spaced env r r' → Spaced env (p ++ r) (p ++ r')

/-! ### The value at the front of a token queue -/

/-- Reads on inside brackets that are still open, `stack` listing the closers that are
owed, innermost first: the tokens left after the last of them has been matched, `none`
when a closer does not match or the tokens run out. -/
def closeBrackets : List TokType → List JsonTokenW → Option (List JsonTokenW)
  | [], ts => some ts
  | _ :: _, [] => none
  | e :: stack, t :: ts =>
    if t.type_ == TokType.LeftCurlyBracket then
      closeBrackets (TokType.RightCurlyBracket :: e :: stack) ts
    else if t.type_ == TokType.LeftSquareBracket then
      closeBrackets (TokType.RightSquareBracket :: e :: stack) ts
    else if t.type_ == TokType.RightCurlyBracket || t.type_ == TokType.RightSquareBracket then
      if t.type_ == e then closeBrackets stack ts else none
    else closeBrackets (e :: stack) ts

/-- The tokens that follow the one value at the front of the queue: after the one token
of a scalar, after the matching closer of an opening bracket. -/
def valueEnd : List JsonTokenW → Option (List JsonTokenW)
  | [] => none
  | t :: ts =>
    if t.type_ == TokType.LeftCurlyBracket then closeBrackets [TokType.RightCurlyBracket] ts
    else if t.type_ == TokType.LeftSquareBracket then
      closeBrackets [TokType.RightSquareBracket] ts
    else if isScalarTok t then some ts
    else none

/-- The token queue of the text `[1,[2]] 7 8`. -/
def sampleQueue : List JsonTokenW :=
  [tok TokType.LeftSquareBracket, intTok 1, tok TokType.Comma,
    tok TokType.LeftSquareBracket, intTok 2, tok TokType.RightSquareBracket,
    tok TokType.RightSquareBracket, intTok 7, intTok 8]

/-- The tree of the text `[1,[2]]`. -/
def sampleArray : JsonW :=
  JsonW.mk JsonW.ARRAY true 0 LongDouble.zero [] true []
    [integerNode 1, JsonW.mk JsonW.ARRAY true 0 LongDouble.zero [] true [] [integerNode 2]]

/-! ## Constructions for the claims on containers -/

/-- The object `{"a":1}`. -/
def sampleObject : JsonW :=
  JsonW.mk JsonW.OBJECT true 0 LongDouble.zero [] true [(ws "a", some (integerNode 1))] []

/-- One pair of an object as the serializer is specified to write it: the key as an
escaped string, a colon, the text of the value. -/
def memberText (key value : List Nat) : List Nat := renderSpec key ++ [58] ++ value

/-- The token sequence of object members in which the comma after the `i`-th of them,
when another member follows, is written or left out as `commas` says at position `i`
(left out where the list has run out). -/
def toksMembersOpt : List Bool → List (List Nat × Syn) → List JsonTokenW
  | _, [] => []
  | commas, (k, v) :: ms =>
    strTok k :: tok TokType.Colon ::
      (v.toks ++ ((if ms.isEmpty || !commas.headD false then [] else [tok TokType.Comma]) ++
        toksMembersOpt commas.tail ms))

/-- The calls `n.set(k1, v1); ...; n.set(kn, vn);` one after the other: the node
afterwards. -/
def JsonW.setAll (n : JsonW) (pairs : List (List Nat × JsonW)) : JsonW :=
  pairs.foldl (fun n p => (n.set p.1 (some p.2)).2) n

/-- The statements `n[k1] = v1; ...; n[kn] = vn;` one after the other: the node
afterwards, `none` when a `NULL` is dereferenced. -/
def JsonW.putAll (instance_ : JsonW) : JsonW → List (List Nat × JsonW) → Option JsonW
  | n, [] => some n
  | n, (k, v) :: rest =>
    match JsonW.putCopy instance_ n k v with
    | none => none
    | some n' => JsonW.putAll instance_ n' rest

/-! ## The container-slot condition and the states a program reaches -/

mutual

/-- The container-slot condition on a node and all its descendants: the object map is
non-empty only in an OBJECT or BAD node, the element vector only in an ARRAY or BAD
node. -/
def JsonW.slotsOk : JsonW → Bool
  | JsonW.mk type_ _ _ _ _ _ jobject_ jarray_ =>
    (jobject_.isEmpty || type_ == JsonW.OBJECT || type_ == JsonW.BAD) &&
    (jarray_.isEmpty || type_ == JsonW.ARRAY || type_ == JsonW.BAD) &&
    slotsOkMembers jobject_ && slotsOkElements jarray_

/-- The condition on the children of an object map. -/
def slotsOkMembers : List (List Nat × Option JsonW) → Bool
  | [] => true
  | (_, none) :: rest => slotsOkMembers rest
  | (_, some child) :: rest => child.slotsOk && slotsOkMembers rest

/-- The condition on the elements of a vector. -/
def slotsOkElements : List JsonW → Bool
  | [] => true
  | child :: rest => child.slotsOk && slotsOkElements rest

end

/-- The states of a node that the public interface produces: the constructors, then any
sequence of `parse`, `copy` (also as copy constructor and as `operator=(const JsonW&)`),
the scalar assignments, indexed and keyed access, `add`, `set` and `bad()`; a child that
`at`, `find` or a returned reference designates is a node in such a state, and so is
the parent after operations on that child. -/
inductive Reachable (env : FloatEnv) : JsonW → Prop where
  /-- the member initialisers alone (a constructor that returns before `init`) -/
  | raw : Reachable env JsonW.raw
  /-- the default constructor -/
  | new : Reachable env JsonW.new
  /-- a constructor from a text -/
  | init (ins : List Nat) (j : JsonW) : JsonW.init env ins = some j → Reachable env j
  /-- the member function `parse`, also as the constructor from a queue -/
  | parse (fuel : Nat) (n : JsonW) (tokens : List JsonTokenW) (j : JsonW)
      (rest : List JsonTokenW) : Reachable env n →
      JsonW.parse fuel n tokens = some (j, rest) → Reachable env j
  /-- the member function `copy` -/
  | copy (this rhs j : JsonW) : Reachable env this → Reachable env rhs →
      JsonW.copy this rhs = some j → Reachable env j
  /-- an integer assignment -/
  | assignInteger (n : JsonW) (value : Int) : Reachable env n →
      Reachable env (n.assignInteger value)
  /-- a floating-point assignment -/
  | assignFloat (n : JsonW) (value : LongDouble) : Reachable env n →
      Reachable env (n.assignFloat value)
  /-- a string assignment -/
  | assignWString (n : JsonW) (value : List Nat) : Reachable env n →
      Reachable env (n.assignWString value)
  /-- a boolean assignment -/
  | assignBool (n : JsonW) (value : Bool) : Reachable env n →
      Reachable env (n.assignBool value)
  /-- indexed access with a `size_t` index -/
  | subscript (n : JsonW) (index : Nat) : Reachable env n →
      Reachable env (n.subscript index).1
  /-- indexed access with an `int` index -/
  | subscriptInt (n : JsonW) (index : Int) : Reachable env n →
      Reachable env (n.subscriptInt index).1
  /-- keyed access -/
  | subscriptKey (n : JsonW) (wname : List Nat) : Reachable env n →
      Reachable env (n.subscriptKey wname).1
  /-- the member function `add`, with `NULL` or a node -/
  | add (n : JsonW) (junit : Option JsonW) : Reachable env n →
      (∀ c, junit = some c → Reachable env c) → Reachable env (n.add junit)
  /-- the member function `set`, with `NULL` or a node -/
  | set (n : JsonW) (wkey : List Nat) (jvalue : Option JsonW) : Reachable env n →
      (∀ c, jvalue = some c → Reachable env c) → Reachable env (n.set wkey jvalue).2
  /-- the static instance after a call of `bad()` -/
  | bad (instance_ : JsonW) : Reachable env instance_ → Reachable env instance_.bad
  /-- an element of the vector -/
  | element (n c : JsonW) : Reachable env n → c ∈ n.jarray_ → Reachable env c
  /-- a child of the map -/
  | member (n : JsonW) (k : List Nat) (c : JsonW) : Reachable env n →
      (k, some c) ∈ n.jobject_ → Reachable env c
  /-- the parent after operations on the child a reference designates -/
  | write (n : JsonW) (ref : Ref) (c : JsonW) : Reachable env n → Reachable env c →
      Reachable env (n.write ref (fun _ => c))

/-- The nodes of a tree: the node itself, the elements of its vector, the children of its
map, and their nodes in turn. -/
inductive Within : JsonW → JsonW → Prop where
  /-- the node itself -/
  | self (n : JsonW) : Within n n
  /-- a node of an element of the vector -/
  | element (n c d : JsonW) : c ∈ n.jarray_ → Within c d → Within n d
  /-- a node of a child of the map -/
  | member (n : JsonW) (k : List Nat) (c d : JsonW) : (k, some c) ∈ n.jobject_ →
      Within c d → Within n d

/-! ## The parser with an assertion on the length of the queue -/

mutual

/-- The member function `JsonW::parse(tokens)` with an assertion added in the two loops:
`limit` is the number of tokens in the queue of the enclosing call of `parse`, and before
each recursive call of `parse` the loop asserts that its queue holds fewer tokens.  The
run is abandoned (`none`) when an assertion fails; everything else is `JsonW.parse`. -/
def JsonW.parseChecked : Nat → JsonW → List JsonTokenW → Option (JsonW × List JsonTokenW)
  | 0, _, _ => none
  | fuel + 1, JsonW.mk _ valid_ integer_ frac_ wstring_ boolean_ _ _, tokens =>
    match tokens with
    | [] => some (JsonW.mk JsonW.BAD valid_ integer_ frac_ wstring_ boolean_ [] [], [])
    | front :: rest =>
      match front.type_ with
      | TokType.LeftCurlyBracket =>
        match jobjectChecked fuel (front :: rest).length (front :: rest) [] with
        | none => none
        | some (ok, tokens, jobject_) =>
          some (JsonW.mk (if ok then JsonW.OBJECT else JsonW.BAD) ok integer_ frac_ wstring_
            boolean_ jobject_ [], tokens)
      | TokType.LeftSquareBracket =>
        match jarrayChecked fuel (front :: rest).length (front :: rest) [] with
        | none => none
        | some (ok, tokens, jarray_) =>
          some (JsonW.mk (if ok then JsonW.ARRAY else JsonW.BAD) ok integer_ frac_ wstring_
            boolean_ [] jarray_, tokens)
      | TokType.NumberInteger =>
        some (JsonW.mk JsonW.INTEGER true front.integer_ frac_ wstring_ boolean_ [] [], rest)
      | TokType.NumberFloat =>
        some (JsonW.mk JsonW.FLOAT true integer_ front.frac_ wstring_ boolean_ [] [], rest)
      | TokType.String =>
        some (JsonW.mk JsonW.STRING true integer_ frac_ front.wstring_ boolean_ [] [], rest)
      | TokType.Boolean =>
        some (JsonW.mk JsonW.BOOLEAN true integer_ frac_ wstring_ front.boolean_ [] [], rest)
      | TokType.Null =>
        some (JsonW.mk JsonW.NULLVALUE true integer_ frac_ wstring_ boolean_ [] [], rest)
      | _ =>
        some (JsonW.mk JsonW.BAD false integer_ frac_ wstring_ boolean_ [] [], front :: rest)

/-- The static function `JsonW::jobject` inside a call of `parse` on `limit` tokens. -/
def jobjectChecked : Nat → Nat → List JsonTokenW → List (List Nat × Option JsonW) →
    Option (Bool × List JsonTokenW × List (List Nat × Option JsonW))
  | 0, _, _, _ => none
  | fuel + 1, limit, tokens, jobject =>
    match tokens with
    | front :: _ :: _ =>
      if front.type_ != TokType.LeftCurlyBracket then some (false, tokens, jobject)
      else jobjectLoopChecked fuel limit tokens.tail jobject
    | _ => some (false, tokens, jobject)

/-- The loop of `JsonW::jobject` inside a call of `parse` on `limit` tokens, with the
assertion in front of `new JsonW(tokens)`. -/
def jobjectLoopChecked : Nat → Nat → List JsonTokenW → List (List Nat × Option JsonW) →
    Option (Bool × List JsonTokenW × List (List Nat × Option JsonW))
  | 0, _, _, _ => none
  | _ + 1, _, [], jobject => some (false, [], jobject)
  | fuel + 1, limit, front :: rest, jobject =>
    match front.type_ with
    | TokType.RightCurlyBracket => some (true, rest, jobject)
    | TokType.String =>
      let key := front.wstring_
      if key.length == 0 then some (false, front :: rest, jobject)
      else if MapW.count jobject key > 0 then some (false, front :: rest, jobject)
      else
        match rest with
        | [] => some (false, [], jobject)
        | colon :: rest =>
          if colon.type_ != TokType.Colon then some (false, colon :: rest, jobject)
          else
            match rest with
            | [] => some (false, [], jobject)
            | _ :: _ =>
              if limit ≤ rest.length then none
              else
                match JsonW.parseChecked fuel JsonW.raw rest with
                | none => none
                | some (junit, tokens) =>
                  if junit.valid_ == false then some (false, tokens, jobject)
                  else
                    let jobject := MapW.set jobject key (some junit)
                    match tokens with
                    | t :: tokens' =>
                      if t.type_ == TokType.Comma then
                        jobjectLoopChecked fuel limit tokens' jobject
                      else jobjectLoopChecked fuel limit (t :: tokens') jobject
                    | [] => jobjectLoopChecked fuel limit [] jobject
    | _ => some (false, front :: rest, jobject)

/-- The static function `JsonW::jarray` inside a call of `parse` on `limit` tokens. -/
def jarrayChecked : Nat → Nat → List JsonTokenW → List JsonW →
    Option (Bool × List JsonTokenW × List JsonW)
  | 0, _, _, _ => none
  | fuel + 1, limit, tokens, jarray =>
    match tokens with
    | front :: _ :: _ =>
      if front.type_ != TokType.LeftSquareBracket then some (false, tokens, jarray)
      else jarrayLoopChecked fuel limit tokens.tail jarray
    | _ => some (false, tokens, jarray)

/-- The loop of `JsonW::jarray` inside a call of `parse` on `limit` tokens, with the
assertion in front of `new JsonW(tokens)`. -/
def jarrayLoopChecked : Nat → Nat → List JsonTokenW → List JsonW →
    Option (Bool × List JsonTokenW × List JsonW)
  | 0, _, _, _ => none
  | _ + 1, _, [], jarray => some (false, [], jarray)
  | fuel + 1, limit, front :: rest, jarray =>
    match front.type_ with
    | TokType.RightSquareBracket => some (true, rest, jarray)
    | TokType.LeftCurlyBracket | TokType.LeftSquareBracket | TokType.NumberInteger
    | TokType.NumberFloat | TokType.Boolean | TokType.Null =>
      if limit ≤ (front :: rest).length then none
      else
        match JsonW.parseChecked fuel JsonW.raw (front :: rest) with
        | none => none
        | some (junit, tokens) =>
          if junit.valid_ == false then some (false, tokens, jarray)
          else
            let jarray := jarray ++ [junit]
            match tokens with
            | t :: tokens' =>
              if t.type_ == TokType.Comma then jarrayLoopChecked fuel limit tokens' jarray
              else if t.type_ == TokType.RightSquareBracket then some (true, tokens', jarray)
              else some (false, t :: tokens', jarray)
            | [] => some (false, [], jarray)
    | _ => some (false, front :: rest, jarray)

end

/-! # Theorems -/

/-- Structural induction on values, with the hypothesis for every element or member. -/
theorem Syn.induction {P : Syn → Prop} (hs : ∀ t h, P (Syn.scalar t h))
    (ha : ∀ items, (∀ e ∈ items, P e) → P (Syn.arr items))
    (ho : ∀ members, (∀ m ∈ members, P m.2) → P (Syn.obj members)) : ∀ s, P s := by
  intro s
  refine @Syn.rec P (fun items => ∀ e ∈ items, P e)
    (fun members => ∀ m ∈ members, P m.2) (fun m => P m.2)
    hs ha ho ?_ ?_ ?_ ?_ ?_ s
  · intro e he; cases he
  · intro head tail h1 h2 e he
    rcases List.mem_cons.1 he with rfl | h
    · exact h1
    · exact h2 e h
  · intro m hm; cases hm
  · intro head tail h1 h2 m hm
    rcases List.mem_cons.1 hm with rfl | h
    · exact h1
    · exact h2 m h
  · intro k v h; exact h

/-! ### The map -/

theorem MapW.count_pos_iff {α : Type} (m : List (List Nat × α)) (key : List Nat) :
    MapW.count m key > 0 ↔ key ∈ m.map Prod.fst := by
  induction m with
  | nil => simp [MapW.count]
  | cons e m ih =>
    simp only [MapW.count, List.filter_cons, List.map_cons, List.mem_cons] at ih ⊢
    by_cases h : e.1 = key
    · simp [h]
    · have h' : ¬ key = e.1 := fun hh => h hh.symm
      simp [h, h', ih]

theorem MapW.keys_set {α : Type} (m : List (List Nat × α)) (key : List Nat) (value : α)
    (k : List Nat) :
    k ∈ (MapW.set m key value).map Prod.fst ↔ k = key ∨ k ∈ m.map Prod.fst := by
  induction m with
  | nil => simp [MapW.set]
  | cons e m ih =>
    obtain ⟨k0, v0⟩ := e
    simp only [MapW.set]
    split_ifs with h1 h2
    · simp
    · subst h2; simp
    · simp only [List.map_cons, List.mem_cons, ih]
      tauto

/-! ### The parser on accepted values -/

theorem leafOf_valid (t : JsonTokenW) (h : isScalarTok t = true) : (leafOf t).valid_ = true := by
  unfold isScalarTok at h
  unfold leafOf
  cases ht : t.type_ <;> simp_all [JsonW.valid_]

theorem build_valid (s : Syn) (h : s.accepted = true) : s.build.valid_ = true := by
  cases s with
  | scalar t ht => exact leafOf_valid t ht
  | arr items => simp [Syn.build, JsonW.valid_]
  | obj members => simp [Syn.build, JsonW.valid_]

theorem parse_scalar (fuel : Nat) (t : JsonTokenW) (rest : List JsonTokenW)
    (h : isScalarTok t = true) :
    JsonW.parse (fuel + 1) JsonW.raw (t :: rest) = some (leafOf t, rest) := by
  unfold isScalarTok at h
  unfold leafOf
  cases ht : t.type_ <;> simp_all [JsonW.parse, JsonW.raw]

/-- The first token of a value. -/
theorem Syn.toks_eq_cons (s : Syn) : ∃ hd tl, s.toks = hd :: tl := by
  cases s <;> simp [Syn.toks]

/-- A value that is not a string literal starts with a token on which the array loop
calls `parse`. -/
theorem Syn.first_of_not_string (s : Syn) (hs : s.isString = false) :
    ∃ hd tl, s.toks = hd :: tl ∧
      (hd.type_ = TokType.LeftCurlyBracket ∨ hd.type_ = TokType.LeftSquareBracket ∨
       hd.type_ = TokType.NumberInteger ∨ hd.type_ = TokType.NumberFloat ∨
       hd.type_ = TokType.Boolean ∨ hd.type_ = TokType.Null) := by
  cases s with
  | scalar t hsc =>
    refine ⟨t, [], rfl, ?_⟩
    have hsc' := hsc
    simp only [isScalarTok] at hsc'
    simp only [Syn.isString] at hs
    cases ht : t.type_ <;> simp_all
  | arr items => exact ⟨_, _, rfl, by simp [tok]⟩
  | obj members => exact ⟨_, _, rfl, by simp [tok]⟩

/-- One turn of the array loop on a token that starts a value. -/
theorem jarrayLoop_value (fuel : Nat) (hd : JsonTokenW) (tl : List JsonTokenW)
    (acc : List JsonW) (junit : JsonW) (tokens : List JsonTokenW)
    (hty : hd.type_ = TokType.LeftCurlyBracket ∨ hd.type_ = TokType.LeftSquareBracket ∨
       hd.type_ = TokType.NumberInteger ∨ hd.type_ = TokType.NumberFloat ∨
       hd.type_ = TokType.Boolean ∨ hd.type_ = TokType.Null)
    (hp : JsonW.parse fuel JsonW.raw (hd :: tl) = some (junit, tokens)) :
    jarrayLoop (fuel + 1) (hd :: tl) acc =
      if junit.valid_ = false then some (false, tokens, acc)
      else match tokens with
        | t :: tokens' =>
          if t.type_ = TokType.Comma then jarrayLoop fuel tokens' (acc ++ [junit])
          else if t.type_ = TokType.RightSquareBracket then some (true, tokens', acc ++ [junit])
          else some (false, t :: tokens', acc ++ [junit])
        | [] => some (false, [], acc ++ [junit]) := by
  rcases hty with h | h | h | h | h | h <;>
  · simp only [jarrayLoop, h, hp]
    cases tokens <;> simp

theorem jarrayLoop_items (items : List Syn)
    (IH : ∀ e ∈ items, e.accepted = true → ∀ fuel rest, 3 * e.toks.length + 1 ≤ fuel →
      JsonW.parse fuel JsonW.raw (e.toks ++ rest) = some (e.build, rest)) :
    acceptedItems items = true → ∀ fuel rest acc, 3 * (toksItems items).length + 2 ≤ fuel →
      jarrayLoop fuel (toksItems items ++ tok TokType.RightSquareBracket :: rest) acc =
        some (true, rest, acc ++ buildItems items) := by
  induction items with
  | nil =>
    intro _ fuel rest acc hf
    obtain ⟨f, rfl⟩ : ∃ f, fuel = f + 1 := ⟨fuel - 1, by omega⟩
    simp [toksItems, jarrayLoop, tok, buildItems]
  | cons e es ih =>
    intro hacc fuel rest acc hf
    simp only [acceptedItems, Bool.and_eq_true, Bool.not_eq_true'] at hacc
    obtain ⟨⟨he, hstr⟩, hes⟩ := hacc
    obtain ⟨f, rfl⟩ : ∃ f, fuel = f + 1 := ⟨fuel - 1, by omega⟩
    simp only [toksItems, List.length_append] at hf
    obtain ⟨hd, tl, htoks, hty⟩ := Syn.first_of_not_string e hstr
    have hp := IH e (List.mem_cons_self _ _) he f
      ((if es.isEmpty then [] else [tok TokType.Comma]) ++ toksItems es ++
        tok TokType.RightSquareBracket :: rest) (by omega)
    have hv := build_valid e he
    simp only [toksItems, List.append_assoc] at hp ⊢
    rw [htoks] at hp ⊢
    rw [List.cons_append] at hp ⊢
    rw [jarrayLoop_value f hd _ acc _ _ hty hp]
    simp only [hv, Bool.true_eq_false, if_false]
    cases es with
    | nil => simp [toksItems, tok, buildItems]
    | cons e' es' =>
      have ih' := ih (fun x hx => IH x (List.mem_cons_of_mem _ hx)) hes f rest (acc ++ [e.build])
        (by simp only [List.isEmpty_cons, Bool.false_eq_true, if_false, List.length_cons,
              List.length_nil] at hf; omega)
      simp only [List.isEmpty_cons, Bool.false_eq_true, if_false, List.singleton_append, tok]
      simp only [tok] at ih'
      simp [ih', buildItems]

/-- One turn of the object loop on a fresh, non-empty key followed by a colon and a
value. -/
theorem jobjectLoop_member (fuel : Nat) (k : List Nat) (hd : JsonTokenW)
    (tl : List JsonTokenW) (m : List (List Nat × Option JsonW)) (junit : JsonW)
    (tokens : List JsonTokenW) (hk : k.isEmpty = false) (hm : MapW.count m k = 0)
    (hp : JsonW.parse fuel JsonW.raw (hd :: tl) = some (junit, tokens)) :
    jobjectLoop (fuel + 1) (strTok k :: tok TokType.Colon :: hd :: tl) m =
      if junit.valid_ = false then some (false, tokens, m)
      else match tokens with
        | t :: tokens' =>
          if t.type_ = TokType.Comma then jobjectLoop fuel tokens' (MapW.set m k (some junit))
          else jobjectLoop fuel (t :: tokens') (MapW.set m k (some junit))
        | [] => jobjectLoop fuel [] (MapW.set m k (some junit)) := by
  have hk' : k ≠ [] := by intro h; simp [h] at hk
  simp only [jobjectLoop, strTok, tok, hp, hm]
  cases tokens <;> simp [hk']

theorem jobjectLoop_members (members : List (List Nat × Syn))
    (IH : ∀ e ∈ members, e.2.accepted = true → ∀ fuel rest, 3 * e.2.toks.length + 1 ≤ fuel →
      JsonW.parse fuel JsonW.raw (e.2.toks ++ rest) = some (e.2.build, rest)) :
    ∀ seen m, acceptedMembers seen members = true →
      (∀ k, k ∈ seen ↔ k ∈ m.map Prod.fst) →
      ∀ fuel rest, 3 * (toksMembers members).length + 2 ≤ fuel →
      jobjectLoop fuel (toksMembers members ++ tok TokType.RightCurlyBracket :: rest) m =
        some (true, rest, buildMembers m members) := by
  induction members with
  | nil =>
    intro seen m _ _ fuel rest hf
    obtain ⟨f, rfl⟩ : ∃ f, fuel = f + 1 := ⟨fuel - 1, by omega⟩
    simp [toksMembers, jobjectLoop, tok, buildMembers]
  | cons e es ih =>
    obtain ⟨k, v⟩ := e
    intro seen m hacc hseen fuel rest hf
    simp only [acceptedMembers, Bool.and_eq_true, Bool.not_eq_true'] at hacc
    obtain ⟨⟨⟨hk, hnew⟩, hv⟩, hes⟩ := hacc
    obtain ⟨f, rfl⟩ : ∃ f, fuel = f + 1 := ⟨fuel - 1, by omega⟩
    simp only [toksMembers, List.length_append, List.length_cons] at hf
    obtain ⟨hd, tl, htoks⟩ := Syn.toks_eq_cons v
    have hp := IH (k, v) (List.mem_cons_self _ _) hv f
      ((if es.isEmpty then [] else [tok TokType.Comma]) ++ toksMembers es ++
        tok TokType.RightCurlyBracket :: rest) (by show 3 * v.toks.length + 1 ≤ f; omega)
    have hval := build_valid v hv
    have hcount : MapW.count m k = 0 := by
      by_contra hc
      have : MapW.count m k > 0 := Nat.pos_of_ne_zero hc
      rw [MapW.count_pos_iff, ← hseen] at this
      simp only [List.contains_eq_any_beq, List.any_eq_false, beq_iff_eq] at hnew
      exact hnew k this rfl
    simp only [toksMembers, List.append_assoc, List.cons_append] at hp ⊢
    rw [htoks] at hp ⊢
    rw [List.cons_append] at hp ⊢
    rw [jobjectLoop_member f k hd _ m _ _ hk hcount hp]
    simp only [hval, Bool.true_eq_false, if_false]
    have hseen' : ∀ k', k' ∈ k :: seen ↔ k' ∈ (MapW.set m k (some v.build)).map Prod.fst := by
      intro k'
      rw [MapW.keys_set, List.mem_cons, hseen]
    cases es with
    | nil =>
      obtain ⟨f', rfl⟩ : ∃ f', f = f' + 1 := ⟨f - 1, by omega⟩
      simp [toksMembers, tok, buildMembers, jobjectLoop]
    | cons e' es' =>
      have ih' := ih (fun x hx => IH x (List.mem_cons_of_mem _ hx)) (k :: seen)
        (MapW.set m k (some v.build)) hes hseen' f rest
        (by simp only [List.isEmpty_cons, Bool.false_eq_true, if_false, List.length_cons,
              List.length_nil] at hf; omega)
      simp only [List.isEmpty_cons, Bool.false_eq_true, if_false, List.singleton_append, tok]
      simp only [tok] at ih'
      simp [ih', buildMembers]

/-- The member function `parse` on a queue that starts with `[`. -/
theorem parse_array (fuel : Nat) (rest : List JsonTokenW) :
    JsonW.parse (fuel + 1) JsonW.raw (tok TokType.LeftSquareBracket :: rest) =
      match jarray fuel (tok TokType.LeftSquareBracket :: rest) [] with
      | none => none
      | some (ok, tokens, jarray_) =>
        some (JsonW.mk (if ok then JsonW.ARRAY else JsonW.BAD) ok 0 LongDouble.zero [] true []
          jarray_, tokens) := by
  cases h : jarray fuel (tok TokType.LeftSquareBracket :: rest) [] <;>
    simp only [tok] at h <;> simp [JsonW.parse, JsonW.raw, tok, h]

/-- The member function `parse` on a queue that starts with `{`. -/
theorem parse_object (fuel : Nat) (rest : List JsonTokenW) :
    JsonW.parse (fuel + 1) JsonW.raw (tok TokType.LeftCurlyBracket :: rest) =
      match jobject fuel (tok TokType.LeftCurlyBracket :: rest) [] with
      | none => none
      | some (ok, tokens, jobject_) =>
        some (JsonW.mk (if ok then JsonW.OBJECT else JsonW.BAD) ok 0 LongDouble.zero [] true
          jobject_ [], tokens) := by
  cases h : jobject fuel (tok TokType.LeftCurlyBracket :: rest) [] <;>
    simp only [tok] at h <;> simp [JsonW.parse, JsonW.raw, tok, h]

theorem jarray_enter (fuel : Nat) (x : JsonTokenW) (xs : List JsonTokenW) (acc : List JsonW) :
    jarray (fuel + 1) (tok TokType.LeftSquareBracket :: x :: xs) acc =
      jarrayLoop fuel (x :: xs) acc := by
  simp [jarray, tok]

theorem jobject_enter (fuel : Nat) (x : JsonTokenW) (xs : List JsonTokenW)
    (m : List (List Nat × Option JsonW)) :
    jobject (fuel + 1) (tok TokType.LeftCurlyBracket :: x :: xs) m =
      jobjectLoop fuel (x :: xs) m := by
  simp [jobject, tok]

/-- The parser on the tokens of an accepted value: it builds the value's tree and
leaves exactly the tokens that follow. -/
theorem parse_accepted (s : Syn) : s.accepted = true → ∀ fuel rest,
    3 * s.toks.length + 1 ≤ fuel →
    JsonW.parse fuel JsonW.raw (s.toks ++ rest) = some (s.build, rest) := by
  induction s using Syn.induction with
  | hs t ht =>
    intro _ fuel rest hf
    obtain ⟨f, rfl⟩ : ∃ f, fuel = f + 1 := ⟨fuel - 1, by omega⟩
    exact parse_scalar f t rest ht
  | ha items IH =>
    intro h fuel rest hf
    simp only [Syn.toks, List.length_cons, List.length_append, List.length_nil] at hf
    obtain ⟨f, rfl⟩ : ∃ f, fuel = f + 2 := ⟨fuel - 2, by omega⟩
    have hl := jarrayLoop_items items IH (by simpa [Syn.accepted] using h) f rest [] (by omega)
    simp only [Syn.toks, List.cons_append, List.append_assoc, List.singleton_append,
      List.nil_append]
    cases hti : toksItems items ++ tok TokType.RightSquareBracket :: rest with
    | nil => simp at hti
    | cons x xs =>
      rw [hti] at hl
      show JsonW.parse (f + 1 + 1) _ _ = _
      rw [parse_array, jarray_enter, hl]
      simp [Syn.build]
  | ho members IH =>
    intro h fuel rest hf
    simp only [Syn.toks, List.length_cons, List.length_append, List.length_nil] at hf
    obtain ⟨f, rfl⟩ : ∃ f, fuel = f + 2 := ⟨fuel - 2, by omega⟩
    have hl := jobjectLoop_members members IH [] [] (by simpa [Syn.accepted] using h)
      (by simp) f rest (by omega)
    simp only [Syn.toks, List.cons_append, List.append_assoc, List.singleton_append,
      List.nil_append]
    cases hti : toksMembers members ++ tok TokType.RightCurlyBracket :: rest with
    | nil => simp at hti
    | cons x xs =>
      rw [hti] at hl
      show JsonW.parse (f + 1 + 1) _ _ = _
      rw [parse_object, jobject_enter, hl]
      simp [Syn.build]

/-- The array loop has no case for a String token. -/
theorem jarrayLoop_string (fuel : Nat) (t : JsonTokenW) (tl : List JsonTokenW)
    (acc : List JsonW) (h : t.type_ = TokType.String) :
    jarrayLoop (fuel + 1) (t :: tl) acc = some (false, t :: tl, acc) := by
  simp [jarrayLoop, h]

/-- The object loop stops at an empty key. -/
theorem jobjectLoop_emptyKey (fuel : Nat) (tl : List JsonTokenW)
    (m : List (List Nat × Option JsonW)) :
    jobjectLoop (fuel + 1) (strTok [] :: tl) m = some (false, strTok [] :: tl, m) := by
  simp [jobjectLoop, strTok]

/-- The object loop stops at a key that the object already holds. -/
theorem jobjectLoop_duplicate (fuel : Nat) (k : List Nat) (tl : List JsonTokenW)
    (m : List (List Nat × Option JsonW)) (h : MapW.count m k > 0) :
    jobjectLoop (fuel + 1) (strTok k :: tl) m = some (false, strTok k :: tl, m) := by
  by_cases hk : k = []
  · subst hk; exact jobjectLoop_emptyKey fuel tl m
  · simp [jobjectLoop, strTok, hk, h]

theorem jarrayLoop_rejected (items : List Syn)
    (IH : ∀ e ∈ items, e.accepted = false → ∀ fuel rest, 3 * e.toks.length + 1 ≤ fuel →
      ∃ j r, JsonW.parse fuel JsonW.raw (e.toks ++ rest) = some (j, r) ∧ j.valid_ = false) :
    acceptedItems items = false → ∀ fuel rest acc, 3 * (toksItems items).length + 2 ≤ fuel →
      ∃ r a, jarrayLoop fuel (toksItems items ++ tok TokType.RightSquareBracket :: rest) acc =
        some (false, r, a) := by
  induction items with
  | nil => intro h; simp [acceptedItems] at h
  | cons e es ih =>
    intro hacc fuel rest acc hf
    obtain ⟨f, rfl⟩ : ∃ f, fuel = f + 1 := ⟨fuel - 1, by omega⟩
    simp only [toksItems, List.length_append] at hf
    by_cases hstr : e.isString = true
    · -- a string literal as an element: the loop has no case for it
      cases e with
      | scalar t hsc =>
        simp only [Syn.isString, beq_iff_eq] at hstr
        exact ⟨_, _, jarrayLoop_string f t _ acc hstr⟩
      | arr items => simp [Syn.isString] at hstr
      | obj members => simp [Syn.isString] at hstr
    · have hstr' : e.isString = false := by simpa using hstr
      obtain ⟨hd, tl, htoks, hty⟩ := Syn.first_of_not_string e hstr'
      by_cases he : e.accepted = true
      · have hes : acceptedItems es = false := by
          simp only [acceptedItems, he, hstr', Bool.not_false, Bool.and_self, Bool.true_and] at hacc
          exact hacc
        have hp := parse_accepted e he f
          ((if es.isEmpty then [] else [tok TokType.Comma]) ++ toksItems es ++
            tok TokType.RightSquareBracket :: rest) (by omega)
        have hv := build_valid e he
        simp only [toksItems, List.append_assoc] at hp ⊢
        rw [htoks] at hp ⊢
        rw [List.cons_append] at hp ⊢
        rw [jarrayLoop_value f hd _ acc _ _ hty hp]
        simp only [hv, Bool.true_eq_false, if_false]
        cases es with
        | nil => simp [acceptedItems] at hes
        | cons e' es' =>
          obtain ⟨r, a, h'⟩ := ih (fun x hx => IH x (List.mem_cons_of_mem _ hx)) hes f rest
            (acc ++ [e.build])
            (by simp only [List.isEmpty_cons, Bool.false_eq_true, if_false, List.length_cons,
                  List.length_nil] at hf; omega)
          refine ⟨r, a, ?_⟩
          simp only [List.isEmpty_cons, Bool.false_eq_true, if_false, List.singleton_append, tok]
          simp only [tok] at h'
          simp [h']
      · have he' : e.accepted = false := by simpa using he
        obtain ⟨j, r, hp, hj⟩ := IH e (List.mem_cons_self _ _) he' f
          ((if es.isEmpty then [] else [tok TokType.Comma]) ++ toksItems es ++
            tok TokType.RightSquareBracket :: rest) (by omega)
        simp only [toksItems, List.append_assoc] at hp ⊢
        rw [htoks] at hp ⊢
        rw [List.cons_append] at hp ⊢
        rw [jarrayLoop_value f hd _ acc _ _ hty hp]
        exact ⟨r, acc, by simp [hj]⟩

theorem jobjectLoop_rejected (members : List (List Nat × Syn))
    (IH : ∀ e ∈ members, e.2.accepted = false → ∀ fuel rest, 3 * e.2.toks.length + 1 ≤ fuel →
      ∃ j r, JsonW.parse fuel JsonW.raw (e.2.toks ++ rest) = some (j, r) ∧ j.valid_ = false) :
    ∀ seen m, acceptedMembers seen members = false →
      (∀ k, k ∈ seen ↔ k ∈ m.map Prod.fst) →
      ∀ fuel rest, 3 * (toksMembers members).length + 2 ≤ fuel →
      ∃ r m', jobjectLoop fuel (toksMembers members ++ tok TokType.RightCurlyBracket :: rest) m =
        some (false, r, m') := by
  induction members with
  | nil => intro seen m h; simp [acceptedMembers] at h
  | cons e es ih =>
    obtain ⟨k, v⟩ := e
    intro seen m hacc hseen fuel rest hf
    obtain ⟨f, rfl⟩ : ∃ f, fuel = f + 1 := ⟨fuel - 1, by omega⟩
    simp only [toksMembers, List.length_append, List.length_cons] at hf
    by_cases hk : k = []
    · -- an empty key
      subst hk
      exact ⟨_, _, jobjectLoop_emptyKey f _ m⟩
    by_cases hdup : MapW.count m k > 0
    · -- a key already stored in this object
      exact ⟨_, _, jobjectLoop_duplicate f k _ m hdup⟩
    have hcount : MapW.count m k = 0 := by omega
    have hke : k.isEmpty = false := by
      cases k with
      | nil => exact absurd rfl hk
      | cons _ _ => rfl
    have hnew : seen.contains k = false := by
      rw [MapW.count_pos_iff, ← hseen] at hdup
      simpa using hdup
    obtain ⟨hd, tl, htoks⟩ := Syn.toks_eq_cons v
    by_cases hv : v.accepted = true
    · have hes : acceptedMembers (k :: seen) es = false := by
        simp only [acceptedMembers, hke, hnew, hv, Bool.not_false, Bool.and_self,
          Bool.true_and] at hacc
        exact hacc
      have hp := parse_accepted v hv f
        ((if es.isEmpty then [] else [tok TokType.Comma]) ++ toksMembers es ++
          tok TokType.RightCurlyBracket :: rest) (by omega)
      have hval := build_valid v hv
      simp only [toksMembers, List.append_assoc, List.cons_append] at hp ⊢
      rw [htoks] at hp ⊢
      rw [List.cons_append] at hp ⊢
      rw [jobjectLoop_member f k hd _ m _ _ hke hcount hp]
      simp only [hval, Bool.true_eq_false, if_false]
      have hseen' : ∀ k', k' ∈ k :: seen ↔
          k' ∈ (MapW.set m k (some v.build)).map Prod.fst := by
        intro k'
        rw [MapW.keys_set, List.mem_cons, hseen]
      cases es with
      | nil => simp [acceptedMembers] at hes
      | cons e' es' =>
        obtain ⟨r, m', h'⟩ := ih (fun x hx => IH x (List.mem_cons_of_mem _ hx)) (k :: seen)
          (MapW.set m k (some v.build)) hes hseen' f rest
          (by simp only [List.isEmpty_cons, Bool.false_eq_true, if_false, List.length_cons,
                List.length_nil] at hf; omega)
        refine ⟨r, m', ?_⟩
        simp only [List.isEmpty_cons, Bool.false_eq_true, if_false, List.singleton_append, tok]
        simp only [tok] at h'
        simp [h']
    · have hv' : v.accepted = false := by simpa using hv
      obtain ⟨j, r, hp, hj⟩ := IH (k, v) (List.mem_cons_self _ _) hv' f
        ((if es.isEmpty then [] else [tok TokType.Comma]) ++ toksMembers es ++
          tok TokType.RightCurlyBracket :: rest) (by show 3 * v.toks.length + 1 ≤ f; omega)
      simp only [toksMembers, List.append_assoc, List.cons_append] at hp ⊢
      rw [htoks] at hp ⊢
      rw [List.cons_append] at hp ⊢
      rw [jobjectLoop_member f k hd _ m _ _ hke hcount hp]
      exact ⟨r, m, by simp [hj]⟩

/-- The parser on the tokens of a value that is not accepted: the node is invalid. -/
theorem parse_rejected (s : Syn) : s.accepted = false → ∀ fuel rest,
    3 * s.toks.length + 1 ≤ fuel →
    ∃ j r, JsonW.parse fuel JsonW.raw (s.toks ++ rest) = some (j, r) ∧ j.valid_ = false := by
  induction s using Syn.induction with
  | hs t ht => intro h; simp [Syn.accepted] at h
  | ha items IH =>
    intro h fuel rest hf
    simp only [Syn.toks, List.length_cons, List.length_append, List.length_nil] at hf
    obtain ⟨f, rfl⟩ : ∃ f, fuel = f + 2 := ⟨fuel - 2, by omega⟩
    obtain ⟨r, a, hl⟩ := jarrayLoop_rejected items IH (by simpa [Syn.accepted] using h) f rest []
      (by omega)
    simp only [Syn.toks, List.cons_append, List.append_assoc, List.singleton_append,
      List.nil_append]
    cases hti : toksItems items ++ tok TokType.RightSquareBracket :: rest with
    | nil => simp at hti
    | cons x xs =>
      rw [hti] at hl
      show ∃ j r, JsonW.parse (f + 1 + 1) _ _ = _ ∧ _
      rw [parse_array, jarray_enter, hl]
      exact ⟨_, _, rfl, rfl⟩
  | ho members IH =>
    intro h fuel rest hf
    simp only [Syn.toks, List.length_cons, List.length_append, List.length_nil] at hf
    obtain ⟨f, rfl⟩ : ∃ f, fuel = f + 2 := ⟨fuel - 2, by omega⟩
    obtain ⟨r, m', hl⟩ := jobjectLoop_rejected members IH [] []
      (by simpa [Syn.accepted] using h) (by simp) f rest (by omega)
    simp only [Syn.toks, List.cons_append, List.append_assoc, List.singleton_append,
      List.nil_append]
    cases hti : toksMembers members ++ tok TokType.RightCurlyBracket :: rest with
    | nil => simp at hti
    | cons x xs =>
      rw [hti] at hl
      show ∃ j r, JsonW.parse (f + 1 + 1) _ _ = _ ∧ _
      rw [parse_object, jobject_enter, hl]
      exact ⟨_, _, rfl, rfl⟩

theorem duplicateInMembers_of_accepted (members : List (List Nat × Syn))
    (IH : ∀ e ∈ members, e.2.accepted = true → e.2.hasDuplicateKey = false) :
    ∀ seen, acceptedMembers seen members = true → duplicateInMembers seen members = false := by
  induction members with
  | nil => intro seen _; rfl
  | cons e es ih =>
    obtain ⟨k, v⟩ := e
    intro seen h
    simp only [acceptedMembers, Bool.and_eq_true, Bool.not_eq_true'] at h
    obtain ⟨⟨⟨_, hnew⟩, hv⟩, hes⟩ := h
    have h1 := IH (k, v) (List.mem_cons_self _ _) hv
    have h2 := ih (fun x hx => IH x (List.mem_cons_of_mem _ hx)) (k :: seen) hes
    simp only [duplicateInMembers, hnew, h2, Bool.or_false, Bool.false_or]
    exact h1

/-- An accepted value lists no key twice in any of its objects. -/
theorem hasDuplicateKey_of_accepted (s : Syn) :
    s.accepted = true → s.hasDuplicateKey = false := by
  induction s using Syn.induction with
  | hs t ht => intro _; rfl
  | ha items IH =>
    intro h
    simp only [Syn.accepted] at h
    simp only [Syn.hasDuplicateKey]
    induction items with
    | nil => rfl
    | cons e es ih =>
      simp only [acceptedItems, Bool.and_eq_true, Bool.not_eq_true'] at h
      simp [duplicateInItems, IH e (List.mem_cons_self _ _) h.1.1,
        ih (fun x hx => IH x (List.mem_cons_of_mem _ hx)) h.2]
  | ho members IH =>
    intro h
    exact duplicateInMembers_of_accepted members IH [] (by simpa [Syn.accepted] using h)

/-! ### Decimal digits -/

theorem natDigits_acc (fuel : Nat) : ∀ n acc, n < fuel →
    natDigits fuel n acc = natDigits fuel n [] ++ acc := by
  induction fuel with
  | zero => intro n acc h; omega
  | succ f ih =>
    intro n acc h
    simp only [natDigits]
    split_ifs with h10
    · simp
    · rw [ih (n / 10) _ (by omega), ih (n / 10) [48 + n % 10] (by omega)]
      simp

theorem natDigits_fuel (fuel : Nat) : ∀ fuel' n acc, n < fuel → n < fuel' →
    natDigits fuel n acc = natDigits fuel' n acc := by
  induction fuel with
  | zero => intro _ n _ h; omega
  | succ f ih =>
    intro fuel' n acc h h'
    obtain ⟨f', rfl⟩ : ∃ f', fuel' = f' + 1 := ⟨fuel' - 1, by omega⟩
    simp only [natDigits]
    split_ifs with h10
    · rfl
    · exact ih f' (n / 10) _ (by omega) (by omega)

/-- The decimal digits of `n`. -/
theorem natDigits_small (n : Nat) (h : n < 10) : natDigits (n + 1) n [] = [48 + n] := by
  simp [natDigits, h]

theorem natDigits_step (n : Nat) (h : ¬ n < 10) :
    natDigits (n + 1) n [] = natDigits (n / 10 + 1) (n / 10) [] ++ [48 + n % 10] := by
  rw [natDigits]
  simp only [h, if_false]
  rw [natDigits_acc n (n / 10) _ (by omega)]
  rw [natDigits_fuel n (n / 10 + 1) (n / 10) [] (by omega) (by omega)]

theorem decValue_append (xs : List Nat) : ∀ acc d,
    decValue acc (xs ++ [d]) = decValue acc xs * 10 + (d - 48) := by
  induction xs with
  | nil => intro acc d; rfl
  | cons x xs ih => intro acc d; exact ih _ _

theorem decValue_natDigits (n : Nat) : decValue 0 (natDigits (n + 1) n []) = n := by
  induction n using Nat.strong_induction_on with
  | _ n ih =>
    by_cases h : n < 10
    · rw [natDigits_small n h]
      show 0 * 10 + (48 + n - 48) = n
      omega
    · rw [natDigits_step n h, decValue_append, ih (n / 10) (by omega)]
      omega

theorem natDigits_all_digits (n : Nat) : ∀ c ∈ natDigits (n + 1) n [], iswdigit c = true := by
  induction n using Nat.strong_induction_on with
  | _ n ih =>
    by_cases h : n < 10
    · rw [natDigits_small n h]
      intro c hc
      simp only [List.mem_singleton] at hc
      subst hc
      simp only [iswdigit, Bool.and_eq_true, decide_eq_true_eq]
      omega
    · rw [natDigits_step n h]
      intro c hc
      rcases List.mem_append.1 hc with hc | hc
      · exact ih (n / 10) (by omega) c hc
      · simp only [List.mem_singleton] at hc
        subst hc
        simp only [iswdigit, Bool.and_eq_true, decide_eq_true_eq]
        omega

/-- The first digit of a positive number is not zero. -/
theorem natDigits_head (n : Nat) (hn : 0 < n) :
    ∃ d ds, natDigits (n + 1) n [] = d :: ds ∧ 49 ≤ d ∧ d ≤ 57 := by
  induction n using Nat.strong_induction_on with
  | _ n ih =>
    by_cases h : n < 10
    · exact ⟨48 + n, [], natDigits_small n h, by omega, by omega⟩
    · obtain ⟨d, ds, hd, h1, h2⟩ := ih (n / 10) (by omega) (by omega)
      exact ⟨d, ds ++ [48 + n % 10], by rw [natDigits_step n h, hd]; rfl, h1, h2⟩

theorem takeWhile_all (p : Nat → Bool) (xs : List Nat) (h : ∀ c ∈ xs, p c = true) :
    xs.takeWhile p = xs := by
  induction xs with
  | nil => rfl
  | cons x xs ih =>
    simp only [List.takeWhile, h x (List.mem_cons_self _ _)]
    rw [ih (fun c hc => h c (List.mem_cons_of_mem _ hc))]

theorem iswdigit_iff (c : Nat) : iswdigit c = true ↔ 48 ≤ c ∧ c ≤ 57 := by
  simp [iswdigit]

theorem numberLoop_digits (ds : List Nat) : ∀ (buf : List Nat) (cd : Bool) (tail : List Nat),
    (∀ c ∈ ds, iswdigit c = true) → endsNumber tail = true →
    numberLoop buf cd (ds ++ tail) = .ok (buf ++ ds, cd, false, tail) := by
  induction ds with
  | nil =>
    intro buf cd tail _ ht
    cases tail with
    | nil => simp [numberLoop]
    | cons c rest =>
      simp only [endsNumber, Bool.not_eq_true', Bool.or_eq_false_iff] at ht
      obtain ⟨⟨⟨h1, h2⟩, h3⟩, _⟩ := ht
      simp [numberLoop, h1, h2, h3]
  | cons d ds ih =>
    intro buf cd tail hds ht
    have hd := hds d (List.mem_cons_self _ _)
    have hd' := (iswdigit_iff d).1 hd
    have h46 : (d == 46) = false := by simp; omega
    have h101 : (d == 101) = false := by simp; omega
    have h69 : (d == 69) = false := by simp; omega
    simp only [List.cons_append, numberLoop, hd, h46, h101, h69, Bool.or_false, Bool.false_and,
      Bool.or_self, if_true, Bool.false_eq_true, if_false]
    show numberLoop (buf ++ [d]) cd (ds ++ tail) = _
    rw [ih (buf ++ [d]) cd tail (fun c hc => hds c (List.mem_cons_of_mem _ hc)) ht]
    simp

theorem exponentPart_end (tail : List Nat) (ht : endsNumber tail = true) :
    exponentPart tail = .ok (false, 0, tail) := by
  cases tail with
  | nil => rfl
  | cons c rest =>
    simp only [endsNumber, Bool.not_eq_true', Bool.or_eq_false_iff] at ht
    obtain ⟨⟨⟨_, _⟩, h3⟩, h4⟩ := ht
    simp only [beq_eq_false_iff_ne, ne_eq] at h3 h4
    simp [exponentPart, h3, h4]

theorem getLastD_digit (ds : List Nat) (h : ∀ c ∈ ds, iswdigit c = true) (hne : ds ≠ []) :
    iswdigit (ds.getLastD 0) = true := by
  have : ds.getLastD 0 = ds.getLast hne := by
    rw [List.getLastD_eq_getLast?, List.getLast?_eq_getLast _ hne]; rfl
  rw [this]
  exact h _ (List.getLast_mem hne)

theorem stoll_digits (ds : List Nat) (h : ∀ c ∈ ds, iswdigit c = true)
    (hr : (decValue 0 ds : Int) ≤ 9223372036854775807) :
    stoll ds = some (decValue 0 ds : Int) := by
  have h45 : ds.head? ≠ some 45 := by
    cases ds with
    | nil => simp
    | cons d ds =>
      have := (iswdigit_iff d).1 (h d (List.mem_cons_self _ _))
      simp; omega
  simp only [stoll, beq_iff_eq, h45, if_false, takeWhile_all iswdigit ds h]
  rw [if_pos]
  constructor <;> omega

theorem stoll_minus_digits (ds : List Nat) (h : ∀ c ∈ ds, iswdigit c = true)
    (hr : (decValue 0 ds : Int) ≤ 9223372036854775808) :
    stoll (45 :: ds) = some (- (decValue 0 ds : Int)) := by
  simp only [stoll, List.head?_cons, beq_self_eq_true, if_true, List.tail_cons,
    takeWhile_all iswdigit ds h]
  rw [if_pos]
  constructor <;> omega

/-- The checks and the conversion after the loop, on a run of digits with or without
a minus sign in front. -/
theorem numberFinish_integer (env : FloatEnv) (numberstr : List Nat) (i : Int)
    (tail : List Nat) (ht : endsNumber tail = true) (hne : numberstr ≠ [])
    (hlast : iswdigit (numberstr.getLastD 0) = true) (h48 : numberstr.headD 0 ≠ 48)
    (hs : stoll numberstr = some i) :
    numberFinish env numberstr false false tail = (intTok i, tail) := by
  have hlen : numberstr.length ≠ 0 := by
    intro h; exact hne (List.length_eq_zero.1 h)
  have hlast' : iswdigit (numberstr.getLast?.getD 0) = true := by simpa using hlast
  have h48' : ¬ numberstr.head?.getD 0 = 48 := by simpa using h48
  simp [numberFinish, hlen, hlast', h48', exponentPart_end tail ht, hs, intTok]

/-- The number branch on the digits of a positive number. -/
theorem scanNumber_pos (env : FloatEnv) (n : Nat) (hn : 0 < n) (hr : n ≤ 9223372036854775807)
    (tail : List Nat) (ht : endsNumber tail = true) :
    scanNumber env (natDigits (n + 1) n [] ++ tail) = (intTok (n : Int), tail) := by
  obtain ⟨d, ds, hd, h1, h2⟩ := natDigits_head n hn
  have hall := natDigits_all_digits n
  have hval := decValue_natDigits n
  rw [hd] at hall hval ⊢
  have h45 : ¬ d = 45 := by omega
  have h48 : ¬ d = 48 := by omega
  have hloop := numberLoop_digits (d :: ds) [] false tail hall ht
  have hlast := getLastD_digit (d :: ds) hall (by simp)
  have hstoll : stoll (d :: ds) = some (n : Int) := by
    rw [stoll_digits (d :: ds) hall (by rw [hval]; omega), hval]
  simp only [List.cons_append, List.nil_append] at hloop
  simp only [scanNumber, List.cons_append, List.head?_cons, beq_iff_eq, Option.some.injEq, h45,
    h48, if_false, hloop]
  exact numberFinish_integer env (d :: ds) n tail ht (by simp) hlast (by simpa using h48) hstoll

/-- The number branch on a minus sign and the digits of a positive number. -/
theorem scanNumber_neg (env : FloatEnv) (n : Nat) (hn : 0 < n) (hr : n ≤ 9223372036854775808)
    (tail : List Nat) (ht : endsNumber tail = true) :
    scanNumber env (45 :: natDigits (n + 1) n [] ++ tail) = (intTok (- (n : Int)), tail) := by
  obtain ⟨d, ds, hd, h1, h2⟩ := natDigits_head n hn
  have hall := natDigits_all_digits n
  have hval := decValue_natDigits n
  rw [hd] at hall hval ⊢
  have h48 : ¬ d = 48 := by omega
  have hloop := numberLoop_digits (d :: ds) [45] false tail hall ht
  have hlast : iswdigit ((45 :: d :: ds).getLastD 0) = true := by
    have := getLastD_digit (d :: ds) hall (by simp)
    simpa [List.getLastD] using this
  have hstoll : stoll (45 :: d :: ds) = some (- (n : Int)) := by
    rw [stoll_minus_digits (d :: ds) hall (by rw [hval]; omega), hval]
  simp only [List.cons_append] at hloop
  simp only [scanNumber, List.cons_append, List.head?_cons, beq_self_eq_true, if_true,
    List.tail_cons, beq_iff_eq, Option.some.injEq, h48, if_false, hloop]
  exact numberFinish_integer env (45 :: d :: ds) _ tail ht (by simp) hlast (by simp) hstoll

/-- The number branch on a lone zero. -/
theorem scanNumber_zero (env : FloatEnv) (tail : List Nat) (ht : endsNumber tail = true) :
    scanNumber env (48 :: tail) = (intTok 0, tail) := by
  have h46 : tail.head? ≠ some 46 := by
    cases tail with
    | nil => simp
    | cons c rest =>
      simp only [endsNumber, Bool.not_eq_true', Bool.or_eq_false_iff] at ht
      obtain ⟨⟨⟨_, h2⟩, _⟩, _⟩ := ht
      simpa using h2
  simp [scanNumber, h46, intTok]

/-- The scanner reads the decimal form of a 64-bit integer back as its Integer token,
up to the text that follows. -/
theorem scan_integer (env : FloatEnv) (i : Int) (h1 : -9223372036854775808 ≤ i)
    (h2 : i ≤ 9223372036854775807) (tail : List Nat) (ht : endsNumber tail = true) :
    JsonTokenW.scan env (to_wstring i ++ tail) = (intTok i, tail) ∧
    findnext (to_wstring i ++ tail) = some (to_wstring i ++ tail) := by
  rcases lt_trichotomy i 0 with hneg | hzero | hpos
  · have hn : 0 < i.natAbs := by omega
    have hi : i = - (i.natAbs : Int) := by omega
    obtain ⟨d, ds, hd, hd1, hd2⟩ := natDigits_head i.natAbs hn
    have hs := scanNumber_neg env i.natAbs hn (by omega) tail ht
    rw [← hi] at hs
    simp only [to_wstring, hneg, if_true, List.cons_append] at hs ⊢
    constructor
    · simp only [JsonTokenW.scan]
      simpa [iswdigit] using hs
    · simp [findnext, isskippable, iswdigit]
  · subst hzero
    have hs := scanNumber_zero env tail ht
    have : to_wstring 0 = [48] := rfl
    rw [this]
    constructor
    · simp only [JsonTokenW.scan, List.cons_append, List.nil_append]
      simpa [iswdigit] using hs
    · simp [findnext, isskippable, iswdigit]
  · have hn : 0 < i.natAbs := by omega
    have hi : i = (i.natAbs : Int) := by omega
    obtain ⟨d, ds, hd, hd1, hd2⟩ := natDigits_head i.natAbs hn
    have hs := scanNumber_pos env i.natAbs hn (by omega) tail ht
    rw [← hi] at hs
    have hnn : ¬ i < 0 := by omega
    simp only [to_wstring, hnn, if_false] at hs ⊢
    rw [hd] at hs ⊢
    have hdig : iswdigit d = true := (iswdigit_iff d).2 ⟨by omega, hd2⟩
    have e1 : ¬ d = 123 := by omega
    have e2 : ¬ d = 125 := by omega
    have e3 : ¬ d = 91 := by omega
    have e4 : ¬ d = 93 := by omega
    have e5 : ¬ d = 58 := by omega
    have e6 : ¬ d = 44 := by omega
    have e7 : ¬ d = 32 := by omega
    have e8 : ¬ d = 13 := by omega
    have e9 : ¬ d = 10 := by omega
    have e10 : ¬ d = 9 := by omega
    constructor
    · simp only [JsonTokenW.scan, List.cons_append, beq_iff_eq, e1, e2, e3, e4, e5, e6, if_false,
        hdig, Bool.true_or, if_true]
      simpa using hs
    · simp [findnext, isskippable, hdig, e1, e2, e3, e4, e5, e6, e7, e8, e9, e10]

/-! ### Strings -/

/-- The string loop on the character after a backslash, other than `u`. -/
theorem stringLoop_escape (buf : List Nat) (c : Nat) (rest : List Nat) (h : c ≠ 117) :
    stringLoop true buf (c :: rest) =
      stringLoop false
        (if c == 34 then buf ++ [34]
        else if c == 92 then buf ++ [92]
        else if c == 47 then buf ++ [47]
        else if c == 98 then buf ++ [8]
        else if c == 102 then buf ++ [12]
        else if c == 110 then buf ++ [10]
        else if c == 114 then buf ++ [13]
        else if c == 116 then buf ++ [9]
        else buf) rest := by
  rw [stringLoop.eq_def]
  simp [h]

/-- The string loop on a backslash. -/
theorem stringLoop_backslash (buf rest : List Nat) :
    stringLoop false buf (92 :: rest) = stringLoop true buf rest := by
  rw [stringLoop.eq_def]
  simp

/-- The string loop reads the serializer's rendering of `w` back, up to the closing
quote. -/
theorem stringLoop_chars (w : List Nat) : ∀ (buf tail : List Nat),
    stringLoop false buf (wss_json_chars w ++ 34 :: tail) = (strTok (buf ++ w), tail) := by
  induction w with
  | nil =>
    intro buf tail
    simp [wss_json_chars, stringLoop, strTok]
  | cons c w ih =>
    intro buf tail
    have key : stringLoop false buf (wss_json_char c ++ (wss_json_chars w ++ 34 :: tail)) =
        stringLoop false (buf ++ [c]) (wss_json_chars w ++ 34 :: tail) := by
      unfold wss_json_char
      split_ifs with h1 h2 h3 h4 h5 h6 h7 h8
      all_goals simp only [beq_iff_eq] at *
      · subst h1; simp [stringLoop_backslash, stringLoop_escape]
      · subst h2; simp [stringLoop_backslash, stringLoop_escape]
      · subst h3; simp [stringLoop_backslash, stringLoop_escape]
      · subst h4; simp [stringLoop_backslash, stringLoop_escape]
      · subst h5; simp [stringLoop_backslash, stringLoop_escape]
      · subst h6; simp [stringLoop_backslash, stringLoop_escape]
      · subst h7; simp [stringLoop_backslash, stringLoop_escape]
      · subst h8; simp [stringLoop_backslash, stringLoop_escape]
      · rw [stringLoop.eq_def]
        simp [h1, h2, h6, h7]
    simp only [wss_json_chars, List.append_assoc]
    rw [key, ih]
    simp

theorem scan_string (env : FloatEnv) (w tail : List Nat) :
    JsonTokenW.scan env (wss_json_string w ++ tail) = (strTok w, tail) ∧
    findnext (wss_json_string w ++ tail) = some (wss_json_string w ++ tail) := by
  constructor
  · have := stringLoop_chars w [] tail
    simp only [wss_json_string, List.append_assoc, List.cons_append, List.nil_append,
      List.singleton_append] at this ⊢
    simpa [JsonTokenW.scan, iswdigit] using this
  · simp [wss_json_string, findnext, isskippable, iswdigit]

theorem scan_keyword_true (env : FloatEnv) (tail : List Nat) :
    JsonTokenW.scan env (116 :: 114 :: 117 :: 101 :: tail) = (boolTok true, tail) := by
  simp [JsonTokenW.scan, iswdigit, expect, boolTok]

theorem scan_keyword_false (env : FloatEnv) (tail : List Nat) :
    JsonTokenW.scan env (102 :: 97 :: 108 :: 115 :: 101 :: tail) = (boolTok false, tail) := by
  simp [JsonTokenW.scan, iswdigit, expect, boolTok]

theorem scan_keyword_null (env : FloatEnv) (tail : List Nat) :
    JsonTokenW.scan env (110 :: 117 :: 108 :: 108 :: tail) = (tok TokType.Null, tail) := by
  simp [JsonTokenW.scan, iswdigit, expect, tok]

/-! ### Floating-point literals -/

theorem head_eq_cons (s : List Nat) (c : Nat) (h : s.head? = some c) : s = c :: s.tail := by
  cases s with
  | nil => cases h
  | cons a t => simp at h; simp [h]

theorem scanNumber_zero_frac (env : FloatEnv) (neg : Bool) (b : List Nat) :
    scanNumber env ((if neg then [45] else []) ++ 48 :: 46 :: b) =
      match numberLoop ((if neg then [45] else []) ++ [48, 46]) true b with
      | .error ins => ({}, ins)
      | .ok (numberstr, containdot, containexp, ins) =>
        numberFinish env numberstr containdot containexp ins := by
  cases neg <;> simp [scanNumber]

theorem scanNumber_nonzero (env : FloatEnv) (neg : Bool) (a : List Nat)
    (h45 : neg = false → a.head? ≠ some 45) (h48 : a.head? ≠ some 48) :
    scanNumber env ((if neg then [45] else []) ++ a) =
      match numberLoop (if neg then [45] else []) false a with
      | .error ins => ({}, ins)
      | .ok (numberstr, containdot, containexp, ins) =>
        numberFinish env numberstr containdot containexp ins := by
  cases neg with
  | true => simp [scanNumber, h48]
  | false =>
    have := h45 rfl
    simp [scanNumber, h48, this]

theorem numberLoop_run (ds : List Nat) : ∀ (buf : List Nat) (cd : Bool) (rest : List Nat),
    (∀ c ∈ ds, iswdigit c = true) →
    numberLoop buf cd (ds ++ rest) = numberLoop (buf ++ ds) cd rest := by
  induction ds with
  | nil => intro buf cd rest _; simp
  | cons d ds ih =>
    intro buf cd rest hds
    have hd := hds d (List.mem_cons_self _ _)
    have hd' := (iswdigit_iff d).1 hd
    have h46 : (d == 46) = false := by simp; omega
    have h101 : (d == 101) = false := by simp; omega
    have h69 : (d == 69) = false := by simp; omega
    simp only [List.cons_append, numberLoop, hd, h46, h101, h69, Bool.or_false, Bool.false_and,
      Bool.or_self, if_true, Bool.false_eq_true, if_false]
    show numberLoop (buf ++ [d]) cd (ds ++ rest) = _
    rw [ih (buf ++ [d]) cd rest (fun c hc => hds c (List.mem_cons_of_mem _ hc))]
    simp

theorem numberLoop_point (buf rest : List Nat) (h0 : buf ≠ [])
    (h1 : buf.length = 1 → iswdigit (buf.headD 0) = true) :
    numberLoop buf false (46 :: rest) = numberLoop (buf ++ [46]) true rest := by
  have hl : (buf.length == 0) = false := by
    cases buf with
    | nil => exact absurd rfl h0
    | cons _ _ => rfl
  have h2 : (buf.length == 1 && !iswdigit (buf.headD 0)) = false := by
    by_cases e : buf.length = 1
    · rw [h1 e]
      simp
    · have : (buf.length == 1) = false := by simpa using e
      rw [this]
      rfl
  have hc : (iswdigit 46 || (46 : Nat) == 46 || (46 : Nat) == 101) = true := by decide
  have he : ((46 : Nat) == 101 || (46 : Nat) == 69) = false := by decide
  simp only [numberLoop, hc, he, if_true, beq_self_eq_true, Bool.true_and, Bool.false_or, hl,
    h2, Bool.false_eq_true, if_false, Bool.or_true, Bool.true_or]

/-- The shape of a floating-point literal. -/
theorem floatLiteral_form (s : List Nat) (h : floatLiteral s = true) :
    ∃ (neg : Bool) (ip fp : List Nat), s = (if neg then [45] else []) ++ ip ++ 46 :: fp ∧
      (∀ c ∈ ip, iswdigit c = true) ∧ (∀ c ∈ fp, iswdigit c = true) ∧ fp ≠ [] ∧
      (ip = [48] ∨ (ip ≠ [] ∧ ip.head? ≠ some 48)) := by
  unfold floatLiteral at h
  simp only [Bool.and_eq_true, Bool.or_eq_true, beq_iff_eq, Bool.not_eq_true',
    List.isEmpty_eq_false, bne_iff_ne, ne_eq, List.all_eq_true] at h
  obtain ⟨⟨⟨hip, hr⟩, hne⟩, hfp⟩ := h
  generalize ha : (if s.head? = some 45 then s.tail else s) = a at hip hr hne hfp
  have hs : s = (if s.head? = some 45 then [45] else []) ++ a := by
    by_cases e : s.head? = some 45
    · rw [if_pos e] at ha ⊢
      rw [← ha]
      exact head_eq_cons s 45 e
    · rw [if_neg e] at ha ⊢
      rw [← ha]
      rfl
  have hsplit := List.takeWhile_append_dropWhile iswdigit a
  have hr' := head_eq_cons _ 46 hr
  refine ⟨decide (s.head? = some 45), a.takeWhile iswdigit, (a.dropWhile iswdigit).tail,
    ?_, ?_, hfp, ?_, ?_⟩
  · rw [List.append_assoc, ← hr', hsplit]
    by_cases e : s.head? = some 45
    · simpa [e] using hs
    · simpa [e] using hs
  · intro c hc
    exact (List.mem_takeWhile_imp hc)
  · intro e
    rw [e] at hne
    exact hne rfl
  · rcases hip with e | e
    · exact Or.inl e
    · exact Or.inr ⟨e.1, e.2⟩

theorem numberFinish_float (env : FloatEnv) (ns fp tail : List Nat)
    (hfp : ∀ c ∈ fp, iswdigit c = true) (hne : fp ≠ []) (hth : env.stoldThrows (ns ++ fp) = false)
    (hend : endsNumber tail = true) :
    numberFinish env (ns ++ fp) true false tail = (floatTok (LongDouble.stold (ns ++ fp)), tail) := by
  have hlast : iswdigit ((ns ++ fp).getLastD 0) = true := by
    have : (ns ++ fp).getLastD 0 = fp.getLastD 0 := by
      rw [List.getLastD_eq_getLast?, List.getLastD_eq_getLast?, List.getLast?_append_of_ne_nil _ hne]
    rw [this]
    exact getLastD_digit fp hfp hne
  have hlen : ((ns ++ fp).length == 0) = false := by
    cases fp with
    | nil => exact absurd rfl hne
    | cons _ _ => simp
  simp only [numberFinish, hlen, hlast, Bool.not_true, Bool.or_self, Bool.false_eq_true, if_false,
    Bool.false_and, exponentPart_end tail hend, hth, if_true]
  rfl

/-- The scanner reads a floating-point literal without exponent as the NumberFloat token
with `std::stold` of the literal, when `std::stold` does not throw and the text that
follows lets the number end. -/
theorem scan_float (env : FloatEnv) (s tail : List Nat) (hs : floatLiteral s = true)
    (hth : env.stoldThrows s = false) (hend : endsNumber tail = true) :
    JsonTokenW.scan env (s ++ tail) = (floatTok (LongDouble.stold s), tail) ∧
    findnext (s ++ tail) = some (s ++ tail) := by
  obtain ⟨neg, ip, fp, rfl, hip, hfp, hne, hform⟩ := floatLiteral_form s hs
  have hipne : ip ≠ [] := by
    rcases hform with e | e
    · rw [e]; simp
    · exact e.1
  obtain ⟨d, ds, rfl⟩ : ∃ d ds, ip = d :: ds := by
    cases ip with
    | nil => exact absurd rfl hipne
    | cons d ds => exact ⟨d, ds, rfl⟩
  have hd := hip d (List.mem_cons_self _ _)
  have hd' := (iswdigit_iff d).1 hd
  have hnum : scanNumber env ((if neg then [45] else []) ++ (d :: ds) ++ 46 :: fp ++ tail) =
      (floatTok (LongDouble.stold ((if neg then [45] else []) ++ (d :: ds) ++ 46 :: fp)), tail) := by
    rcases hform with e | ⟨_, e⟩
    · -- the integer part is the single zero
      simp only [List.cons.injEq] at e
      obtain ⟨rfl, rfl⟩ := e
      have h1 : (if neg then [45] else []) ++ [48] ++ 46 :: fp ++ tail =
          (if neg then [45] else []) ++ 48 :: 46 :: (fp ++ tail) := by simp
      rw [h1, scanNumber_zero_frac env neg (fp ++ tail),
        numberLoop_digits fp _ true tail hfp hend]
      simp only
      have h2 : (if neg then [45] else []) ++ [48] ++ 46 :: fp =
          ((if neg then [45] else []) ++ [48, 46]) ++ fp := by simp
      rw [h2] at hth ⊢
      exact numberFinish_float env _ fp tail hfp hne hth hend
    · -- the integer part starts with a digit from 1 to 9
      have h48 : (d :: ds).head? ≠ some 48 := e
      have h45 : neg = false → (d :: ds ++ 46 :: fp ++ tail).head? ≠ some 45 := by
        intro _
        simp only [List.cons_append, List.head?_cons, ne_eq, Option.some.injEq]
        omega
      have h48' : (d :: ds ++ 46 :: fp ++ tail).head? ≠ some 48 := by
        simpa using h48
      have h1 : (if neg then [45] else []) ++ (d :: ds) ++ 46 :: fp ++ tail =
          (if neg then [45] else []) ++ (d :: ds ++ 46 :: fp ++ tail) := by simp
      rw [h1, scanNumber_nonzero env neg _ h45 h48']
      have h3 : d :: ds ++ 46 :: fp ++ tail = (d :: ds) ++ (46 :: (fp ++ tail)) := by simp
      rw [h3, numberLoop_run (d :: ds) _ false _ hip,
        numberLoop_point _ _ (by cases neg <;> simp) (by
          cases neg
          · intro _
            simpa using hd
          · intro hl
            simp at hl),
        numberLoop_digits fp _ true tail hfp hend]
      simp only
      have h2 : (if neg then [45] else []) ++ (d :: ds) ++ 46 :: fp =
          ((if neg then [45] else []) ++ (d :: ds) ++ [46]) ++ fp := by simp
      rw [h2] at hth ⊢
      exact numberFinish_float env _ fp tail hfp hne hth hend
  constructor
  · rw [← hnum]
    cases neg
    · have hc : ∀ k : Nat, k < 48 ∨ 57 < k → (d == k) = false := by
        intro k hk
        simp only [beq_eq_false_iff_ne, ne_eq]
        omega
      simp only [Bool.false_eq_true, if_false, List.nil_append, List.cons_append,
        JsonTokenW.scan, hc 123 (by omega), hc 125 (by omega), hc 91 (by omega),
        hc 93 (by omega), hc 58 (by omega), hc 44 (by omega), hd, Bool.true_or, if_true]
    · simp [JsonTokenW.scan, iswdigit]
  · cases neg
    · have hsk : isskippable d = false := by
        simp only [isskippable, Bool.or_eq_false_iff, beq_eq_false_iff_ne, ne_eq]
        omega
      simp [findnext, hsk, hd]
    · simp [findnext, isskippable, iswdigit]

/-- The scanner reads the lexeme of a canonical or punctuation token back as the
token. -/
theorem scan_lexeme (env : FloatEnv) (t : JsonTokenW) (tail : List Nat)
    (ht : (canonicalTok env t || isPunctTok t) = true)
    (hn : ((t.type_ != TokType.NumberInteger && t.type_ != TokType.NumberFloat) ||
      endsNumber tail) = true) :
    JsonTokenW.scan env (lexeme env t ++ tail) = (t, tail) ∧
    findnext (lexeme env t ++ tail) = some (lexeme env t ++ tail) ∧
    t.type_ ≠ TokType.Bad := by
  simp only [canonicalTok, isPunctTok, Bool.or_eq_true, Bool.and_eq_true, beq_iff_eq,
    decide_eq_true_eq] at ht
  rcases ht with ((((⟨⟨h, h1⟩, h2⟩ | hfl) | h) | h) | h) | (((((h | h) | h) | h) | h) | h)
  · -- Integer
    have hty : t.type_ = TokType.NumberInteger := by rw [h]; rfl
    have hend : endsNumber tail = true := by simpa [hty] using hn
    have hlex : lexeme env t = to_wstring t.integer_ := by simp [lexeme, hty]
    obtain ⟨hs, hf⟩ := scan_integer env t.integer_ h1 h2 tail hend
    rw [hlex, hs, hf, ← h]
    exact ⟨rfl, rfl, by simp [hty]⟩
  · -- Float
    unfold canonicalFloat at hfl
    cases hx : t.frac_ with
    | stold s =>
      rw [hx] at hfl
      simp only [Bool.and_eq_true, beq_iff_eq, Bool.not_eq_true'] at hfl
      obtain ⟨⟨⟨h, hlit⟩, hth⟩, hprint⟩ := hfl
      have hty : t.type_ = TokType.NumberFloat := by rw [h]; rfl
      have hend : endsNumber tail = true := by simpa [hty] using hn
      have hlex : lexeme env t = s := by simp [lexeme, hty, hx, hprint]
      obtain ⟨hs, hf⟩ := scan_float env s tail hlit hth hend
      rw [hlex, hs, hf, ← h]
      exact ⟨rfl, rfl, by simp [hty]⟩
    | zero => rw [hx] at hfl; cases hfl
    | ofInteger i => rw [hx] at hfl; cases hfl
    | mulPow10 x e => rw [hx] at hfl; cases hfl
  · -- String
    have hty : t.type_ = TokType.String := by rw [h]; rfl
    have hlex : lexeme env t = wss_json_string t.wstring_ := by simp [lexeme, hty]
    obtain ⟨hs, hf⟩ := scan_string env t.wstring_ tail
    rw [hlex, hs, hf, ← h]
    exact ⟨rfl, rfl, by simp [hty]⟩
  · -- Boolean
    have hty : t.type_ = TokType.Boolean := by rw [h]; rfl
    cases hb : t.boolean_
    · have hlex : lexeme env t = [102, 97, 108, 115, 101] := by simp [lexeme, hty, hb]
      rw [hlex]
      refine ⟨?_, ?_, by simp [hty]⟩
      · rw [h, hb]; exact scan_keyword_false env tail
      · simp [findnext, isskippable, iswdigit]
    · have hlex : lexeme env t = [116, 114, 117, 101] := by simp [lexeme, hty, hb]
      rw [hlex]
      refine ⟨?_, ?_, by simp [hty]⟩
      · rw [h, hb]; exact scan_keyword_true env tail
      · simp [findnext, isskippable, iswdigit]
  · subst h
    exact ⟨scan_keyword_null env tail, by simp [lexeme, tok, findnext, isskippable, iswdigit],
      by simp [tok]⟩
  all_goals
    subst h
    refine ⟨?_, ?_, by simp [tok]⟩
    · simp [lexeme, tok, JsonTokenW.scan]
    · simp [lexeme, tok, findnext, isskippable, iswdigit]

/-- The scan loop reads the text of a scannable token sequence back, token by token. -/
theorem scanLoop_text (env : FloatEnv) (ts : List JsonTokenW) : ∀ (tail : List Nat)
    (fuel : Nat) (acc : List JsonTokenW), scannable env ts tail = true →
    scanLoop env (fuel + ts.length) (findnext (textOf env ts ++ tail)) acc =
      scanLoop env fuel (findnext tail) (acc ++ ts) := by
  induction ts with
  | nil => intro tail fuel acc _; simp [textOf]
  | cons t ts ih =>
    intro tail fuel acc h
    simp only [scannable, Bool.and_eq_true] at h
    obtain ⟨⟨ht, hn⟩, hrest⟩ := h
    obtain ⟨hs, hf, hbad⟩ := scan_lexeme env t (textOf env ts ++ tail) ht hn
    simp only [textOf, List.append_assoc, List.length_cons]
    rw [hf]
    show scanLoop env ((fuel + ts.length) + 1) _ _ = _
    simp only [scanLoop, hs]
    have : (t.type_ == TokType.Bad) = false := by simpa using hbad
    simp only [this, Bool.false_eq_true, if_false]
    rw [ih tail fuel (acc ++ [t]) hrest]
    simp

theorem lexeme_length_pos (env : FloatEnv) (t : JsonTokenW)
    (ht : (canonicalTok env t || isPunctTok t) = true) : 0 < (lexeme env t).length := by
  obtain ⟨_, hf, _⟩ := scan_lexeme env t [] ht (by
    simp only [Bool.or_eq_true, bne_iff_ne, ne_eq]
    right; rfl)
  by_contra hlen
  have : lexeme env t = [] := List.length_eq_zero.1 (by omega)
  rw [this] at hf
  simp [findnext] at hf

theorem length_le_text (env : FloatEnv) (ts : List JsonTokenW) : ∀ tail,
    scannable env ts tail = true → ts.length ≤ (textOf env ts).length := by
  induction ts with
  | nil => intro _ _; simp
  | cons t ts ih =>
    intro tail h
    simp only [scannable, Bool.and_eq_true] at h
    have := lexeme_length_pos env t h.1.1
    have := ih tail h.2
    simp only [textOf, List.length_cons, List.length_append]
    omega

/-- The static function `JsonTokenW::parse` on the text of a scannable token
sequence returns true with exactly that sequence. -/
theorem tokenize_text (env : FloatEnv) (ts : List JsonTokenW)
    (h : scannable env ts [] = true) :
    JsonTokenW.parse env (textOf env ts) = some (true, ts) := by
  have hlen := length_le_text env ts [] h
  have := scanLoop_text env ts [] ((textOf env ts).length + 1 - ts.length) [] h
  simp only [List.append_nil, List.nil_append] at this
  unfold JsonTokenW.parse
  have e : (textOf env ts).length + 1 - ts.length + ts.length = (textOf env ts).length + 1 := by
    omega
  rw [e] at this
  rw [this]
  simp [findnext, scanLoop]

theorem textOf_append (env : FloatEnv) (a b : List JsonTokenW) :
    textOf env (a ++ b) = textOf env a ++ textOf env b := by
  induction a with
  | nil => rfl
  | cons t a ih => simp [textOf, ih]

theorem scannable_append (env : FloatEnv) (a b : List JsonTokenW) (tail : List Nat) :
    scannable env (a ++ b) tail =
      (scannable env a (textOf env b ++ tail) && scannable env b tail) := by
  induction a with
  | nil => simp [scannable]
  | cons t a ih =>
    show ((canonicalTok env t || isPunctTok t) &&
        ((t.type_ != TokType.NumberInteger && t.type_ != TokType.NumberFloat) ||
          endsNumber (textOf env (a ++ b) ++ tail)) &&
        scannable env (a ++ b) tail) = _
    rw [ih, textOf_append]
    simp only [scannable, List.append_assoc, Bool.and_assoc]

/-- A punctuation token is scannable whatever follows. -/
theorem scannable_punct (env : FloatEnv) (ty : TokType) (tail : List Nat)
    (h : isPunctTok (tok ty) = true) : scannable env [tok ty] tail = true := by
  have hty : (tok ty).type_ ≠ TokType.NumberInteger := by
    intro hh
    have : ty = TokType.NumberInteger := hh
    subst this
    simp [isPunctTok, tok] at h
  have hty' : (tok ty).type_ ≠ TokType.NumberFloat := by
    intro hh
    have : ty = TokType.NumberFloat := hh
    subst this
    simp [isPunctTok, tok] at h
  simp [scannable, h, hty, hty']

theorem scannable_items (env : FloatEnv) (items : List Syn)
    (IH : ∀ e ∈ items, e.canonical env = true → ∀ tail, endsNumber tail = true →
      scannable env e.toks tail = true) :
    canonicalItems env items = true → ∀ tail,
      scannable env (toksItems items) (93 :: tail) = true := by
  induction items with
  | nil => intro _ tail; rfl
  | cons e es ih =>
    intro h tail
    simp only [canonicalItems, Bool.and_eq_true, Bool.not_eq_true'] at h
    obtain ⟨⟨he, _⟩, hes⟩ := h
    have ih' := ih (fun x hx => IH x (List.mem_cons_of_mem _ hx)) hes tail
    simp only [toksItems, scannable_append, Bool.and_eq_true]
    refine ⟨?_, ?_, ih'⟩
    · apply IH e (List.mem_cons_self _ _) he
      cases es with
      | nil => simp [textOf, endsNumber, iswdigit]
      | cons e' es' => simp [textOf, lexeme, tok, endsNumber, iswdigit]
    · cases es with
      | nil => simp [scannable]
      | cons e' es' =>
        simp only [List.isEmpty_cons, Bool.false_eq_true, if_false]
        exact scannable_punct env _ _ (by simp [isPunctTok])

theorem scannable_members (env : FloatEnv) (members : List (List Nat × Syn))
    (IH : ∀ m ∈ members, m.2.canonical env = true → ∀ tail, endsNumber tail = true →
      scannable env m.2.toks tail = true) :
    canonicalMembers env members = true → ∀ tail,
      scannable env (toksMembers members) (125 :: tail) = true := by
  induction members with
  | nil => intro _ tail; rfl
  | cons m ms ih =>
    obtain ⟨k, v⟩ := m
    intro h tail
    simp only [canonicalMembers, Bool.and_eq_true, Bool.not_eq_true'] at h
    obtain ⟨⟨_, hv⟩, hms⟩ := h
    have ih' := ih (fun x hx => IH x (List.mem_cons_of_mem _ hx)) hms tail
    have hk : scannable env [strTok k] (textOf env (tok TokType.Colon :: (v.toks ++
        ((if ms.isEmpty then [] else [tok TokType.Comma]) ++ toksMembers ms))) ++
        125 :: tail) = true := by
      simp [scannable, canonicalTok, strTok]
    have hc : scannable env [tok TokType.Colon] (textOf env (v.toks ++
        ((if ms.isEmpty then [] else [tok TokType.Comma]) ++ toksMembers ms)) ++
        125 :: tail) = true := scannable_punct env _ _ (by simp [isPunctTok])
    have hv' : scannable env v.toks (textOf env
        ((if ms.isEmpty then [] else [tok TokType.Comma]) ++ toksMembers ms) ++
        125 :: tail) = true := by
      apply IH (k, v) (List.mem_cons_self _ _) hv
      cases ms with
      | nil => simp [textOf, endsNumber, iswdigit]
      | cons e' es' => simp [textOf, lexeme, tok, endsNumber, iswdigit]
    have hsep : scannable env (if ms.isEmpty then [] else [tok TokType.Comma])
        (textOf env (toksMembers ms) ++ 125 :: tail) = true := by
      cases ms with
      | nil => simp [scannable]
      | cons e' es' =>
        simp only [List.isEmpty_cons, Bool.false_eq_true, if_false]
        exact scannable_punct env _ _ (by simp [isPunctTok])
    have e1 : toksMembers ((k, v) :: ms) = [strTok k] ++ ([tok TokType.Colon] ++ (v.toks ++
        ((if ms.isEmpty then [] else [tok TokType.Comma]) ++ toksMembers ms))) := by
      simp [toksMembers]
    rw [e1]
    simp only [scannable_append, Bool.and_eq_true]
    simp only [List.singleton_append] at hk hc ⊢
    exact ⟨hk, hc, hv', hsep, ih'⟩

/-- The tokens of a canonical value are scannable before any text that lets a number
end. -/
theorem scannable_toks (env : FloatEnv) (s : Syn) : s.canonical env = true →
    ∀ tail, endsNumber tail = true → scannable env s.toks tail = true := by
  induction s using Syn.induction with
  | hs t ht =>
    intro h tail htail
    simp only [Syn.canonical] at h
    simp [Syn.toks, scannable, h, htail, textOf]
  | ha items IH =>
    intro h tail _
    simp only [Syn.canonical] at h
    have hi := scannable_items env items IH h tail
    have e1 : (Syn.arr items).toks = [tok TokType.LeftSquareBracket] ++
        (toksItems items ++ [tok TokType.RightSquareBracket]) := by simp [Syn.toks]
    rw [e1]
    simp only [scannable_append, Bool.and_eq_true]
    refine ⟨scannable_punct env _ _ (by simp [isPunctTok]), ?_,
      scannable_punct env _ _ (by simp [isPunctTok])⟩
    simpa [textOf, lexeme, tok] using hi
  | ho members IH =>
    intro h tail _
    simp only [Syn.canonical, Bool.and_eq_true] at h
    have hi := scannable_members env members IH h.2 tail
    have e1 : (Syn.obj members).toks = [tok TokType.LeftCurlyBracket] ++
        (toksMembers members ++ [tok TokType.RightCurlyBracket]) := by simp [Syn.toks]
    rw [e1]
    simp only [scannable_append, Bool.and_eq_true]
    refine ⟨scannable_punct env _ _ (by simp [isPunctTok]), ?_,
      scannable_punct env _ _ (by simp [isPunctTok])⟩
    simpa [textOf, lexeme, tok] using hi

/-! ### Ascending keys -/

theorem ascending_tail (k : List Nat) (ks : List (List Nat)) (h : ascending (k :: ks) = true) :
    ascending ks = true := by
  cases ks with
  | nil => rfl
  | cons k' ks => simp only [ascending, Bool.and_eq_true] at h; exact h.2

theorem ascending_head_lt (ks : List (List Nat)) : ∀ k, ascending (k :: ks) = true →
    ∀ k' ∈ ks, k < k' := by
  induction ks with
  | nil => intro k _ k' hk'; cases hk'
  | cons k1 ks ih =>
    intro k h k' hk'
    simp only [ascending, Bool.and_eq_true, decide_eq_true_eq] at h
    rcases List.mem_cons.1 hk' with rfl | hmem
    · exact h.1
    · exact lt_trans h.1 (ih k1 h.2 k' hmem)

theorem MapW.set_append {α : Type} (m : List (List Nat × α)) (key : List Nat) (value : α)
    (h : ∀ e ∈ m, e.1 < key) : MapW.set m key value = m ++ [(key, value)] := by
  induction m with
  | nil => rfl
  | cons e m ih =>
    obtain ⟨k, v⟩ := e
    have hk : k < key := h (k, v) (List.mem_cons_self _ _)
    have h1 : ¬ key < k := lt_asymm hk
    have h2 : ¬ key = k := fun hh => (ne_of_lt hk) hh.symm
    simp only [MapW.set, h1, h2, if_false, List.cons_append]
    rw [ih (fun e he => h e (List.mem_cons_of_mem _ he))]

/-- Members listed in ascending key order are stored in the order listed. -/
theorem buildMembers_ascending (members : List (List Nat × Syn)) :
    ∀ m : List (List Nat × Option JsonW), ascending (members.map Prod.fst) = true →
    (∀ e ∈ m, ∀ k ∈ members.map Prod.fst, e.1 < k) →
    buildMembers m members = m ++ members.map (fun e => (e.1, some e.2.build)) := by
  induction members with
  | nil => intro m _ _; simp [buildMembers]
  | cons e es ih =>
    obtain ⟨k, v⟩ := e
    intro m hasc hlt
    simp only [List.map_cons] at hasc hlt
    have hset := MapW.set_append m k (some v.build)
      (fun e he => hlt e he k (List.mem_cons_self _ _))
    simp only [buildMembers, hset]
    rw [ih (m ++ [(k, some v.build)]) (ascending_tail _ _ hasc)]
    · simp
    · intro e he k' hk'
      rcases List.mem_append.1 he with he | he
      · exact hlt e he k' (List.mem_cons_of_mem _ hk')
      · simp only [List.mem_singleton] at he
        subst he
        exact ascending_head_lt _ k hasc k' hk'

/-! ### Canonical values are accepted -/

theorem acceptedMembers_of_canonical (env : FloatEnv) (members : List (List Nat × Syn))
    (IH : ∀ m ∈ members, m.2.canonical env = true → m.2.accepted = true) :
    ∀ seen, canonicalMembers env members = true → ascending (members.map Prod.fst) = true →
      (∀ k' ∈ seen, ∀ k ∈ members.map Prod.fst, k' < k) →
      acceptedMembers seen members = true := by
  induction members with
  | nil => intro _ _ _ _; rfl
  | cons e es ih =>
    obtain ⟨k, v⟩ := e
    intro seen hc hasc hlt
    simp only [canonicalMembers, Bool.and_eq_true, Bool.not_eq_true'] at hc
    obtain ⟨⟨hk, hv⟩, hes⟩ := hc
    simp only [List.map_cons] at hasc hlt
    have hnew : seen.contains k = false := by
      simp only [List.contains_eq_any_beq, List.any_eq_false, beq_iff_eq]
      intro k' hk' heq
      have := hlt k' hk' k (List.mem_cons_self _ _)
      rw [heq] at this
      exact lt_irrefl _ this
    have hrest := ih (fun x hx => IH x (List.mem_cons_of_mem _ hx)) (k :: seen) hes
      (ascending_tail _ _ hasc) (by
        intro k' hk' k'' hk''
        rcases List.mem_cons.1 hk' with rfl | h
        · exact ascending_head_lt _ _ hasc k'' hk''
        · exact hlt k' h k'' (List.mem_cons_of_mem _ hk''))
    have hv' := IH (k, v) (List.mem_cons_self _ _) hv
    simp only [acceptedMembers, hk, hnew, hrest, Bool.not_false, Bool.true_and, Bool.and_true]
    exact hv'

theorem accepted_of_canonical (env : FloatEnv) (s : Syn) : s.canonical env = true → s.accepted = true := by
  induction s using Syn.induction with
  | hs t ht => intro _; rfl
  | ha items IH =>
    intro h
    simp only [Syn.canonical] at h
    simp only [Syn.accepted]
    induction items with
    | nil => rfl
    | cons e es ih =>
      simp only [canonicalItems, Bool.and_eq_true, Bool.not_eq_true'] at h
      simp [acceptedItems, IH e (List.mem_cons_self _ _) h.1.1, h.1.2,
        ih (fun x hx => IH x (List.mem_cons_of_mem _ hx)) h.2]
  | ho members IH =>
    intro h
    simp only [Syn.canonical, Bool.and_eq_true] at h
    exact acceptedMembers_of_canonical env members IH [] h.2 h.1 (by intro _ h; cases h)

/-! ### The serializer on built trees -/

theorem wss_leaf (env : FloatEnv) (t : JsonTokenW) (h : isScalarTok t = true) :
    wss_junit env (leafOf t) = some (lexeme env t) := by
  unfold isScalarTok at h
  unfold leafOf lexeme
  cases ht : t.type_ <;>
    simp_all [wss_junit, JsonW.INTEGER, JsonW.FLOAT, JsonW.BOOLEAN, JsonW.NULLVALUE,
      JsonW.STRING, JsonW.OBJECT, JsonW.ARRAY]

theorem wss_items_build (env : FloatEnv) (items : List Syn)
    (IH : ∀ e ∈ items, e.canonical env = true → wss_junit env e.build = some (textOf env e.toks)) :
    canonicalItems env items = true →
    wss_items env (buildItems items) = some (textOf env (toksItems items)) := by
  induction items with
  | nil => intro _; rfl
  | cons e es ih =>
    intro h
    simp only [canonicalItems, Bool.and_eq_true, Bool.not_eq_true'] at h
    have h1 := IH e (List.mem_cons_self _ _) h.1.1
    have h2 := ih (fun x hx => IH x (List.mem_cons_of_mem _ hx)) h.2
    simp only [buildItems, wss_items, h1, h2, toksItems, textOf_append]
    cases es with
    | nil => simp [buildItems, textOf]
    | cons e' es' => simp [buildItems, textOf, lexeme, tok]

theorem wss_pairs_build (env : FloatEnv) (members : List (List Nat × Syn))
    (IH : ∀ m ∈ members, m.2.canonical env = true →
      wss_junit env m.2.build = some (textOf env m.2.toks)) :
    canonicalMembers env members = true →
    wss_pairs env (members.map (fun e => (e.1, some e.2.build))) =
      some (textOf env (toksMembers members)) := by
  induction members with
  | nil => intro _; rfl
  | cons m ms ih =>
    obtain ⟨k, v⟩ := m
    intro h
    simp only [canonicalMembers, Bool.and_eq_true, Bool.not_eq_true'] at h
    have h1 := IH (k, v) (List.mem_cons_self _ _) h.1.2
    have h2 := ih (fun x hx => IH x (List.mem_cons_of_mem _ hx)) h.2
    simp only [List.map_cons, wss_pairs, h1, h2, toksMembers, textOf, textOf_append]
    cases ms with
    | nil => simp [textOf, lexeme, strTok, tok]
    | cons e' es' => simp [textOf, lexeme, strTok, tok]

/-- The serializer writes the canonical text of a canonical value for the tree built
from it. -/
theorem wss_build (env : FloatEnv) (s : Syn) : s.canonical env = true →
    wss_junit env s.build = some (textOf env s.toks) := by
  induction s using Syn.induction with
  | hs t ht =>
    intro _
    simp only [Syn.build, Syn.toks, textOf, List.append_nil]
    exact wss_leaf env t ht
  | ha items IH =>
    intro h
    simp only [Syn.canonical] at h
    have hi := wss_items_build env items IH h
    simp [Syn.build, Syn.toks, wss_junit, hi, textOf, textOf_append, lexeme, tok,
      JsonW.INTEGER, JsonW.FLOAT, JsonW.BOOLEAN, JsonW.NULLVALUE,
      JsonW.STRING, JsonW.OBJECT, JsonW.ARRAY]
  | ho members IH =>
    intro h
    simp only [Syn.canonical, Bool.and_eq_true] at h
    have hb := buildMembers_ascending members [] h.1 (by intro _ h; cases h)
    have hi := wss_pairs_build env members IH h.2
    simp only [List.nil_append] at hb
    simp [Syn.build, Syn.toks, wss_junit, hb, hi, textOf, textOf_append, lexeme, tok,
      JsonW.INTEGER, JsonW.FLOAT, JsonW.BOOLEAN, JsonW.NULLVALUE,
      JsonW.STRING, JsonW.OBJECT, JsonW.ARRAY]

/-- The text of a canonical value parses to the tree built from the value. -/
theorem init_text (env : FloatEnv) (s : Syn) (h : s.canonical env = true) :
    JsonW.init env (s.text env) = some s.build := by
  have htok := tokenize_text env s.toks (scannable_toks env s h [] rfl)
  have hp := parse_accepted s (accepted_of_canonical env s h) (3 * s.toks.length + 3) [] (by omega)
  simp only [List.append_nil] at hp
  simp [JsonW.init, Syn.text, htok, hp]

/-- A text whose tokens are those of a value the parser does not accept yields an
invalid node. -/
theorem init_rejected (env : FloatEnv) (txt : List Nat) (b : Bool) (s : Syn)
    (htok : JsonTokenW.parse env txt = some (b, s.toks)) (h : s.accepted = false) :
    (JsonW.init env txt).map JsonW.valid = some false := by
  obtain ⟨j, r, hp, hj⟩ := parse_rejected s h (3 * s.toks.length + 3) [] (by omega)
  simp only [List.append_nil] at hp
  simp [JsonW.init, htok, hp, JsonW.valid, hj]

theorem integerArray_text (env : FloatEnv) (l : List Int) :
    (integerArray l).text env = integerArrayText l := by
  have hlex : ∀ i : Int, lexeme env (intTok i) = to_wstring i := fun _ => rfl
  have hcomma : textOf env [tok TokType.Comma] = [44] := rfl
  have h : ∀ l : List Int, textOf env (toksItems (l.map (fun i => Syn.scalar (intTok i) rfl))) =
      commaSeparated (l.map to_wstring) := by
    intro l
    induction l with
    | nil => rfl
    | cons i l ih =>
      cases l with
      | nil =>
        simp [toksItems, Syn.toks, textOf, commaSeparated, hlex]
      | cons j l =>
        show textOf env ([intTok i] ++ ([tok TokType.Comma] ++ toksItems _)) =
          to_wstring i ++ ([44] ++ commaSeparated _)
        rw [textOf_append, textOf_append, hcomma, ih]
        show lexeme env (intTok i) ++ [] ++ _ = _
        rw [hlex]; simp
  show textOf env (tok TokType.LeftSquareBracket ::
    (toksItems _ ++ [tok TokType.RightSquareBracket])) = _
  show [91] ++ textOf env (toksItems _ ++ [tok TokType.RightSquareBracket]) = _
  rw [textOf_append, h]
  rfl

theorem integerArray_canonical (env : FloatEnv) (l : List Int)
    (h : ∀ i ∈ l, -9223372036854775808 ≤ i ∧ i ≤ 9223372036854775807) :
    (integerArray l).canonical env = true := by
  simp only [integerArray, Syn.canonical]
  induction l with
  | nil => rfl
  | cons i l ih =>
    have hi := h i (List.mem_cons_self _ _)
    simp only [List.map_cons, canonicalItems, Syn.canonical, Syn.isString,
      ih (fun j hj => h j (List.mem_cons_of_mem _ hj)), Bool.and_true]
    simp [canonicalTok, intTok, hi.1, hi.2]

theorem integerArray_build (l : List Int) :
    (integerArray l).build =
      JsonW.mk JsonW.ARRAY true 0 LongDouble.zero [] true [] (l.map integerNode) := by
  have h : ∀ l : List Int, buildItems (l.map (fun i => Syn.scalar (intTok i) rfl)) =
      l.map integerNode := by
    intro l
    induction l with
    | nil => rfl
    | cons i l ih =>
      show leafOf (intTok i) :: buildItems _ = integerNode i :: _
      rw [ih]; rfl
  show JsonW.mk JsonW.ARRAY true 0 LongDouble.zero [] true [] (buildItems _) = _
  rw [h]

/-! ## The claims -/

/-- C1, counterexample: the texts `{"":1}`, `{"b":1,"a":2}` and `-0` are valid JSON
without white space and without escapes.  The first does not parse (the object rule
rejects an empty key), so `wtext()` is empty; `wtext()` of the node parsed from the
second is `{"a":2,"b":1}`, a different text, because the object is a `std::map` and is
enumerated in key order; the third parses to the INTEGER 0, which is written `0`: a
number comes back in the form the serializer prints. -/
theorem C1_canonical_text_counterexample :
    (JsonW.init FloatEnv.unbounded (ws "\x7b\"\":1\x7d")).bind
        (JsonW.wtext FloatEnv.unbounded) = some [] ∧
    ws "\x7b\"\":1\x7d" ≠ [] ∧
    (JsonW.init FloatEnv.unbounded (ws "\x7b\"b\":1,\"a\":2\x7d")).bind
        (JsonW.wtext FloatEnv.unbounded) = some (ws "\x7b\"a\":2,\"b\":1\x7d") ∧
    ws "\x7b\"a\":2,\"b\":1\x7d" ≠ ws "\x7b\"b\":1,\"a\":2\x7d" ∧
    (JsonW.init FloatEnv.unbounded (ws "-0")).bind (JsonW.wtext FloatEnv.unbounded) =
      some (ws "0") ∧
    ws "0" ≠ ws "-0" := by
  decide

/-- C1, amended: for every canonical value `s` (integers in the 64-bit range in plain
decimal, floating-point literals without exponent in the form `std::to_wstring` prints
for their value, strings with the serializer's escapes, booleans, null, arrays and
objects; no white space; object keys non-empty and in strictly ascending order; no
string literal directly as an array element), constructing a `JsonW` from the text of
`s` and calling `wtext()` returns exactly that text.  In particular every floating-point
literal `t` that `std::stold` accepts and that `std::to_wstring` prints for its value
comes back as `t`. -/
theorem C1_roundtrip_canonical (env : FloatEnv) (s : Syn) (h : s.canonical env = true) :
    (JsonW.init env (s.text env)).bind (JsonW.wtext env) = some (s.text env) ∧
    ∀ t : List Nat, floatLiteral t = true → env.stoldThrows t = false →
      env.to_wstring (LongDouble.stold t) = t →
      (JsonW.init env t).bind (JsonW.wtext env) = some t := by
  constructor
  · rw [init_text env s h]
    exact wss_build env s h
  · intro t hlit hth hprint
    have hc : (Syn.scalar (floatTok (LongDouble.stold t)) rfl).canonical env = true := by
      simp [Syn.canonical, canonicalTok, canonicalFloat, floatTok, hlit, hth, hprint]
    have ht : (Syn.scalar (floatTok (LongDouble.stold t)) rfl).text env = t := by
      simp [Syn.text, Syn.toks, textOf, lexeme, floatTok, hprint]
    have h1 := init_text env _ hc
    have h2 := wss_build env _ hc
    rw [ht] at h1
    simp only [Syn.toks, textOf, List.append_nil] at h2
    rw [h1]
    simpa [lexeme, floatTok, hprint] using h2

/-- C1, witness: the amended round trip at the text
`{"a":[1,0.500000,true,null],"b":"x\/y"}`, on a platform that prints one half as
`0.500000`. -/
theorem C1_roundtrip_canonical_witness :
    (Syn.obj [(ws "a", Syn.arr [Syn.scalar (intTok 1) rfl,
        Syn.scalar (floatTok (LongDouble.stold (ws "0.500000"))) rfl,
        Syn.scalar (boolTok true) rfl, Syn.scalar (tok TokType.Null) rfl]),
      (ws "b", Syn.scalar (strTok (ws "x/y")) rfl)]).canonical FloatEnv.sixDecimals = true ∧
    (Syn.obj [(ws "a", Syn.arr [Syn.scalar (intTok 1) rfl,
        Syn.scalar (floatTok (LongDouble.stold (ws "0.500000"))) rfl,
        Syn.scalar (boolTok true) rfl, Syn.scalar (tok TokType.Null) rfl]),
      (ws "b", Syn.scalar (strTok (ws "x/y")) rfl)]).text FloatEnv.sixDecimals =
      ws "\x7b\"a\":[1,0.500000,true,null],\"b\":\"x\\/y\"\x7d" ∧
    (JsonW.init FloatEnv.sixDecimals
        (ws "\x7b\"a\":[1,0.500000,true,null],\"b\":\"x\\/y\"\x7d")).bind
        (JsonW.wtext FloatEnv.sixDecimals) =
      some (ws "\x7b\"a\":[1,0.500000,true,null],\"b\":\"x\\/y\"\x7d") :=
  ⟨by decide, by decide,
    (C1_roundtrip_canonical FloatEnv.sixDecimals (Syn.obj [(ws "a", Syn.arr [
        Syn.scalar (intTok 1) rfl,
        Syn.scalar (floatTok (LongDouble.stold (ws "0.500000"))) rfl,
        Syn.scalar (boolTok true) rfl, Syn.scalar (tok TokType.Null) rfl]),
      (ws "b", Syn.scalar (strTok (ws "x/y")) rfl)]) (by decide)).1⟩

/-- C2, the code at the failing input: the tree built by `add` of a node assigned the
string `a` is valid and serializes to `["a"]`, but parsing `["a"]` gives an invalid node
whose `wtext()` is empty, so serializing, parsing and serializing again does not give
the first text back. -/
theorem C2_string_element_not_idempotent (env : FloatEnv) :
    (JsonW.new.add (some (JsonW.new.assignWString (ws "a")))).valid = true ∧
    (JsonW.new.add (some (JsonW.new.assignWString (ws "a")))).wtext env = some (ws "[\"a\"]") ∧
    (JsonW.init env (ws "[\"a\"]")).map (fun j => (j.valid, j.wtext env)) =
      some (false, some []) :=
  ⟨rfl, rfl, rfl⟩

/-- C3, the code at the failing input: the array text `["a"]`, whose only element is a
string literal, does not parse (the node is invalid, of type BAD, with no element), while
the same array with the integer `1` in place of the string parses to an array of size
one. -/
theorem C3_string_array_rejected (env : FloatEnv) :
    (JsonW.init env (ws "[\"a\"]")).map (fun j => (j.valid, j.type, j.size)) =
      some (false, JsonW.BAD, 0) ∧
    (JsonW.init env (ws "[1]")).map (fun j => (j.valid, j.type, j.size)) =
      some (true, JsonW.ARRAY, 1) :=
  ⟨rfl, rfl⟩

/-- C4: for every list `l` of 64-bit signed integers, the text `[i1,i2,...,in]` parses
to a valid node of type ARRAY whose size is the length of `l` and whose element at every
index `k` below the size is a valid INTEGER node with `integer()` equal to the `k`-th
integer of `l`. -/
theorem C4_integer_array (env : FloatEnv) (l : List Int)
    (h : ∀ i ∈ l, -9223372036854775808 ≤ i ∧ i ≤ 9223372036854775807) :
    ∃ j, JsonW.init env (integerArrayText l) = some j ∧ j.valid = true ∧
      j.type = JsonW.ARRAY ∧ j.size = l.length ∧
      ∀ k (hk : k < l.length), ∃ e, j.at k = some e ∧ e.valid = true ∧
        e.type = JsonW.INTEGER ∧ e.integer = l.get ⟨k, hk⟩ := by
  refine ⟨JsonW.mk JsonW.ARRAY true 0 LongDouble.zero [] true [] (l.map integerNode), ?_, ?_⟩
  · rw [← integerArray_text env l, init_text env _ (integerArray_canonical env l h),
      integerArray_build]
  · refine ⟨rfl, rfl, by simp [JsonW.size, JsonW.jarray_], ?_⟩
    intro k hk
    refine ⟨integerNode (l.get ⟨k, hk⟩), ?_, rfl, rfl, rfl⟩
    have hk' : ¬ k ≥ (l.map integerNode).length := by simp; exact hk
    simp only [JsonW.at, JsonW.jarray_, hk', if_false]
    simp [List.getElem?_eq_getElem hk]

/-- C4, witness: the array text of the test, `[12,13,-42,20]`. -/
theorem C4_integer_array_witness :
    (∀ i ∈ [(12 : Int), 13, -42, 20], -9223372036854775808 ≤ i ∧ i ≤ 9223372036854775807) ∧
    ∃ j, JsonW.init FloatEnv.unbounded (integerArrayText [12, 13, -42, 20]) = some j ∧
      j.valid = true ∧ j.type = JsonW.ARRAY ∧ j.size = [(12 : Int), 13, -42, 20].length ∧
      ∀ k (hk : k < [(12 : Int), 13, -42, 20].length), ∃ e, j.at k = some e ∧ e.valid = true ∧
        e.type = JsonW.INTEGER ∧ e.integer = [(12 : Int), 13, -42, 20].get ⟨k, hk⟩ :=
  ⟨by decide, C4_integer_array FloatEnv.unbounded [12, 13, -42, 20] (by decide)⟩

/-- C5: for every text whose token sequence is that of a JSON value `s` in which some
object lists the same key twice, the constructed node is invalid; and the text
`{"a":1,"b":2}` parses to a valid OBJECT that holds exactly the two entries `a`, bound
to INTEGER 1, and `b`, bound to INTEGER 2. -/
theorem C5_duplicate_key_rejected (env : FloatEnv) (txt : List Nat) (b : Bool) (s : Syn)
    (htok : JsonTokenW.parse env txt = some (b, s.toks)) (hdup : s.hasDuplicateKey = true) :
    (JsonW.init env txt).map JsonW.valid = some false ∧
    (JsonW.init env (ws "\x7b\"a\":1,\"b\":2\x7d")).map
        (fun j => (j.valid, j.type, j.wkeys, (j.find (ws "a")).map (Option.map
          (fun c => (c.valid, c.type, c.integer))), (j.find (ws "b")).map (Option.map
          (fun c => (c.valid, c.type, c.integer))))) =
      some (true, JsonW.OBJECT, [ws "a", ws "b"], some (some (true, JsonW.INTEGER, 1)),
        some (some (true, JsonW.INTEGER, 2))) := by
  refine ⟨init_rejected env txt b s htok ?_, rfl⟩
  cases hacc : s.accepted
  · rfl
  · rw [hasDuplicateKey_of_accepted s hacc] at hdup
    cases hdup

/-- C5, witness: the text `{"a":1,"a":2}`. -/
theorem C5_duplicate_key_rejected_witness :
    JsonTokenW.parse FloatEnv.unbounded (ws "\x7b\"a\":1,\"a\":2\x7d") =
      some (true, (Syn.obj [(ws "a", Syn.scalar (intTok 1) rfl),
        (ws "a", Syn.scalar (intTok 2) rfl)]).toks) ∧
    (Syn.obj [(ws "a", Syn.scalar (intTok 1) rfl),
        (ws "a", Syn.scalar (intTok 2) rfl)]).hasDuplicateKey = true ∧
    (JsonW.init FloatEnv.unbounded (ws "\x7b\"a\":1,\"a\":2\x7d")).map JsonW.valid =
      some false :=
  ⟨by decide, by decide,
    (C5_duplicate_key_rejected FloatEnv.unbounded (ws "\x7b\"a\":1,\"a\":2\x7d") true
      (Syn.obj [(ws "a", Syn.scalar (intTok 1) rfl), (ws "a", Syn.scalar (intTok 2) rfl)])
      (by decide) (by decide)).1⟩

/-- C6, the code at the failing inputs: the array text `[1,2,]` parses to a valid ARRAY
of size two and the object text `{"a":1,}` parses to a valid OBJECT with the one key
`a`; a comma directly before the closing bracket is accepted. -/
theorem C6_trailing_comma_accepted (env : FloatEnv) :
    (JsonW.init env (ws "[1,2,]")).map (fun j => (j.valid, j.type, j.size)) =
      some (true, JsonW.ARRAY, 2) ∧
    (JsonW.init env (ws "\x7b\"a\":1,\x7d")).map (fun j => (j.valid, j.type, j.wkeys)) =
      some (true, JsonW.OBJECT, [ws "a"]) :=
  ⟨rfl, rfl⟩

/-- C7, the code at the failing inputs: each of the texts `01`, `007` and `-01` parses
to a valid INTEGER node with value zero. -/
theorem C7_leading_zero_accepted (env : FloatEnv) :
    (JsonW.init env (ws "01")).map (fun j => (j.valid, j.type, j.integer)) =
      some (true, JsonW.INTEGER, 0) ∧
    (JsonW.init env (ws "007")).map (fun j => (j.valid, j.type, j.integer)) =
      some (true, JsonW.INTEGER, 0) ∧
    (JsonW.init env (ws "-01")).map (fun j => (j.valid, j.type, j.integer)) =
      some (true, JsonW.INTEGER, 0) :=
  ⟨rfl, rfl, rfl⟩

/-- C8: the text `0` parses to a valid INTEGER node with `integer()` zero; the text `-0`
parses to a valid INTEGER node with `integer()` zero; and, when `std::stold` does not
throw on `0.5`, the text `0.5` parses to a valid FLOAT node whose `frac()` is the value
of `std::stold` on `0.5`. -/
theorem C8_zero_forms (env : FloatEnv) (h : env.stoldThrows (ws "0.5") = false) :
    (JsonW.init env (ws "0")).map (fun j => (j.valid, j.type, j.integer)) =
      some (true, JsonW.INTEGER, 0) ∧
    (JsonW.init env (ws "-0")).map (fun j => (j.valid, j.type, j.integer)) =
      some (true, JsonW.INTEGER, 0) ∧
    (JsonW.init env (ws "0.5")).map (fun j => (j.valid, j.type, j.frac)) =
      some (true, JsonW.FLOAT, LongDouble.stold (ws "0.5")) := by
  refine ⟨rfl, rfl, ?_⟩
  have e : ws "0.5" = [48, 46, 53] := rfl
  rw [e] at h ⊢
  simp [JsonW.init, JsonTokenW.parse, scanLoop, findnext, JsonTokenW.scan, scanNumber,
    numberLoop, numberFinish, exponentPart, iswdigit, isskippable, h, JsonW.parse, JsonW.raw,
    JsonW.valid, JsonW.type, JsonW.frac, JsonW.valid_, JsonW.type_, JsonW.frac_, JsonW.FLOAT]

/-- C8, witness: an environment in which `std::stold` never throws. -/
theorem C8_zero_forms_witness :
    FloatEnv.unbounded.stoldThrows (ws "0.5") = false ∧
    (JsonW.init FloatEnv.unbounded (ws "0.5")).map (fun j => (j.valid, j.type, j.frac)) =
      some (true, JsonW.FLOAT, LongDouble.stold (ws "0.5")) :=
  ⟨rfl, (C8_zero_forms FloatEnv.unbounded rfl).2.2⟩

/-- C9, the code at the failing input: the text `"\u000\"` opens a string literal and
has no closing quote before the end of input (its only other quote follows a backslash),
yet it parses to a valid STRING with the one character U+0000.  The scanner takes the
four characters after `\u`, the backslash among them, as the digits of the escape and
then reads the quote as the closing quote.  The texts `{"a":}`, `{1:2}` and `tru` yield
a node with `valid()` false and `type()` BAD. -/
theorem C9_unterminated_accepted (env : FloatEnv) :
    noClosingQuote false (ws "\\u000\\\"") = true ∧
    (JsonW.init env (ws "\"\\u000\\\"")).map (fun j => (j.valid, j.type, j.wstr)) =
      some (true, JsonW.STRING, [0]) ∧
    (JsonW.init env (ws "\x7b\"a\":\x7d")).map (fun j => (j.valid, j.type)) =
      some (false, JsonW.BAD) ∧
    (JsonW.init env (ws "\x7b1:2\x7d")).map (fun j => (j.valid, j.type)) =
      some (false, JsonW.BAD) ∧
    (JsonW.init env (ws "tru")).map (fun j => (j.valid, j.type)) = some (false, JsonW.BAD) :=
  ⟨by decide, rfl, rfl, rfl, rfl⟩

/-- C10, the code at the failing inputs: after the failed parse of `[1,2` the invalid
node has `size()` two and `at(0)` is the INTEGER 1; after the failed parse of
`{"a":1,"a":2}` the invalid node enumerates the key `a` and `find` on `a` returns the
INTEGER 1. -/
theorem C10_children_after_failed_parse (env : FloatEnv) :
    (JsonW.init env (ws "[1,2")).map (fun j => (j.valid, j.type, j.size,
        (j.at 0).map (fun c => (c.valid, c.type, c.integer)))) =
      some (false, JsonW.BAD, 2, some (true, JsonW.INTEGER, 1)) ∧
    (JsonW.init env (ws "\x7b\"a\":1,\"a\":2\x7d")).map (fun j => (j.valid, j.type, j.wkeys,
        (j.find (ws "a")).map (Option.map (fun c => (c.valid, c.type, c.integer))))) =
      some (false, JsonW.BAD, [ws "a"], some (some (true, JsonW.INTEGER, 1))) :=
  ⟨rfl, rfl⟩

/-! ### The map, continued -/

theorem MapW.find_set_self {α : Type} (m : List (List Nat × α)) (key : List Nat) (value : α) :
    MapW.find (MapW.set m key value) key = some value := by
  induction m with
  | nil => simp [MapW.set, MapW.find]
  | cons e rest ih =>
    obtain ⟨k, v⟩ := e
    simp only [MapW.set]
    split
    · simp [MapW.find]
    · split
      · simp [MapW.find, *]
      · rename_i h1 h2
        have : (k == key) = false := by simpa using fun h => h2 h.symm
        simp [MapW.find, this, ih]

theorem MapW.find_set_ne {α : Type} (m : List (List Nat × α)) (key key' : List Nat) (value : α)
    (h : key' ≠ key) : MapW.find (MapW.set m key value) key' = MapW.find m key' := by
  induction m with
  | nil =>
    have : (key == key') = false := by simpa using fun e => h e.symm
    simp [MapW.set, MapW.find, this]
  | cons e rest ih =>
    obtain ⟨k, v⟩ := e
    simp only [MapW.set]
    split
    · have : (key == key') = false := by simpa using fun e => h e.symm
      simp [MapW.find, this]
    · split
      · rename_i h1 h2
        have : (k == key') = false := by simpa [← h2] using fun e => h e.symm
        simp [MapW.find, this]
      · simp only [MapW.find, ih]

theorem MapW.find_isSome_iff {α : Type} (m : List (List Nat × α)) (key : List Nat) :
    (MapW.find m key).isSome = true ↔ key ∈ m.map Prod.fst := by
  induction m with
  | nil => simp [MapW.find]
  | cons e m ih =>
    obtain ⟨k, v⟩ := e
    by_cases h : k = key
    · simp [MapW.find, h]
    · have h' : ¬ key = k := fun e => h e.symm
      simp [MapW.find, h, h', ih]

theorem MapW.find_of_mem {α : Type} (m : List (List Nat × α)) (key : List Nat) (c : α)
    (hn : (m.map Prod.fst).Nodup) (hc : (key, c) ∈ m) : MapW.find m key = some c := by
  induction m with
  | nil => simp at hc
  | cons e m ih =>
    obtain ⟨k, v⟩ := e
    simp only [List.map_cons, List.nodup_cons] at hn
    simp only [List.mem_cons, Prod.mk.injEq] at hc
    rcases hc with ⟨h1, h2⟩ | hc
    · subst h1 h2
      simp [MapW.find]
    · have hk : k ≠ key := by
        intro e
        subst e
        exact hn.1 (List.mem_map_of_mem Prod.fst hc)
      have : (k == key) = false := by simpa using hk
      simp [MapW.find, this, ih hn.2 hc]

theorem MapW.find_mem {α : Type} (m : List (List Nat × α)) (key : List Nat) (c : α)
    (h : MapW.find m key = some c) : (key, c) ∈ m := by
  induction m with
  | nil => simp [MapW.find] at h
  | cons e m ih =>
    obtain ⟨k, v⟩ := e
    by_cases hk : k = key
    · subst hk
      simp [MapW.find] at h
      simp [h]
    · have : (k == key) = false := by simpa using hk
      simp only [MapW.find, this] at h
      exact List.mem_cons_of_mem _ (ih h)

theorem MapW.find_update_self {α : Type} (f : α → α) (wname : List Nat)
    (m : List (List Nat × Option α)) :
    MapW.find (MapW.update f wname m) wname = (MapW.find m wname).map (Option.map f) := by
  induction m with
  | nil => rfl
  | cons e m ih =>
    obtain ⟨k, v⟩ := e
    by_cases h : k = wname
    · simp [MapW.update, MapW.find, h]
    · have h' : (k == wname) = false := by simpa using h
      simp [MapW.update, MapW.find, h', ih]

/-! ### Subscripts -/

theorem addNulls_array (left : Nat) : ∀ (valid_ : Bool) (integer_ : Int) (frac_ : LongDouble)
    (wstring_ : List Nat) (boolean_ : Bool) (jobject_ : List (List Nat × Option JsonW))
    (jarray_ : List JsonW),
    JsonW.addNulls (left + 1)
        (JsonW.mk JsonW.ARRAY valid_ integer_ frac_ wstring_ boolean_ jobject_ jarray_) =
      JsonW.mk JsonW.ARRAY true integer_ frac_ wstring_ boolean_ jobject_
        (jarray_ ++ List.replicate (left + 1) JsonW.new) := by
  induction left with
  | zero => intros; rfl
  | succ left ih =>
    intro valid_ integer_ frac_ wstring_ boolean_ jobject_ jarray_
    have e : JsonW.addNulls (left + 1 + 1)
        (JsonW.mk JsonW.ARRAY valid_ integer_ frac_ wstring_ boolean_ jobject_ jarray_) =
        JsonW.addNulls (left + 1)
          (JsonW.mk JsonW.ARRAY true integer_ frac_ wstring_ boolean_ jobject_
            (jarray_ ++ [JsonW.new])) := rfl
    rw [e, ih, List.append_assoc]
    rfl

/-- The node after `operator[](size_t)` on a node that is already an array. -/
theorem subscript_array (valid_ : Bool) (integer_ : Int) (frac_ : LongDouble)
    (wstring_ : List Nat) (boolean_ : Bool) (jobject_ : List (List Nat × Option JsonW))
    (jarray_ : List JsonW) (index : Nat) :
    (JsonW.subscript (JsonW.mk JsonW.ARRAY valid_ integer_ frac_ wstring_ boolean_ jobject_
        jarray_) index).1 =
      JsonW.mk JsonW.ARRAY (valid_ || decide (jarray_.length ≤ index)) integer_ frac_ wstring_
        boolean_ jobject_ (jarray_ ++ List.replicate (index + 1 - jarray_.length) JsonW.new) := by
  by_cases h : jarray_.length ≤ index
  · obtain ⟨c, hc⟩ : ∃ c, index + 1 - jarray_.length = c + 1 := ⟨index - jarray_.length, by omega⟩
    simp [JsonW.subscript, JsonW.type_, JsonW.size, JsonW.jarray_, h, hc, addNulls_array]
  · have h0 : index + 1 - jarray_.length = 0 := by omega
    simp [JsonW.subscript, JsonW.type_, JsonW.size, JsonW.jarray_, h, h0]

/-- The node after `operator[](size_t)` on a node that is not an array. -/
theorem subscript_other (type_ : Nat) (valid_ : Bool) (integer_ : Int) (frac_ : LongDouble)
    (wstring_ : List Nat) (boolean_ : Bool) (jobject_ : List (List Nat × Option JsonW))
    (jarray_ : List JsonW) (index : Nat) (h : type_ ≠ JsonW.ARRAY) :
    (JsonW.subscript (JsonW.mk type_ valid_ integer_ frac_ wstring_ boolean_ jobject_
        jarray_) index).1 =
      JsonW.mk JsonW.ARRAY true integer_ frac_ wstring_ boolean_ []
        (List.replicate (index + 1) JsonW.new) := by
  have e : (JsonW.subscript (JsonW.mk type_ valid_ integer_ frac_ wstring_ boolean_ jobject_
        jarray_) index).1 =
      (JsonW.subscript (JsonW.mk JsonW.ARRAY true integer_ frac_ wstring_ boolean_ [] [])
        index).1 := by
    simp [JsonW.subscript, JsonW.type_, JsonW.clean, h]
  rw [e, subscript_array]
  simp

theorem at_append_left (t : Nat) (v : Bool) (i : Int) (f : LongDouble) (s : List Nat) (b : Bool)
    (o : List (List Nat × Option JsonW)) (a ext : List JsonW) (j : Nat) (hj : j < a.length) :
    (JsonW.mk t v i f s b o (a ++ ext)).at j = (JsonW.mk t v i f s b o a).at j := by
  have h1 : ¬ (a.length + ext.length ≤ j) := by omega
  have h2 : ¬ (a.length ≤ j) := by omega
  simp [JsonW.at, JsonW.jarray_, h1, h2, List.getElem?_append_left hj]

theorem at_append_replicate (t : Nat) (v : Bool) (i : Int) (f : LongDouble) (s : List Nat)
    (b : Bool) (o : List (List Nat × Option JsonW)) (a : List JsonW) (c j : Nat)
    (h1 : a.length ≤ j) (h2 : j < a.length + c) :
    (JsonW.mk t v i f s b o (a ++ List.replicate c JsonW.new)).at j = some JsonW.new := by
  have h3 : ¬ (a.length + c ≤ j) := by omega
  have h4 : j - a.length < c := by omega
  simp [JsonW.at, JsonW.jarray_, h3, List.getElem?_append_right h1, List.getElem?_replicate, h4]

/-! ### String rendering -/

theorem wss_json_char_eq (c : Nat) : wss_json_char c = escSpec c := by
  unfold wss_json_char escSpec escapeTable
  simp only [List.lookup]
  by_cases h1 : c = 0x22
  · subst h1; rfl
  by_cases h2 : c = 0x5C
  · subst h2; rfl
  by_cases h3 : c = 0x2F
  · subst h3; rfl
  by_cases h4 : c = 0x08
  · subst h4; rfl
  by_cases h5 : c = 0x0C
  · subst h5; rfl
  by_cases h6 : c = 0x0A
  · subst h6; rfl
  by_cases h7 : c = 0x0D
  · subst h7; rfl
  by_cases h8 : c = 0x09
  · subst h8; rfl
  have e1 : (c == 0x22) = false := by simpa using h1
  have e2 : (c == 0x5C) = false := by simpa using h2
  have e3 : (c == 0x2F) = false := by simpa using h3
  have e4 : (c == 0x08) = false := by simpa using h4
  have e5 : (c == 0x0C) = false := by simpa using h5
  have e6 : (c == 0x0A) = false := by simpa using h6
  have e7 : (c == 0x0D) = false := by simpa using h7
  have e8 : (c == 0x09) = false := by simpa using h8
  simp only [e1, e2, e3, e4, e5, e6, e7, e8]
  rfl

theorem wss_json_string_eq (s : List Nat) : wss_json_string s = renderSpec s := by
  unfold wss_json_string renderSpec
  congr 2
  induction s with
  | nil => rfl
  | cons c s ih => simp [wss_json_chars, ih, wss_json_char_eq]

/-- The serializer writes every pair of an object as the rendering of its key, a colon
and the text of its child, with a comma between two pairs. -/
theorem wss_pairs_keys (env : FloatEnv) (pairs : List (List Nat × Option JsonW)) :
    ∀ out, wss_pairs env pairs = some out →
      ∃ texts : List (List Nat), texts.length = pairs.length ∧
        out = commaSeparated (List.zipWith (fun p t => renderSpec p.1 ++ [58] ++ t) pairs texts) := by
  induction pairs with
  | nil =>
    intro out h
    simp only [wss_pairs, Option.some.injEq] at h
    exact ⟨[], rfl, by simp [← h, commaSeparated]⟩
  | cons p rest ih =>
    obtain ⟨key, child⟩ := p
    intro out h
    cases child with
    | none => simp [wss_pairs] at h
    | some child =>
      rw [wss_pairs] at h
      cases ha : wss_junit env child with
      | none => simp [ha] at h
      | some a =>
        cases hb : wss_pairs env rest with
        | none => simp [ha, hb] at h
        | some b =>
          simp only [ha, hb, Option.some.injEq] at h
          obtain ⟨texts, hl, hb'⟩ := ih b hb
          refine ⟨a :: texts, by simp [hl], ?_⟩
          have he : (List.zipWith (fun p t => renderSpec p.1 ++ [58] ++ t) rest texts).isEmpty
              = rest.isEmpty := by
            cases rest <;> cases texts <;> simp_all
          simp only [List.zipWith_cons_cons, commaSeparated, he, ← hb', ← h,
            wss_json_string_eq]
          simp [List.append_assoc]

/-! ### Copies of trees -/

/-- Structural induction on trees, with the hypothesis for every child. -/
theorem JsonW.tree_induction {P : JsonW → Prop}
    (h : ∀ t v i f s b o a, (∀ k c, (k, some c) ∈ o → P c) → (∀ c ∈ a, P c) →
      P (JsonW.mk t v i f s b o a)) : ∀ n, P n := by
  intro n
  refine @JsonW.rec P (fun o => ∀ k c, (k, some c) ∈ o → P c) (fun a => ∀ c ∈ a, P c)
    (fun p => ∀ c, p.2 = some c → P c) (fun oc => ∀ c, oc = some c → P c)
    (fun t v i f s b o a ho ha => h t v i f s b o a ho ha) ?_ ?_ ?_ ?_ ?_ ?_ ?_ n
  · intro k c hc; cases hc
  · intro head tail h1 h2 k c hc
    rcases List.mem_cons.1 hc with rfl | hc
    · exact h1 c rfl
    · exact h2 k c hc
  · intro c hc; cases hc
  · intro head tail h1 h2 c hc
    rcases List.mem_cons.1 hc with rfl | hc
    · exact h1
    · exact h2 c hc
  · intro k snd h5 c hc; exact h5 c hc
  · intro c hc; cases hc
  · intro val hv c hc
    cases hc
    exact hv

theorem copyElements_wellFormed (a : List JsonW)
    (IH : ∀ c ∈ a, c.wellFormed = true → JsonW.copy JsonW.raw c = some c) :
    ∀ acc, wellFormedElements a = true → copyElements a acc = some (acc ++ a) := by
  induction a with
  | nil => intro acc _; simp [copyElements]
  | cons c rest ih =>
    intro acc hw
    simp only [wellFormedElements, Bool.and_eq_true] at hw
    rw [copyElements, IH c (List.mem_cons_self _ _) hw.1]
    simp only
    rw [ih (fun c hc => IH c (List.mem_cons_of_mem _ hc)) _ hw.2]
    simp

theorem copyMembers_wellFormed (o : List (List Nat × Option JsonW))
    (IH : ∀ k c, (k, some c) ∈ o → c.wellFormed = true → JsonW.copy JsonW.raw c = some c) :
    ∀ acc : List (List Nat × Option JsonW), ascending (o.map Prod.fst) = true →
      (∀ e ∈ acc, ∀ k ∈ o.map Prod.fst, e.1 < k) → wellFormedMembers o = true →
      copyMembers o acc = some (acc ++ o) := by
  induction o with
  | nil => intro acc _ _ _; simp [copyMembers]
  | cons e rest ih =>
    obtain ⟨k, c⟩ := e
    intro acc hasc hlt hw
    cases c with
    | none => simp [wellFormedMembers] at hw
    | some c =>
      simp only [wellFormedMembers, Bool.and_eq_true] at hw
      simp only [List.map_cons] at hasc hlt
      rw [copyMembers, IH k c (List.mem_cons_self _ _) hw.1]
      simp only
      rw [MapW.set_append acc k (some c) (fun e he => hlt e he k (List.mem_cons_self _ _))]
      rw [ih (fun k c hc => IH k c (List.mem_cons_of_mem _ hc)) _ (ascending_tail _ _ hasc)
        ?_ hw.2]
      · simp
      · intro e he k' hk'
        rcases List.mem_append.1 he with he | he
        · exact hlt e he k' (List.mem_cons_of_mem _ hk')
        · simp only [List.mem_singleton] at he
          subst he
          exact ascending_head_lt _ k hasc k' hk'

/-- The copy of a well-formed tree is the tree: same type, validity flag and payload,
and, recursively, the same children under the same keys and in the same order. -/
theorem copy_wellFormed (B : JsonW) : B.wellFormed = true →
    ∀ this, JsonW.copy this B = some B := by
  induction B using JsonW.tree_induction with
  | h t v i f s b o a ho ha =>
    intro hw this
    simp only [JsonW.wellFormed, Bool.and_eq_true] at hw
    have h1 := copyMembers_wellFormed o (fun k c hc hwc => ho k c hc hwc JsonW.raw) []
      hw.1.1 (fun e he => by cases he) hw.1.2
    have h2 := copyElements_wellFormed a (fun c hc hwc => ha c hc hwc JsonW.raw) [] hw.2
    simp only [List.nil_append] at h1 h2
    rw [JsonW.copy, h1, h2]

theorem copyElements_cons (child : JsonW) (rest acc a' : List JsonW)
    (h : copyElements (child :: rest) acc = some a') :
    ∃ c', JsonW.copy JsonW.raw child = some c' ∧ copyElements rest (acc ++ [c']) = some a' := by
  rw [copyElements] at h
  cases hc : JsonW.copy JsonW.raw child with
  | none => simp [hc] at h
  | some c' => exact ⟨c', rfl, by simpa [hc] using h⟩

theorem copyMembers_cons (name : List Nat) (child : JsonW)
    (rest acc o' : List (List Nat × Option JsonW))
    (h : copyMembers ((name, some child) :: rest) acc = some o') :
    ∃ c', JsonW.copy JsonW.raw child = some c' ∧
      copyMembers rest (MapW.set acc name (some c')) = some o' := by
  rw [copyMembers] at h
  cases hc : JsonW.copy JsonW.raw child with
  | none => simp [hc] at h
  | some c' => exact ⟨c', rfl, by simpa [hc] using h⟩

theorem copy_mk (this : JsonW) (t : Nat) (v : Bool) (i : Int) (f : LongDouble) (s : List Nat)
    (b : Bool) (o : List (List Nat × Option JsonW)) (a : List JsonW) (v' : JsonW)
    (h : JsonW.copy this (JsonW.mk t v i f s b o a) = some v') :
    ∃ o' a', copyMembers o [] = some o' ∧ copyElements a [] = some a' ∧
      v' = JsonW.mk t v i f s b o' a' := by
  rw [JsonW.copy] at h
  cases h1 : copyMembers o [] with
  | none => simp [h1] at h
  | some o' =>
    cases h2 : copyElements a [] with
    | none => simp [h1, h2] at h
    | some a' =>
      simp only [h1, h2, Option.some.injEq] at h
      exact ⟨o', a', rfl, rfl, h.symm⟩

theorem wellFormedMembers_find (o : List (List Nat × Option JsonW))
    (h : wellFormedMembers o = true) (k : List Nat) : MapW.find o k ≠ some none := by
  induction o with
  | nil => simp [MapW.find]
  | cons e o ih =>
    obtain ⟨k', c⟩ := e
    cases c with
    | none => simp [wellFormedMembers] at h
    | some c =>
      simp only [wellFormedMembers, Bool.and_eq_true] at h
      by_cases hk : k' = k
      · simp [MapW.find, hk]
      · have h' : (k' == k) = false := by simpa using hk
        simp only [MapW.find, h']
        exact ih h.2

/-- Keyed access on a tree without stored `NULL`: the node afterwards is an OBJECT and
the returned reference designates a child stored under the key. -/
theorem subscriptKey_child (A : JsonW) (k : List Nat) (hk : k ≠ [])
    (hA : A.wellFormed = true) :
    ∃ m c, A.subscriptKey k = (m, Ref.member k) ∧ m.type_ = JsonW.OBJECT ∧
      m.find k = some (some c) := by
  obtain ⟨t, v, i, f, s, b, o, a⟩ := A
  have hk' : ¬ (k.length = 0) := by simpa using hk
  simp only [JsonW.wellFormed, Bool.and_eq_true] at hA
  by_cases ht : t = JsonW.OBJECT
  · subst ht
    cases hf : MapW.find o k with
    | none =>
      exact ⟨JsonW.mk JsonW.OBJECT v i f s b (MapW.set o k (some JsonW.new)) a, JsonW.new,
        by simp [JsonW.subscriptKey, hk', hf], rfl, MapW.find_set_self o k _⟩
    | some x =>
      cases x with
      | none => exact absurd hf (wellFormedMembers_find o hA.1.2 k)
      | some c =>
        exact ⟨JsonW.mk JsonW.OBJECT v i f s b o a, c,
          by simp [JsonW.subscriptKey, hk', hf], rfl, hf⟩
  · exact ⟨JsonW.mk JsonW.OBJECT true i f s b (MapW.set [] k (some JsonW.new)) [], JsonW.new,
      by simp [JsonW.subscriptKey, hk', ht, MapW.find], rfl, MapW.find_set_self [] k _⟩

/-- Every operation that makes a node an ARRAY leaves its validity flag set, and the
other operations keep that: the parser, the constructors, `add`, the subscripts, `set`,
the scalar assignments, `copy` and `bad()`. -/
theorem array_is_valid :
    (∀ fuel self tokens j rest, JsonW.parse fuel self tokens = some (j, rest) →
      j.type_ = JsonW.ARRAY → j.valid_ = true) ∧
    (∀ n p, (JsonW.add n p).type_ = JsonW.ARRAY → (JsonW.add n p).valid_ = true) ∧
    (∀ n i, (n.type_ = JsonW.ARRAY → n.valid_ = true) →
      (JsonW.subscript n i).1.valid_ = true) ∧
    (∀ n k, (n.type_ = JsonW.ARRAY → n.valid_ = true) →
      (JsonW.subscriptKey n k).1.type_ = JsonW.ARRAY →
      (JsonW.subscriptKey n k).1.valid_ = true) ∧
    (∀ n k p, (n.type_ = JsonW.ARRAY → n.valid_ = true) →
      (JsonW.set n k p).2.type_ = JsonW.ARRAY → (JsonW.set n k p).2.valid_ = true) ∧
    (∀ n x, (JsonW.assignInteger n x).valid_ = true) ∧
    (∀ n x, (JsonW.assignFloat n x).valid_ = true) ∧
    (∀ n x, (JsonW.assignWString n x).valid_ = true) ∧
    (∀ n x, (JsonW.assignBool n x).valid_ = true) ∧
    (∀ this rhs c, (rhs.type_ = JsonW.ARRAY → rhs.valid_ = true) →
      JsonW.copy this rhs = some c → c.type_ = JsonW.ARRAY → c.valid_ = true) ∧
    (∀ n, (JsonW.bad n).type_ ≠ JsonW.ARRAY) ∧
    JsonW.new.type_ ≠ JsonW.ARRAY ∧ JsonW.raw.type_ ≠ JsonW.ARRAY := by
  refine ⟨?_, ?_, ?_, ?_, ?_, ?_, ?_, ?_, ?_, ?_, ?_, by decide, by decide⟩
  · intro fuel self tokens j rest h
    cases fuel with
    | zero => simp [JsonW.parse] at h
    | succ fuel =>
      obtain ⟨t, v, i, f, s, b, o, a⟩ := self
      cases tokens with
      | nil =>
        simp only [JsonW.parse, Option.some.injEq, Prod.mk.injEq] at h
        rw [← h.1]
        intro h'
        simp [JsonW.type_, JsonW.BAD, JsonW.OBJECT, JsonW.ARRAY] at h'
      | cons front rest' =>
        rw [JsonW.parse] at h
        cases ht : front.type_ <;> simp only [ht] at h
        case LeftCurlyBracket =>
          cases hj : jobject fuel (front :: rest') [] with
          | none => simp [hj] at h
          | some r =>
            obtain ⟨ok, tk, jo⟩ := r
            simp only [hj, Option.some.injEq, Prod.mk.injEq] at h
            rw [← h.1]
            cases ok <;> intro h' <;> simp [JsonW.type_, JsonW.BAD, JsonW.OBJECT, JsonW.ARRAY] at h'
        case LeftSquareBracket =>
          cases hj : jarray fuel (front :: rest') [] with
          | none => simp [hj] at h
          | some r =>
            obtain ⟨ok, tk, ja⟩ := r
            simp only [hj, Option.some.injEq, Prod.mk.injEq] at h
            rw [← h.1]
            cases ok
            · intro h'; simp [JsonW.type_, JsonW.BAD, JsonW.OBJECT, JsonW.ARRAY] at h'
            · intro _; rfl
        all_goals
          simp only [Option.some.injEq, Prod.mk.injEq] at h
          rw [← h.1]
          intro h'
          first
            | rfl
            | simp [JsonW.type_, JsonW.BAD, JsonW.OBJECT, JsonW.ARRAY] at h'
  · intro n p _
    obtain ⟨t, v, i, f, s, b, o, a⟩ := n
    rfl
  · intro n i hn
    obtain ⟨t, v, i', f, s, b, o, a⟩ := n
    by_cases ht : t = JsonW.ARRAY
    · subst ht
      have hv : v = true := hn rfl
      rw [subscript_array]
      simp [JsonW.valid_, hv]
    · rw [subscript_other _ _ _ _ _ _ _ _ _ ht]
      rfl
  · intro n k hn h
    obtain ⟨t, v, i, f, s, b, o, a⟩ := n
    by_cases hk : k.length = 0
    · simp only [JsonW.subscriptKey, hk, beq_self_eq_true, if_true] at h ⊢
      exact hn h
    · simp only [JsonW.subscriptKey, beq_iff_eq, hk, if_false] at h
      simp [JsonW.type_, JsonW.BAD, JsonW.OBJECT, JsonW.ARRAY] at h
  · intro n k p hn h
    obtain ⟨t, v, i, f, s, b, o, a⟩ := n
    by_cases hk : k.length = 0
    · simp only [JsonW.set, hk, beq_self_eq_true, if_true] at h ⊢
      exact hn h
    · simp only [JsonW.set, beq_iff_eq, hk, if_false] at h
      simp [JsonW.type_, JsonW.BAD, JsonW.OBJECT, JsonW.ARRAY] at h
  · intro n x; obtain ⟨t, v, i, f, s, b, o, a⟩ := n; rfl
  · intro n x; obtain ⟨t, v, i, f, s, b, o, a⟩ := n; rfl
  · intro n x; obtain ⟨t, v, i, f, s, b, o, a⟩ := n; rfl
  · intro n x; obtain ⟨t, v, i, f, s, b, o, a⟩ := n; rfl
  · intro this rhs c hr hc
    obtain ⟨t, v, i, f, s, b, o, a⟩ := rhs
    obtain ⟨o', a', _, _, hv⟩ := copy_mk _ _ _ _ _ _ _ _ _ _ hc
    subst hv
    exact hr
  · intro n; obtain ⟨t, v, i, f, s, b, o, a⟩ := n
    simp [JsonW.bad, JsonW.type_, JsonW.BAD, JsonW.ARRAY]

/-! ### Trees in memory -/

theorem collect_cons {α : Type} (x : Option α) (xs : List (Option α)) (ys : List α) :
    collect (x :: xs) = some ys ↔ ∃ y ys', x = some y ∧ collect xs = some ys' ∧ ys = y :: ys' := by
  cases x with
  | none => simp [collect]
  | some y =>
    cases h : collect xs with
    | none => simp [collect, h]
    | some ys' =>
      simp only [collect, h, Option.map_some', Option.some.injEq]
      constructor
      · intro e; exact ⟨y, ys', rfl, rfl, e.symm⟩
      · rintro ⟨y', ys'', h1, h2, h3⟩
        cases h1; cases h2; exact h3.symm

theorem collect_map_congr {α β : Type} (f g : α → Option β) (l : List α)
    (h : ∀ x ∈ l, f x = g x) : collect (l.map f) = collect (l.map g) := by
  rw [List.map_congr_left h]

theorem collect_map_append {α β : Type} (g : α → Option β) (l : List α) (ys : List β)
    (x : α) (y : β) (h : collect (l.map g) = some ys) (hx : g x = some y) :
    collect ((l ++ [x]).map g) = some (ys ++ [y]) := by
  induction l generalizing ys with
  | nil =>
    simp only [List.map_nil, collect, Option.some.injEq] at h
    subst h
    simp [collect, hx]
  | cons a l ih =>
    simp only [List.map_cons] at h
    obtain ⟨b, ys', h1, h2, h3⟩ := (collect_cons _ _ _).1 h
    subst h3
    simp only [List.cons_append, List.map_cons]
    exact (collect_cons _ _ _).2 ⟨b, ys' ++ [y], h1, ih ys' h2, rfl⟩

theorem collect_map_mem {α β : Type} (g : α → Option β) (l : List α) (ys : List β)
    (h : collect (l.map g) = some ys) : ∀ x ∈ l, ∃ y, g x = some y := by
  induction l generalizing ys with
  | nil => intro x hx; cases hx
  | cons a l ih =>
    simp only [List.map_cons] at h
    obtain ⟨b, ys', h1, h2, _⟩ := (collect_cons _ _ _).1 h
    intro x hx
    rcases List.mem_cons.1 hx with rfl | hx
    · exact ⟨b, h1⟩
    · exact ih ys' h2 x hx

/-- Reading the entries of a map commutes with `jobject_[name] = jvalue`. -/
theorem collect_map_set (tree : Nat → Option JsonW) (acc : List (List Nat × Option Nat))
    (accV : List (List Nat × Option JsonW)) (name : List Nat) (p : Nat) (v : JsonW)
    (h : collect (acc.map (treeEntry tree)) = some accV) (hp : tree p = some v) :
    collect ((MapW.set acc name (some p)).map (treeEntry tree)) =
      some (MapW.set accV name (some v)) := by
  have hnew : treeEntry tree (name, some p) = some (name, some v) := by
    simp [treeEntry, hp]
  induction acc generalizing accV with
  | nil =>
    simp only [List.map_nil, collect, Option.some.injEq] at h
    subst h
    simp [MapW.set, collect, hnew]
  | cons e acc ih =>
    obtain ⟨k, c⟩ := e
    simp only [List.map_cons] at h
    obtain ⟨b, ys', h1, h2, h3⟩ := (collect_cons _ _ _).1 h
    subst h3
    have hb : b.1 = k := by
      cases c with
      | none => simp [treeEntry] at h1; rw [← h1]
      | some c =>
        simp only [treeEntry] at h1
        cases ht : tree c with
        | none => simp [ht] at h1
        | some w => simp [ht] at h1; rw [← h1]
    obtain ⟨bk, bv⟩ := b
    simp only at hb
    subst hb
    simp only [MapW.set]
    split_ifs with hlt heq
    · simp only [List.map_cons]
      exact (collect_cons _ _ _).2 ⟨_, _, hnew, (collect_cons _ _ _).2 ⟨_, _, h1, h2, rfl⟩, rfl⟩
    · subst heq
      simp only [List.map_cons]
      exact (collect_cons _ _ _).2 ⟨_, _, hnew, h2, rfl⟩
    · simp only [List.map_cons]
      exact (collect_cons _ _ _).2 ⟨_, _, h1, ih ys' h2, rfl⟩

theorem Mem.obj_congr (M mem : Mem) (x : Nat) (h : M[x]? = mem[x]?) :
    Mem.obj M x = Mem.obj mem x := by
  simp only [Mem.obj, h]

theorem Mem.obj_lt (mem : Mem) (a : Nat) (cell : Cell) (h : Mem.obj mem a = some cell) :
    a < mem.length ∧ mem[a]? = some (some cell) := by
  unfold Mem.obj at h
  cases hc : mem[a]? with
  | none => simp [hc] at h
  | some oc =>
    cases oc with
    | none => simp [hc] at h
    | some c =>
      simp only [hc, Option.some.injEq] at h
      subst h
      refine ⟨?_, rfl⟩
      by_contra hn
      rw [List.getElem?_eq_none (by omega)] at hc
      cases hc

theorem Mem.obj_of_get (mem : Mem) (a : Nat) (cell : Cell) (h : mem[a]? = some (some cell)) :
    Mem.obj mem a = some cell := by
  simp only [Mem.obj, h]

/-- The addresses of a tree start with its root. -/
theorem Mem.mem_addrs_self (fuel : Nat) (mem : Mem) (a : Nat) :
    a ∈ Mem.addrs (fuel + 1) mem a := by
  unfold Mem.addrs
  cases Mem.obj mem a <;> simp

theorem Mem.addrs_child (fuel : Nat) (mem : Mem) (a : Nat) (cell : Cell)
    (hc : Mem.obj mem a = some cell) (child : Nat) (he : child ∈ cell.children) :
    ∀ x ∈ Mem.addrs fuel mem child, x ∈ Mem.addrs (fuel + 1) mem a := by
  intro x hx
  rw [Mem.addrs, hc]
  simp only [List.mem_cons, List.mem_flatMap]
  exact Or.inr ⟨child, he, hx⟩

theorem Mem.addrs_member (fuel : Nat) (mem : Mem) (a : Nat) (cell : Cell)
    (hc : Mem.obj mem a = some cell) (k : List Nat) (child : Nat)
    (he : (k, some child) ∈ cell.jobject_) :
    ∀ x ∈ Mem.addrs fuel mem child, x ∈ Mem.addrs (fuel + 1) mem a :=
  Mem.addrs_child fuel mem a cell hc child
    (List.mem_append_left _ (List.mem_filterMap.2 ⟨(k, some child), he, rfl⟩))

theorem Mem.addrs_element (fuel : Nat) (mem : Mem) (a : Nat) (cell : Cell)
    (hc : Mem.obj mem a = some cell) (child : Nat) (he : child ∈ cell.jarray_) :
    ∀ x ∈ Mem.addrs fuel mem child, x ∈ Mem.addrs (fuel + 1) mem a :=
  Mem.addrs_child fuel mem a cell hc child (List.mem_append_right _ he)

/-- The tree at an address depends only on the objects at the addresses of the tree. -/
theorem Mem.tree_congr (fuel : Nat) : ∀ (mem M : Mem) (a : Nat),
    (∀ x ∈ Mem.addrs fuel mem a, M[x]? = mem[x]?) → Mem.tree fuel M a = Mem.tree fuel mem a := by
  induction fuel with
  | zero => intro mem M a _; rfl
  | succ fuel ih =>
    intro mem M a h
    have ha := Mem.obj_congr M mem a (h a (Mem.mem_addrs_self fuel mem a))
    rw [Mem.tree, Mem.tree, ha]
    cases hc : Mem.obj mem a with
    | none => rfl
    | some cell =>
      simp only
      have h1 : collect (cell.jobject_.map (treeEntry (Mem.tree fuel M))) =
          collect (cell.jobject_.map (treeEntry (Mem.tree fuel mem))) := by
        apply collect_map_congr
        rintro ⟨k, c⟩ he
        cases c with
        | none => rfl
        | some child =>
          simp only [treeEntry]
          rw [ih mem M child (fun x hx => h x (Mem.addrs_member fuel mem a cell hc k child he x hx))]
      have h2 : collect (cell.jarray_.map (Mem.tree fuel M)) =
          collect (cell.jarray_.map (Mem.tree fuel mem)) := by
        apply collect_map_congr
        intro child he
        exact ih mem M child (fun x hx => h x (Mem.addrs_element fuel mem a cell hc child he x hx))
      rw [h1, h2]

/-- The addresses of a tree depend only on the objects at those addresses. -/
theorem Mem.addrs_congr (fuel : Nat) : ∀ (mem M : Mem) (a : Nat),
    (∀ x ∈ Mem.addrs fuel mem a, M[x]? = mem[x]?) →
    Mem.addrs fuel M a = Mem.addrs fuel mem a := by
  induction fuel with
  | zero => intro mem M a _; rfl
  | succ fuel ih =>
    intro mem M a h
    have ha := Mem.obj_congr M mem a (h a (Mem.mem_addrs_self fuel mem a))
    rw [Mem.addrs, Mem.addrs, ha]
    cases hc : Mem.obj mem a with
    | none => rfl
    | some cell =>
      simp only
      congr 1
      apply List.flatMap_congr
      intro child he
      exact ih mem M child (fun x hx => h x (Mem.addrs_child fuel mem a cell hc child he x hx))

/-- The addresses of a tree that can be read are addresses of the memory. -/
theorem Mem.addrs_lt (fuel : Nat) : ∀ (mem : Mem) (a : Nat) (v : JsonW),
    Mem.tree fuel mem a = some v → ∀ x ∈ Mem.addrs fuel mem a, x < mem.length := by
  induction fuel with
  | zero => intro mem a v h; simp [Mem.tree] at h
  | succ fuel ih =>
    intro mem a v h x hx
    rw [Mem.tree] at h
    rw [Mem.addrs] at hx
    cases hc : Mem.obj mem a with
    | none => simp [hc] at h
    | some cell =>
      simp only [hc] at h hx
      have hlt : a < mem.length := (Mem.obj_lt mem a cell hc).1
      cases h1 : collect (cell.jobject_.map (treeEntry (Mem.tree fuel mem))) with
      | none => simp [h1] at h
      | some o =>
        cases h2 : collect (cell.jarray_.map (Mem.tree fuel mem)) with
        | none => simp [h1, h2] at h
        | some arr =>
          simp only [Cell.children, List.mem_cons, List.mem_append, List.mem_flatMap,
            List.mem_filterMap] at hx
          rcases hx with rfl | ⟨child, ⟨⟨k, c⟩, he, hs⟩ | he, hx⟩
          · exact hlt
          · simp only at hs
            subst hs
            obtain ⟨y, hy⟩ := collect_map_mem _ _ _ h1 (k, some child) he
            simp only [treeEntry] at hy
            cases ht : Mem.tree fuel mem child with
            | none => simp [ht] at hy
            | some w => exact ih mem child w ht x hx
          · obtain ⟨w, hw⟩ := collect_map_mem _ _ _ h2 child he
            exact ih mem child w hw x hx

theorem Mem.get_set_self (M : Mem) (this : Nat) (c : Option Cell) (h : this < M.length) :
    (M.set this c)[this]? = some c := by
  simp [List.getElem?_set, h]

theorem Mem.get_set_ne (M : Mem) (this x : Nat) (c : Option Cell) (h : x ≠ this) :
    (M.set this c)[x]? = M[x]? := by
  have h' : ¬ this = x := fun e => h e.symm
  simp [List.getElem?_set, h']

theorem Mem.tree_succ (fuel : Nat) (m : Mem) (a : Nat) (v : JsonW)
    (h : Mem.tree (fuel + 1) m a = some v) :
    ∃ r o arr, Mem.obj m a = some r ∧
      collect (r.jobject_.map (treeEntry (Mem.tree fuel m))) = some o ∧
      collect (r.jarray_.map (Mem.tree fuel m)) = some arr ∧
      v = JsonW.mk r.type_ r.valid_ r.integer_ r.frac_ r.wstring_ r.boolean_ o arr := by
  rw [Mem.tree] at h
  cases hc : Mem.obj m a with
  | none => simp [hc] at h
  | some r =>
    simp only [hc] at h
    cases h1 : collect (r.jobject_.map (treeEntry (Mem.tree fuel m))) with
    | none => simp [h1] at h
    | some o =>
      cases h2 : collect (r.jarray_.map (Mem.tree fuel m)) with
      | none => simp [h1, h2] at h
      | some arr =>
        simp only [h1, h2, Option.some.injEq] at h
        exact ⟨r, o, arr, rfl, h1, h2, h.symm⟩

/-! ### Deletion -/

/-- Deleting a list of objects one after the other, given what one `delete` does: the
size of the memory stays, an address outside the trees of the deleted objects keeps its
entry, and every entry is the one it was or `none`. -/
theorem Mem.deleteAll_frame (fuel : Nat) (mem : Mem)
    (H : ∀ (m : Mem) (a : Nat), (∀ x : Nat, m[x]? = mem[x]? ∨ m[x]? = some none) →
      (Mem.delete fuel m a).length = m.length ∧
      (∀ x : Nat, x ∉ Mem.addrs fuel mem a → (Mem.delete fuel m a)[x]? = m[x]?) ∧
      (∀ x : Nat, (Mem.delete fuel m a)[x]? = mem[x]? ∨
        (Mem.delete fuel m a)[x]? = some none)) :
    ∀ (cs : List Nat) (m : Mem), (∀ x : Nat, m[x]? = mem[x]? ∨ m[x]? = some none) →
      (cs.foldl (Mem.delete fuel) m).length = m.length ∧
      (∀ x : Nat, (∀ c ∈ cs, x ∉ Mem.addrs fuel mem c) →
        (cs.foldl (Mem.delete fuel) m)[x]? = m[x]?) ∧
      (∀ x : Nat, (cs.foldl (Mem.delete fuel) m)[x]? = mem[x]? ∨
        (cs.foldl (Mem.delete fuel) m)[x]? = some none) := by
  intro cs
  induction cs with
  | nil => intro m hm; exact ⟨rfl, fun _ _ => rfl, hm⟩
  | cons c cs ih =>
    intro m hm
    obtain ⟨h1, h2, h3⟩ := H m c hm
    obtain ⟨g1, g2, g3⟩ := ih (Mem.delete fuel m c) h3
    simp only [List.foldl_cons]
    refine ⟨by rw [g1, h1], ?_, g3⟩
    intro x hx
    rw [g2 x (fun c' hc' => hx c' (List.mem_cons_of_mem _ hc')),
      h2 x (hx c (List.mem_cons_self _ _))]

/-- The expression `delete p` in a memory `m` that is `mem` with some objects already
deleted: the size of the memory stays, an address outside the tree of `p` keeps its
entry, and every entry is the one it was or `none`. -/
theorem Mem.delete_frame (fuel : Nat) : ∀ (mem m : Mem) (a : Nat),
    (∀ x : Nat, m[x]? = mem[x]? ∨ m[x]? = some none) →
    (Mem.delete fuel m a).length = m.length ∧
    (∀ x : Nat, x ∉ Mem.addrs fuel mem a → (Mem.delete fuel m a)[x]? = m[x]?) ∧
    (∀ x : Nat, (Mem.delete fuel m a)[x]? = mem[x]? ∨
        (Mem.delete fuel m a)[x]? = some none) := by
  induction fuel with
  | zero => intro mem m a hm; exact ⟨rfl, fun _ _ => rfl, hm⟩
  | succ fuel ih =>
    intro mem m a hm
    rw [Mem.delete]
    cases hc : Mem.obj m a with
    | none => exact ⟨rfl, fun _ _ => rfl, hm⟩
    | some cell =>
      simp only
      obtain ⟨hlt, hget⟩ := Mem.obj_lt m a cell hc
      have hmem : Mem.obj mem a = some cell := by
        rcases hm a with h | h
        · exact Mem.obj_of_get mem a cell (by rw [← h, hget])
        · rw [hget] at h; cases h
      obtain ⟨g1, g2, g3⟩ := Mem.deleteAll_frame fuel mem (ih mem) cell.children m hm
      refine ⟨by simp [g1], ?_, ?_⟩
      · intro x hx
        rw [Mem.addrs, hmem] at hx
        simp only [List.mem_cons, List.mem_flatMap, not_or, not_exists, not_and] at hx
        rw [Mem.get_set_ne _ _ _ _ hx.1]
        exact g2 x (fun c hc' => hx.2 c hc')
      · intro x
        by_cases hx : x = a
        · subst hx
          exact Or.inr (Mem.get_set_self _ _ _ (by rw [g1]; exact hlt))
        · rw [Mem.get_set_ne _ _ _ _ hx]
          exact g3 x

/-- The function `clean()` on a live object: the size of the memory stays, every address
outside the tree of the object keeps its entry, and the object has its members with both
containers empty. -/
theorem Mem.clean_spec (fuel : Nat) (mem : Mem) (this : Nat) (cell : Cell)
    (hc : Mem.obj mem this = some cell) :
    (Mem.clean fuel mem this).length = mem.length ∧
    (∀ x : Nat, x ∉ Mem.addrs (fuel + 1) mem this →
      (Mem.clean fuel mem this)[x]? = mem[x]?) ∧
    (Mem.clean fuel mem this)[this]? =
      some (some { cell with jobject_ := [], jarray_ := [] }) := by
  obtain ⟨hlt, _⟩ := Mem.obj_lt mem this cell hc
  obtain ⟨g1, g2, _⟩ := Mem.deleteAll_frame fuel mem (Mem.delete_frame fuel mem) cell.children
    mem (fun _ => Or.inl rfl)
  simp only [Mem.clean, hc]
  refine ⟨by simp [g1], ?_, Mem.get_set_self _ _ _ (by rw [g1]; exact hlt)⟩
  intro x hx
  rw [Mem.addrs, hc] at hx
  simp only [List.mem_cons, List.mem_flatMap, not_or, not_exists, not_and] at hx
  rw [Mem.get_set_ne _ _ _ _ hx.1]
  exact g2 x (fun c hc' => hx.2 c hc')

/-! ### Copies in memory -/

/-- The loop over `rhs.jarray_`: every element is copied to a new object, and what the
vector of `this` then holds can be read from the new objects alone. -/
theorem Mem.copyItems_spec (fuel : Nat)
    (IH : ∀ (mem : Mem) (src : Nat) (v v' : JsonW), Mem.tree fuel mem src = some v →
      JsonW.copy JsonW.raw v = some v' →
      ∃ mem', Mem.newCopy fuel mem src = some (mem', mem.length) ∧ mem.length < mem'.length ∧
        (∀ x < mem.length, mem'[x]? = mem[x]?) ∧
        ∀ M : Mem, (∀ x, mem.length ≤ x → x < mem'.length → M[x]? = mem'[x]?) →
          Mem.tree fuel M mem.length = some v')
    (m : Mem) (this : Nat) (hthis : this < m.length) :
    ∀ (es : List Nat) (esV : List JsonW) (M : Mem) (c0 : Cell) (accV a' : List JsonW),
      collect (es.map (Mem.tree fuel m)) = some esV →
      (∀ child ∈ es, ∀ x ∈ Mem.addrs fuel m child, x ≠ this) →
      m.length ≤ M.length → (∀ x < m.length, x ≠ this → M[x]? = m[x]?) →
      M[this]? = some (some c0) →
      (∀ M'' : Mem, (∀ x, m.length ≤ x → x < M.length → M''[x]? = M[x]?) →
        collect (c0.jarray_.map (Mem.tree fuel M'')) = some accV) →
      copyElements esV accV = some a' →
      ∃ M' c1, Mem.copyItems (Mem.newCopy fuel) this es M = some M' ∧ M.length ≤ M'.length ∧
        (∀ x < M.length, x ≠ this → M'[x]? = M[x]?) ∧
        M'[this]? = some (some c1) ∧ c1 = { c0 with jarray_ := c1.jarray_ } ∧
        (∀ M'' : Mem, (∀ x, m.length ≤ x → x < M'.length → M''[x]? = M'[x]?) →
          collect (c1.jarray_.map (Mem.tree fuel M'')) = some a') := by
  intro es
  induction es with
  | nil =>
    intro esV M c0 accV a' hes _ _ _ hc0 hind hcopy
    simp only [List.map_nil, collect, Option.some.injEq] at hes
    subst hes
    simp only [copyElements, Option.some.injEq] at hcopy
    subst hcopy
    exact ⟨M, c0, rfl, le_refl _, fun _ _ _ => rfl, hc0, rfl, hind⟩
  | cons child rest ih =>
    intro esV M c0 accV a' hes hsep hlen hbelow hc0 hind hcopy
    simp only [List.map_cons] at hes
    obtain ⟨vchild, restV, h1, h2, h3⟩ := (collect_cons _ _ _).1 hes
    subst h3
    obtain ⟨vc', hcv, hcopy'⟩ := copyElements_cons _ _ _ _ hcopy
    have htM : Mem.tree fuel M child = some vchild := by
      rw [Mem.tree_congr fuel m M child, h1]
      intro x hx
      exact hbelow x (Mem.addrs_lt fuel m child vchild h1 x hx)
        (hsep child (List.mem_cons_self _ _) x hx)
    obtain ⟨M1, hnew, hlt1, hold1, hind1⟩ := IH M child vchild vc' htM hcv
    have hthisM : this < M.length := by omega
    have hc1 : M1[this]? = some (some c0) := by rw [hold1 this hthisM, hc0]
    obtain ⟨M', c1, hrun, hlen', hold', hc1', heq', hind'⟩ :=
      ih restV (M1.set this (some { c0 with jarray_ := c0.jarray_ ++ [M.length] }))
        { c0 with jarray_ := c0.jarray_ ++ [M.length] } (accV ++ [vc']) a' h2
        (fun c hc => hsep c (List.mem_cons_of_mem _ hc))
        (by simp; omega)
        (fun x hx hne => by
          rw [Mem.get_set_ne _ _ _ _ hne, hold1 x (by omega), hbelow x hx hne])
        (Mem.get_set_self _ _ _ (by omega))
        (fun M'' hM'' => by
          have hagree : ∀ x, m.length ≤ x → x < M1.length → M''[x]? = M1[x]? := by
            intro x h1x h2x
            rw [hM'' x h1x (by simpa using h2x), Mem.get_set_ne _ _ _ _ (by omega)]
          apply collect_map_append
          · apply hind
            intro x h1x h2x
            rw [hagree x h1x (by omega), hold1 x h2x]
          · apply hind1
            intro x h1x h2x
            exact hagree x (by omega) h2x)
        hcopy'
    refine ⟨M', c1, ?_, ?_, ?_, hc1', ?_, hind'⟩
    · rw [Mem.copyItems, hnew]
      simp only [Mem.obj_of_get _ _ _ hc1]
      exact hrun
    · have : (M1.set this (some { c0 with jarray_ := c0.jarray_ ++ [M.length] })).length = M1.length := by
        simp
      omega
    · intro x hx hne
      rw [hold' x (by simp; omega) hne, Mem.get_set_ne _ _ _ _ hne, hold1 x hx]
    · rw [heq']

/-- The loop over `rhs.jobject_`: every child is copied to a new object, and what the map
of `this` then holds can be read from the new objects alone. -/
theorem Mem.copyPairs_spec (fuel : Nat)
    (IH : ∀ (mem : Mem) (src : Nat) (v v' : JsonW), Mem.tree fuel mem src = some v →
      JsonW.copy JsonW.raw v = some v' →
      ∃ mem', Mem.newCopy fuel mem src = some (mem', mem.length) ∧ mem.length < mem'.length ∧
        (∀ x < mem.length, mem'[x]? = mem[x]?) ∧
        ∀ M : Mem, (∀ x, mem.length ≤ x → x < mem'.length → M[x]? = mem'[x]?) →
          Mem.tree fuel M mem.length = some v')
    (m : Mem) (this : Nat) (hthis : this < m.length) :
    ∀ (es : List (List Nat × Option Nat)) (esV : List (List Nat × Option JsonW)) (M : Mem)
      (c0 : Cell) (accV o' : List (List Nat × Option JsonW)),
      collect (es.map (treeEntry (Mem.tree fuel m))) = some esV →
      (∀ k child, (k, some child) ∈ es → ∀ x ∈ Mem.addrs fuel m child, x ≠ this) →
      m.length ≤ M.length → (∀ x < m.length, x ≠ this → M[x]? = m[x]?) →
      M[this]? = some (some c0) →
      (∀ M'' : Mem, (∀ x, m.length ≤ x → x < M.length → M''[x]? = M[x]?) →
        collect (c0.jobject_.map (treeEntry (Mem.tree fuel M''))) = some accV) →
      copyMembers esV accV = some o' →
      ∃ M' c1, Mem.copyPairs (Mem.newCopy fuel) this es M = some M' ∧ M.length ≤ M'.length ∧
        (∀ x < M.length, x ≠ this → M'[x]? = M[x]?) ∧
        M'[this]? = some (some c1) ∧ c1 = { c0 with jobject_ := c1.jobject_ } ∧
        (∀ M'' : Mem, (∀ x, m.length ≤ x → x < M'.length → M''[x]? = M'[x]?) →
          collect (c1.jobject_.map (treeEntry (Mem.tree fuel M''))) = some o') := by
  intro es
  induction es with
  | nil =>
    intro esV M c0 accV o' hes _ _ _ hc0 hind hcopy
    simp only [List.map_nil, collect, Option.some.injEq] at hes
    subst hes
    simp only [copyMembers, Option.some.injEq] at hcopy
    subst hcopy
    exact ⟨M, c0, rfl, le_refl _, fun _ _ _ => rfl, hc0, rfl, hind⟩
  | cons e rest ih =>
    obtain ⟨name, c⟩ := e
    intro esV M c0 accV o' hes hsep hlen hbelow hc0 hind hcopy
    simp only [List.map_cons] at hes
    obtain ⟨ev, restV, h1, h2, h3⟩ := (collect_cons _ _ _).1 hes
    subst h3
    cases c with
    | none =>
      simp only [treeEntry, Option.some.injEq] at h1
      subst h1
      simp [copyMembers] at hcopy
    | some child =>
      simp only [treeEntry] at h1
      cases ht : Mem.tree fuel m child with
      | none => simp [ht] at h1
      | some vchild =>
        simp only [ht, Option.map_some', Option.some.injEq] at h1
        subst h1
        obtain ⟨vc', hcv, hcopy'⟩ := copyMembers_cons _ _ _ _ _ hcopy
        have htM : Mem.tree fuel M child = some vchild := by
          rw [Mem.tree_congr fuel m M child, ht]
          intro x hx
          exact hbelow x (Mem.addrs_lt fuel m child vchild ht x hx)
            (hsep name child (List.mem_cons_self _ _) x hx)
        obtain ⟨M1, hnew, hlt1, hold1, hind1⟩ := IH M child vchild vc' htM hcv
        have hthisM : this < M.length := by omega
        have hc1 : M1[this]? = some (some c0) := by rw [hold1 this hthisM, hc0]
        obtain ⟨M', c1, hrun, hlen', hold', hc1', heq', hind'⟩ :=
          ih restV
            (M1.set this (some { c0 with jobject_ := MapW.set c0.jobject_ name (some M.length) }))
            { c0 with jobject_ := MapW.set c0.jobject_ name (some M.length) }
            (MapW.set accV name (some vc')) o' h2
            (fun k c hc => hsep k c (List.mem_cons_of_mem _ hc))
            (by simp; omega)
            (fun x hx hne => by
              rw [Mem.get_set_ne _ _ _ _ hne, hold1 x (by omega), hbelow x hx hne])
            (Mem.get_set_self _ _ _ (by omega))
            (fun M'' hM'' => by
              have hagree : ∀ x, m.length ≤ x → x < M1.length → M''[x]? = M1[x]? := by
                intro x h1x h2x
                rw [hM'' x h1x (by simpa using h2x), Mem.get_set_ne _ _ _ _ (by omega)]
              apply collect_map_set
              · apply hind
                intro x h1x h2x
                rw [hagree x h1x (by omega), hold1 x h2x]
              · apply hind1
                intro x h1x h2x
                exact hagree x (by omega) h2x)
            hcopy'
        refine ⟨M', c1, ?_, ?_, ?_, hc1', ?_, hind'⟩
        · rw [Mem.copyPairs, hnew]
          simp only [Mem.obj_of_get _ _ _ hc1]
          exact hrun
        · have : (M1.set this
              (some { c0 with jobject_ := MapW.set c0.jobject_ name (some M.length) })).length =
              M1.length := by simp
          omega
        · intro x hx hne
          rw [hold' x (by simp; omega) hne, Mem.get_set_ne _ _ _ _ hne, hold1 x hx]
        · rw [heq']

/-- The assignments and loops of `copy(rhs)` on an object `this` that is not part of the
tree of `rhs`: the tree of `this` afterwards is the copy of the tree of `rhs`, the other
objects are untouched, and the tree of `this` can be read from `this` and the new
objects alone. -/
theorem Mem.copyAssign_spec (fuel : Nat)
    (IH : ∀ (mem : Mem) (src : Nat) (v v' : JsonW), Mem.tree fuel mem src = some v →
      JsonW.copy JsonW.raw v = some v' →
      ∃ mem', Mem.newCopy fuel mem src = some (mem', mem.length) ∧ mem.length < mem'.length ∧
        (∀ x < mem.length, mem'[x]? = mem[x]?) ∧
        ∀ M : Mem, (∀ x, mem.length ≤ x → x < mem'.length → M[x]? = mem'[x]?) →
          Mem.tree fuel M mem.length = some v')
    (m : Mem) (this rhs : Nat) (v v' : JsonW) (hthis : this < m.length)
    (hv : Mem.tree (fuel + 1) m rhs = some v)
    (hsep : ∀ x ∈ Mem.addrs (fuel + 1) m rhs, x ≠ this)
    (hcopy : JsonW.copy JsonW.raw v = some v') :
    ∃ m', Mem.copyAssign (Mem.newCopy fuel) m this rhs = some m' ∧ m.length ≤ m'.length ∧
      (∀ x < m.length, x ≠ this → m'[x]? = m[x]?) ∧
      ∀ M : Mem, M[this]? = m'[this]? →
        (∀ x, m.length ≤ x → x < m'.length → M[x]? = m'[x]?) →
        Mem.tree (fuel + 1) M this = some v' := by
  obtain ⟨r, o, arr, hr, ho, harr, hveq⟩ := Mem.tree_succ fuel m rhs v hv
  subst hveq
  obtain ⟨o', a', hco, hca, hv'⟩ := copy_mk _ _ _ _ _ _ _ _ _ _ hcopy
  subst hv'
  obtain ⟨M1, c1, hrun1, hlen1, hold1, hc1, heq1, hind1⟩ :=
    Mem.copyPairs_spec fuel IH m this hthis r.jobject_ o
      (m.set this (some { r with jobject_ := [], jarray_ := [] }))
      { r with jobject_ := [], jarray_ := [] } [] o' ho
      (fun k child he x hx => hsep x (Mem.addrs_member fuel m rhs r hr k child he x hx))
      (by simp) (fun x _ hx => Mem.get_set_ne _ _ _ _ hx)
      (Mem.get_set_self _ _ _ hthis) (fun _ _ => rfl) hco
  have hlenM : (m.set this (some { r with jobject_ := [], jarray_ := [] })).length =
      m.length := by simp
  have hj1 : c1.jarray_ = [] := by rw [heq1]
  obtain ⟨M2, c2, hrun2, hlen2, hold2, hc2, heq2, hind2⟩ :=
    Mem.copyItems_spec fuel IH m this hthis r.jarray_ arr M1 c1 [] a' harr
      (fun child he x hx => hsep x (Mem.addrs_element fuel m rhs r hr child he x hx))
      (by omega)
      (fun x hx hne' => by
        rw [hold1 x (by omega) hne', Mem.get_set_ne _ _ _ _ hne'])
      hc1 (fun _ _ => by rw [hj1]; rfl) hca
  refine ⟨M2, ?_, by omega, ?_, ?_⟩
  · rw [Mem.copyAssign, hr]
    simp only
    rw [hrun1]
    exact hrun2
  · intro x hx hne'
    rw [hold2 x (by omega) hne', hold1 x (by omega) hne', Mem.get_set_ne _ _ _ _ hne']
  · intro M hMthis hM
    rw [Mem.tree, Mem.obj_of_get M this c2 (by rw [hMthis, hc2])]
    simp only
    have h1 : collect (c2.jobject_.map (treeEntry (Mem.tree fuel M))) = some o' := by
      have : c2.jobject_ = c1.jobject_ := by rw [heq2]
      rw [this]
      apply hind1
      intro x h1x h2x
      rw [hM x h1x (by omega), hold2 x h2x (by omega)]
    have h2 : collect (c2.jarray_.map (Mem.tree fuel M)) = some a' := by
      apply hind2
      intro x h1x h2x
      exact hM x h1x h2x
    rw [h1, h2]
    simp only [Option.some.injEq]
    rw [heq2, heq1]

/-- The body of `copy(rhs)` on a live object `this` whose tree shares no object with the
tree of `rhs`: the tree of `this` afterwards is the copy of the tree of `rhs`, every
object outside the old tree of `this` is untouched, and the tree of `this` can be read
from `this` and the new objects alone. -/
theorem Mem.copyBody_spec (fuel : Nat)
    (IH : ∀ (mem : Mem) (src : Nat) (v v' : JsonW), Mem.tree fuel mem src = some v →
      JsonW.copy JsonW.raw v = some v' →
      ∃ mem', Mem.newCopy fuel mem src = some (mem', mem.length) ∧ mem.length < mem'.length ∧
        (∀ x < mem.length, mem'[x]? = mem[x]?) ∧
        ∀ M : Mem, (∀ x, mem.length ≤ x → x < mem'.length → M[x]? = mem'[x]?) →
          Mem.tree fuel M mem.length = some v')
    (m : Mem) (this rhs : Nat) (cell : Cell) (v v' : JsonW)
    (hcell : Mem.obj m this = some cell)
    (hv : Mem.tree (fuel + 1) m rhs = some v)
    (hsep : ∀ x ∈ Mem.addrs (fuel + 1) m rhs, x ∉ Mem.addrs (fuel + 1) m this)
    (hcopy : JsonW.copy JsonW.raw v = some v') :
    ∃ m', Mem.copyBody fuel (Mem.newCopy fuel) m this rhs = some m' ∧
      m.length ≤ m'.length ∧
      (∀ x < m.length, x ∉ Mem.addrs (fuel + 1) m this → m'[x]? = m[x]?) ∧
      ∀ M : Mem, M[this]? = m'[this]? →
        (∀ x, m.length ≤ x → x < m'.length → M[x]? = m'[x]?) →
        Mem.tree (fuel + 1) M this = some v' := by
  obtain ⟨hthis, _⟩ := Mem.obj_lt m this cell hcell
  obtain ⟨hl, hframe, _⟩ := Mem.clean_spec fuel m this cell hcell
  have hagree : ∀ x ∈ Mem.addrs (fuel + 1) m rhs, (Mem.clean fuel m this)[x]? = m[x]? :=
    fun x hx => hframe x (hsep x hx)
  have hv1 : Mem.tree (fuel + 1) (Mem.clean fuel m this) rhs = some v := by
    rw [Mem.tree_congr (fuel + 1) m _ rhs hagree, hv]
  have hsep1 : ∀ x ∈ Mem.addrs (fuel + 1) (Mem.clean fuel m this) rhs, x ≠ this := by
    rw [Mem.addrs_congr (fuel + 1) m _ rhs hagree]
    intro x hx hxt
    subst hxt
    exact hsep x hx (Mem.mem_addrs_self fuel m x)
  obtain ⟨m', hrun, hlen, hold, hind⟩ :=
    Mem.copyAssign_spec fuel IH (Mem.clean fuel m this) this rhs v v' (by rw [hl]; exact hthis)
      hv1 hsep1 hcopy
  refine ⟨m', ?_, by omega, ?_, ?_⟩
  · rw [Mem.copyBody, hcell]
    exact hrun
  · intro x hx hnot
    have hne : x ≠ this := by
      intro e
      subst e
      exact hnot (Mem.mem_addrs_self fuel m x)
    rw [hold x (by omega) hne, hframe x hnot]
  · intro M h1 h2
    exact hind M h1 (fun x hx1 hx2 => h2 x (by omega) hx2)

/-- The expression `new JsonW(*src)`: the new object is placed at the first unused
address, the objects that were there before are untouched, the tree of the new object is
the copy of the tree at `src`, and it can be read from the new objects alone. -/
theorem Mem.newCopy_spec (fuel : Nat) : ∀ (mem : Mem) (src : Nat) (v v' : JsonW),
    Mem.tree fuel mem src = some v → JsonW.copy JsonW.raw v = some v' →
    ∃ mem', Mem.newCopy fuel mem src = some (mem', mem.length) ∧ mem.length < mem'.length ∧
      (∀ x < mem.length, mem'[x]? = mem[x]?) ∧
      ∀ M : Mem, (∀ x, mem.length ≤ x → x < mem'.length → M[x]? = mem'[x]?) →
        Mem.tree fuel M mem.length = some v' := by
  induction fuel with
  | zero => intro mem src v v' h; simp [Mem.tree] at h
  | succ fuel ih =>
    intro mem src v v' hv hcopy
    have hagree : ∀ x ∈ Mem.addrs (fuel + 1) mem src,
        (mem ++ [some Cell.raw])[x]? = mem[x]? := by
      intro x hx
      exact List.getElem?_append_left (Mem.addrs_lt (fuel + 1) mem src v hv x hx)
    have hv' : Mem.tree (fuel + 1) (mem ++ [some Cell.raw]) src = some v := by
      rw [Mem.tree_congr (fuel + 1) mem _ src hagree, hv]
    have hnew : Mem.obj (mem ++ [some Cell.raw]) mem.length = some Cell.raw :=
      Mem.obj_of_get _ _ _ (by simp)
    have haddr : Mem.addrs (fuel + 1) (mem ++ [some Cell.raw]) mem.length = [mem.length] := by
      rw [Mem.addrs, hnew]
      rfl
    have hsep : ∀ x ∈ Mem.addrs (fuel + 1) (mem ++ [some Cell.raw]) src,
        x ∉ Mem.addrs (fuel + 1) (mem ++ [some Cell.raw]) mem.length := by
      rw [Mem.addrs_congr (fuel + 1) mem _ src hagree, haddr]
      intro x hx
      have := Mem.addrs_lt (fuel + 1) mem src v hv x hx
      simp only [List.mem_singleton]
      omega
    obtain ⟨m', hrun, hlen, hold, hind⟩ :=
      Mem.copyBody_spec fuel ih (mem ++ [some Cell.raw]) mem.length src Cell.raw v v' hnew
        hv' hsep hcopy
    refine ⟨m', ?_, ?_, ?_, ?_⟩
    · rw [Mem.newCopy, hrun]
      rfl
    · simp at hlen; omega
    · intro x hx
      rw [hold x (by simp; omega) (by rw [haddr]; simp only [List.mem_singleton]; omega),
        List.getElem?_append_left hx]
    · intro M hM
      have hl : (mem ++ [some Cell.raw]).length = mem.length + 1 := by simp
      apply hind M (hM _ (le_refl _) (by omega))
      intro x h1x h2x
      exact hM x (by omega) h2x

/-- The copy made by `copy(rhs)` on a live object `this` whose tree shares no object with
the well-formed tree of `rhs`: afterwards the tree of `this` is the tree of `rhs`, the
tree of `rhs` is what it was, every object outside the old tree of `this` is untouched,
the objects of the tree of `rhs` are objects that were there before the call and are not
`this`, and the tree of `this` is the same in every memory that has the object `this`
and the objects the call created as they are after the call. -/
theorem Mem.copy_spec (fuel : Nat) (mem : Mem) (this rhs : Nat) (cell : Cell) (B : JsonW)
    (hcell : Mem.obj mem this = some cell) (hB : Mem.tree (fuel + 1) mem rhs = some B)
    (hw : B.wellFormed = true)
    (hsep : ∀ x ∈ Mem.addrs (fuel + 1) mem rhs, x ∉ Mem.addrs (fuel + 1) mem this) :
    ∃ mem', Mem.copy fuel mem this rhs = some mem' ∧
      Mem.tree (fuel + 1) mem' this = some B ∧
      Mem.tree (fuel + 1) mem' rhs = some B ∧
      (∀ x, x < mem.length → x ∉ Mem.addrs (fuel + 1) mem this → mem'[x]? = mem[x]?) ∧
      (∀ x ∈ Mem.addrs (fuel + 1) mem rhs, x < mem.length ∧ x ≠ this) ∧
      ∀ M : Mem, M[this]? = mem'[this]? →
        (∀ x, mem.length ≤ x → x < mem'.length → M[x]? = mem'[x]?) →
        Mem.tree (fuel + 1) M this = some B := by
  obtain ⟨mem', hrun, hlen, hold, hind⟩ :=
    Mem.copyBody_spec fuel (Mem.newCopy_spec fuel) mem this rhs cell B B hcell hB hsep
      (copy_wellFormed B hw JsonW.raw)
  have hlt := Mem.addrs_lt (fuel + 1) mem rhs B hB
  have hne : ∀ x ∈ Mem.addrs (fuel + 1) mem rhs, x ≠ this := by
    intro x hx e
    subst e
    exact hsep x hx (Mem.mem_addrs_self fuel mem x)
  refine ⟨mem', hrun, hind mem' rfl (fun _ _ _ => rfl), ?_, hold,
    fun x hx => ⟨hlt x hx, hne x hx⟩, hind⟩
  rw [Mem.tree_congr (fuel + 1) mem mem' rhs, hB]
  intro x hx
  exact hold x (hlt x hx) (hsep x hx)

/-! ## The claims, continued -/

/-- C11: for every node `n` (in which, as in every state the class produces, the type
ARRAY comes with the validity flag set) and every index `i ≥ 0`, after `n[i]` the node is
a valid ARRAY and the returned reference is its element `i`; the `int` overload does the
same as the `size_t` overload.  If `n` was an array of size `s`, its elements `0..s-1`
are unchanged, and when `i ≥ s` the new size is `i + 1` and every index from `s` to `i`
holds a fresh valid Null.  If `n` was not an array, it owns no entries afterwards and is
an array of size `i + 1` filled with fresh valid Nulls.  In particular, from the empty
array parsed from `[]`, and from a default-constructed node, `n[3] = true` gives
`[null,null,null,true]`: size 4, Nulls at 0..2 and the Boolean `true` at 3. -/
theorem C11_array_vivification (env : FloatEnv) (n : JsonW) (i : Nat)
    (h : n.type = JsonW.ARRAY → n.valid = true) :
    (n.subscript i).2 = Ref.element i ∧
    n.subscriptInt (i : Int) = n.subscript i ∧
    (n.subscript i).1.valid = true ∧ (n.subscript i).1.type = JsonW.ARRAY ∧
    (n.type = JsonW.ARRAY →
      (n.subscript i).1.jarray_ = n.jarray_ ++ List.replicate (i + 1 - n.size) JsonW.new ∧
      (∀ j, j < n.size → (n.subscript i).1.at j = n.at j) ∧
      (n.size ≤ i → (n.subscript i).1.size = i + 1 ∧
        ∀ j, n.size ≤ j → j ≤ i → (n.subscript i).1.at j = some JsonW.new)) ∧
    (n.type ≠ JsonW.ARRAY →
      (n.subscript i).1.wkeys = [] ∧ (n.subscript i).1.size = i + 1 ∧
      ∀ j, j ≤ i → (n.subscript i).1.at j = some JsonW.new) ∧
    (JsonW.init env (ws "[]")).map (fun a => ((a.putBool 3 true).size,
        (a.putBool 3 true).jarray_, (a.putBool 3 true).wtext env)) =
      some (4, [JsonW.new, JsonW.new, JsonW.new, JsonW.new.assignBool true],
        some (ws "[null,null,null,true]")) ∧
    (JsonW.new.putBool 3 true).jarray_ =
      [JsonW.new, JsonW.new, JsonW.new, JsonW.new.assignBool true] := by
  refine ⟨rfl, ?_, ?_, ?_, ?_, ?_, rfl, rfl⟩
  · simp [JsonW.subscriptInt]
  · obtain ⟨t, v, i', f, s, b, o, a⟩ := n
    by_cases ht : t = JsonW.ARRAY
    · subst ht
      have hv : v = true := h rfl
      rw [subscript_array]
      simp [JsonW.valid, JsonW.valid_, hv]
    · rw [subscript_other _ _ _ _ _ _ _ _ _ ht]
      rfl
  · obtain ⟨t, v, i', f, s, b, o, a⟩ := n
    by_cases ht : t = JsonW.ARRAY
    · subst ht
      rw [subscript_array]
      rfl
    · rw [subscript_other _ _ _ _ _ _ _ _ _ ht]
      rfl
  · obtain ⟨t, v, i', f, s, b, o, a⟩ := n
    intro ht
    have ht : t = JsonW.ARRAY := ht
    subst ht
    rw [subscript_array]
    refine ⟨rfl, ?_, ?_⟩
    · intro j hj
      have hj : j < a.length := hj
      rw [at_append_left _ _ _ _ _ _ _ _ _ _ hj]
      have hj' : ¬ (a.length ≤ j) := by omega
      simp [JsonW.at, JsonW.jarray_, hj']
    · intro hs
      have hs : a.length ≤ i := hs
      refine ⟨?_, ?_⟩
      · simp [JsonW.size, JsonW.jarray_]
        omega
      · intro j h1 h2
        have h1 : a.length ≤ j := h1
        exact at_append_replicate _ _ _ _ _ _ _ _ _ _ h1 (by omega)
  · obtain ⟨t, v, i', f, s, b, o, a⟩ := n
    intro ht
    have ht : t ≠ JsonW.ARRAY := ht
    rw [subscript_other _ _ _ _ _ _ _ _ _ ht]
    refine ⟨rfl, ?_, ?_⟩
    · simp [JsonW.size, JsonW.jarray_]
    · intro j hj
      have := at_append_replicate JsonW.ARRAY true i' f s b [] [] (i + 1) j (by simp)
        (by simp; omega)
      simpa using this

/-- C11, instance: the array `[1,2]` and the index 4. -/
theorem C11_array_vivification_witness :
    ((JsonW.mk JsonW.ARRAY true 0 LongDouble.zero [] true []
        [integerNode 1, integerNode 2]).type = JsonW.ARRAY →
      (JsonW.mk JsonW.ARRAY true 0 LongDouble.zero [] true []
        [integerNode 1, integerNode 2]).valid = true) ∧
    ((JsonW.mk JsonW.ARRAY true 0 LongDouble.zero [] true []
        [integerNode 1, integerNode 2]).subscript 4).1.valid = true :=
  ⟨fun _ => rfl, (C11_array_vivification FloatEnv.unbounded
    (JsonW.mk JsonW.ARRAY true 0 LongDouble.zero [] true [] [integerNode 1, integerNode 2]) 4
    (fun _ => rfl)).2.2.1⟩

/-- C12, counterexample: the node of the failed parse of `[1,2` is invalid; `set` of a
fresh Null under `a` makes it an OBJECT with the key `a` and leaves it invalid.  On that
node `n["b"]` inserts `b` and `n["a"]` finds `a`, and in both cases the node afterwards
is an OBJECT with `valid()` false. -/
theorem C12_invalid_object_counterexample :
    (JsonW.init FloatEnv.unbounded (ws "[1,2")).map (fun n =>
        ((n.set (ws "a") (some JsonW.new)).2.type, (n.set (ws "a") (some JsonW.new)).2.valid,
          (n.set (ws "a") (some JsonW.new)).2.wkeys)) =
      some (JsonW.OBJECT, false, [ws "a"]) ∧
    (JsonW.init FloatEnv.unbounded (ws "[1,2")).map (fun n =>
        (((n.set (ws "a") (some JsonW.new)).2.subscriptKey (ws "b")).1.type,
          ((n.set (ws "a") (some JsonW.new)).2.subscriptKey (ws "b")).1.valid,
          ((n.set (ws "a") (some JsonW.new)).2.subscriptKey (ws "b")).1.wkeys)) =
      some (JsonW.OBJECT, false, [ws "a", ws "b"]) ∧
    (JsonW.init FloatEnv.unbounded (ws "[1,2")).map (fun n =>
        (((n.set (ws "a") (some JsonW.new)).2.subscriptKey (ws "a")).1.type,
          ((n.set (ws "a") (some JsonW.new)).2.subscriptKey (ws "a")).1.valid)) =
      some (JsonW.OBJECT, false) := by
  decide

/-- C12, amended: for every node `n` and every non-empty key `k`, after `n[k]` the node
is an OBJECT that contains `k` and the returned reference is the slot of `k`; the node
is valid if `n` was not an OBJECT and keeps the validity flag of `n` if it was.  If `n`
was an OBJECT containing `k`, the node is unchanged.  If `n` was an OBJECT without `k`,
`k` is bound to a fresh valid Null and every other key has the slot it had.  If `n` was
not an OBJECT, its previous content is gone and the result is the one-entry object
`{k: null}`. -/
theorem C12_keyed_vivification (n : JsonW) (k : List Nat) (hk : k ≠ []) :
    (n.subscriptKey k).2 = Ref.member k ∧
    (n.subscriptKey k).1.type = JsonW.OBJECT ∧
    k ∈ (n.subscriptKey k).1.wkeys ∧
    (n.subscriptKey k).1.valid = (if n.type = JsonW.OBJECT then n.valid else true) ∧
    (n.type = JsonW.OBJECT → k ∈ n.wkeys → (n.subscriptKey k).1 = n) ∧
    (n.type = JsonW.OBJECT → k ∉ n.wkeys →
      (n.subscriptKey k).1.find k = some (some JsonW.new) ∧
      (∀ k', k' ≠ k → (n.subscriptKey k).1.find k' = n.find k') ∧
      ∀ k', k' ∈ (n.subscriptKey k).1.wkeys ↔ k' = k ∨ k' ∈ n.wkeys) ∧
    (n.type ≠ JsonW.OBJECT →
      (n.subscriptKey k).1.jobject_ = [(k, some JsonW.new)] ∧
      (n.subscriptKey k).1.size = 0) := by
  obtain ⟨t, v, i, f, s, b, o, a⟩ := n
  have hk' : ¬ (k.length = 0) := by simpa using hk
  by_cases ht : t = JsonW.OBJECT
  · subst ht
    by_cases hc : k ∈ o.map Prod.fst
    · have hs : (MapW.find o k).isNone = false := by
        have := (MapW.find_isSome_iff o k).2 hc
        cases h : MapW.find o k <;> simp_all
      have e : JsonW.subscriptKey (JsonW.mk JsonW.OBJECT v i f s b o a) k =
          (JsonW.mk JsonW.OBJECT v i f s b o a, Ref.member k) := by
        simp [JsonW.subscriptKey, hk', hs]
      rw [e]
      refine ⟨rfl, rfl, hc, by simp [JsonW.type, JsonW.type_, JsonW.valid], fun _ _ => rfl,
        fun _ h => absurd hc h, fun h => absurd rfl h⟩
    · have hs : (MapW.find o k).isNone = true := by
        have := (MapW.find_isSome_iff o k).not.2 hc
        cases h : MapW.find o k <;> simp_all
      have e : JsonW.subscriptKey (JsonW.mk JsonW.OBJECT v i f s b o a) k =
          (JsonW.mk JsonW.OBJECT v i f s b (MapW.set o k (some JsonW.new)) a,
            Ref.member k) := by
        simp [JsonW.subscriptKey, hk', hs]
      rw [e]
      refine ⟨rfl, rfl, ?_, by simp [JsonW.type, JsonW.type_, JsonW.valid, JsonW.valid_],
        fun _ h => absurd h hc, fun _ _ => ⟨?_, ?_, ?_⟩, fun h => absurd rfl h⟩
      · exact (MapW.keys_set o k _ k).2 (Or.inl rfl)
      · exact MapW.find_set_self o k _
      · intro k' hne
        exact MapW.find_set_ne o k k' _ hne
      · intro k'
        exact MapW.keys_set o k _ k'
  · have e : JsonW.subscriptKey (JsonW.mk t v i f s b o a) k =
        (JsonW.mk JsonW.OBJECT true i f s b [(k, some JsonW.new)] [], Ref.member k) := by
      simp [JsonW.subscriptKey, hk', ht, MapW.find, MapW.set]
    rw [e]
    refine ⟨rfl, rfl, by simp [JsonW.wkeys, JsonW.jobject_], ?_, fun h => absurd h ht,
      fun h => absurd h ht, fun _ => ⟨rfl, rfl⟩⟩
    have : ¬ (JsonW.mk t v i f s b o a).type = JsonW.OBJECT := ht
    simp [this, JsonW.valid, JsonW.valid_]

/-- C12, instance: the key `b` on the object `{"a":null}`. -/
theorem C12_keyed_vivification_witness :
    ws "b" ≠ [] ∧
    ((JsonW.new.subscriptKey (ws "a")).1.subscriptKey (ws "b")).1.wkeys = [ws "a", ws "b"] ∧
    ((JsonW.new.subscriptKey (ws "a")).1.subscriptKey (ws "b")).1.type = JsonW.OBJECT :=
  ⟨by decide, by decide,
    (C12_keyed_vivification (JsonW.new.subscriptKey (ws "a")).1 (ws "b") (by decide)).2.1⟩

/-- C13: for every tree `A`, non-empty key `k` and tree `B` (trees as the class builds
them: ascending keys, no stored `NULL`), after `A[k] = B` the node `A` is an OBJECT whose
child under `k` is equal to `B` in type, validity flag, payload and, recursively, in its
children with their keys and order, so it has the `wtext()` of `B`.  The copy shares no
object with `B`: when `copy` runs on a live object `this` whose tree has no object in
common with the tree of `rhs`, which is `B`, the tree of `this` becomes `B` and the tree
of `rhs` stays `B`; the objects of the tree of `rhs` are objects from before the call
other than `this`, and the tree of `this` is `B` in every memory in which `this` and the
objects created by the call are as the call left them, whatever happens to any other
object. -/
theorem C13_assignment_deep_copy (instance_ A B : JsonW) (k : List Nat) (hk : k ≠ [])
    (hA : A.wellFormed = true) (hB : B.wellFormed = true) :
    (∃ A', JsonW.putCopy instance_ A k B = some A' ∧ A'.type = JsonW.OBJECT ∧
      A'.find k = some (some B) ∧
      ∀ env, (A'.find k).join.bind (JsonW.wtext env) = B.wtext env) ∧
    ∀ (fuel : Nat) (mem : Mem) (this rhs : Nat) (cell : Cell),
      Mem.obj mem this = some cell →
      Mem.tree (fuel + 1) mem rhs = some B →
      (∀ x ∈ Mem.addrs (fuel + 1) mem rhs, x ∉ Mem.addrs (fuel + 1) mem this) →
      ∃ mem', Mem.copy fuel mem this rhs = some mem' ∧
        Mem.tree (fuel + 1) mem' this = some B ∧
        Mem.tree (fuel + 1) mem' rhs = some B ∧
        (∀ x, x < mem.length → x ∉ Mem.addrs (fuel + 1) mem this → mem'[x]? = mem[x]?) ∧
        (∀ x ∈ Mem.addrs (fuel + 1) mem rhs, x < mem.length ∧ x ≠ this) ∧
        ∀ M : Mem, M[this]? = mem'[this]? →
          (∀ x, mem.length ≤ x → x < mem'.length → M[x]? = mem'[x]?) →
          Mem.tree (fuel + 1) M this = some B := by
  refine ⟨?_, fun fuel mem this rhs cell hcell hT hsep =>
    Mem.copy_spec fuel mem this rhs cell B hcell hT hB hsep⟩
  obtain ⟨m, c, hsub, hty, hfind⟩ := subscriptKey_child A k hk hA
  obtain ⟨t, v, i, f, s, b, o, a⟩ := m
  have hput : JsonW.putCopy instance_ A k B =
      some (JsonW.mk t v i f s b (MapW.update (fun _ => B) k o) a) := by
    have hread : JsonW.read (JsonW.bad instance_) (JsonW.mk t v i f s b o a) (Ref.member k) =
        some c := by
      simp only [JsonW.read, hfind]
      rfl
    simp only [JsonW.putCopy, hsub, hread, copy_wellFormed B hB c]
    rfl
  have hf : (JsonW.mk t v i f s b (MapW.update (fun _ => B) k o) a).find k =
      some (some B) := by
    have : MapW.find o k = some (some c) := hfind
    simp [JsonW.find, JsonW.jobject_, MapW.find_update_self, this]
  refine ⟨_, hput, hty, hf, fun env => ?_⟩
  rw [hf]
  rfl

/-- C13, instance: `A["x"] = B` for a default-constructed `A` and `B` the array `[1,2]`,
and, in the sample memory, `copy` of the array at address 1 into the child at address 4
of the object `{"x":null}`. -/
theorem C13_assignment_deep_copy_witness :
    ws "x" ≠ [] ∧ JsonW.new.wellFormed = true ∧ sampleTree.wellFormed = true ∧
    (∃ A', JsonW.putCopy JsonW.new JsonW.new (ws "x") sampleTree = some A' ∧
      A'.type = JsonW.OBJECT ∧ A'.find (ws "x") = some (some sampleTree) ∧
      ∀ env, (A'.find (ws "x")).join.bind (JsonW.wtext env) = sampleTree.wtext env) ∧
    (∃ mem', Mem.copy 1 sampleMem 4 1 = some mem' ∧
      Mem.tree (1 + 1) mem' 4 = some sampleTree ∧
      Mem.tree (1 + 1) mem' 1 = some sampleTree ∧
      (∀ x, x < sampleMem.length → x ∉ Mem.addrs (1 + 1) sampleMem 4 →
        mem'[x]? = sampleMem[x]?) ∧
      (∀ x ∈ Mem.addrs (1 + 1) sampleMem 1, x < sampleMem.length ∧ x ≠ 4) ∧
      ∀ M : Mem, M[4]? = mem'[4]? →
        (∀ x, sampleMem.length ≤ x → x < mem'.length → M[x]? = mem'[x]?) →
        Mem.tree (1 + 1) M 4 = some sampleTree) :=
  ⟨by decide, by decide, by decide,
    (C13_assignment_deep_copy JsonW.new JsonW.new sampleTree (ws "x") (by decide) (by decide)
      (by decide)).1,
    (C13_assignment_deep_copy JsonW.new JsonW.new sampleTree (ws "x") (by decide) (by decide)
      (by decide)).2 1 sampleMem 4 1 Cell.new rfl rfl (by decide)⟩

/-- C14: for every live object `C` in memory and every pointer `P`, `C.add(P)` returns
true and makes `C` a valid ARRAY whose size is the old size (0 if `C` was not an array)
plus one.  If `C` was an array, the pointers at lower indices are the ones that were
there and every other object is untouched; in any case every object outside the old
tree of `C` is untouched.  For a non-null `P` no object is created and the last element,
`at(size-1)`, is the pointer `P` itself, so a write through `at(size-1)` is a write to
the object `P` designates.  For a null `P` the last element is a new object, a valid
Null. -/
theorem C14_add_transfers_pointer (fuel : Nat) (mem : Mem) (this : Nat) (cell : Cell)
    (P : Option Nat) (hc : Mem.obj mem this = some cell) :
    ∃ mem' cell', Mem.add fuel mem this P = some (mem', true) ∧
      Mem.obj mem' this = some cell' ∧
      cell'.type_ = JsonW.ARRAY ∧ cell'.valid_ = true ∧
      cell'.jarray_.length =
        (if cell.type_ = JsonW.ARRAY then cell.jarray_.length else 0) + 1 ∧
      (cell.type_ = JsonW.ARRAY →
        (∀ j, j < cell.jarray_.length → Mem.at mem' this j = Mem.at mem this j) ∧
        ∀ x, x < mem.length → x ≠ this → mem'[x]? = mem[x]?) ∧
      (∀ x, x < mem.length → x ∉ Mem.addrs (fuel + 1) mem this → mem'[x]? = mem[x]?) ∧
      (∀ p, P = some p →
        mem'.length = mem.length ∧
        Mem.at mem' this (cell'.jarray_.length - 1) = some p ∧
        ∀ q w, Mem.at mem' this (cell'.jarray_.length - 1) = some q → q < mem'.length →
          (mem'.set q w)[p]? = some w) ∧
      (P = none →
        mem'.length = mem.length + 1 ∧
        Mem.at mem' this (cell'.jarray_.length - 1) = some mem.length ∧
        mem'[mem.length]? = some (some Cell.new)) := by
  obtain ⟨hthis, hget⟩ := Mem.obj_lt mem this cell hc
  -- the memory and the object when the pointer is pushed
  obtain ⟨m1, c1, hm1, hl1, hobj1, hty1, hja, hfr1, hfr2⟩ : ∃ (m1 : Mem) (c1 : Cell),
      (if cell.type_ != JsonW.ARRAY then Mem.clean fuel mem this else mem) = m1 ∧
      m1.length = mem.length ∧ Mem.obj m1 this = some c1 ∧
      c1 = { c1 with jarray_ := c1.jarray_ } ∧
      c1.jarray_ = (if cell.type_ = JsonW.ARRAY then cell.jarray_ else []) ∧
      (cell.type_ = JsonW.ARRAY → ∀ x : Nat, m1[x]? = mem[x]?) ∧
      (∀ x : Nat, x ∉ Mem.addrs (fuel + 1) mem this → m1[x]? = mem[x]?) := by
    by_cases ht : cell.type_ = JsonW.ARRAY
    · exact ⟨mem, cell, by simp [ht], rfl, hc, rfl, by simp [ht], fun _ _ => rfl,
        fun _ _ => rfl⟩
    · obtain ⟨g1, g2, g3⟩ := Mem.clean_spec fuel mem this cell hc
      exact ⟨_, _, by simp [ht], g1, Mem.obj_of_get _ _ _ g3, rfl, by simp [ht],
        fun h => absurd h ht, g2⟩
  have hthis1 : this < m1.length := by omega
  have hsize : ∀ (c' : Cell) (last : Nat), c'.jarray_ = c1.jarray_ ++ [last] →
      c'.jarray_.length = (if cell.type_ = JsonW.ARRAY then cell.jarray_.length else 0) + 1 ∧
      c'.jarray_[c'.jarray_.length - 1]? = some last ∧
      (cell.type_ = JsonW.ARRAY → ∀ j, j < cell.jarray_.length →
        c'.jarray_[j]? = cell.jarray_[j]? ∧ j < c'.jarray_.length) := by
    intro c' last h
    rw [h, hja]
    by_cases ht : cell.type_ = JsonW.ARRAY
    · simp only [ht, if_true]
      refine ⟨by simp, by simp, fun _ j hj => ⟨List.getElem?_append_left hj, by simp; omega⟩⟩
    · simp [ht]
  have hat : ∀ (M : Mem) (c' : Cell) (j : Nat), Mem.obj M this = some c' →
      j < c'.jarray_.length → Mem.at M this j = c'.jarray_[j]? := by
    intro M c' j hM hj
    have : ¬ (c'.jarray_.length ≤ j) := by omega
    simp [Mem.at, hM, this]
  have hframe : ∀ (M : Mem), (∀ x : Nat, x ≠ this → x < mem.length → M[x]? = m1[x]?) →
      (cell.type_ = JsonW.ARRAY → ∀ x, x < mem.length → x ≠ this → M[x]? = mem[x]?) ∧
      (∀ x, x < mem.length → x ∉ Mem.addrs (fuel + 1) mem this → M[x]? = mem[x]?) := by
    intro M hM
    refine ⟨fun ht x hx hne => by rw [hM x hne hx, hfr1 ht x], fun x hx hnot => ?_⟩
    have hne : x ≠ this := by
      intro e
      subst e
      exact hnot (Mem.mem_addrs_self fuel mem x)
    rw [hM x hne hx, hfr2 x hnot]
  cases P with
  | some p =>
    have hadd : Mem.add fuel mem this (some p) = some (m1.set this (some { c1 with
        type_ := JsonW.ARRAY, valid_ := true, jarray_ := c1.jarray_ ++ [p] }), true) := by
      simp only [Mem.add, hc, hm1, hobj1]
    have hself := Mem.obj_of_get _ _ _ (Mem.get_set_self m1 this (some { c1 with
        type_ := JsonW.ARRAY, valid_ := true, jarray_ := c1.jarray_ ++ [p] }) hthis1)
    obtain ⟨hs1, hs2, hs3⟩ := hsize { c1 with
        type_ := JsonW.ARRAY, valid_ := true, jarray_ := c1.jarray_ ++ [p] } p rfl
    have hlast := (hat _ _ _ hself (by omega)).trans hs2
    obtain ⟨hf1, hf2⟩ := hframe _ (fun x hne _ => Mem.get_set_ne m1 this x _ hne)
    refine ⟨_, _, hadd, hself, rfl, rfl, hs1, fun ht => ⟨?_, hf1 ht⟩, hf2, ?_,
      fun h => by cases h⟩
    · intro j hj
      rw [hat _ _ j hself (hs3 ht j hj).2, hat _ cell j hc hj, (hs3 ht j hj).1]
    · intro p' hp'
      cases hp'
      refine ⟨by simp [hl1], hlast, ?_⟩
      intro q w hq hlt
      rw [hlast] at hq
      cases hq
      exact Mem.get_set_self _ _ _ hlt
  | none =>
    have hadd : Mem.add fuel mem this none = some (m1.set this (some { c1 with
        type_ := JsonW.ARRAY, valid_ := true, jarray_ := c1.jarray_ ++ [m1.length] }) ++
        [some Cell.new], true) := by
      simp only [Mem.add, hc, hm1, hobj1]
    have hlen : (m1.set this (some { c1 with
        type_ := JsonW.ARRAY, valid_ := true, jarray_ := c1.jarray_ ++ [m1.length] })).length =
        mem.length := by simp [hl1]
    have hget' : ∀ x, x < mem.length → (m1.set this (some { c1 with
        type_ := JsonW.ARRAY, valid_ := true, jarray_ := c1.jarray_ ++ [m1.length] }) ++
        [some Cell.new])[x]? = (m1.set this (some { c1 with
        type_ := JsonW.ARRAY, valid_ := true, jarray_ := c1.jarray_ ++ [m1.length] }))[x]? := by
      intro x hx
      exact List.getElem?_append_left (by rw [hlen]; exact hx)
    have hself := Mem.obj_of_get _ _ _ ((hget' this hthis).trans
      (Mem.get_set_self m1 this _ hthis1))
    obtain ⟨hs1, hs2, hs3⟩ := hsize { c1 with
        type_ := JsonW.ARRAY, valid_ := true, jarray_ := c1.jarray_ ++ [m1.length] } m1.length rfl
    have hlast := (hat _ _ _ hself (by omega)).trans hs2
    obtain ⟨hf1, hf2⟩ := hframe _ (fun x hne hx => by
      rw [hget' x hx]
      exact Mem.get_set_ne m1 this x _ hne)
    refine ⟨_, _, hadd, hself, rfl, rfl, hs1, fun ht => ⟨?_, hf1 ht⟩, hf2,
      (fun p h => by cases h), fun _ => ⟨by simp [hl1], ?_, ?_⟩⟩
    · intro j hj
      rw [hat _ _ j hself (hs3 ht j hj).2, hat _ cell j hc hj, (hs3 ht j hj).1]
    · rw [hlast, hl1]
    · rw [List.getElem?_append_right (by rw [hlen])]
      simp [hlen]

/-- C14, instance: in the sample memory, `add` of the pointer 1 (the array `[1,2]`) on
the object `{"x":null}` at address 0, which deletes the child at address 4. -/
theorem C14_add_transfers_pointer_witness :
    Mem.obj sampleMem 0 =
      some { Cell.new with type_ := JsonW.OBJECT, jobject_ := [([120], some 4)] } ∧
    ∃ mem' cell', Mem.add 1 sampleMem 0 (some 1) = some (mem', true) ∧
      Mem.obj mem' 0 = some cell' ∧ cell'.jarray_ = [1] ∧ mem'[4]? = some none :=
  ⟨rfl, by
    obtain ⟨mem', cell', h1, h2, _⟩ :=
      C14_add_transfers_pointer 1 sampleMem 0 _ (some 1) rfl
    have e : Mem.add 1 sampleMem 0 (some 1) = some
        ([some { Cell.new with type_ := JsonW.ARRAY, jarray_ := [1] },
          some { Cell.new with type_ := JsonW.ARRAY, jarray_ := [2, 3] },
          some { Cell.new with type_ := JsonW.INTEGER, integer_ := 1 },
          some { Cell.new with type_ := JsonW.INTEGER, integer_ := 2 }, none], true) := by
      decide
    rw [e] at h1
    cases h1
    cases h2
    exact ⟨_, _, e, rfl, rfl, rfl⟩⟩

/-- C15, the code at the failing input: on every node, `set("k", NULL)` returns true and
stores the null pointer itself, so `find("k")` returns `NULL` and not a node; on a
default-constructed node the result is a valid OBJECT whose `wtext()` dereferences the
stored `NULL`.  The array operation `add(NULL)` does insert a fresh valid Null. -/
theorem C15_set_null_stores_null (env : FloatEnv) (n : JsonW) :
    (n.set (ws "k") none).1 = true ∧
    (n.set (ws "k") none).2.find (ws "k") = some none ∧
    (JsonW.new.set (ws "k") none).2.valid = true ∧
    (JsonW.new.set (ws "k") none).2.type = JsonW.OBJECT ∧
    (JsonW.new.set (ws "k") none).2.wtext env = none ∧
    (JsonW.new.add none).at 0 = some JsonW.new ∧
    (JsonW.new.add none).wtext env = some (ws "[null]") := by
  refine ⟨?_, ?_, rfl, rfl, rfl, rfl, rfl⟩
  · obtain ⟨t, v, i, f, s, b, o, a⟩ := n
    rfl
  · obtain ⟨t, v, i, f, s, b, o, a⟩ := n
    have : ¬ ((ws "k").length = 0) := by decide
    simp only [JsonW.set, beq_iff_eq, this, if_false, JsonW.find, JsonW.jobject_]
    exact MapW.find_set_self _ _ _

/-- C16: for every node `n` and key `k`, the call `find(k)` leaves the node as it was
and returns a slot of `n`'s object entries stored with `k` when the entries contain `k`
(the one such slot, keys being unique), and `NULL` when they do not; in particular it
returns `NULL` on every node without object entries, such as a node after a scalar
assignment, and the keys after the call are the keys before it. -/
theorem C16_find_read_only (n : JsonW) (k : List Nat) :
    (n.findStep k).2 = n ∧
    (n.findStep k).2.wkeys = n.wkeys ∧
    (k ∈ n.wkeys → ∃ c, (n.findStep k).1 = some c ∧ (k, c) ∈ n.jobject_) ∧
    (n.wkeys.Nodup → ∀ c, (k, c) ∈ n.jobject_ → (n.findStep k).1 = some c) ∧
    (k ∉ n.wkeys → (n.findStep k).1 = none) ∧
    (n.jobject_ = [] → (n.findStep k).1 = none) ∧
    (∀ x, ((n.assignInteger x).findStep k).1 = none) := by
  refine ⟨rfl, rfl, ?_, ?_, ?_, ?_, ?_⟩
  · intro h
    have := (MapW.find_isSome_iff n.jobject_ k).2 h
    cases hf : MapW.find n.jobject_ k with
    | none => simp [hf] at this
    | some c => exact ⟨c, hf, MapW.find_mem _ _ _ hf⟩
  · intro hn c hc
    exact MapW.find_of_mem _ _ _ hn hc
  · intro h
    have := (MapW.find_isSome_iff n.jobject_ k).not.2 h
    cases hf : MapW.find n.jobject_ k with
    | none => exact hf
    | some c => simp [hf] at this
  · intro h
    simp [JsonW.findStep, JsonW.find, h, MapW.find]
  · intro x
    obtain ⟨t, v, i, f, s, b, o, a⟩ := n
    rfl

/-- C17: for every node `n`, every negative `int` index `i` and the empty key, `n[i]`
and `n[""]` return the reference of `bad()` and leave `n` exactly as it was; whatever
state the static instance of `bad()` was left in, the object the reference designates
has `valid()` false and `type()` BAD.  The node `n` is an object other than that static
instance. -/
theorem C17_invalid_access_sentinel (instance_ n : JsonW) (i : Int) (h : i < 0) :
    n.subscriptInt i = (n, Ref.bad) ∧
    n.subscriptKey [] = (n, Ref.bad) ∧
    JsonW.read (JsonW.bad instance_) n Ref.bad = some (JsonW.bad instance_) ∧
    (JsonW.bad instance_).valid = false ∧
    (JsonW.bad instance_).type = JsonW.BAD := by
  obtain ⟨t, v, i', f, s, b, o, a⟩ := n
  obtain ⟨t', v', i'', f', s', b', o', a'⟩ := instance_
  refine ⟨by simp [JsonW.subscriptInt, h], rfl, rfl, rfl, rfl⟩

/-- C17, instance: the index `-1` on the array `[1,2]`, with the static instance as
its constructor leaves it. -/
theorem C17_invalid_access_sentinel_witness :
    (-1 : Int) < 0 ∧
    (JsonW.mk JsonW.ARRAY true 0 LongDouble.zero [] true []
        [integerNode 1, integerNode 2]).subscriptInt (-1) =
      (JsonW.mk JsonW.ARRAY true 0 LongDouble.zero [] true [] [integerNode 1, integerNode 2],
        Ref.bad) :=
  ⟨by decide, (C17_invalid_access_sentinel JsonW.new
    (JsonW.mk JsonW.ARRAY true 0 LongDouble.zero [] true [] [integerNode 1, integerNode 2])
    (-1) (by decide)).1⟩

/-- C18: for every node `n`, valid or not and of any type, and every scalar `x`, after
`n = x` the node is valid, its type is INTEGER for an integer `x`, FLOAT for a floating
`x`, STRING for a wide string `x` and BOOLEAN for a `bool` `x`, the matching accessor
returns `x`, and the node owns no children: `size()` is 0 and `wkeys()` is empty. -/
theorem C18_scalar_assignment (n : JsonW) (x : Int) (y : LongDouble) (s : List Nat)
    (b : Bool) :
    ((n.assignInteger x).valid = true ∧ (n.assignInteger x).type = JsonW.INTEGER ∧
      (n.assignInteger x).integer = x ∧ (n.assignInteger x).size = 0 ∧
      (n.assignInteger x).wkeys = []) ∧
    ((n.assignFloat y).valid = true ∧ (n.assignFloat y).type = JsonW.FLOAT ∧
      (n.assignFloat y).frac = y ∧ (n.assignFloat y).size = 0 ∧
      (n.assignFloat y).wkeys = []) ∧
    ((n.assignWString s).valid = true ∧ (n.assignWString s).type = JsonW.STRING ∧
      (n.assignWString s).wstr = s ∧ (n.assignWString s).size = 0 ∧
      (n.assignWString s).wkeys = []) ∧
    ((n.assignBool b).valid = true ∧ (n.assignBool b).type = JsonW.BOOLEAN ∧
      (n.assignBool b).boolean = b ∧ (n.assignBool b).size = 0 ∧
      (n.assignBool b).wkeys = []) := by
  obtain ⟨t, v, i, f, s', b', o, a⟩ := n
  exact ⟨⟨rfl, rfl, rfl, rfl, rfl⟩, ⟨rfl, rfl, rfl, rfl, rfl⟩, ⟨rfl, rfl, rfl, rfl, rfl⟩,
    ⟨rfl, rfl, rfl, rfl, rfl⟩⟩

/-- C19: for every string `s`, the serializer renders a valid STRING node with payload
`s` as a quote, the renderings of the characters of `s` one after the other, and a
quote, and renders every object key the same way in front of its colon (in every
object, and so in the one-entry object that `set` makes of a default-constructed node).  The rendering
of a character is a backslash and a letter for exactly the eight characters quote,
backslash, slash, 0x08, 0x0C, 0x0A, 0x0D and 0x09 (letters quote, backslash, slash, `b`,
`f`, `n`, `r`, `t`), and the character itself for every other character. -/
theorem C19_string_rendering (env : FloatEnv) (s : List Nat) :
    (∀ i f b o a, JsonW.wtext env (JsonW.mk JsonW.STRING true i f s b o a) =
      some (renderSpec s)) ∧
    (∀ n : JsonW, (n.assignWString s).wtext env = some (renderSpec s)) ∧
    wss_json_string s = renderSpec s ∧
    (∀ pairs out, wss_pairs env pairs = some out →
      ∃ texts : List (List Nat), texts.length = pairs.length ∧
        out = commaSeparated
          (List.zipWith (fun p t => renderSpec p.1 ++ [58] ++ t) pairs texts)) ∧
    (∀ (c : Nat) (rest : List Nat) (child : JsonW),
      (JsonW.set JsonW.new (c :: rest) (some child)).2.wtext env =
        (child.wtext env).map
          (fun t => [123] ++ renderSpec (c :: rest) ++ [58] ++ t ++ [125])) ∧
    (∀ c, c ∉ [0x22, 0x5C, 0x2F, 0x08, 0x0C, 0x0A, 0x0D, 0x09] → escSpec c = [c]) ∧
    List.map escSpec [0x22, 0x5C, 0x2F, 0x08, 0x0C, 0x0A, 0x0D, 0x09] =
      [[92, 34], [92, 92], [92, 47], [92, 98], [92, 102], [92, 110], [92, 114],
        [92, 116]] := by
  have hs : ∀ i f b o a, JsonW.wtext env (JsonW.mk JsonW.STRING true i f s b o a) =
      some (renderSpec s) := by
    intro i f b o a
    simp [JsonW.wtext, wss_junit, JsonW.STRING, JsonW.INTEGER, JsonW.FLOAT, JsonW.BOOLEAN,
      JsonW.NULLVALUE, wss_json_string_eq]
  refine ⟨hs, ?_, wss_json_string_eq s, wss_pairs_keys env, ?_, ?_, rfl⟩
  · intro n
    obtain ⟨t, v, i, f, s', b, o, a⟩ := n
    exact hs _ _ _ _ _
  · intro c rest child
    have e : (JsonW.set JsonW.new (c :: rest) (some child)).2 =
        JsonW.mk JsonW.OBJECT true 0 LongDouble.zero [] true [(c :: rest, some child)] [] := by
      simp [JsonW.set, JsonW.new, JsonW.NULLVALUE, JsonW.OBJECT, MapW.set]
    rw [e]
    cases hc : wss_junit env child with
    | none =>
      simp [JsonW.wtext, wss_junit, wss_pairs, hc, JsonW.STRING, JsonW.INTEGER, JsonW.FLOAT,
        JsonW.BOOLEAN, JsonW.NULLVALUE, JsonW.OBJECT]
    | some t =>
      simp [JsonW.wtext, wss_junit, wss_pairs, hc, JsonW.STRING, JsonW.INTEGER, JsonW.FLOAT,
        JsonW.BOOLEAN, JsonW.NULLVALUE, JsonW.OBJECT, wss_json_string_eq]
  · intro c hc
    simp only [List.mem_cons, List.mem_singleton, not_or, List.not_mem_nil, or_false] at hc
    obtain ⟨h1, h2, h3, h4, h5, h6, h7, h8⟩ := hc
    have e1 : (c == 0x22) = false := by simpa using h1
    have e2 : (c == 0x5C) = false := by simpa using h2
    have e3 : (c == 0x2F) = false := by simpa using h3
    have e4 : (c == 0x08) = false := by simpa using h4
    have e5 : (c == 0x0C) = false := by simpa using h5
    have e6 : (c == 0x0A) = false := by simpa using h6
    have e7 : (c == 0x0D) = false := by simpa using h7
    have e8 : (c == 0x09) = false := by simpa using h8
    unfold escSpec escapeTable
    simp only [List.lookup, e1, e2, e3, e4, e5, e6, e7, e8]

/-- C20: for every string `s`, scanning the serializer's rendering of `s` yields the
String token with payload `s` and leaves nothing of the rendering, the scan of the whole
rendering is that one token, and parsing the `wtext()` of a valid STRING node with
payload `s` gives a valid STRING node with payload `s`.  For the four-character string
quote, backslash, newline, tab the rendering is the ten characters
`"`, `\"`, `\\`, `\n`, `\t`, `"`. -/
theorem C20_string_escape_roundtrip (env : FloatEnv) (s : List Nat) :
    JsonTokenW.scan env (wss_json_string s) = (strTok s, []) ∧
    JsonTokenW.parse env (wss_json_string s) = some (true, [strTok s]) ∧
    (∀ i f b o a, ((JsonW.wtext env (JsonW.mk JsonW.STRING true i f s b o a)).bind
        (JsonW.init env)).map (fun j => (j.valid, j.type, j.wstr)) =
      some (true, JsonW.STRING, s)) ∧
    wss_json_string [34, 92, 10, 9] = [34, 92, 34, 92, 92, 92, 110, 92, 116, 34] ∧
    ((JsonW.wtext env (JsonW.new.assignWString [34, 92, 10, 9])).bind (JsonW.init env)).map
        (fun j => (j.valid, j.type, j.wstr)) = some (true, JsonW.STRING, [34, 92, 10, 9]) := by
  have hc : (Syn.scalar (strTok s) rfl).canonical env = true := by
    simp [Syn.canonical, canonicalTok, strTok]
  have hi := init_text env (Syn.scalar (strTok s) rfl) hc
  have ht : (Syn.scalar (strTok s) rfl).text env = wss_json_string s := by
    simp [Syn.text, Syn.toks, textOf, lexeme, strTok]
  rw [ht] at hi
  refine ⟨?_, ?_, ?_, rfl, rfl⟩
  · have := (scan_string env s []).1
    simpa using this
  · have := tokenize_text env [strTok s] (by simp [scannable, canonicalTok, strTok])
    simpa [textOf, lexeme, strTok] using this
  · intro i f b o a
    have hw : JsonW.wtext env (JsonW.mk JsonW.STRING true i f s b o a) =
        some (wss_json_string s) := by
      simp [JsonW.wtext, wss_junit, JsonW.STRING, JsonW.INTEGER, JsonW.FLOAT, JsonW.BOOLEAN,
        JsonW.NULLVALUE]
    rw [hw]
    show (JsonW.init env (wss_json_string s)).map _ = _
    rw [hi]
    rfl

/-! ### Integer literals -/

theorem stoll_overflow (ds : List Nat) (h : ∀ c ∈ ds, iswdigit c = true)
    (hr : ¬ (decValue 0 ds : Int) ≤ 9223372036854775807) (hd : ds.head? ≠ some 45) :
    stoll ds = none := by
  unfold stoll
  rw [takeWhile_all iswdigit ds h]
  have h45 : (ds.head? == some 45) = false := by simpa using hd
  simp only [h45]
  have : ¬ (-9223372036854775808 ≤ (decValue 0 ds : Int) ∧
      (decValue 0 ds : Int) ≤ 9223372036854775807) := fun h => hr h.2
  exact if_neg this

theorem stoll_minus_overflow (ds : List Nat) (h : ∀ c ∈ ds, iswdigit c = true)
    (hr : ¬ (decValue 0 ds : Int) ≤ 9223372036854775808) :
    stoll (45 :: ds) = none := by
  unfold stoll
  simp only [List.head?_cons, beq_self_eq_true, if_true, List.tail_cons]
  rw [takeWhile_all iswdigit ds h]
  have : ¬ (-9223372036854775808 ≤ - (decValue 0 ds : Int) ∧
      - (decValue 0 ds : Int) ≤ 9223372036854775807) := fun h => hr (by omega)
  exact if_neg this

theorem numberFinish_overflow (env : FloatEnv) (numberstr : List Nat)
    (tail : List Nat) (ht : endsNumber tail = true) (hne : numberstr ≠ [])
    (hlast : iswdigit (numberstr.getLastD 0) = true) (h48 : numberstr.headD 0 ≠ 48)
    (hs : stoll numberstr = none) :
    numberFinish env numberstr false false tail = ({}, tail) := by
  have hlen : (numberstr.length == 0) = false := by
    cases numberstr with
    | nil => exact absurd rfl hne
    | cons _ _ => rfl
  have h48' : (numberstr.headD 0 == 48) = false := by simpa using h48
  simp [numberFinish, hlen, hlast, h48', exponentPart_end tail ht, hs]

theorem stoll_literal (neg : Bool) (d : Nat) (ds : List Nat) (hd : 49 ≤ d ∧ d ≤ 57)
    (hds : ∀ c ∈ ds, iswdigit c = true) :
    stoll (integerLiteral neg d ds) =
      if -9223372036854775808 ≤ literalValue neg d ds ∧
          literalValue neg d ds ≤ 9223372036854775807
      then some (literalValue neg d ds) else none := by
  have hall : ∀ c ∈ d :: ds, iswdigit c = true := by
    intro c hc
    rcases List.mem_cons.1 hc with rfl | hc
    · exact (iswdigit_iff _).2 ⟨by omega, hd.2⟩
    · exact hds c hc
  cases neg with
  | true =>
    have e : integerLiteral true d ds = 45 :: d :: ds := rfl
    rw [e]
    simp only [literalValue, if_true]
    by_cases hr : (decValue 0 (d :: ds) : Int) ≤ 9223372036854775808
    · rw [stoll_minus_digits (d :: ds) hall hr, if_pos (by omega)]
    · rw [stoll_minus_overflow (d :: ds) hall hr, if_neg (by omega)]
  | false =>
    have e : integerLiteral false d ds = d :: ds := rfl
    rw [e]
    simp only [literalValue, Bool.false_eq_true, if_false]
    by_cases hr : (decValue 0 (d :: ds) : Int) ≤ 9223372036854775807
    · rw [stoll_digits (d :: ds) hall hr, if_pos ⟨by omega, hr⟩]
    · rw [stoll_overflow (d :: ds) hall hr (by simp; omega), if_neg (fun h => hr h.2)]

/-- The number branch on an integer literal: the token is decided by `std::stoll`. -/
theorem scanNumber_literal (env : FloatEnv) (neg : Bool) (d : Nat) (ds : List Nat)
    (hd : 49 ≤ d ∧ d ≤ 57) (hds : ∀ c ∈ ds, iswdigit c = true)
    (tail : List Nat) (ht : endsNumber tail = true) :
    scanNumber env (integerLiteral neg d ds ++ tail) =
      (((stoll (integerLiteral neg d ds)).map intTok).getD {}, tail) := by
  have hall : ∀ c ∈ d :: ds, iswdigit c = true := by
    intro c hc
    rcases List.mem_cons.1 hc with rfl | hc
    · exact (iswdigit_iff _).2 ⟨by omega, hd.2⟩
    · exact hds c hc
  have h45 : ¬ d = 45 := by omega
  have h48 : ¬ d = 48 := by omega
  cases neg with
  | true =>
    have hloop := numberLoop_digits (d :: ds) [45] false tail hall ht
    have hlast : iswdigit ((45 :: d :: ds).getLastD 0) = true := by
      have := getLastD_digit (d :: ds) hall (by simp)
      simpa [List.getLastD] using this
    simp only [List.cons_append] at hloop
    have e : integerLiteral true d ds = 45 :: d :: ds := rfl
    rw [e]
    simp only [scanNumber, List.cons_append,
      List.head?_cons, beq_self_eq_true, if_true, List.tail_cons, beq_iff_eq, Option.some.injEq,
      h48, if_false, hloop]
    cases hs : stoll (45 :: d :: ds) with
    | none => exact numberFinish_overflow env (45 :: d :: ds) tail ht (by simp) hlast (by simp) hs
    | some i =>
      exact numberFinish_integer env (45 :: d :: ds) i tail ht (by simp) hlast (by simp) hs
  | false =>
    have hloop := numberLoop_digits (d :: ds) [] false tail hall ht
    have hlast := getLastD_digit (d :: ds) hall (by simp)
    simp only [List.cons_append, List.nil_append] at hloop
    have e : integerLiteral false d ds = d :: ds := rfl
    rw [e]
    simp only [scanNumber, List.cons_append, List.head?_cons, beq_iff_eq, Option.some.injEq,
      h45, h48, if_false, hloop]
    cases hs : stoll (d :: ds) with
    | none =>
      exact numberFinish_overflow env (d :: ds) tail ht (by simp) hlast (by simpa using h48) hs
    | some i =>
      exact numberFinish_integer env (d :: ds) i tail ht (by simp) hlast (by simpa using h48) hs

/-- The constructor on an integer literal enters the number branch. -/
theorem scan_literal (env : FloatEnv) (neg : Bool) (d : Nat) (ds : List Nat)
    (hd : 49 ≤ d ∧ d ≤ 57) (tail : List Nat) :
    JsonTokenW.scan env (integerLiteral neg d ds ++ tail) =
      scanNumber env (integerLiteral neg d ds ++ tail) ∧
    findnext (integerLiteral neg d ds ++ tail) = some (integerLiteral neg d ds ++ tail) := by
  have hdig : iswdigit d = true := (iswdigit_iff d).2 ⟨by omega, hd.2⟩
  cases neg with
  | true =>
    have e : integerLiteral true d ds = 45 :: d :: ds := rfl
    rw [e]
    simp only [List.cons_append]
    constructor
    · simp [JsonTokenW.scan, iswdigit]
    · simp [findnext, isskippable, iswdigit]
  | false =>
    have e1 : ¬ d = 123 := by omega
    have e2 : ¬ d = 125 := by omega
    have e3 : ¬ d = 91 := by omega
    have e4 : ¬ d = 93 := by omega
    have e5 : ¬ d = 58 := by omega
    have e6 : ¬ d = 44 := by omega
    have e7 : ¬ d = 32 := by omega
    have e8 : ¬ d = 13 := by omega
    have e9 : ¬ d = 10 := by omega
    have e10 : ¬ d = 9 := by omega
    have e : integerLiteral false d ds = d :: ds := rfl
    rw [e]
    simp only [List.cons_append]
    constructor
    · simp [JsonTokenW.scan, e1, e2, e3, e4, e5, e6, hdig]
    · simp [findnext, isskippable, hdig, e1, e2, e3, e4, e5, e6, e7, e8, e9, e10]

/-- A text whose first token is malformed: the scan fails with the queue cleared and the
node stays invalid. -/
theorem init_first_bad (env : FloatEnv) (s s' : List Nat) (hf : findnext s = some s')
    (hb : (JsonTokenW.scan env s').1.type_ = TokType.Bad) :
    JsonTokenW.parse env s = some (false, []) ∧
    JsonW.init env s = some (JsonW.mk JsonW.BAD false 0 LongDouble.zero [] true [] []) := by
  have htok : JsonTokenW.parse env s = some (false, []) := by
    simp only [JsonTokenW.parse, hf, scanLoop]
    simp [hb]
  refine ⟨htok, ?_⟩
  simp [JsonW.init, htok, JsonW.parse, JsonW.raw]

/-- A text of one scalar token: the scan gives the one token and the parse its leaf. -/
theorem init_single (env : FloatEnv) (s s' rest : List Nat) (t : JsonTokenW)
    (hf : findnext s = some s') (hs : JsonTokenW.scan env s' = (t, rest))
    (ht : isScalarTok t = true) (hr : findnext rest = none) :
    JsonTokenW.parse env s = some (true, [t]) ∧ JsonW.init env s = some (leafOf t) := by
  have hbad : (t.type_ == TokType.Bad) = false := by
    unfold isScalarTok at ht
    cases h : t.type_ <;> simp_all
  have htok : JsonTokenW.parse env s = some (true, [t]) := by
    simp only [JsonTokenW.parse, hf, scanLoop, hs, hr]
    simp [hbad]
  refine ⟨htok, ?_⟩
  have hp := parse_scalar 5 t [] ht
  simp only [JsonW.init, htok, List.length_cons, List.length_nil]
  simpa using congrArg (Option.map Prod.fst) hp

theorem to_wstring_form (n : Int) :
    ∃ ds, to_wstring n = (if n < 0 then [45] else []) ++ ds ∧ ds ≠ [] ∧
      (∀ c ∈ ds, iswdigit c = true) ∧ decValue 0 ds = n.natAbs ∧
      (ds.head? = some 48 → n = 0 ∧ ds = [48]) := by
  refine ⟨natDigits (n.natAbs + 1) n.natAbs [], ?_, ?_, natDigits_all_digits _,
    decValue_natDigits _, ?_⟩
  · unfold to_wstring
    split <;> simp
  · by_cases h0 : n.natAbs = 0
    · rw [h0]; decide
    · obtain ⟨d, ds, hd, -, -⟩ := natDigits_head n.natAbs (by omega)
      rw [hd]; simp
  · intro h
    by_cases h0 : n.natAbs = 0
    · refine ⟨by omega, ?_⟩
      rw [h0]; rfl
    · obtain ⟨d, ds, hd, h1, -⟩ := natDigits_head n.natAbs (by omega)
      rw [hd] at h
      simp at h
      omega

/-! ### Keywords and escapes -/

theorem expect_take (ks : List Nat) : ∀ ins : List Nat,
    if ins.take ks.length = ks then expect ks ins = (true, ins.drop ks.length)
    else (expect ks ins).1 = false := by
  induction ks with
  | nil => intro ins; simp [expect]
  | cons k ks ih =>
    intro ins
    cases ins with
    | nil => simp [expect]
    | cons c rest =>
      have := ih rest
      by_cases hc : c = k
      · subst hc
        simp only [List.length_cons, List.take_succ_cons, List.cons.injEq, true_and, expect,
          beq_self_eq_true, if_true, List.drop_succ_cons]
        exact this
      · have hk : (c == k) = false := by simpa using hc
        simp [expect, hk, hc]

theorem stoulHex_digits (h1 h2 h3 h4 d1 d2 d3 d4 : Nat) (e1 : hexDigit h1 = some d1)
    (e2 : hexDigit h2 = some d2) (e3 : hexDigit h3 = some d3) (e4 : hexDigit h4 = some d4) :
    stoulHex [h1, h2, h3, h4] = d1 * 4096 + d2 * 256 + d3 * 16 + d4 := by
  simp only [stoulHex, hexValue, e1, e2, e3, e4]
  omega

theorem hexDigit_lt (c d : Nat) (h : hexDigit c = some d) : d < 16 := by
  unfold hexDigit at h
  split at h
  · simp at h; omega
  · split at h
    · simp at h; omega
    · split at h
      · simp at h; omega
      · cases h

/-! ### String termination -/

theorem StringEnd.holds_cons (c : Nat) (body : List Nat) (r : JsonTokenW × List Nat)
    (e : StringEnd) (h : e.holds body r) : e.holds (c :: body) r := by
  cases e with
  | closed rest =>
    obtain ⟨h1, h2, pre, h3⟩ := h
    exact ⟨h1, h2, c :: pre, by rw [h3]; rfl⟩
  | lineBreak => exact h
  | endOfInput => exact h

/-- A hexadecimal digit is none of the characters that matter to the end of a string. -/
theorem hexDigit_plain (c : Nat) (h : (hexDigit c).isSome = true) :
    (c == 92) = false ∧ (c == 13 || c == 10) = false ∧ (c == 34) = false := by
  unfold hexDigit at h
  simp only [Bool.or_eq_false_iff, beq_eq_false_iff_ne, ne_eq]
  split at h
  · omega
  · split at h
    · omega
    · split at h
      · omega
      · cases h

theorem stringEnd_hex (c : Nat) (rest : List Nat) (h : (hexDigit c).isSome = true) :
    stringEnd false (c :: rest) = stringEnd false rest := by
  obtain ⟨h1, h2, h3⟩ := hexDigit_plain c h
  simp only [stringEnd, h1, h2, h3, Bool.false_eq_true, if_false]

/-- Where every `\u` is followed by four hexadecimal digits, the string loop ends as
the walk to the first unescaped quote, carriage return or line feed says. -/
theorem stringLoop_end (n : Nat) : ∀ (body : List Nat), body.length ≤ n →
    ∀ (b : Bool) (buf : List Nat), unicodeEscapesOk b body = true →
    (stringEnd b body).holds body (stringLoop b buf body) := by
  induction n using Nat.strong_induction_on with
  | _ n ih =>
    intro body hlen b buf hok
    cases body with
    | nil => simp [stringLoop, stringEnd, StringEnd.holds]
    | cons c rest =>
      simp only [List.length_cons] at hlen
      cases b with
      | true =>
        by_cases hc : c = 117
        · subst hc
          rw [unicodeEscapesOk.eq_def] at hok
          simp only [beq_self_eq_true, if_true] at hok
          match rest, hlen, hok with
          | h1 :: h2 :: h3 :: h4 :: rest4, hlen, hok =>
            simp only [Bool.and_eq_true] at hok
            obtain ⟨⟨⟨⟨x1, x2⟩, x3⟩, x4⟩, hok4⟩ := hok
            simp only [List.length_cons] at hlen
            have e : stringEnd true (117 :: h1 :: h2 :: h3 :: h4 :: rest4) =
                stringEnd false rest4 := by
              rw [stringEnd, stringEnd_hex h1 _ x1, stringEnd_hex h2 _ x2,
                stringEnd_hex h3 _ x3, stringEnd_hex h4 _ x4]
            rw [e, stringLoop.eq_def]
            simp only [beq_self_eq_true, if_true]
            have := ih (n - 1) (by omega) rest4 (by omega) false
              (buf ++ [stoulHex [h1, h2, h3, h4]]) hok4
            exact StringEnd.holds_cons _ _ _ _ (StringEnd.holds_cons _ _ _ _
              (StringEnd.holds_cons _ _ _ _ (StringEnd.holds_cons _ _ _ _
              (StringEnd.holds_cons _ _ _ _ this))))
          | [], _, hok => cases hok
          | [_], _, hok => cases hok
          | [_, _], _, hok => cases hok
          | [_, _, _], _, hok => cases hok
        · have hc' : (c == 117) = false := by simpa using hc
          rw [unicodeEscapesOk.eq_def] at hok
          simp only [hc', Bool.false_eq_true, if_false] at hok
          rw [stringLoop_escape buf c rest hc]
          simp only [stringEnd]
          exact StringEnd.holds_cons _ _ _ _
            (ih (n - 1) (by omega) rest (by omega) false _ hok)
      | false =>
        by_cases h92 : c = 92
        · subst h92
          rw [unicodeEscapesOk.eq_def] at hok
          simp only [beq_self_eq_true, if_true] at hok
          simp only [stringEnd, beq_self_eq_true, if_true]
          rw [stringLoop_backslash]
          exact StringEnd.holds_cons _ _ _ _
            (ih (n - 1) (by omega) rest (by omega) true _ hok)
        · have h92' : (c == 92) = false := by simpa using h92
          rw [stringLoop.eq_def]
          simp only [stringEnd, h92', Bool.false_eq_true, if_false]
          by_cases hnl : (c == 13 || c == 10) = true
          · simp only [hnl, if_true]
            rfl
          · simp only [hnl, Bool.false_eq_true, if_false]
            by_cases h34 : c = 34
            · subst h34
              simp only [beq_self_eq_true, if_true]
              exact ⟨rfl, rfl, [], rfl⟩
            · have h34' : (c == 34) = false := by simpa using h34
              have hnl' : (c == 13 || c == 10) = false := by simpa using hnl
              rw [unicodeEscapesOk.eq_def] at hok
              simp only [h92', hnl', h34', Bool.or_self, Bool.false_eq_true, if_false] at hok
              simp only [h34', Bool.false_eq_true, if_false]
              exact StringEnd.holds_cons _ _ _ _
                (ih (n - 1) (by omega) rest (by omega) false _ hok)

/-- A body without a closing quote does not end in a closing quote. -/
theorem stringEnd_open (body : List Nat) : ∀ (b : Bool), noClosingQuote b body = true →
    ∀ rest, stringEnd b body ≠ StringEnd.closed rest := by
  induction body with
  | nil =>
    intro b _ rest h
    cases b <;> simp [stringEnd] at h
  | cons c body ih =>
    intro b hq rest
    cases b with
    | true =>
      simp only [noClosingQuote] at hq
      simp only [stringEnd]
      exact ih false hq rest
    | false =>
      simp only [noClosingQuote] at hq
      simp only [stringEnd]
      by_cases h92 : (c == 92) = true
      · rw [if_pos h92] at hq ⊢
        exact ih true hq rest
      · rw [if_neg h92] at hq ⊢
        by_cases h34 : (c == 34) = true
        · rw [if_pos h34] at hq
          cases hq
        · rw [if_neg h34] at hq ⊢
          by_cases hnl : (c == 13 || c == 10) = true
          · rw [if_pos hnl]
            intro h
            cases h
          · rw [if_neg hnl]
            exact ih false hq rest

/-- A text that opens a string literal and never closes it, with every `\u` followed by
four hexadecimal digits, does not parse. -/
theorem init_unterminated (env : FloatEnv) (body : List Nat)
    (h : noClosingQuote false body = true) (hu : unicodeEscapesOk false body = true) :
    JsonW.init env (34 :: body) =
      some (JsonW.mk JsonW.BAD false 0 LongDouble.zero [] true [] []) := by
  have hend := stringLoop_end body.length body (le_refl _) false [] hu
  have hopen := stringEnd_open body false h
  have hbad : (stringLoop false [] body).1.type_ = TokType.Bad := by
    cases he : stringEnd false body with
    | closed rest => exact absurd he (hopen rest)
    | lineBreak => rw [he] at hend; exact hend
    | endOfInput => rw [he] at hend; exact hend
  have hscan : JsonTokenW.scan env (34 :: body) = stringLoop false [] body := by
    simp [JsonTokenW.scan, iswdigit]
  have hfind : findnext (34 :: body) = some (34 :: body) := by
    simp [findnext, isskippable, iswdigit]
  rw [← hscan] at hbad
  exact (init_first_bad env _ _ hfind hbad).2

/-! ### The tokens one value takes -/

theorem closeBrackets_skip (e : TokType) (stack : List TokType) (t : JsonTokenW)
    (ts : List JsonTokenW) (h1 : t.type_ ≠ TokType.LeftCurlyBracket)
    (h2 : t.type_ ≠ TokType.LeftSquareBracket) (h3 : t.type_ ≠ TokType.RightCurlyBracket)
    (h4 : t.type_ ≠ TokType.RightSquareBracket) :
    closeBrackets (e :: stack) (t :: ts) = closeBrackets (e :: stack) ts := by
  simp [closeBrackets, h1, h2, h3, h4]

/-- The array loop, one turn, read backwards from a successful result. -/
theorem jarrayLoop_inv (fuel : Nat) (front : JsonTokenW) (rest0 : List JsonTokenW)
    (acc : List JsonW) (rest : List JsonTokenW) (out : List JsonW)
    (h : jarrayLoop (fuel + 1) (front :: rest0) acc = some (true, rest, out)) :
    (front.type_ = TokType.RightSquareBracket ∧ rest = rest0 ∧ out = acc) ∨
    ((front.type_ = TokType.LeftCurlyBracket ∨ front.type_ = TokType.LeftSquareBracket ∨
       front.type_ = TokType.NumberInteger ∨ front.type_ = TokType.NumberFloat ∨
       front.type_ = TokType.Boolean ∨ front.type_ = TokType.Null) ∧
      ∃ junit t tokens', JsonW.parse fuel JsonW.raw (front :: rest0) =
          some (junit, t :: tokens') ∧ junit.valid_ = true ∧
        ((t.type_ = TokType.Comma ∧
            jarrayLoop fuel tokens' (acc ++ [junit]) = some (true, rest, out)) ∨
          (t.type_ = TokType.RightSquareBracket ∧ rest = tokens' ∧ out = acc ++ [junit]))) := by
  have key : ∀ (hty : front.type_ = TokType.LeftCurlyBracket ∨
      front.type_ = TokType.LeftSquareBracket ∨
      front.type_ = TokType.NumberInteger ∨ front.type_ = TokType.NumberFloat ∨
      front.type_ = TokType.Boolean ∨ front.type_ = TokType.Null),
      ∃ junit t tokens', JsonW.parse fuel JsonW.raw (front :: rest0) =
          some (junit, t :: tokens') ∧ junit.valid_ = true ∧
        ((t.type_ = TokType.Comma ∧
            jarrayLoop fuel tokens' (acc ++ [junit]) = some (true, rest, out)) ∨
          (t.type_ = TokType.RightSquareBracket ∧ rest = tokens' ∧ out = acc ++ [junit])) := by
    intro hty
    cases hp : JsonW.parse fuel JsonW.raw (front :: rest0) with
    | none =>
      rcases hty with h' | h' | h' | h' | h' | h' <;> simp [jarrayLoop, h', hp] at h
    | some r =>
      obtain ⟨junit, tokens⟩ := r
      rw [jarrayLoop_value fuel front rest0 acc junit tokens hty hp] at h
      by_cases hv : junit.valid_ = false
      · simp [hv] at h
      · rw [if_neg hv] at h
        have hv' : junit.valid_ = true := by simpa using hv
        cases tokens with
        | nil => simp at h
        | cons t tokens' =>
          refine ⟨junit, t, tokens', rfl, hv', ?_⟩
          simp only at h
          by_cases hc : t.type_ = TokType.Comma
          · rw [if_pos hc] at h
            exact Or.inl ⟨hc, h⟩
          · rw [if_neg hc] at h
            by_cases hr : t.type_ = TokType.RightSquareBracket
            · rw [if_pos hr] at h
              simp only [Option.some.injEq, Prod.mk.injEq, true_and] at h
              exact Or.inr ⟨hr, h.1.symm, h.2.symm⟩
            · rw [if_neg hr] at h
              simp at h
  cases hft : front.type_ with
  | RightSquareBracket =>
    left
    simp only [jarrayLoop, hft, Option.some.injEq, Prod.mk.injEq, true_and] at h
    exact ⟨rfl, h.1.symm, h.2.symm⟩
  | LeftCurlyBracket => exact Or.inr ⟨by simp, key (by simp [hft])⟩
  | LeftSquareBracket => exact Or.inr ⟨by simp, key (by simp [hft])⟩
  | NumberInteger => exact Or.inr ⟨by simp, key (by simp [hft])⟩
  | NumberFloat => exact Or.inr ⟨by simp, key (by simp [hft])⟩
  | Boolean => exact Or.inr ⟨by simp, key (by simp [hft])⟩
  | Null => exact Or.inr ⟨by simp, key (by simp [hft])⟩
  | String => simp [jarrayLoop, hft] at h
  | RightCurlyBracket => simp [jarrayLoop, hft] at h
  | Colon => simp [jarrayLoop, hft] at h
  | Comma => simp [jarrayLoop, hft] at h
  | Bad => simp [jarrayLoop, hft] at h

/-- One turn of the object loop on a key, a colon and a value. -/
theorem jobjectLoop_step (fuel : Nat) (front colon hd : JsonTokenW) (tl : List JsonTokenW)
    (m : List (List Nat × Option JsonW)) (junit : JsonW) (tokens : List JsonTokenW)
    (hf : front.type_ = TokType.String) (hk : front.wstring_ ≠ [])
    (hm : MapW.count m front.wstring_ = 0) (hc : colon.type_ = TokType.Colon)
    (hp : JsonW.parse fuel JsonW.raw (hd :: tl) = some (junit, tokens)) :
    jobjectLoop (fuel + 1) (front :: colon :: hd :: tl) m =
      if junit.valid_ = false then some (false, tokens, m)
      else match tokens with
        | t :: tokens' =>
          if t.type_ = TokType.Comma then
            jobjectLoop fuel tokens' (MapW.set m front.wstring_ (some junit))
          else jobjectLoop fuel (t :: tokens') (MapW.set m front.wstring_ (some junit))
        | [] => jobjectLoop fuel [] (MapW.set m front.wstring_ (some junit)) := by
  simp only [jobjectLoop, hf, hc, hp, hm]
  cases tokens <;> simp [hk]

/-- The object loop, one turn, read backwards from a successful result. -/
theorem jobjectLoop_inv (fuel : Nat) (front : JsonTokenW) (rest0 : List JsonTokenW)
    (m : List (List Nat × Option JsonW)) (rest : List JsonTokenW)
    (out : List (List Nat × Option JsonW))
    (h : jobjectLoop (fuel + 1) (front :: rest0) m = some (true, rest, out)) :
    (front.type_ = TokType.RightCurlyBracket ∧ rest = rest0 ∧ out = m) ∨
    (front.type_ = TokType.String ∧ front.wstring_ ≠ [] ∧ MapW.count m front.wstring_ = 0 ∧
      ∃ colon hd tl junit tokens, rest0 = colon :: hd :: tl ∧ colon.type_ = TokType.Colon ∧
        JsonW.parse fuel JsonW.raw (hd :: tl) = some (junit, tokens) ∧ junit.valid_ = true ∧
        ((∃ t tokens', tokens = t :: tokens' ∧ t.type_ = TokType.Comma ∧
            jobjectLoop fuel tokens' (MapW.set m front.wstring_ (some junit)) =
              some (true, rest, out)) ∨
          ((∀ t tokens', tokens = t :: tokens' → t.type_ ≠ TokType.Comma) ∧
            jobjectLoop fuel tokens (MapW.set m front.wstring_ (some junit)) =
              some (true, rest, out)))) := by
  cases hft : front.type_ with
  | RightCurlyBracket =>
    left
    simp only [jobjectLoop, hft, Option.some.injEq, Prod.mk.injEq, true_and] at h
    exact ⟨rfl, h.1.symm, h.2.symm⟩
  | String =>
    right
    by_cases hk : front.wstring_ = []
    · simp [jobjectLoop, hft, hk] at h
    · by_cases hm : MapW.count m front.wstring_ = 0
      · refine ⟨rfl, hk, hm, ?_⟩
        cases rest0 with
        | nil => simp [jobjectLoop, hft, hk, hm] at h
        | cons colon rest1 =>
          by_cases hc : colon.type_ = TokType.Colon
          · cases rest1 with
            | nil => simp [jobjectLoop, hft, hk, hm, hc] at h
            | cons hd tl =>
              cases hp : JsonW.parse fuel JsonW.raw (hd :: tl) with
              | none => simp [jobjectLoop, hft, hk, hm, hc, hp] at h
              | some r =>
                obtain ⟨junit, tokens⟩ := r
                rw [jobjectLoop_step fuel front colon hd tl m junit tokens hft hk hm hc hp] at h
                by_cases hv : junit.valid_ = false
                · simp [hv] at h
                · rw [if_neg hv] at h
                  have hv' : junit.valid_ = true := by simpa using hv
                  refine ⟨colon, hd, tl, junit, tokens, rfl, hc, hp, hv', ?_⟩
                  cases tokens with
                  | nil =>
                    right
                    exact ⟨fun t tokens' e => (by cases e), h⟩
                  | cons t tokens' =>
                    simp only at h
                    by_cases hcm : t.type_ = TokType.Comma
                    · rw [if_pos hcm] at h
                      exact Or.inl ⟨t, tokens', rfl, hcm, h⟩
                    · rw [if_neg hcm] at h
                      right
                      refine ⟨fun t' tokens'' e => ?_, h⟩
                      cases e
                      exact hcm
          · simp [jobjectLoop, hft, hk, hm, hc] at h
      · have hm' : MapW.count m front.wstring_ > 0 := by omega
        simp [jobjectLoop, hft, hk, hm'] at h
  | LeftCurlyBracket => simp [jobjectLoop, hft] at h
  | LeftSquareBracket => simp [jobjectLoop, hft] at h
  | NumberInteger => simp [jobjectLoop, hft] at h
  | NumberFloat => simp [jobjectLoop, hft] at h
  | Boolean => simp [jobjectLoop, hft] at h
  | Null => simp [jobjectLoop, hft] at h
  | RightSquareBracket => simp [jobjectLoop, hft] at h
  | Colon => simp [jobjectLoop, hft] at h
  | Comma => simp [jobjectLoop, hft] at h
  | Bad => simp [jobjectLoop, hft] at h

/-- The member function `parse` on a queue that starts with `[` and holds more. -/
theorem parse_array_enter (fuel : Nat) (self : JsonW) (front x : JsonTokenW)
    (xs : List JsonTokenW) (hf : front.type_ = TokType.LeftSquareBracket) :
    JsonW.parse (fuel + 2) self (front :: x :: xs) =
      (jarrayLoop fuel (x :: xs) []).map (fun r =>
        (JsonW.mk (if r.1 then JsonW.ARRAY else JsonW.BAD) r.1 self.integer_ self.frac_
          self.wstring_ self.boolean_ [] r.2.2, r.2.1)) := by
  cases self with
  | mk t v i fr s b o a =>
    simp only [JsonW.parse, hf, jarray, List.tail_cons, bne_self_eq_false, Bool.false_eq_true,
      if_false, JsonW.integer_, JsonW.frac_, JsonW.wstring_, JsonW.boolean_]
    cases jarrayLoop fuel (x :: xs) [] with
    | none => rfl
    | some r => obtain ⟨ok, tokens, out⟩ := r; rfl

/-- The member function `parse` on a queue that starts with `{` and holds more. -/
theorem parse_object_enter (fuel : Nat) (self : JsonW) (front x : JsonTokenW)
    (xs : List JsonTokenW) (hf : front.type_ = TokType.LeftCurlyBracket) :
    JsonW.parse (fuel + 2) self (front :: x :: xs) =
      (jobjectLoop fuel (x :: xs) []).map (fun r =>
        (JsonW.mk (if r.1 then JsonW.OBJECT else JsonW.BAD) r.1 self.integer_ self.frac_
          self.wstring_ self.boolean_ r.2.2 [], r.2.1)) := by
  cases self with
  | mk t v i fr s b o a =>
    simp only [JsonW.parse, hf, jobject, List.tail_cons, bne_self_eq_false, Bool.false_eq_true,
      if_false, JsonW.integer_, JsonW.frac_, JsonW.wstring_, JsonW.boolean_]
    cases jobjectLoop fuel (x :: xs) [] with
    | none => rfl
    | some r => obtain ⟨ok, tokens, out⟩ := r; rfl

/-- A successful `parse` on a queue that starts with a bracket went through the loop. -/
theorem parse_bracket_inv (fuel : Nat) (self : JsonW) (front : JsonTokenW)
    (rest0 rest : List JsonTokenW) (j : JsonW)
    (hf : front.type_ = TokType.LeftSquareBracket ∨ front.type_ = TokType.LeftCurlyBracket)
    (h : JsonW.parse fuel self (front :: rest0) = some (j, rest)) (hv : j.valid_ = true) :
    ∃ f x xs, fuel = f + 2 ∧ rest0 = x :: xs := by
  cases self with
  | mk t v i fr s b o a =>
    match fuel, h with
    | 0, h => simp [JsonW.parse] at h
    | 1, h =>
      rcases hf with hf | hf <;> simp [JsonW.parse, hf, jarray, jobject] at h
    | f + 2, h =>
      cases rest0 with
      | cons x xs => exact ⟨f, x, xs, rfl, rfl⟩
      | nil =>
        rcases hf with hf | hf
        · simp only [JsonW.parse, hf, jarray, Option.some.injEq, Prod.mk.injEq] at h
          rw [← h.1] at hv
          simp [JsonW.valid_] at hv
        · simp only [JsonW.parse, hf, jobject, Option.some.injEq, Prod.mk.injEq] at h
          rw [← h.1] at hv
          simp [JsonW.valid_] at hv

theorem closeBrackets_nil (ts : List JsonTokenW) : closeBrackets [] ts = some ts := by
  cases ts <;> rfl

theorem parse_scalar_exact (fuel : Nat) (self : JsonW) (front : JsonTokenW)
    (rest0 rest : List JsonTokenW) (j : JsonW) (hs : isScalarTok front = true)
    (h : JsonW.parse fuel self (front :: rest0) = some (j, rest)) :
    rest = rest0 ∧ ∀ rest', JsonW.parse fuel self (front :: rest') = some (j, rest') := by
  cases self with
  | mk t v i fr s b o a =>
    cases fuel with
    | zero => simp [JsonW.parse] at h
    | succ f =>
      unfold isScalarTok at hs
      cases hft : front.type_ <;> simp [hft] at hs <;>
        · simp only [JsonW.parse, hft, Option.some.injEq, Prod.mk.injEq] at h ⊢
          exact ⟨h.2.symm, fun rest' => ⟨h.1, trivial⟩⟩

theorem parse_exact (fuel : Nat) :
    (∀ self tokens j rest, JsonW.parse fuel self tokens = some (j, rest) → j.valid_ = true →
      tokens ≠ [] →
      ∃ consumed, tokens = consumed ++ rest ∧ consumed ≠ [] ∧
        (∀ e stack, closeBrackets (e :: stack) tokens = closeBrackets (e :: stack) rest) ∧
        valueEnd tokens = some rest ∧
        ∀ rest', JsonW.parse fuel self (consumed ++ rest') = some (j, rest')) ∧
    (∀ tokens acc rest out, jarrayLoop fuel tokens acc = some (true, rest, out) →
      ∃ consumed, tokens = consumed ++ rest ∧ consumed ≠ [] ∧
        (∀ stack, closeBrackets (TokType.RightSquareBracket :: stack) tokens =
          closeBrackets stack rest) ∧
        ∀ rest', jarrayLoop fuel (consumed ++ rest') acc = some (true, rest', out)) ∧
    (∀ tokens acc rest out, jobjectLoop fuel tokens acc = some (true, rest, out) →
      ∃ consumed, tokens = consumed ++ rest ∧ consumed ≠ [] ∧
        (∀ stack, closeBrackets (TokType.RightCurlyBracket :: stack) tokens =
          closeBrackets stack rest) ∧
        ∀ rest', jobjectLoop fuel (consumed ++ rest') acc = some (true, rest', out)) := by
  induction fuel using Nat.strong_induction_on with
  | _ fuel ih =>
    refine ⟨?_, ?_, ?_⟩
    · -- parse
      intro self tokens j rest h hv hne
      cases tokens with
      | nil => exact absurd rfl hne
      | cons front rest0 =>
        by_cases hsq : front.type_ = TokType.LeftSquareBracket
        · obtain ⟨f, x, xs, rfl, rfl⟩ := parse_bracket_inv fuel self front rest0 rest j
            (Or.inl hsq) h hv
          rw [parse_array_enter f self front x xs hsq] at h
          cases hl : jarrayLoop f (x :: xs) [] with
          | none => simp [hl] at h
          | some r =>
            obtain ⟨ok, tk, out⟩ := r
            simp only [hl, Option.map_some', Option.some.injEq, Prod.mk.injEq] at h
            obtain ⟨hj, rfl⟩ := h
            have hok : ok = true := by
              rw [← hj] at hv
              simpa [JsonW.valid_] using hv
            subst hok
            obtain ⟨c, hc, hcne, hcb, htr⟩ := (ih f (by omega)).2.1 (x :: xs) [] tk out hl
            refine ⟨front :: c, by rw [hc]; rfl, by simp, ?_, ?_, ?_⟩
            · intro e stack
              rw [← hcb (e :: stack)]
              simp [closeBrackets, hsq]
            · rw [← closeBrackets_nil tk, ← hcb []]
              simp [valueEnd, hsq]
            · intro rest'
              cases c with
              | nil => exact absurd rfl hcne
              | cons y ys =>
                have := htr rest'
                simp only [List.cons_append] at this ⊢
                rw [parse_array_enter f self front y _ hsq, this]
                simp only [Option.map_some', Option.some.injEq, Prod.mk.injEq, and_true]
                exact hj
        · by_cases hcu : front.type_ = TokType.LeftCurlyBracket
          · obtain ⟨f, x, xs, rfl, rfl⟩ := parse_bracket_inv fuel self front rest0 rest j
              (Or.inr hcu) h hv
            rw [parse_object_enter f self front x xs hcu] at h
            cases hl : jobjectLoop f (x :: xs) [] with
            | none => simp [hl] at h
            | some r =>
              obtain ⟨ok, tk, out⟩ := r
              simp only [hl, Option.map_some', Option.some.injEq, Prod.mk.injEq] at h
              obtain ⟨hj, rfl⟩ := h
              have hok : ok = true := by
                rw [← hj] at hv
                simpa [JsonW.valid_] using hv
              subst hok
              obtain ⟨c, hc, hcne, hcb, htr⟩ := (ih f (by omega)).2.2 (x :: xs) [] tk out hl
              refine ⟨front :: c, by rw [hc]; rfl, by simp, ?_, ?_, ?_⟩
              · intro e stack
                rw [← hcb (e :: stack)]
                simp [closeBrackets, hcu]
              · rw [← closeBrackets_nil tk, ← hcb []]
                simp [valueEnd, hcu]
              · intro rest'
                cases c with
                | nil => exact absurd rfl hcne
                | cons y ys =>
                  have := htr rest'
                  simp only [List.cons_append] at this ⊢
                  rw [parse_object_enter f self front y _ hcu, this]
                  simp only [Option.map_some', Option.some.injEq, Prod.mk.injEq, and_true]
                  exact hj
          · -- a scalar token, or a token on which the node turns invalid
            have hs : isScalarTok front = true := by
              cases self with
              | mk t v i fr s b o a =>
                cases fuel with
                | zero => simp [JsonW.parse] at h
                | succ f =>
                  unfold isScalarTok
                  cases hft : front.type_ <;> simp [hft] at hsq hcu ⊢ <;>
                    · simp only [JsonW.parse, hft, Option.some.injEq, Prod.mk.injEq] at h
                      rw [← h.1] at hv
                      simp [JsonW.valid_] at hv
            obtain ⟨hr, htr⟩ := parse_scalar_exact fuel self front rest0 rest j hs h
            subst hr
            have hnb : front.type_ ≠ TokType.RightCurlyBracket ∧
                front.type_ ≠ TokType.RightSquareBracket := by
              unfold isScalarTok at hs
              cases hft : front.type_ <;> simp [hft] at hs ⊢
            refine ⟨[front], rfl, by simp, ?_, ?_, htr⟩
            · intro e stack
              exact closeBrackets_skip e stack front rest hcu hsq hnb.1 hnb.2
            · simp [valueEnd, hcu, hsq, hs]
    · -- the array loop
      intro tokens acc rest out h
      match fuel, tokens, h, ih with
      | 0, _, h, _ => simp [jarrayLoop] at h
      | _ + 1, [], h, _ => simp [jarrayLoop] at h
      | f + 1, front :: rest0, h, ih =>
        rcases jarrayLoop_inv f front rest0 acc rest out h with
          ⟨hft, rfl, rfl⟩ | ⟨hty, junit, t, tokens', hp, hv, hnext⟩
        · refine ⟨[front], rfl, by simp, ?_, ?_⟩
          · intro stack
            simp [closeBrackets, hft]
          · intro rest'
            simp [jarrayLoop, hft]
        · obtain ⟨c1, hc1, hc1ne, hcb1, -, htr1⟩ :=
            (ih f (by omega)).1 JsonW.raw (front :: rest0) junit (t :: tokens') hp hv (by simp)
          obtain ⟨c1', rfl⟩ : ∃ c1', c1 = front :: c1' := by
            cases c1 with
            | nil => exact absurd rfl hc1ne
            | cons y ys =>
              simp only [List.cons_append, List.cons.injEq] at hc1
              exact ⟨ys, by rw [hc1.1]⟩
          rcases hnext with ⟨hcm, hloop⟩ | ⟨hrs, rfl, rfl⟩
          · obtain ⟨c2, hc2, -, hcb2, htr2⟩ :=
              (ih f (by omega)).2.1 tokens' (acc ++ [junit]) rest out hloop
            refine ⟨(front :: c1') ++ t :: c2, ?_, by simp, ?_, ?_⟩
            · rw [hc1, hc2]; simp
            · intro stack
              rw [hcb1 TokType.RightSquareBracket stack, ← hcb2 stack]
              exact closeBrackets_skip _ _ t tokens' (by simp [hcm]) (by simp [hcm])
                (by simp [hcm]) (by simp [hcm])
            · intro rest'
              have hp' := htr1 (t :: c2 ++ rest')
              simp only [List.cons_append, List.append_assoc] at hp' ⊢
              rw [jarrayLoop_value f front _ acc junit _ hty hp']
              simp only [hv, Bool.true_eq_false, if_false, hcm, if_true]
              exact htr2 rest'
          · refine ⟨(front :: c1') ++ [t], ?_, by simp, ?_, ?_⟩
            · rw [hc1]; simp
            · intro stack
              rw [hcb1 TokType.RightSquareBracket stack]
              simp [closeBrackets, hrs]
            · intro rest'
              have hp' := htr1 (t :: rest')
              simp only [List.cons_append, List.append_assoc, List.singleton_append,
                List.nil_append] at hp' ⊢
              rw [jarrayLoop_value f front _ acc junit _ hty hp']
              simp [hv, hrs]
    · -- the object loop
      intro tokens acc rest out h
      match fuel, tokens, h, ih with
      | 0, _, h, _ => simp [jobjectLoop] at h
      | _ + 1, [], h, _ => simp [jobjectLoop] at h
      | f + 1, front :: rest0, h, ih =>
        rcases jobjectLoop_inv f front rest0 acc rest out h with
          ⟨hft, rfl, rfl⟩ |
          ⟨hft, hk, hm, colon, hd, tl, junit, tokens2, rfl, hcol, hp, hv, hnext⟩
        · refine ⟨[front], rfl, by simp, ?_, ?_⟩
          · intro stack
            simp [closeBrackets, hft]
          · intro rest'
            simp [jobjectLoop, hft]
        · obtain ⟨c1, hc1, hc1ne, hcb1, -, htr1⟩ :=
            (ih f (by omega)).1 JsonW.raw (hd :: tl) junit tokens2 hp hv (by simp)
          obtain ⟨c1', rfl⟩ : ∃ c1', c1 = hd :: c1' := by
            cases c1 with
            | nil => exact absurd rfl hc1ne
            | cons y ys =>
              simp only [List.cons_append, List.cons.injEq] at hc1
              exact ⟨ys, by rw [hc1.1]⟩
          have hskip : ∀ stack, closeBrackets (TokType.RightCurlyBracket :: stack)
              (front :: colon :: hd :: tl) =
              closeBrackets (TokType.RightCurlyBracket :: stack) tokens2 := by
            intro stack
            rw [closeBrackets_skip _ _ front _ (by simp [hft]) (by simp [hft]) (by simp [hft])
              (by simp [hft]),
              closeBrackets_skip _ _ colon _ (by simp [hcol]) (by simp [hcol]) (by simp [hcol])
              (by simp [hcol])]
            exact hcb1 _ stack
          rcases hnext with ⟨t, tokens', rfl, hcm, hloop⟩ | ⟨hnc, hloop⟩
          · obtain ⟨c2, hc2, -, hcb2, htr2⟩ :=
              (ih f (by omega)).2.2 tokens' _ rest out hloop
            refine ⟨front :: colon :: (hd :: c1') ++ t :: c2, ?_, by simp, ?_, ?_⟩
            · rw [hc1, hc2]; simp
            · intro stack
              rw [hskip stack, ← hcb2 stack]
              exact closeBrackets_skip _ _ t tokens' (by simp [hcm]) (by simp [hcm])
                (by simp [hcm]) (by simp [hcm])
            · intro rest'
              have hp' := htr1 (t :: c2 ++ rest')
              simp only [List.cons_append, List.append_assoc] at hp' ⊢
              rw [jobjectLoop_step f front colon hd _ acc junit _ hft hk hm hcol hp']
              simp only [hv, Bool.true_eq_false, if_false, hcm, if_true]
              exact htr2 rest'
          · obtain ⟨c2, hc2, hc2ne, hcb2, htr2⟩ :=
              (ih f (by omega)).2.2 tokens2 _ rest out hloop
            refine ⟨front :: colon :: (hd :: c1') ++ c2, ?_, by simp, ?_, ?_⟩
            · rw [hc1]
              simp only [List.cons_append, List.append_assoc, List.cons.injEq, true_and,
                List.append_cancel_left_eq]
              exact hc2
            · intro stack
              rw [hskip stack, ← hcb2 stack]
            · intro rest'
              have hp' := htr1 (c2 ++ rest')
              simp only [List.cons_append, List.append_assoc] at hp' ⊢
              rw [jobjectLoop_step f front colon hd _ acc junit _ hft hk hm hcol hp']
              simp only [hv, Bool.true_eq_false, if_false]
              cases c2 with
              | nil => exact absurd rfl hc2ne
              | cons y ys =>
                have hy : y.type_ ≠ TokType.Comma := by
                  refine hnc y (ys ++ rest) ?_
                  rw [hc2]; rfl
                simp only [List.cons_append, hy, if_false]
                exact htr2 rest'

/-! ### One token and the character after it -/

theorem expLoop_local : ∀ (t acc x s2 : List Nat), expLoop acc t = (x, s2) →
    ∃ ds, t = ds ++ s2 ∧ x = acc ++ ds ∧ (∀ c, s2.head? = some c → iswdigit c = false) ∧
      ∀ s2' : List Nat, (∀ c, s2'.head? = some c → iswdigit c = false) →
        expLoop acc (ds ++ s2') = (x, s2') := by
  intro t
  induction t with
  | nil =>
    intro acc x s2 h
    simp only [expLoop, Prod.mk.injEq] at h
    obtain ⟨rfl, rfl⟩ := h
    refine ⟨[], rfl, by simp, by simp, ?_⟩
    intro s2' h'
    cases s2' with
    | nil => rfl
    | cons c rest =>
      have := h' c rfl
      simp [expLoop, this]
  | cons c rest ih =>
    intro acc x s2 h
    by_cases hc : iswdigit c = true
    · simp only [expLoop, hc, if_true] at h
      obtain ⟨ds, h1, h2, h3, h4⟩ := ih _ _ _ h
      refine ⟨c :: ds, by rw [h1]; rfl, by rw [h2]; simp, h3, ?_⟩
      intro s2' h'
      simp only [List.cons_append, expLoop, hc, if_true]
      exact h4 s2' h'
    · simp only [expLoop, hc, Bool.false_eq_true, if_false, Prod.mk.injEq] at h
      obtain ⟨rfl, rfl⟩ := h
      refine ⟨[], rfl, by simp, ?_, ?_⟩
      · intro c' hc'
        simp at hc'
        subst hc'
        simpa using hc
      · intro s2' h'
        cases s2' with
        | nil => rfl
        | cons c' rest' =>
          have := h' c' rfl
          simp [expLoop, this]

theorem expLoop_digits : ∀ (t acc x s2 : List Nat), expLoop acc t = (x, s2) →
    (∀ c ∈ acc, iswdigit c = true) → ∀ c ∈ x, iswdigit c = true := by
  intro t
  induction t with
  | nil =>
    intro acc x s2 h ha
    simp only [expLoop, Prod.mk.injEq] at h
    rw [← h.1]; exact ha
  | cons c rest ih =>
    intro acc x s2 h ha
    by_cases hc : iswdigit c = true
    · simp only [expLoop, hc, if_true] at h
      refine ih _ _ _ h ?_
      intro c' hc'
      rcases List.mem_append.1 hc' with h1 | h1
      · exact ha c' h1
      · simp at h1; subst h1; exact hc
    · simp only [expLoop, hc, Bool.false_eq_true, if_false, Prod.mk.injEq] at h
      rw [← h.1]; exact ha

theorem numberLoop_stop (buf : List Nat) (cd : Bool) (s : List Nat)
    (h : ∀ c, s.head? = some c → (iswdigit c || c == 46 || c == 101) = false) :
    numberLoop buf cd s = .ok (buf, cd, false, s) := by
  cases s with
  | nil => rfl
  | cons c rest =>
    have := h c rfl
    simp only [numberLoop, this, Bool.false_eq_true, if_false]

theorem numberLoop_local : ∀ (s buf : List Nat) (cd : Bool) (b : List Nat) (cd' ce : Bool)
    (s1 : List Nat), numberLoop buf cd s = .ok (b, cd', ce, s1) →
    ∃ p1, s = p1 ++ s1 ∧ b = buf ++ p1 ∧
      (ce = true → s1.head? = some 101) ∧
      (ce = false → ∀ c, s1.head? = some c → (iswdigit c || c == 46 || c == 101) = false) ∧
      ∀ s1' : List Nat,
        (ce = true → s1'.head? = some 101) →
        (ce = false → ∀ c, s1'.head? = some c → (iswdigit c || c == 46 || c == 101) = false) →
        numberLoop buf cd (p1 ++ s1') = .ok (b, cd', ce, s1') := by
  intro s
  induction s with
  | nil =>
    intro buf cd b cd' ce s1 h
    simp only [numberLoop, Except.ok.injEq, Prod.mk.injEq] at h
    obtain ⟨rfl, rfl, rfl, rfl⟩ := h
    refine ⟨[], rfl, by simp, by simp, by simp, ?_⟩
    intro s1' _ h2
    exact numberLoop_stop buf cd s1' (h2 rfl)
  | cons c rest ih =>
    intro buf cd b cd' ce s1 h
    by_cases hin : (iswdigit c || c == 46 || c == 101) = true
    · by_cases he : c = 101
      · subst he
        have h' : numberLoop buf cd (101 :: rest) = .ok (buf, cd, true, 101 :: rest) := by
          simp [numberLoop, iswdigit]
        rw [h'] at h
        simp only [Except.ok.injEq, Prod.mk.injEq] at h
        obtain ⟨rfl, rfl, rfl, rfl⟩ := h
        refine ⟨[], rfl, by simp, by simp, by simp, ?_⟩
        intro s1' h1 _
        rw [head_eq_cons s1' 101 (h1 rfl)]
        simp [numberLoop, iswdigit]
      · have he' : (c == 101) = false := by simpa using he
        have h69 : (c == 69) = false := by
          by_cases h : c = 69
          · subst h; simp [iswdigit] at hin
          · simpa using h
        have hstep : ∀ tl, numberLoop buf cd (c :: tl) =
            if (c == 46 && (cd || buf.length == 0)) = true then .error (c :: tl)
            else if (c == 46 && (buf.length == 1 && !iswdigit (buf.headD 0))) = true then
              .error (c :: tl)
            else numberLoop (buf ++ [c]) (cd || c == 46) tl := by
          intro tl
          have hin2 : (iswdigit c || c == 46) = true := by simpa [he'] using hin
          simp only [numberLoop, he', h69, Bool.or_false, hin2, if_true, Bool.or_self,
            Bool.false_eq_true, if_false]
        rw [hstep] at h
        by_cases g1 : (c == 46 && (cd || buf.length == 0)) = true
        · rw [if_pos g1] at h; cases h
        · rw [if_neg g1] at h
          by_cases g2 : (c == 46 && (buf.length == 1 && !iswdigit (buf.headD 0))) = true
          · rw [if_pos g2] at h; cases h
          · rw [if_neg g2] at h
            obtain ⟨p1, h1, h2, h3, h4, h5⟩ := ih _ _ _ _ _ _ h
            refine ⟨c :: p1, by rw [h1]; rfl, by rw [h2]; simp, h3, h4, ?_⟩
            intro s1' a1 a2
            simp only [List.cons_append]
            rw [hstep, if_neg g1, if_neg g2]
            exact h5 s1' a1 a2
    · have hin' : (iswdigit c || c == 46 || c == 101) = false := by simpa using hin
      rw [numberLoop_stop buf cd (c :: rest) (by intro c' hc'; simp at hc'; subst hc'; exact hin')]
        at h
      simp only [Except.ok.injEq, Prod.mk.injEq] at h
      obtain ⟨rfl, rfl, rfl, rfl⟩ := h
      refine ⟨[], rfl, by simp, by simp, ?_, ?_⟩
      · intro _ c' hc'
        simp at hc'; subst hc'; exact hin'
      · intro s1' _ h2
        exact numberLoop_stop buf cd s1' (h2 rfl)

/-- The stream after the optional signs of an exponent. -/
theorem exponentPart_cons (m : Nat) (t1 : List Nat) (hm : m = 101 ∨ m = 69) :
    exponentPart (m :: t1) =
      if (expLoop [] (if (if t1.head? == some 45 then t1.tail else t1).head? == some 43
            then (if t1.head? == some 45 then t1.tail else t1).tail
            else (if t1.head? == some 45 then t1.tail else t1))).1.length == 0
      then .error (expLoop [] (if (if t1.head? == some 45 then t1.tail else t1).head? == some 43
            then (if t1.head? == some 45 then t1.tail else t1).tail
            else (if t1.head? == some 45 then t1.tail else t1))).2
      else
        match stoi (expLoop [] (if (if t1.head? == some 45 then t1.tail else t1).head? == some 43
            then (if t1.head? == some 45 then t1.tail else t1).tail
            else (if t1.head? == some 45 then t1.tail else t1))).1 with
        | none => .error (expLoop [] (if (if t1.head? == some 45 then t1.tail else t1).head? ==
              some 43
            then (if t1.head? == some 45 then t1.tail else t1).tail
            else (if t1.head? == some 45 then t1.tail else t1))).2
        | some exponent => .ok (t1.head? == some 45, exponent,
            (expLoop [] (if (if t1.head? == some 45 then t1.tail else t1).head? == some 43
            then (if t1.head? == some 45 then t1.tail else t1).tail
            else (if t1.head? == some 45 then t1.tail else t1))).2) := by
  rcases hm with rfl | rfl <;> rfl

theorem exponentPart_none (s : List Nat) (h : ¬ (s.head? = some 101 ∨ s.head? = some 69)) :
    exponentPart s = .ok (false, 0, s) := by
  have : (s.head? == some 101 || s.head? == some 69) = false := by
    simpa using h
  simp only [exponentPart, this, Bool.false_eq_true, if_false]

/-- The signs in front of the digits of an exponent. -/
theorem exponent_signs (t1 ds s2 : List Nat) (hds : ds ≠ [])
    (hd : ∀ c ∈ ds, iswdigit c = true)
    (h : (if (if t1.head? == some 45 then t1.tail else t1).head? == some 43
            then (if t1.head? == some 45 then t1.tail else t1).tail
            else (if t1.head? == some 45 then t1.tail else t1)) = ds ++ s2) :
    ∃ sg, t1 = sg ++ (ds ++ s2) ∧ ∀ s2' : List Nat,
      ((sg ++ (ds ++ s2')).head? == some 45) = (t1.head? == some 45) ∧
      (if (if (sg ++ (ds ++ s2')).head? == some 45 then (sg ++ (ds ++ s2')).tail
            else (sg ++ (ds ++ s2'))).head? == some 43
        then (if (sg ++ (ds ++ s2')).head? == some 45 then (sg ++ (ds ++ s2')).tail
            else (sg ++ (ds ++ s2'))).tail
        else (if (sg ++ (ds ++ s2')).head? == some 45 then (sg ++ (ds ++ s2')).tail
            else (sg ++ (ds ++ s2')))) = ds ++ s2' := by
  obtain ⟨d, ds', rfl⟩ : ∃ d ds', ds = d :: ds' := by
    cases ds with
    | nil => exact absurd rfl hds
    | cons d ds' => exact ⟨d, ds', rfl⟩
  have hdig := (iswdigit_iff d).1 (hd d (by simp))
  have d45 : ¬ d = 45 := by omega
  have d43 : ¬ d = 43 := by omega
  by_cases h45 : t1.head? = some 45
  · have e1 := head_eq_cons t1 45 h45
    simp only [h45, beq_self_eq_true, if_true] at h
    by_cases h43 : t1.tail.head? = some 43
    · have e2 := head_eq_cons t1.tail 43 h43
      simp only [h43, beq_self_eq_true, if_true] at h
      refine ⟨[45, 43], by rw [e1, e2, h]; rfl, fun s2' => ?_⟩
      simp [h45]
    · have h43' : (t1.tail.head? == some 43) = false := by simpa using h43
      simp only [h43', Bool.false_eq_true, if_false] at h
      refine ⟨[45], by rw [e1, h]; rfl, fun s2' => ?_⟩
      simp [h45, d43]
  · have h45' : (t1.head? == some 45) = false := by simpa using h45
    simp only [h45', Bool.false_eq_true, if_false] at h
    by_cases h43 : t1.head? = some 43
    · have e2 := head_eq_cons t1 43 h43
      simp only [h43, beq_self_eq_true, if_true] at h
      refine ⟨[43], by rw [e2, h]; rfl, fun s2' => ?_⟩
      simp [h43]
    · have h43' : (t1.head? == some 43) = false := by simpa using h43
      simp only [h43', Bool.false_eq_true, if_false] at h
      refine ⟨[], by rw [h]; rfl, fun s2' => ?_⟩
      simp [h45', d45, d43]

theorem exponentPart_local (s1 : List Nat) (neg : Bool) (e : Int) (s2 : List Nat)
    (h : exponentPart s1 = .ok (neg, e, s2)) :
    (¬ (s1.head? = some 101 ∨ s1.head? = some 69) ∧ s2 = s1) ∨
    (∃ p2, p2 ≠ [] ∧ s1 = p2 ++ s2 ∧ (p2.head? = some 101 ∨ p2.head? = some 69) ∧
      (∀ c, s2.head? = some c → iswdigit c = false) ∧
      ∀ s2' : List Nat, (∀ c, s2'.head? = some c → iswdigit c = false) →
        exponentPart (p2 ++ s2') = .ok (neg, e, s2')) := by
  by_cases hm : s1.head? = some 101 ∨ s1.head? = some 69
  · right
    obtain ⟨m, hm', hs1⟩ : ∃ m, (m = 101 ∨ m = 69) ∧ s1 = m :: s1.tail := by
      rcases hm with hm | hm
      · exact ⟨101, Or.inl rfl, head_eq_cons s1 101 hm⟩
      · exact ⟨69, Or.inr rfl, head_eq_cons s1 69 hm⟩
    generalize s1.tail = t1 at hs1
    subst hs1
    rw [exponentPart_cons m t1 hm'] at h
    cases hx : expLoop [] (if (if t1.head? == some 45 then t1.tail else t1).head? == some 43
            then (if t1.head? == some 45 then t1.tail else t1).tail
            else (if t1.head? == some 45 then t1.tail else t1)) with
    | mk x s2x =>
      rw [hx] at h
      simp only at h
      obtain ⟨ds, k1, k2, k3, k4⟩ := expLoop_local _ _ _ _ hx
      simp only [List.nil_append] at k2
      subst k2
      by_cases hlen : (x.length == 0) = true
      · rw [if_pos hlen] at h; cases h
      · rw [if_neg hlen] at h
        have hxne : x ≠ [] := by
          intro hx0; subst hx0; simp at hlen
        have hxd : ∀ c ∈ x, iswdigit c = true :=
          expLoop_digits _ _ _ _ hx (by simp)
        cases hst : stoi x with
        | none => rw [hst] at h; cases h
        | some ex =>
          rw [hst] at h
          simp only [Except.ok.injEq, Prod.mk.injEq] at h
          obtain ⟨hneg, rfl, rfl⟩ := h
          obtain ⟨sg, e1, e2⟩ := exponent_signs t1 x s2x hxne hxd k1
          refine ⟨m :: sg ++ x, by simp, by rw [e1]; simp, by
            rcases hm' with rfl | rfl <;> simp, k3, ?_⟩
          intro s2' hs2'
          have := e2 s2'
          simp only [List.cons_append, List.append_assoc]
          rw [exponentPart_cons m _ hm', this.2, k4 s2' hs2', this.1]
          simp only [hlen, Bool.false_eq_true, if_false, hst, hneg]
  · left
    rw [exponentPart_none s1 hm] at h
    simp only [Except.ok.injEq, Prod.mk.injEq] at h
    exact ⟨hm, h.2.2.symm⟩

theorem numberFinish_ok (env : FloatEnv) (ns : List Nat) (cd ce : Bool)
    (s1 s1' s2 r' : List Nat) (neg : Bool) (e : Int)
    (c1 : ¬ (ns.length == 0 || !iswdigit (ns.getLastD 0)) = true)
    (c2 : ¬ (!cd && ns.headD 0 == 48 && decide (ns.length > 1)) = true)
    (hexp : exponentPart s1 = .ok (neg, e, s2))
    (hexp' : exponentPart s1' = .ok (neg, e, r')) :
    numberFinish env ns cd ce s1' = ((numberFinish env ns cd ce s1).1, r') ∧
    (numberFinish env ns cd ce s1).2 = s2 := by
  simp only [numberFinish, c1, c2, hexp, hexp', Bool.false_eq_true, if_false]
  cases cd <;> cases ce <;> cases hst : stoll ns <;> cases hth : env.stoldThrows ns <;>
    cases hp : env.powHuge (if neg = true then -1 * e else e) <;> simp [hp]

/-- After the loop the number branch reads the stream only through the exponent. -/
theorem numberFinish_local (env : FloatEnv) (ns : List Nat) (cd ce : Bool)
    (s1 : List Nat) (tok : JsonTokenW) (r : List Nat)
    (h : numberFinish env ns cd ce s1 = (tok, r)) (hb : tok.type_ ≠ TokType.Bad) :
    ∃ neg e, exponentPart s1 = .ok (neg, e, r) ∧ ns ≠ [] ∧
      iswdigit (ns.getLastD 0) = true ∧
      ∀ s1' r' : List Nat, exponentPart s1' = .ok (neg, e, r') →
        numberFinish env ns cd ce s1' = (tok, r') := by
  have bad : ∀ x : List Nat, (({} : JsonTokenW), x) = (tok, r) → False := by
    intro x hx
    simp only [Prod.mk.injEq] at hx
    exact hb (by rw [← hx.1])
  by_cases c1 : (ns.length == 0 || !iswdigit (ns.getLastD 0)) = true
  · simp only [numberFinish, c1, if_true] at h
    exact (bad _ h).elim
  · by_cases c2 : (!cd && ns.headD 0 == 48 && decide (ns.length > 1)) = true
    · simp only [numberFinish, c1, c2, if_true, Bool.false_eq_true, if_false] at h
      exact (bad _ h).elim
    · have hne : ns ≠ [] := by
        intro h0; subst h0; simp at c1
      cases hexp : exponentPart s1 with
      | error i =>
        simp only [numberFinish, c1, c2, hexp, Bool.false_eq_true, if_false] at h
        exact (bad _ h).elim
      | ok v =>
        obtain ⟨neg, e, s2⟩ := v
        have h2 := (numberFinish_ok env ns cd ce s1 s1 s2 s2 neg e c1 c2 hexp hexp).2
        rw [h] at h2
        simp only at h2
        subst h2
        have hlast : iswdigit (ns.getLastD 0) = true := by
          cases hd : iswdigit (ns.getLastD 0) with
          | true => rfl
          | false => exact absurd (by rw [hd]; simp) c1
        refine ⟨neg, e, rfl, hne, hlast, fun s1' r' h' => ?_⟩
        rw [(numberFinish_ok env ns cd ce s1 s1' r r' neg e c1 c2 hexp h').1, h]

theorem startsLike_head (r r' : List Nat) (h : startsLike r r') (P : Nat → Bool)
    (hw : ∀ c, isskippable c = true → P c = false)
    (hr : ∀ c, r.head? = some c → P c = false) : ∀ c, r'.head? = some c → P c = false := by
  intro c hc
  rcases h with h | ⟨c', h1, h2⟩
  · exact hr c (by rw [← h]; exact hc)
  · rw [h1] at hc
    simp only [Option.some.injEq] at hc
    subst hc
    exact hw _ h2

theorem skippable_cases (c : Nat) (h : isskippable c = true) :
    c = 32 ∨ c = 13 ∨ c = 10 ∨ c = 9 := by
  simp only [isskippable, Bool.or_eq_true, beq_iff_eq] at h
  omega

theorem skippable_not_number (c : Nat) (h : isskippable c = true) :
    (iswdigit c || c == 46 || c == 101) = false := by
  rcases skippable_cases c h with rfl | rfl | rfl | rfl <;> rfl

theorem skippable_not_digit (c : Nat) (h : isskippable c = true) : iswdigit c = false := by
  rcases skippable_cases c h with rfl | rfl | rfl | rfl <;> rfl

theorem head_append_of_ne (p r r' : List Nat) (hp : p ≠ []) :
    (p ++ r').head? = (p ++ r).head? := by
  cases p with
  | nil => exact absurd rfl hp
  | cons a t => rfl

/-- The loop and what follows it read the stream up to the end of the number and look
at one character more. -/
theorem loopFinish_local (env : FloatEnv) (buf : List Nat) (cd : Bool) (s ns : List Nat)
    (cd' ce : Bool) (s1 : List Nat) (tok : JsonTokenW) (r : List Nat)
    (hl : numberLoop buf cd s = .ok (ns, cd', ce, s1))
    (hf : numberFinish env ns cd' ce s1 = (tok, r)) (hb : tok.type_ ≠ TokType.Bad) :
    ∃ p, s = p ++ r ∧ (p = [] → buf ≠ [] ∧ iswdigit (buf.getLastD 0) = true) ∧
      ∀ r' : List Nat, startsLike r r' →
        ∃ s1', numberLoop buf cd (p ++ r') = .ok (ns, cd', ce, s1') ∧
          numberFinish env ns cd' ce s1' = (tok, r') := by
  obtain ⟨p1, a1, a2, a3, a4, a5⟩ := numberLoop_local s buf cd ns cd' ce s1 hl
  obtain ⟨neg, e, b1, b2, b3, b4⟩ := numberFinish_local env ns cd' ce s1 tok r hf hb
  rcases exponentPart_local s1 neg e r b1 with ⟨c1, c2⟩ | ⟨p2, c1, c2, c3, c4, c5⟩
  · -- no exponent
    subst c2
    have hce : ce = false := by
      cases ce with
      | false => rfl
      | true => exact absurd (Or.inl (a3 rfl)) c1
    subst hce
    have hne : neg = false ∧ e = 0 := by
      rw [exponentPart_none r c1] at b1
      simp only [Except.ok.injEq, Prod.mk.injEq, and_true] at b1
      exact ⟨b1.1.symm, b1.2.symm⟩
    refine ⟨p1, a1, ?_, ?_⟩
    · intro hp
      subst hp
      simp only [List.append_nil] at a2
      subst a2
      exact ⟨b2, b3⟩
    · intro r' hr'
      refine ⟨r', a5 r' (by simp) (fun _ => ?_), b4 r' r' ?_⟩
      · exact startsLike_head r r' hr' _ skippable_not_number (a4 rfl)
      · rw [hne.1, hne.2]
        refine exponentPart_none r' ?_
        have := startsLike_head r r' hr' (fun c => c == 101 || c == 69)
          (by intro c hc; rcases skippable_cases c hc with rfl | rfl | rfl | rfl <;> rfl)
          (by
            intro c hc
            cases h101 : c == 101 with
            | true =>
              have : c = 101 := by simpa using h101
              subst this
              exact absurd (Or.inl hc) c1
            | false =>
              cases h69 : c == 69 with
              | true =>
                have : c = 69 := by simpa using h69
                subst this
                exact absurd (Or.inr hc) c1
              | false => simp [h101, h69])
        rintro (h | h)
        · simpa using this 101 h
        · simpa using this 69 h
  · -- an exponent
    subst c2
    refine ⟨p1 ++ p2, by rw [a1, List.append_assoc], ?_, ?_⟩
    · intro hp
      exact absurd (List.append_eq_nil.1 hp).2 c1
    · intro r' hr'
      have hh := head_append_of_ne p2 r r' c1
      refine ⟨p2 ++ r', ?_, b4 (p2 ++ r') r' (c5 r' ?_)⟩
      · rw [List.append_assoc]
        refine a5 (p2 ++ r') (fun h => ?_) (fun h => ?_)
        · rw [hh]; exact a3 h
        · rw [hh]; exact a4 h
      · exact startsLike_head r r' hr' _ skippable_not_digit c4

theorem scanNumber_zero_int (env : FloatEnv) (neg : Bool) (b : List Nat)
    (h46 : b.head? ≠ some 46) :
    scanNumber env ((if neg then [45] else []) ++ 48 :: b) =
      ({ type_ := TokType.NumberInteger, integer_ := 0 }, b) := by
  cases neg <;> simp [scanNumber, h46]

/-- The shape of the stream in the number branch: an optional minus sign and the rest. -/
theorem sign_split (s : List Nat) :
    ∃ (neg : Bool) (a : List Nat), s = (if neg then [45] else []) ++ a ∧
      (neg = false → a.head? ≠ some 45) := by
  by_cases h : s.head? = some 45
  · exact ⟨true, s.tail, by rw [if_pos rfl]; exact head_eq_cons s 45 h, by simp⟩
  · exact ⟨false, s, by simp, fun _ => h⟩

theorem scanNumber_local (env : FloatEnv) (s : List Nat) (tok : JsonTokenW) (r : List Nat)
    (h : scanNumber env s = (tok, r)) (hb : tok.type_ ≠ TokType.Bad) :
    ∃ q, q ≠ [] ∧ s = q ++ r ∧
      ∀ r' : List Nat, startsLike r r' → scanNumber env (q ++ r') = (tok, r') := by
  obtain ⟨neg, a, rfl, h45⟩ := sign_split s
  by_cases h48 : a.head? = some 48
  · have ea := head_eq_cons a 48 h48
    generalize a.tail = b at ea
    subst ea
    by_cases h46 : b.head? = some 46
    · have eb := head_eq_cons b 46 h46
      generalize b.tail = b' at eb
      subst eb
      rw [scanNumber_zero_frac] at h
      cases hl : numberLoop ((if neg then [45] else []) ++ [48, 46]) true b' with
      | error i =>
        rw [hl] at h
        simp only [Prod.mk.injEq] at h
        exact absurd (by rw [← h.1]) hb
      | ok v =>
        obtain ⟨ns, cd', ce, s1⟩ := v
        rw [hl] at h
        simp only at h
        obtain ⟨p, e1, -, e3⟩ := loopFinish_local env _ true b' ns cd' ce s1 tok r hl h hb
        refine ⟨(if neg then [45] else []) ++ 48 :: 46 :: p, by simp, by rw [e1]; simp, ?_⟩
        intro r' hr'
        obtain ⟨s1', f1, f2⟩ := e3 r' hr'
        have : ((if neg then [45] else []) ++ 48 :: 46 :: p) ++ r' =
            (if neg then [45] else []) ++ 48 :: 46 :: (p ++ r') := by simp
        rw [this, scanNumber_zero_frac, f1]
        exact f2
    · rw [scanNumber_zero_int env neg b h46] at h
      simp only [Prod.mk.injEq] at h
      obtain ⟨rfl, rfl⟩ := h
      refine ⟨(if neg then [45] else []) ++ [48], by simp, by simp, ?_⟩
      intro r' hr'
      have : ((if neg then [45] else []) ++ [48]) ++ r' =
          (if neg then [45] else []) ++ 48 :: r' := by simp
      rw [this]
      refine scanNumber_zero_int env neg r' ?_
      intro h
      have := startsLike_head b r' hr' (fun c => c == 46)
        (by intro c hc; rcases skippable_cases c hc with rfl | rfl | rfl | rfl <;> rfl)
        (by intro c hc; by_cases h' : c = 46
            · subst h'; exact absurd hc h46
            · simpa using h') 46 h
      simp at this
  · rw [scanNumber_nonzero env neg a h45 h48] at h
    cases hl : numberLoop (if neg then [45] else []) false a with
    | error i =>
      rw [hl] at h
      simp only [Prod.mk.injEq] at h
      exact absurd (by rw [← h.1]) hb
    | ok v =>
      obtain ⟨ns, cd', ce, s1⟩ := v
      rw [hl] at h
      simp only at h
      obtain ⟨p, e1, e2, e3⟩ := loopFinish_local env _ false a ns cd' ce s1 tok r hl h hb
      have hp : p ≠ [] := by
        intro hp
        obtain ⟨g1, g2⟩ := e2 hp
        cases neg with
        | true => simp [iswdigit] at g2
        | false => simp at g1
      refine ⟨(if neg then [45] else []) ++ p, by simp [hp], by rw [e1]; simp, ?_⟩
      intro r' hr'
      obtain ⟨s1', f1, f2⟩ := e3 r' hr'
      have hh : (p ++ r').head? = a.head? := by
        rw [e1]; exact head_append_of_ne p r r' hp
      rw [List.append_assoc, scanNumber_nonzero env neg (p ++ r')
        (fun hn => by rw [hh]; exact h45 hn) (by rw [hh]; exact h48), f1]
      exact f2

theorem expect_true (ks : List Nat) : ∀ (s r : List Nat), expect ks s = (true, r) →
    s = ks ++ r ∧ ∀ r' : List Nat, expect ks (ks ++ r') = (true, r') := by
  induction ks with
  | nil =>
    intro s r h
    simp only [expect, Prod.mk.injEq, true_and] at h
    exact ⟨h, fun _ => rfl⟩
  | cons k ks ih =>
    intro s r h
    cases s with
    | nil => simp [expect] at h
    | cons c rest =>
      by_cases hc : c = k
      · subst hc
        simp only [expect, beq_self_eq_true, if_true] at h
        obtain ⟨h1, h2⟩ := ih rest r h
        refine ⟨by rw [h1]; rfl, fun r' => ?_⟩
        simp only [List.cons_append, expect, beq_self_eq_true, if_true]
        exact h2 r'
      · have hk : (c == k) = false := by simpa using hc
        simp [expect, hk] at h

theorem stringLoop_local (n : Nat) : ∀ (body : List Nat), body.length ≤ n →
    ∀ (b : Bool) (buf : List Nat) (tok : JsonTokenW) (r : List Nat),
    stringLoop b buf body = (tok, r) → tok.type_ ≠ TokType.Bad →
    ∃ q, body = q ++ r ∧ q ≠ [] ∧ ∀ r' : List Nat, stringLoop b buf (q ++ r') = (tok, r') := by
  induction n using Nat.strong_induction_on with
  | _ n ih =>
    intro body hlen b buf tok r h hb
    have bad : ∀ x : List Nat, (({} : JsonTokenW), x) = (tok, r) → False := by
      intro x hx
      simp only [Prod.mk.injEq] at hx
      exact hb (by rw [← hx.1])
    cases body with
    | nil =>
      simp only [stringLoop] at h
      exact (bad _ h).elim
    | cons c rest =>
      simp only [List.length_cons] at hlen
      cases b with
      | true =>
        by_cases hc : c = 117
        · subst hc
          match rest, hlen, h with
          | h1 :: h2 :: h3 :: h4 :: rest4, hlen, h =>
            simp only [List.length_cons] at hlen
            rw [stringLoop.eq_def] at h
            simp only [beq_self_eq_true, if_true] at h
            obtain ⟨q, e1, -, e3⟩ := ih (n - 1) (by omega) rest4 (by omega) false _ tok r h hb
            refine ⟨117 :: h1 :: h2 :: h3 :: h4 :: q, by rw [e1]; rfl, by simp, fun r' => ?_⟩
            simp only [List.cons_append]
            rw [stringLoop.eq_def]
            simp only [beq_self_eq_true, if_true]
            exact e3 r'
          | [], _, h => rw [stringLoop.eq_def] at h; simp at h; exact absurd (by rw [← h.1]) hb
          | [_], _, h => rw [stringLoop.eq_def] at h; simp at h; exact absurd (by rw [← h.1]) hb
          | [_, _], _, h => rw [stringLoop.eq_def] at h; simp at h; exact absurd (by rw [← h.1]) hb
          | [_, _, _], _, h =>
            rw [stringLoop.eq_def] at h; simp at h; exact absurd (by rw [← h.1]) hb
        · rw [stringLoop_escape buf c rest hc] at h
          obtain ⟨q, e1, -, e3⟩ := ih (n - 1) (by omega) rest (by omega) false _ tok r h hb
          refine ⟨c :: q, by rw [e1]; rfl, by simp, fun r' => ?_⟩
          simp only [List.cons_append]
          rw [stringLoop_escape buf c _ hc]
          exact e3 r'
      | false =>
        by_cases h92 : c = 92
        · subst h92
          rw [stringLoop_backslash] at h
          obtain ⟨q, e1, -, e3⟩ := ih (n - 1) (by omega) rest (by omega) true _ tok r h hb
          refine ⟨92 :: q, by rw [e1]; rfl, by simp, fun r' => ?_⟩
          simp only [List.cons_append]
          rw [stringLoop_backslash]
          exact e3 r'
        · have h92' : (c == 92) = false := by simpa using h92
          have hstep : ∀ tl, stringLoop false buf (c :: tl) =
              if (c == 13 || c == 10) = true then ({}, c :: tl)
              else if (c == 34) = true then ({ type_ := TokType.String, wstring_ := buf }, tl)
              else stringLoop false (buf ++ [c]) tl := by
            intro tl
            rw [stringLoop.eq_def]
            simp only [h92', Bool.false_eq_true, if_false]
          rw [hstep] at h
          by_cases hnl : (c == 13 || c == 10) = true
          · rw [if_pos hnl] at h
            exact (bad _ h).elim
          · rw [if_neg hnl] at h
            by_cases h34 : (c == 34) = true
            · rw [if_pos h34] at h
              simp only [Prod.mk.injEq] at h
              obtain ⟨rfl, rfl⟩ := h
              refine ⟨[c], rfl, by simp, fun r' => ?_⟩
              simp only [List.cons_append, List.nil_append]
              rw [hstep, if_neg hnl, if_pos h34]
            · rw [if_neg h34] at h
              obtain ⟨q, e1, -, e3⟩ := ih (n - 1) (by omega) rest (by omega) false _ tok r h hb
              refine ⟨c :: q, by rw [e1]; rfl, by simp, fun r' => ?_⟩
              simp only [List.cons_append]
              rw [hstep, if_neg hnl, if_neg h34]
              exact e3 r'

/-- The constructor reads the text of one token and looks at most one character past
it, and white space there is as good as what stood there. -/
theorem scan_local (env : FloatEnv) (s : List Nat) (tok : JsonTokenW) (r : List Nat)
    (h : JsonTokenW.scan env s = (tok, r)) (hb : tok.type_ ≠ TokType.Bad) :
    ∃ q, q ≠ [] ∧ s = q ++ r ∧
      ∀ r' : List Nat, startsLike r r' → JsonTokenW.scan env (q ++ r') = (tok, r') := by
  have bad : ∀ x : List Nat, (({} : JsonTokenW), x) = (tok, r) → False := by
    intro x hx
    simp only [Prod.mk.injEq] at hx
    exact hb (by rw [← hx.1])
  cases s with
  | nil => exact (bad _ h).elim
  | cons c rest =>
    have punct : ∀ (ty : TokType), (∀ tl, JsonTokenW.scan env (c :: tl) = ({ type_ := ty }, tl)) →
        ∃ q, q ≠ [] ∧ c :: rest = q ++ r ∧
          ∀ r' : List Nat, startsLike r r' → JsonTokenW.scan env (q ++ r') = (tok, r') := by
      intro ty hty
      rw [hty] at h
      simp only [Prod.mk.injEq] at h
      obtain ⟨rfl, rfl⟩ := h
      exact ⟨[c], by simp, rfl, fun r' _ => hty r'⟩
    by_cases c1 : c = 123
    · subst c1; exact punct _ (fun tl => rfl)
    by_cases c2 : c = 125
    · subst c2; exact punct _ (fun tl => rfl)
    by_cases c3 : c = 91
    · subst c3; exact punct _ (fun tl => rfl)
    by_cases c4 : c = 93
    · subst c4; exact punct _ (fun tl => rfl)
    by_cases c5 : c = 58
    · subst c5; exact punct _ (fun tl => rfl)
    by_cases c6 : c = 44
    · subst c6; exact punct _ (fun tl => rfl)
    by_cases cn : (iswdigit c || c == 45) = true
    · have hsc : ∀ tl, JsonTokenW.scan env (c :: tl) = scanNumber env (c :: tl) := by
        intro tl
        simp only [JsonTokenW.scan, beq_iff_eq, c1, c2, c3, c4, c5, c6, if_false]
        simp only [Bool.or_eq_true, beq_iff_eq] at cn
        simp [cn]
      rw [hsc] at h
      obtain ⟨q, q1, q2, q3⟩ := scanNumber_local env (c :: rest) tok r h hb
      refine ⟨q, q1, q2, fun r' hr' => ?_⟩
      cases q with
      | nil => exact absurd rfl q1
      | cons d q' =>
        simp only [List.cons_append, List.cons.injEq] at q2
        obtain ⟨rfl, -⟩ := q2
        have := q3 r' hr'
        simp only [List.cons_append] at this ⊢
        rw [hsc]; exact this
    have cn' : iswdigit c = false ∧ ¬ c = 45 := by
      simp only [Bool.or_eq_true, beq_iff_eq, not_or, Bool.not_eq_true] at cn
      exact cn
    have keyword : ∀ (ks : List Nat) (t : JsonTokenW),
        (∀ tl, JsonTokenW.scan env (c :: tl) =
          if (expect ks tl).1 = true then (t, (expect ks tl).2) else ({}, (expect ks tl).2)) →
        ∃ q, q ≠ [] ∧ c :: rest = q ++ r ∧
          ∀ r' : List Nat, startsLike r r' → JsonTokenW.scan env (q ++ r') = (tok, r') := by
      intro ks t hk
      rw [hk] at h
      by_cases he : (expect ks rest).1 = true
      · rw [if_pos he] at h
        simp only [Prod.mk.injEq] at h
        obtain ⟨rfl, h2⟩ := h
        have hex : expect ks rest = (true, r) := by
          rw [← he, ← h2]
        obtain ⟨e1, e2⟩ := expect_true ks rest r hex
        refine ⟨c :: ks, by simp, by rw [e1]; rfl, fun r' _ => ?_⟩
        simp only [List.cons_append]
        rw [hk, e2 r']
        simp
      · rw [if_neg he] at h
        exact (bad _ h).elim
    by_cases ct : c = 116
    · subst ct
      refine keyword [114, 117, 101] { type_ := TokType.Boolean, boolean_ := true } ?_
      intro tl
      simp only [JsonTokenW.scan]
      cases hx : expect [114, 117, 101] tl with
      | mk b x => cases b <;> simp [iswdigit]
    by_cases cf : c = 102
    · subst cf
      refine keyword [97, 108, 115, 101] { type_ := TokType.Boolean, boolean_ := false } ?_
      intro tl
      simp only [JsonTokenW.scan]
      cases hx : expect [97, 108, 115, 101] tl with
      | mk b x => cases b <;> simp [iswdigit]
    by_cases cu : c = 110
    · subst cu
      refine keyword [117, 108, 108] { type_ := TokType.Null } ?_
      intro tl
      simp only [JsonTokenW.scan]
      cases hx : expect [117, 108, 108] tl with
      | mk b x => cases b <;> simp [iswdigit]
    by_cases cq : c = 34
    · subst cq
      have hsc : ∀ tl, JsonTokenW.scan env (34 :: tl) = stringLoop false [] tl := by
        intro tl
        simp [JsonTokenW.scan, iswdigit]
      rw [hsc] at h
      obtain ⟨q, q1, -, q3⟩ := stringLoop_local rest.length rest (le_refl _) false [] tok r h hb
      refine ⟨34 :: q, by simp, by rw [q1]; rfl, fun r' _ => ?_⟩
      simp only [List.cons_append]
      rw [hsc]; exact q3 r'
    · have : JsonTokenW.scan env (c :: rest) = ({}, c :: rest) := by
        simp [JsonTokenW.scan, c1, c2, c3, c4, c5, c6, cn'.1, cn'.2, ct, cf, cu, cq]
      rw [this] at h
      exact (bad _ h).elim

/-! ### White space between tokens -/

theorem findnext_skip (w : List Nat) (hw : ∀ c ∈ w, isskippable c = true) (t : List Nat) :
    findnext (w ++ t) = findnext t := by
  induction w with
  | nil => rfl
  | cons c w ih =>
    have hc := hw c (by simp)
    simp only [List.cons_append, findnext, hc, if_true]
    exact ih (fun c' h' => hw c' (by simp [h']))

theorem findnext_some (t : List Nat) : ∀ s, findnext t = some s →
    ∃ w, t = w ++ s ∧ (∀ c ∈ w, isskippable c = true) ∧ findnext s = some s ∧ s ≠ [] := by
  induction t with
  | nil => intro s h; cases h
  | cons c rest ih =>
    intro s h
    by_cases hc : isskippable c = true
    · simp only [findnext, hc, if_true] at h
      obtain ⟨w, h1, h2, h3, h4⟩ := ih s h
      refine ⟨c :: w, by rw [h1]; rfl, ?_, h3, h4⟩
      intro c' hc'
      rcases List.mem_cons.1 hc' with rfl | hc'
      · exact hc
      · exact h2 c' hc'
    · have h0 := h
      simp only [findnext, hc, Bool.false_eq_true, if_false] at h
      split at h
      · simp only [Option.some.injEq] at h
        subst h
        exact ⟨[], rfl, by simp, h0, by simp⟩
      · cases h

/-- Whether a token may begin at a character does not depend on what follows it. -/
theorem findnext_head (c : Nat) (x y : List Nat) (h : findnext (c :: x) = some (c :: x)) :
    findnext (c :: y) = some (c :: y) := by
  by_cases hc : isskippable c = true
  · simp only [findnext, hc, if_true] at h
    obtain ⟨w, h1, -, -, -⟩ := findnext_some x _ h
    have := congrArg List.length h1
    simp only [List.length_append, List.length_cons] at this
    omega
  · simp only [findnext, hc, Bool.false_eq_true, if_false] at h ⊢
    split at h
    · next hs => rw [if_pos hs]
    · cases h

theorem Spaced.ws_keep (env : FloatEnv) (w : List Nat) (hw : ∀ c ∈ w, isskippable c = true)
    (t t' : List Nat) (h : Spaced env t t') : Spaced env (w ++ t) (w ++ t') := by
  induction w with
  | nil => exact h
  | cons c w ih =>
    exact Spaced.keep c _ _ (hw c (by simp)) (ih (fun c' h' => hw c' (by simp [h'])))

theorem Spaced.ws_insert (env : FloatEnv) (w : List Nat) (hw : ∀ c ∈ w, isskippable c = true)
    (t t' : List Nat) (h : Spaced env t t') : Spaced env t (w ++ t') := by
  induction w with
  | nil => exact h
  | cons c w ih =>
    exact Spaced.insert c _ _ (hw c (by simp)) (ih (fun c' h' => hw c' (by simp [h'])))

/-- Every text that scans successfully stands in the relation with itself. -/
theorem Spaced.of_scan (env : FloatEnv) (fuel : Nat) : ∀ (t : List Nat)
    (acc ts : List JsonTokenW), scanLoop env fuel (findnext t) acc = some (true, ts) →
    Spaced env t t := by
  induction fuel with
  | zero =>
    intro t acc ts h
    cases hf : findnext t with
    | none => exact Spaced.done t hf
    | some s => rw [hf] at h; simp [scanLoop] at h
  | succ f ih =>
    intro t acc ts h
    cases hf : findnext t with
    | none => exact Spaced.done t hf
    | some s =>
      rw [hf] at h
      obtain ⟨w, h1, h2, h3, -⟩ := findnext_some t s hf
      subst h1
      refine Spaced.ws_keep env w h2 s s ?_
      cases hs : JsonTokenW.scan env s with
      | mk tok rest =>
        simp only [scanLoop, hs] at h
        by_cases hb : tok.type_ = TokType.Bad
        · simp [hb] at h
        · have hb' : (tok.type_ == TokType.Bad) = false := by simpa using hb
          simp only [hb', Bool.false_eq_true, if_false] at h
          obtain ⟨q, -, q2, -⟩ := scan_local env s tok rest hs hb
          subst q2
          exact Spaced.token q rest rest tok h3 hs hb (ih rest _ ts h)

/-- Scanning a text and scanning it with white space inserted between tokens give the
same tokens. -/
theorem scanLoop_spaced (env : FloatEnv) (t t' : List Nat) (h : Spaced env t t') :
    startsLike t t' ∧ ∃ ts, ∀ acc,
      (∀ fuel, t.length < fuel → scanLoop env fuel (findnext t) acc = some (true, acc ++ ts)) ∧
      (∀ fuel, t'.length < fuel →
        scanLoop env fuel (findnext t') acc = some (true, acc ++ ts)) := by
  induction h with
  | done t hf =>
    refine ⟨Or.inl rfl, [], fun acc => ?_⟩
    rw [hf]
    constructor <;> intro fuel _ <;> cases fuel <;> simp [scanLoop]
  | insert c t t' hc _ ih =>
    obtain ⟨-, ts, hts⟩ := ih
    refine ⟨Or.inr ⟨c, rfl, hc⟩, ts, fun acc => ⟨(hts acc).1, ?_⟩⟩
    intro fuel hfuel
    simp only [List.length_cons] at hfuel
    simp only [findnext, hc, if_true]
    exact (hts acc).2 fuel (by omega)
  | keep c t t' hc _ ih =>
    obtain ⟨-, ts, hts⟩ := ih
    refine ⟨Or.inl rfl, ts, fun acc => ⟨?_, ?_⟩⟩
    · intro fuel hfuel
      simp only [List.length_cons] at hfuel
      simp only [findnext, hc, if_true]
      exact (hts acc).1 fuel (by omega)
    · intro fuel hfuel
      simp only [List.length_cons] at hfuel
      simp only [findnext, hc, if_true]
      exact (hts acc).2 fuel (by omega)
  | token p r r' tok hf hs hb _ ih =>
    obtain ⟨hlike, ts, hts⟩ := ih
    obtain ⟨q, q1, q2, q3⟩ := scan_local env (p ++ r) tok r hs hb
    have hpq : p = q := List.append_cancel_right q2
    subst hpq
    have hs' := q3 r' hlike
    obtain ⟨c, p', rfl⟩ : ∃ c p', p = c :: p' := by
      cases p with
      | nil => exact absurd rfl q1
      | cons c p' => exact ⟨c, p', rfl⟩
    have hf' : findnext (c :: p' ++ r') = some (c :: p' ++ r') := findnext_head c _ _ hf
    have hbad : (tok.type_ == TokType.Bad) = false := by simpa using hb
    refine ⟨Or.inl rfl, tok :: ts, fun acc => ⟨?_, ?_⟩⟩
    · intro fuel hfuel
      simp only [List.length_append, List.length_cons] at hfuel
      obtain ⟨f, rfl⟩ : ∃ f, fuel = f + 1 := ⟨fuel - 1, by omega⟩
      rw [hf]
      simp only [scanLoop, hs, hbad, Bool.false_eq_true, if_false]
      rw [(hts (acc ++ [tok])).1 f (by omega)]
      simp
    · intro fuel hfuel
      simp only [List.length_append, List.length_cons] at hfuel
      obtain ⟨f, rfl⟩ : ∃ f, fuel = f + 1 := ⟨fuel - 1, by omega⟩
      rw [hf']
      simp only [scanLoop, hs', hbad, Bool.false_eq_true, if_false]
      rw [(hts (acc ++ [tok])).2 f (by omega)]
      simp

/-! ## The claims on the scanner and on consumption -/

/-- C21: for every 64-bit signed integer `n`, the serializer writes the INTEGER node
holding `n` as the standard decimal form of `n` (a minus sign exactly when `n` is
negative, then the digits of the absolute value, most significant first and without a
leading zero unless the value is zero), and parsing that text yields the valid INTEGER
node whose `integer()` is `n`. -/
theorem C21_integer_roundtrip (env : FloatEnv) (n : Int) (h1 : -9223372036854775808 ≤ n)
    (h2 : n ≤ 9223372036854775807) :
    JsonW.wtext env (integerNode n) = some (to_wstring n) ∧
    (∃ ds, to_wstring n = (if n < 0 then [45] else []) ++ ds ∧ ds ≠ [] ∧
      (∀ c ∈ ds, iswdigit c = true) ∧ decValue 0 ds = n.natAbs ∧
      (ds.head? = some 48 → n = 0 ∧ ds = [48])) ∧
    JsonW.init env (to_wstring n) = some (integerNode n) ∧
    (JsonW.init env (to_wstring n)).map (fun j => (j.valid, j.type, j.integer)) =
      some (true, JsonW.INTEGER, n) := by
  have hi : JsonW.init env (to_wstring n) = some (integerNode n) := by
    have hs := scan_integer env n h1 h2 [] rfl
    simp only [List.append_nil] at hs
    exact (init_single env _ _ [] (intTok n) hs.2 hs.1 rfl rfl).2
  refine ⟨?_, to_wstring_form n, hi, ?_⟩
  · exact wss_leaf env (intTok n) rfl
  · rw [hi]; rfl

/-- C21, witness: the least 64-bit integer, `-9223372036854775808`. -/
theorem C21_integer_roundtrip_witness :
    (-9223372036854775808 : Int) ≤ -9223372036854775808 ∧
    (-9223372036854775808 : Int) ≤ 9223372036854775807 ∧
    (JsonW.init FloatEnv.unbounded (to_wstring (-9223372036854775808))).map
      (fun j => (j.valid, j.type, j.integer)) =
      some (true, JsonW.INTEGER, -9223372036854775808) :=
  ⟨by decide, by decide,
    (C21_integer_roundtrip FloatEnv.unbounded (-9223372036854775808) (by decide)
      (by decide)).2.2.2⟩

/-- C22: for every integer literal of the form `-?[1-9][0-9]*`: when its value lies in
`[-2^63, 2^63 - 1]` the scanner reads it, up to any text after which a number may end,
as the Integer token with exactly that value, and the literal parses to the valid INTEGER
node with that value; when its value lies outside, the token is malformed, the scan fails
with the queue cleared, and the literal yields an invalid node. -/
theorem C22_integer_range (env : FloatEnv) (neg : Bool) (d : Nat) (ds : List Nat)
    (hd : 49 ≤ d ∧ d ≤ 57) (hds : ∀ c ∈ ds, iswdigit c = true) :
    if -9223372036854775808 ≤ literalValue neg d ds ∧
        literalValue neg d ds ≤ 9223372036854775807 then
      (∀ tail, endsNumber tail = true →
        JsonTokenW.scan env (integerLiteral neg d ds ++ tail) =
          (intTok (literalValue neg d ds), tail)) ∧
      JsonTokenW.parse env (integerLiteral neg d ds) =
        some (true, [intTok (literalValue neg d ds)]) ∧
      JsonW.init env (integerLiteral neg d ds) = some (integerNode (literalValue neg d ds))
    else
      (∀ tail, endsNumber tail = true →
        (JsonTokenW.scan env (integerLiteral neg d ds ++ tail)).1.type_ = TokType.Bad) ∧
      JsonTokenW.parse env (integerLiteral neg d ds) = some (false, []) ∧
      (JsonW.init env (integerLiteral neg d ds)).map (fun j => (j.valid, j.type)) =
        some (false, JsonW.BAD) := by
  have hscan : ∀ tail, endsNumber tail = true →
      JsonTokenW.scan env (integerLiteral neg d ds ++ tail) =
        (((stoll (integerLiteral neg d ds)).map intTok).getD {}, tail) := fun tail ht => by
    rw [(scan_literal env neg d ds hd tail).1, scanNumber_literal env neg d ds hd hds tail ht]
  have hfind := (scan_literal env neg d ds hd []).2
  have h0 := hscan [] rfl
  simp only [List.append_nil] at hfind h0
  rw [stoll_literal neg d ds hd hds] at hscan h0
  split
  · next hr =>
    simp only [hr, and_self, if_true, Option.map_some', Option.getD_some] at hscan h0
    have := init_single env _ _ [] _ hfind h0 rfl rfl
    exact ⟨hscan, this.1, this.2⟩
  · next hr =>
    simp only [hr, if_false] at hscan h0
    have := init_first_bad env _ _ hfind (by rw [h0]; rfl)
    refine ⟨fun tail ht => by rw [hscan tail ht]; rfl, this.1, ?_⟩
    rw [this.2]; rfl

/-- C22, witness: the literal `9223372036854775808`, one above the largest 64-bit
integer, is malformed. -/
theorem C22_integer_range_witness :
    (49 ≤ 57 ∧ 57 ≤ 57) ∧ (∀ c ∈ ws "223372036854775808", iswdigit c = true) ∧
    JsonTokenW.parse FloatEnv.unbounded (integerLiteral false 57 (ws "223372036854775808")) =
      some (false, []) := by
  have h := C22_integer_range FloatEnv.unbounded false 57 (ws "223372036854775808")
    (by decide) (by decide)
  rw [if_neg (by decide)] at h
  exact ⟨by decide, by decide, h.2.1⟩

/-- C23, the code at the failing inputs: the literal `1E5` scans to the one Integer token
with value one and parses to a valid INTEGER node with `integer()` one; the literals
`0e5` and `0E5` parse to a valid INTEGER node with `integer()` zero; the literal `1e5`,
with the lower-case marker, scans to one token of the floating type. -/
theorem C23_exponent_integer_token (env : FloatEnv) :
    JsonTokenW.parse env (ws "1E5") = some (true, [intTok 1]) ∧
    (JsonW.init env (ws "1E5")).map (fun j => (j.valid, j.type, j.integer)) =
      some (true, JsonW.INTEGER, 1) ∧
    (JsonW.init env (ws "0e5")).map (fun j => (j.valid, j.type, j.integer)) =
      some (true, JsonW.INTEGER, 0) ∧
    (JsonW.init env (ws "0E5")).map (fun j => (j.valid, j.type, j.integer)) =
      some (true, JsonW.INTEGER, 0) ∧
    (JsonTokenW.scan env (ws "1e5")).1.type_ =
      (if env.powHuge 5 then TokType.Bad else TokType.NumberFloat) := by
  refine ⟨rfl, rfl, rfl, rfl, ?_⟩
  show (if env.powHuge 5 then _ else _ : JsonTokenW × List Nat).1.type_ = _
  cases env.powHuge 5 <;> rfl

/-- C24, the code at the failing inputs: each of the texts `0e`, `0E`, `0e+` and `-0e`
parses to a valid INTEGER node with `integer()` zero; each of `1.`, `0.`, `-3.`, `1e`,
`1E` and `1.5e+` fails to scan. -/
theorem C24_dangling_exponent_after_zero (env : FloatEnv) :
    (JsonW.init env (ws "0e")).map (fun j => (j.valid, j.type, j.integer)) =
      some (true, JsonW.INTEGER, 0) ∧
    (JsonW.init env (ws "0E")).map (fun j => (j.valid, j.type, j.integer)) =
      some (true, JsonW.INTEGER, 0) ∧
    (JsonW.init env (ws "0e+")).map (fun j => (j.valid, j.type, j.integer)) =
      some (true, JsonW.INTEGER, 0) ∧
    (JsonW.init env (ws "-0e")).map (fun j => (j.valid, j.type, j.integer)) =
      some (true, JsonW.INTEGER, 0) ∧
    JsonTokenW.parse env (ws "1.") = some (false, []) ∧
    JsonTokenW.parse env (ws "0.") = some (false, []) ∧
    JsonTokenW.parse env (ws "-3.") = some (false, []) ∧
    JsonTokenW.parse env (ws "1e") = some (false, []) ∧
    JsonTokenW.parse env (ws "1E") = some (false, []) ∧
    JsonTokenW.parse env (ws "1.5e+") = some (false, []) :=
  ⟨rfl, rfl, rfl, rfl, rfl, rfl, rfl, rfl, rfl, rfl⟩

/-- C25: an input that begins with `true` scans to the Boolean token for true, one that
begins with `false` to the Boolean token for false and one that begins with `null` to
the Null token, the scanner consuming exactly the keyword; every other input that
begins with `t`, `f` or `n` (it deviates from the keyword or ends before the keyword is
complete) gives a malformed token, and the scan of that text fails. -/
theorem C25_keywords_literal (env : FloatEnv) (rest : List Nat) :
    (if rest.take 3 = ws "rue" then
        JsonTokenW.scan env (116 :: rest) = (boolTok true, rest.drop 3)
      else (JsonTokenW.scan env (116 :: rest)).1.type_ = TokType.Bad ∧
        JsonTokenW.parse env (116 :: rest) = some (false, [])) ∧
    (if rest.take 4 = ws "alse" then
        JsonTokenW.scan env (102 :: rest) = (boolTok false, rest.drop 4)
      else (JsonTokenW.scan env (102 :: rest)).1.type_ = TokType.Bad ∧
        JsonTokenW.parse env (102 :: rest) = some (false, [])) ∧
    (if rest.take 3 = ws "ull" then
        JsonTokenW.scan env (110 :: rest) = (tok TokType.Null, rest.drop 3)
      else (JsonTokenW.scan env (110 :: rest)).1.type_ = TokType.Bad ∧
        JsonTokenW.parse env (110 :: rest) = some (false, [])) := by
  have ht : if rest.take 3 = [114, 117, 101]
      then expect [114, 117, 101] rest = (true, rest.drop 3)
      else (expect [114, 117, 101] rest).1 = false := expect_take [114, 117, 101] rest
  have hf : if rest.take 4 = [97, 108, 115, 101]
      then expect [97, 108, 115, 101] rest = (true, rest.drop 4)
      else (expect [97, 108, 115, 101] rest).1 = false := expect_take [97, 108, 115, 101] rest
  have hn : if rest.take 3 = [117, 108, 108]
      then expect [117, 108, 108] rest = (true, rest.drop 3)
      else (expect [117, 108, 108] rest).1 = false := expect_take [117, 108, 108] rest
  have e1 : ws "rue" = [114, 117, 101] := rfl
  have e2 : ws "alse" = [97, 108, 115, 101] := rfl
  have e3 : ws "ull" = [117, 108, 108] := rfl
  rw [e1, e2, e3]
  refine ⟨?_, ?_, ?_⟩
  · split
    · next h =>
      rw [if_pos h] at ht
      simp [JsonTokenW.scan, iswdigit, ht, boolTok]
    · next h =>
      rw [if_neg h] at ht
      have hb : (JsonTokenW.scan env (116 :: rest)).1.type_ = TokType.Bad := by
        cases he : expect [114, 117, 101] rest with
        | mk b r =>
          rw [he] at ht
          simp only at ht
          subst ht
          simp [JsonTokenW.scan, iswdigit, he]
      exact ⟨hb, (init_first_bad env (116 :: rest) (116 :: rest)
        (by simp [findnext, isskippable, iswdigit]) hb).1⟩
  · split
    · next h =>
      rw [if_pos h] at hf
      simp [JsonTokenW.scan, iswdigit, hf, boolTok]
    · next h =>
      rw [if_neg h] at hf
      have hb : (JsonTokenW.scan env (102 :: rest)).1.type_ = TokType.Bad := by
        cases he : expect [97, 108, 115, 101] rest with
        | mk b r =>
          rw [he] at hf
          simp only at hf
          subst hf
          simp [JsonTokenW.scan, iswdigit, he]
      exact ⟨hb, (init_first_bad env (102 :: rest) (102 :: rest)
        (by simp [findnext, isskippable, iswdigit]) hb).1⟩
  · split
    · next h =>
      rw [if_pos h] at hn
      simp [JsonTokenW.scan, iswdigit, hn, tok]
    · next h =>
      rw [if_neg h] at hn
      have hb : (JsonTokenW.scan env (110 :: rest)).1.type_ = TokType.Bad := by
        cases he : expect [117, 108, 108] rest with
        | mk b r =>
          rw [he] at hn
          simp only at hn
          subst hn
          simp [JsonTokenW.scan, iswdigit, he]
      exact ⟨hb, (init_first_bad env (110 :: rest) (110 :: rest)
        (by simp [findnext, isskippable, iswdigit]) hb).1⟩

/-- C26, the code at the failing inputs.  In the literal `"\u00`, line feed, `0"` a raw
line feed comes before the closing quote, yet the scanner returns a String token (with
the one character U+0000) and the text parses to a valid STRING: the scanner takes the
four characters after `\u` as the digits of the escape without looking at them.  In
the text `"\u"abc"XYZ` the first unescaped quote closes the literal before `abc`, yet
the scanner consumes through the second quote and leaves `XYZ`. -/
theorem C26_line_feed_in_escape_accepted (env : FloatEnv) :
    stringEnd false [92, 117, 48, 48, 10, 48, 34] = StringEnd.lineBreak ∧
    JsonTokenW.scan env (34 :: [92, 117, 48, 48, 10, 48, 34]) = (strTok [0], []) ∧
    (JsonW.init env (34 :: [92, 117, 48, 48, 10, 48, 34])).map
        (fun j => (j.valid, j.type, j.wstr)) = some (true, JsonW.STRING, [0]) ∧
    stringEnd false (ws "\\u\"abc\"XYZ") = StringEnd.closed (ws "abc\"XYZ") ∧
    JsonTokenW.scan env (ws "\"\\u\"abc\"XYZ") = (strTok [0], ws "XYZ") :=
  ⟨by decide, rfl, rfl, by decide, rfl⟩

/-- C27: for all hexadecimal digits `h1 h2 h3 h4` (upper or lower case) the literal
`"\uh1h2h3h4"` scans to the String token whose payload is the one code unit with the
numeric value `0xh1h2h3h4`, which is below `0x10000`; and a literal with two such
escapes in a row scans to the String token with the two code units, one per escape,
in order. -/
theorem C27_unicode_escape (env : FloatEnv) (h1 h2 h3 h4 d1 d2 d3 d4 : Nat)
    (g1 g2 g3 g4 c1 c2 c3 c4 : Nat) (tail : List Nat)
    (e1 : hexDigit h1 = some d1) (e2 : hexDigit h2 = some d2) (e3 : hexDigit h3 = some d3)
    (e4 : hexDigit h4 = some d4) (f1 : hexDigit g1 = some c1) (f2 : hexDigit g2 = some c2)
    (f3 : hexDigit g3 = some c3) (f4 : hexDigit g4 = some c4) :
    JsonTokenW.scan env (34 :: 92 :: 117 :: h1 :: h2 :: h3 :: h4 :: 34 :: tail) =
      (strTok [d1 * 4096 + d2 * 256 + d3 * 16 + d4], tail) ∧
    d1 * 4096 + d2 * 256 + d3 * 16 + d4 < 65536 ∧
    JsonTokenW.scan env (34 :: 92 :: 117 :: h1 :: h2 :: h3 :: h4 ::
        92 :: 117 :: g1 :: g2 :: g3 :: g4 :: 34 :: tail) =
      (strTok [d1 * 4096 + d2 * 256 + d3 * 16 + d4, c1 * 4096 + c2 * 256 + c3 * 16 + c4],
        tail) := by
  have hv := stoulHex_digits h1 h2 h3 h4 d1 d2 d3 d4 e1 e2 e3 e4
  have gv := stoulHex_digits g1 g2 g3 g4 c1 c2 c3 c4 f1 f2 f3 f4
  have b1 := hexDigit_lt _ _ e1
  have b2 := hexDigit_lt _ _ e2
  have b3 := hexDigit_lt _ _ e3
  have b4 := hexDigit_lt _ _ e4
  refine ⟨?_, by omega, ?_⟩
  · simp [JsonTokenW.scan, iswdigit, stringLoop, hv, strTok]
  · simp [JsonTokenW.scan, iswdigit, stringLoop, hv, gv, strTok]

/-- C27, witness: the literal `"\ud83d\ude00"` (a surrogate pair, written with lower-case
digits) gives the two code units `0xD83D` and `0xDE00`, and `"\u00E9"` gives `0xE9`. -/
theorem C27_unicode_escape_witness :
    hexDigit 48 = some 0 ∧ hexDigit 69 = some 14 ∧ hexDigit 57 = some 9 ∧
    hexDigit 100 = some 13 ∧ hexDigit 56 = some 8 ∧ hexDigit 51 = some 3 ∧
    hexDigit 101 = some 14 ∧
    JsonTokenW.scan FloatEnv.unbounded (ws "\"\\u00E9\"") = (strTok [233], []) ∧
    JsonTokenW.scan FloatEnv.unbounded (ws "\"\\ud83d\\ude00\"") =
      (strTok [55357, 56832], []) :=
  ⟨rfl, rfl, rfl, rfl, rfl, rfl, rfl,
    (C27_unicode_escape FloatEnv.unbounded 48 48 69 57 0 0 14 9 48 48 48 48 0 0 0 0 []
      rfl rfl rfl rfl rfl rfl rfl rfl).1,
    (C27_unicode_escape FloatEnv.unbounded 100 56 51 100 13 8 3 13 100 101 48 48 13 14 0 0 []
      rfl rfl rfl rfl rfl rfl rfl rfl).2.2⟩

/-- C28, the code at the failing inputs: the text `1 @` scans successfully to the one
Integer token 1, `12abc` to the one Integer token 12, and the scan of `{"a":1}x` returns
what the scan of `{"a":1}` returns; each of the three texts, and `[1,2]@`, parses to a
valid node; the text `@` alone scans successfully to no token, `findnext` answering on
it as it does at the end of input. -/
theorem C28_invalid_start_accepted (env : FloatEnv) :
    JsonTokenW.parse env (ws "1 @") = some (true, [intTok 1]) ∧
    JsonTokenW.parse env (ws "12abc") = some (true, [intTok 12]) ∧
    JsonTokenW.parse env (ws "\x7b\"a\":1\x7dx") =
      JsonTokenW.parse env (ws "\x7b\"a\":1\x7d") ∧
    (JsonW.init env (ws "1 @")).map (fun j => (j.valid, j.type, j.integer)) =
      some (true, JsonW.INTEGER, 1) ∧
    (JsonW.init env (ws "12abc")).map (fun j => (j.valid, j.type, j.integer)) =
      some (true, JsonW.INTEGER, 12) ∧
    (JsonW.init env (ws "\x7b\"a\":1\x7dx")).map (fun j => (j.valid, j.type, j.wkeys)) =
      some (true, JsonW.OBJECT, [ws "a"]) ∧
    (JsonW.init env (ws "[1,2]@")).map (fun j => (j.valid, j.type, j.size)) =
      some (true, JsonW.ARRAY, 2) ∧
    JsonTokenW.parse env (ws "@") = some (true, []) ∧
    findnext (ws "@") = findnext [] :=
  ⟨rfl, rfl, rfl, rfl, rfl, rfl, rfl, rfl, rfl⟩

/-- C29: when a text `t` scans successfully to the token sequence `ts`, every text
obtained from `t` by inserting space, tab, carriage return or line feed characters
before the first token, between two tokens or after the last token scans successfully
to the same `ts` (and `t` itself is such a text); and an input that consists of white
space only, or is empty, scans successfully to no token. -/
theorem C29_whitespace_insignificant (env : FloatEnv) (t t' : List Nat)
    (ts : List JsonTokenW) (h : Spaced env t t')
    (hs : JsonTokenW.parse env t = some (true, ts)) :
    JsonTokenW.parse env t' = some (true, ts) ∧ Spaced env t t ∧
    ∀ w : List Nat, (∀ c ∈ w, isskippable c = true) →
      JsonTokenW.parse env w = some (true, []) := by
  refine ⟨?_, Spaced.of_scan env _ t [] ts hs, ?_⟩
  · obtain ⟨-, ts0, h0⟩ := scanLoop_spaced env t t' h
    have h1 := (h0 []).1 (t.length + 1) (by omega)
    have h2 := (h0 []).2 (t'.length + 1) (by omega)
    simp only [JsonTokenW.parse] at hs ⊢
    rw [h1] at hs
    rw [h2, hs]
  · intro w hw
    have := findnext_skip w hw []
    simp only [List.append_nil] at this
    simp only [JsonTokenW.parse, this]
    rfl

/-- C29, witness: the text `[1]` and the text with white space before, between and after
its three tokens. -/
theorem C29_whitespace_insignificant_witness :
    Spaced FloatEnv.unbounded (ws "[1]") (ws " [ 1\t]\n") ∧
    JsonTokenW.parse FloatEnv.unbounded (ws "[1]") =
      some (true, [tok TokType.LeftSquareBracket, intTok 1, tok TokType.RightSquareBracket]) ∧
    JsonTokenW.parse FloatEnv.unbounded (ws " [ 1\t]\n") =
      some (true, [tok TokType.LeftSquareBracket, intTok 1, tok TokType.RightSquareBracket]) :=
  have d : Spaced FloatEnv.unbounded (ws "[1]") (ws " [ 1\t]\n") :=
    Spaced.insert 32 _ _ rfl
      (Spaced.token [91] [49, 93] [32, 49, 9, 93, 10] (tok TokType.LeftSquareBracket) rfl rfl
        (by decide)
        (Spaced.insert 32 _ _ rfl
          (Spaced.token [49] [93] [9, 93, 10] (intTok 1) rfl rfl (by decide)
            (Spaced.insert 9 _ _ rfl
              (Spaced.token [93] [] [10] (tok TokType.RightSquareBracket) rfl rfl (by decide)
                (Spaced.insert 10 _ _ rfl (Spaced.done [] rfl)))))))
  ⟨d, rfl, (C29_whitespace_insignificant FloatEnv.unbounded (ws "[1]") (ws " [ 1\t]\n") _ d
    rfl).1⟩

/-- C30: when `JsonW::parse` succeeds on a token queue (the node is valid afterwards and
not BAD), the queue afterwards is what follows the one value at the front of the queue
before: the tokens after the first token when that is a scalar, the tokens after the
closer that matches the opening bracket when the first token is `[` or `{`; the tokens
removed are a non-empty front part of the queue, the rest is left as it was, and with any
other tokens after the removed ones the call gives the same node and leaves those
tokens.  The text `123 456` parses to a valid INTEGER node with `integer()` 123. -/
theorem C30_exact_consumption (env : FloatEnv) (fuel : Nat) (self : JsonW)
    (tokens : List JsonTokenW) (j : JsonW) (rest : List JsonTokenW)
    (h : JsonW.parse fuel self tokens = some (j, rest)) (hv : j.valid_ = true)
    (ht : j.type_ ≠ JsonW.BAD) :
    valueEnd tokens = some rest ∧
    (∃ consumed, consumed ≠ [] ∧ tokens = consumed ++ rest ∧
      ∀ rest', JsonW.parse fuel self (consumed ++ rest') = some (j, rest')) ∧
    (JsonW.init env (ws "123 456")).map (fun j => (j.valid, j.type, j.integer)) =
      some (true, JsonW.INTEGER, 123) := by
  have hne : tokens ≠ [] := by
    intro h0
    subst h0
    cases self with
    | mk t v i fr s b o a =>
      cases fuel with
      | zero => simp [JsonW.parse] at h
      | succ f =>
        simp only [JsonW.parse, Option.some.injEq, Prod.mk.injEq] at h
        rw [← h.1] at ht
        exact ht rfl
  obtain ⟨consumed, h1, h2, -, h4, h5⟩ := (parse_exact fuel).1 self tokens j rest h hv hne
  exact ⟨h4, ⟨consumed, h2, h1, h5⟩, rfl⟩

/-- C30, witness: the queue of the text `[1,[2]] 7 8`; the parse removes the seven
tokens of the array and leaves the two that follow. -/
theorem C30_exact_consumption_witness :
    JsonW.parse 9 JsonW.raw sampleQueue = some (sampleArray, [intTok 7, intTok 8]) ∧
    sampleArray.valid_ = true ∧ sampleArray.type_ ≠ JsonW.BAD ∧
    valueEnd sampleQueue = some [intTok 7, intTok 8] :=
  ⟨rfl, rfl, by decide,
    (C30_exact_consumption FloatEnv.unbounded 9 JsonW.raw sampleQueue sampleArray
      [intTok 7, intTok 8] rfl rfl (by decide)).1⟩

/-! ### Escapes the scanner does not know -/

theorem stringLoop_unknown (buf : List Nat) (c : Nat) (rest : List Nat)
    (hc : c ≠ 34 ∧ c ≠ 92 ∧ c ≠ 47 ∧ c ≠ 98 ∧ c ≠ 102 ∧ c ≠ 110 ∧ c ≠ 114 ∧ c ≠ 116 ∧ c ≠ 117) :
    stringLoop false buf (92 :: c :: rest) = stringLoop false buf rest := by
  obtain ⟨h1, h2, h3, h4, h5, h6, h7, h8, h9⟩ := hc
  rw [stringLoop_backslash, stringLoop_escape buf c rest h9]
  simp [h1, h2, h3, h4, h5, h6, h7, h8]

/-- The string loop reads the serializer's rendering of `w` back, whatever follows. -/
theorem stringLoop_rendered (w : List Nat) : ∀ (buf tail : List Nat),
    stringLoop false buf (wss_json_chars w ++ tail) = stringLoop false (buf ++ w) tail := by
  induction w with
  | nil =>
    intro buf tail
    simp [wss_json_chars]
  | cons c w ih =>
    intro buf tail
    have key : stringLoop false buf (wss_json_char c ++ (wss_json_chars w ++ tail)) =
        stringLoop false (buf ++ [c]) (wss_json_chars w ++ tail) := by
      unfold wss_json_char
      split_ifs with h1 h2 h3 h4 h5 h6 h7 h8
      all_goals simp only [beq_iff_eq] at *
      · subst h1; simp [stringLoop_backslash, stringLoop_escape]
      · subst h2; simp [stringLoop_backslash, stringLoop_escape]
      · subst h3; simp [stringLoop_backslash, stringLoop_escape]
      · subst h4; simp [stringLoop_backslash, stringLoop_escape]
      · subst h5; simp [stringLoop_backslash, stringLoop_escape]
      · subst h6; simp [stringLoop_backslash, stringLoop_escape]
      · subst h7; simp [stringLoop_backslash, stringLoop_escape]
      · subst h8; simp [stringLoop_backslash, stringLoop_escape]
      · rw [stringLoop.eq_def]
        simp [h1, h2, h6, h7]
    simp only [wss_json_chars, List.append_assoc]
    rw [key, ih]
    simp

theorem MapW.length_set {α : Type} (m : List (List Nat × α)) (key : List Nat) (value : α)
    (h : ascending (m.map Prod.fst) = true) :
    (MapW.set m key value).length =
      if key ∈ m.map Prod.fst then m.length else m.length + 1 := by
  induction m with
  | nil => simp [MapW.set]
  | cons e rest ih =>
    obtain ⟨k, v⟩ := e
    have hlt := ascending_head_lt (rest.map Prod.fst) k h
    have ih' := ih (ascending_tail k _ h)
    simp only [MapW.set]
    by_cases h1 : key < k
    · have hne : key ≠ k := ne_of_lt h1
      have hnot : key ∉ rest.map Prod.fst := fun hm =>
        lt_asymm h1 (hlt key hm)
      simp [h1, hne, hnot]
    · by_cases h2 : key = k
      · subst h2
        simp [h1]
      · simp only [h1, h2, if_false, List.length_cons, List.map_cons, List.mem_cons, false_or,
          ih']
        split <;> rfl

/-! ### Containers as text -/

theorem collect_length {α : Type} (l : List (Option α)) : ∀ ys, collect l = some ys →
    ys.length = l.length := by
  induction l with
  | nil => intro ys h; simp only [collect, Option.some.injEq] at h; subst h; rfl
  | cons x rest ih =>
    intro ys h
    cases x with
    | none => simp [collect] at h
    | some x =>
      cases hr : collect rest with
      | none => simp [collect, hr] at h
      | some zs =>
        simp only [collect, hr, Option.map_some', Option.some.injEq] at h
        subst h
        simp [ih zs hr]

theorem wss_items_eq (env : FloatEnv) (a : List JsonW) :
    wss_items env a = (collect (a.map (wss_junit env))).map commaSeparated := by
  induction a with
  | nil => simp [wss_items, collect, commaSeparated]
  | cons c rest ih =>
    simp only [wss_items, List.map_cons, ih]
    cases hc : wss_junit env c with
    | none => simp [collect]
    | some t =>
      cases hr : collect (rest.map (wss_junit env)) with
      | none => simp [collect, hr]
      | some ts =>
        have hlen : ts.length = rest.length := by
          have := collect_length _ _ hr
          simpa using this
        have he : rest.isEmpty = ts.isEmpty := by
          cases ts <;> cases rest <;> simp_all
        simp [collect, hr, commaSeparated, he]

theorem wss_pairs_eq (env : FloatEnv) (o : List (List Nat × Option JsonW)) :
    wss_pairs env o =
      (collect (o.map (fun p => p.2.bind (fun c => (wss_junit env c).map (memberText p.1))))).map
        commaSeparated := by
  induction o with
  | nil => simp [wss_pairs, collect, commaSeparated]
  | cons p rest ih =>
    obtain ⟨key, child⟩ := p
    cases child with
    | none => simp [wss_pairs, collect]
    | some c =>
      simp only [wss_pairs, List.map_cons, ih, Option.bind_some]
      cases hc : wss_junit env c with
      | none => simp [collect, hc]
      | some t =>
        cases hr : collect (rest.map
            (fun p => p.2.bind (fun c => (wss_junit env c).map (memberText p.1)))) with
        | none => simp [collect, hc, hr]
        | some ts =>
          have hlen : ts.length = rest.length := by
            have := collect_length _ _ hr
            simpa using this
          have he : rest.isEmpty = ts.isEmpty := by
            cases ts <;> cases rest <;> simp_all
          simp [collect, hc, hr, commaSeparated, he, memberText, wss_json_string_eq]

/-! ### Objects without commas -/

theorem jobjectLoop_membersOpt (members : List (List Nat × Syn)) :
    ∀ commas seen m, acceptedMembers seen members = true →
      (∀ k, k ∈ seen ↔ k ∈ m.map Prod.fst) →
      ∀ fuel rest, 3 * (toksMembers members).length + 2 ≤ fuel →
      jobjectLoop fuel
          (toksMembersOpt commas members ++ tok TokType.RightCurlyBracket :: rest) m =
        some (true, rest, buildMembers m members) := by
  induction members with
  | nil =>
    intro commas seen m _ _ fuel rest hf
    obtain ⟨f, rfl⟩ : ∃ f, fuel = f + 1 := ⟨fuel - 1, by omega⟩
    simp [toksMembersOpt, jobjectLoop, tok, buildMembers]
  | cons e es ih =>
    obtain ⟨k, v⟩ := e
    intro commas seen m hacc hseen fuel rest hf
    simp only [acceptedMembers, Bool.and_eq_true, Bool.not_eq_true'] at hacc
    obtain ⟨⟨⟨hk, hnew⟩, hv⟩, hes⟩ := hacc
    obtain ⟨f, rfl⟩ : ∃ f, fuel = f + 1 := ⟨fuel - 1, by omega⟩
    simp only [toksMembers, List.length_append, List.length_cons] at hf
    obtain ⟨hd, tl, htoks⟩ := Syn.toks_eq_cons v
    have hval := build_valid v hv
    have hcount : MapW.count m k = 0 := by
      by_contra hc
      have : MapW.count m k > 0 := Nat.pos_of_ne_zero hc
      rw [MapW.count_pos_iff, ← hseen] at this
      simp only [List.contains_eq_any_beq, List.any_eq_false, beq_iff_eq] at hnew
      exact hnew k this rfl
    have hseen' : ∀ k', k' ∈ k :: seen ↔ k' ∈ (MapW.set m k (some v.build)).map Prod.fst := by
      intro k'
      rw [MapW.keys_set, List.mem_cons, hseen]
    have step : ∀ after : List JsonTokenW,
        jobjectLoop (f + 1) (strTok k :: tok TokType.Colon :: (v.toks ++ after)) m =
          match after with
          | t :: tokens' =>
            if t.type_ = TokType.Comma then
              jobjectLoop f tokens' (MapW.set m k (some v.build))
            else jobjectLoop f (t :: tokens') (MapW.set m k (some v.build))
          | [] => jobjectLoop f [] (MapW.set m k (some v.build)) := by
      intro after
      have hp := parse_accepted v hv f after (by show 3 * v.toks.length + 1 ≤ f; omega)
      rw [htoks] at hp ⊢
      rw [List.cons_append] at hp ⊢
      rw [jobjectLoop_member f k hd _ m _ _ hk hcount hp]
      simp only [hval, Bool.true_eq_false, if_false]
      cases after <;> rfl
    simp only [toksMembersOpt, List.append_assoc, List.cons_append]
    rw [step]
    cases es with
    | nil =>
      obtain ⟨f', rfl⟩ : ∃ f', f = f' + 1 := ⟨f - 1, by omega⟩
      simp [toksMembersOpt, tok, buildMembers, jobjectLoop]
    | cons e' es' =>
      have ih' := ih commas.tail (k :: seen)
        (MapW.set m k (some v.build)) hes hseen' f rest
        (by simp only [List.isEmpty_cons, Bool.false_eq_true, if_false, List.length_cons,
              List.length_nil] at hf; omega)
      obtain ⟨k', v'⟩ := e'
      by_cases hcomma : commas.headD false = true
      · simp only [List.isEmpty_cons, hcomma, Bool.not_true, Bool.or_self, Bool.false_eq_true,
          if_false, List.singleton_append, tok, if_true]
        simp only [buildMembers]
        exact ih'
      · have hcomma' : commas.headD false = false := by simpa using hcomma
        simp only [List.isEmpty_cons, hcomma', Bool.not_false, Bool.or_true, if_true,
          List.nil_append]
        simp only [toksMembersOpt, List.cons_append] at ih' ⊢
        simp only [strTok, reduceCtorEq, if_false]
        simp only [buildMembers]
        exact ih'

/-! ### Insertion order -/

theorem ascending_cons (k : List Nat) (ks : List (List Nat)) :
    ascending (k :: ks) = true ↔ (∀ k' ∈ ks, k < k') ∧ ascending ks = true := by
  constructor
  · intro h
    exact ⟨ascending_head_lt ks k h, ascending_tail k ks h⟩
  · intro ⟨h1, h2⟩
    cases ks with
    | nil => rfl
    | cons k' ks =>
      simp only [ascending, Bool.and_eq_true, decide_eq_true_eq]
      exact ⟨h1 k' (List.mem_cons_self _ _), h2⟩

theorem MapW.ascending_set {α : Type} (m : List (List Nat × α)) (key : List Nat) (value : α)
    (h : ascending (m.map Prod.fst) = true) :
    ascending ((MapW.set m key value).map Prod.fst) = true := by
  induction m with
  | nil => rfl
  | cons e rest ih =>
    obtain ⟨k, v⟩ := e
    simp only [List.map_cons] at h
    obtain ⟨hlt, htl⟩ := (ascending_cons k _).1 h
    simp only [MapW.set]
    by_cases h1 : key < k
    · rw [if_pos h1]
      simp only [List.map_cons]
      refine (ascending_cons key _).2 ⟨?_, h⟩
      intro k' hk'
      rcases List.mem_cons.1 hk' with rfl | hk'
      · exact h1
      · exact lt_trans h1 (hlt k' hk')
    · rw [if_neg h1]
      by_cases h2 : key = k
      · rw [if_pos h2]
        exact h
      · rw [if_neg h2]
        simp only [List.map_cons]
        refine (ascending_cons k _).2 ⟨?_, ih htl⟩
        intro k' hk'
        rcases (MapW.keys_set rest key value k').1 hk' with rfl | hk'
        · exact lt_of_le_of_ne (not_lt.1 h1) (fun e => h2 e.symm)
        · exact hlt k' hk'

theorem MapW.find_none_of_lt {α : Type} (m : List (List Nat × α)) (key : List Nat)
    (h : ∀ k' ∈ m.map Prod.fst, key < k') : MapW.find m key = none := by
  cases hf : MapW.find m key with
  | none => rfl
  | some v =>
    have := (MapW.find_isSome_iff m key).1 (by rw [hf]; rfl)
    exact absurd (h key this) (lt_irrefl _)

/-- Two maps with ascending keys that answer every `find` alike are the same map. -/
theorem MapW.ext {α : Type} : ∀ (m1 m2 : List (List Nat × α)),
    ascending (m1.map Prod.fst) = true → ascending (m2.map Prod.fst) = true →
    (∀ k, MapW.find m1 k = MapW.find m2 k) → m1 = m2 := by
  intro m1
  induction m1 with
  | nil =>
    intro m2 _ _ h
    cases m2 with
    | nil => rfl
    | cons e m2 =>
      obtain ⟨k, v⟩ := e
      have := h k
      simp [MapW.find] at this
  | cons e1 r1 ih =>
    obtain ⟨k1, v1⟩ := e1
    intro m2 h1 h2 h
    cases m2 with
    | nil =>
      have := h k1
      simp [MapW.find] at this
    | cons e2 r2 =>
      obtain ⟨k2, v2⟩ := e2
      simp only [List.map_cons] at h1 h2
      obtain ⟨hlt1, htl1⟩ := (ascending_cons k1 _).1 h1
      obtain ⟨hlt2, htl2⟩ := (ascending_cons k2 _).1 h2
      have hk : k1 = k2 := by
        have a1 : k1 ∈ ((k2, v2) :: r2).map Prod.fst := by
          rw [← MapW.find_isSome_iff, ← h k1]
          simp [MapW.find]
        have a2 : k2 ∈ ((k1, v1) :: r1).map Prod.fst := by
          rw [← MapW.find_isSome_iff, h k2]
          simp [MapW.find]
        simp only [List.map_cons, List.mem_cons] at a1 a2
        rcases a1 with a1 | a1
        · exact a1
        · rcases a2 with a2 | a2
          · exact a2.symm
          · exact absurd (lt_trans (hlt2 k1 a1) (hlt1 k2 a2)) (lt_irrefl _)
      subst hk
      have hv : v1 = v2 := by
        have := h k1
        simpa [MapW.find] using this
      subst hv
      have htail : r1 = r2 := by
        refine ih r2 htl1 htl2 (fun k => ?_)
        by_cases hk : k1 = k
        · subst hk
          rw [MapW.find_none_of_lt r1 k1 hlt1, MapW.find_none_of_lt r2 k1 hlt2]
        · have := h k
          have hk' : (k1 == k) = false := by simpa using hk
          simpa [MapW.find, hk'] using this
      rw [htail]

theorem MapW.find_set {α : Type} (m : List (List Nat × α)) (key key' : List Nat) (value : α) :
    MapW.find (MapW.set m key value) key' =
      if key' = key then some value else MapW.find m key' := by
  by_cases h : key' = key
  · subst h
    rw [if_pos rfl, MapW.find_set_self]
  · rw [if_neg h, MapW.find_set_ne _ _ _ _ h]

/-- Storing pairs with pairwise different keys one after the other: what `find` answers
afterwards. -/
theorem MapW.find_foldl (l : List (List Nat × JsonW)) :
    ∀ (m : List (List Nat × Option JsonW)), (l.map Prod.fst).Nodup →
    (∀ p ∈ l, MapW.find (l.foldl (fun m p => MapW.set m p.1 (some p.2)) m) p.1 =
      some (some p.2)) ∧
    (∀ k, k ∉ l.map Prod.fst →
      MapW.find (l.foldl (fun m p => MapW.set m p.1 (some p.2)) m) k = MapW.find m k) := by
  induction l with
  | nil => intro m _; exact ⟨fun p hp => (by cases hp), fun k _ => rfl⟩
  | cons q l ih =>
    intro m hn
    simp only [List.map_cons, List.nodup_cons] at hn
    obtain ⟨h1, h2⟩ := ih (MapW.set m q.1 (some q.2)) hn.2
    refine ⟨fun p hp => ?_, fun k hk => ?_⟩
    · rcases List.mem_cons.1 hp with rfl | hp
      · simp only [List.foldl_cons]
        rw [h2 p.1 hn.1, MapW.find_set_self]
      · exact h1 p hp
    · simp only [List.map_cons, List.mem_cons, not_or] at hk
      simp only [List.foldl_cons]
      rw [h2 k hk.2, MapW.find_set_ne _ _ _ _ hk.1]

theorem MapW.ascending_foldl (l : List (List Nat × JsonW)) :
    ∀ (m : List (List Nat × Option JsonW)), ascending (m.map Prod.fst) = true →
    ascending ((l.foldl (fun m p => MapW.set m p.1 (some p.2)) m).map Prod.fst) = true := by
  induction l with
  | nil => intro m h; exact h
  | cons q l ih =>
    intro m h
    exact ih _ (MapW.ascending_set m q.1 (some q.2) h)

theorem MapW.keys_foldl (l : List (List Nat × JsonW)) :
    ∀ (m : List (List Nat × Option JsonW)) (k : List Nat),
    k ∈ (l.foldl (fun m p => MapW.set m p.1 (some p.2)) m).map Prod.fst ↔
      k ∈ l.map Prod.fst ∨ k ∈ m.map Prod.fst := by
  induction l with
  | nil => intro m k; simp
  | cons q l ih =>
    intro m k
    simp only [List.foldl_cons, ih, MapW.keys_set, List.map_cons, List.mem_cons]
    tauto

/-- The order in which pairs with pairwise different keys are stored does not matter. -/
theorem MapW.foldl_perm (l1 l2 : List (List Nat × JsonW)) (hp : l1.Perm l2)
    (hn : (l1.map Prod.fst).Nodup) (m : List (List Nat × Option JsonW))
    (hm : ascending (m.map Prod.fst) = true) :
    l1.foldl (fun m p => MapW.set m p.1 (some p.2)) m =
      l2.foldl (fun m p => MapW.set m p.1 (some p.2)) m := by
  have hn2 : (l2.map Prod.fst).Nodup := (hp.map Prod.fst).nodup_iff.1 hn
  refine MapW.ext _ _ (MapW.ascending_foldl l1 m hm) (MapW.ascending_foldl l2 m hm) (fun k => ?_)
  obtain ⟨a1, a2⟩ := MapW.find_foldl l1 m hn
  obtain ⟨b1, b2⟩ := MapW.find_foldl l2 m hn2
  by_cases hk : k ∈ l1.map Prod.fst
  · obtain ⟨p, hp1, rfl⟩ := List.mem_map.1 hk
    rw [a1 p hp1, b1 p (hp.mem_iff.1 hp1)]
  · have hk2 : k ∉ l2.map Prod.fst := fun h => hk ((hp.map Prod.fst).mem_iff.2 h)
    rw [a2 k hk, b2 k hk2]

theorem ascending_nodup (ks : List (List Nat)) (h : ascending ks = true) : ks.Nodup := by
  induction ks with
  | nil => exact List.nodup_nil
  | cons k ks ih =>
    obtain ⟨h1, h2⟩ := (ascending_cons k ks).1 h
    exact List.nodup_cons.2 ⟨fun hm => lt_irrefl _ (h1 k hm), ih h2⟩

/-- The node after a run of `set` calls on an OBJECT. -/
theorem setAll_object (l : List (List Nat × JsonW)) (hne : ∀ p ∈ l, p.1 ≠ []) :
    ∀ (v : Bool) (i : Int) (f : LongDouble) (s : List Nat) (b : Bool)
      (o : List (List Nat × Option JsonW)) (a : List JsonW),
    (JsonW.mk JsonW.OBJECT v i f s b o a).setAll l =
      JsonW.mk JsonW.OBJECT v i f s b (l.foldl (fun m p => MapW.set m p.1 (some p.2)) o) a := by
  induction l with
  | nil => intro v i f s b o a; rfl
  | cons q l ih =>
    intro v i f s b o a
    have hq : (q.1.length == 0) = false := by
      have := hne q (List.mem_cons_self _ _)
      cases hq1 : q.1 with
      | nil => exact absurd hq1 this
      | cons _ _ => rfl
    have hstep : ((JsonW.mk JsonW.OBJECT v i f s b o a).set q.1 (some q.2)).2 =
        JsonW.mk JsonW.OBJECT v i f s b (MapW.set o q.1 (some q.2)) a := by
      simp [JsonW.set, hq]
    simp only [JsonW.setAll, List.foldl_cons] at ih ⊢
    rw [hstep]
    exact ih (fun p hp => hne p (List.mem_cons_of_mem _ hp)) v i f s b _ a

/-- The node after a run of `set` calls on a default-constructed node. -/
theorem setAll_new (l : List (List Nat × JsonW)) (hne : ∀ p ∈ l, p.1 ≠ []) (hl : l ≠ []) :
    JsonW.new.setAll l =
      JsonW.mk JsonW.OBJECT true 0 LongDouble.zero [] true
        (l.foldl (fun m p => MapW.set m p.1 (some p.2)) []) [] := by
  cases l with
  | nil => exact absurd rfl hl
  | cons q l =>
    have hq : (q.1.length == 0) = false := by
      have := hne q (List.mem_cons_self _ _)
      cases hq1 : q.1 with
      | nil => exact absurd hq1 this
      | cons _ _ => rfl
    have hstep : (JsonW.new.set q.1 (some q.2)).2 =
        JsonW.mk JsonW.OBJECT true 0 LongDouble.zero [] true (MapW.set [] q.1 (some q.2)) [] := by
      simp [JsonW.set, JsonW.new, hq, JsonW.NULLVALUE, JsonW.OBJECT]
    have := setAll_object l (fun p hp => hne p (List.mem_cons_of_mem _ hp)) true 0
      LongDouble.zero [] true (MapW.set [] q.1 (some q.2)) []
    simp only [JsonW.setAll, List.foldl_cons] at this ⊢
    rw [hstep]
    exact this

theorem MapW.set_set {α : Type} (m : List (List Nat × α)) (key : List Nat) (a b : α) :
    MapW.set (MapW.set m key a) key b = MapW.set m key b := by
  induction m with
  | nil => simp [MapW.set]
  | cons e rest ih =>
    obtain ⟨k, v⟩ := e
    simp only [MapW.set]
    by_cases h1 : key < k
    · simp [h1, MapW.set]
    · by_cases h2 : key = k
      · subst h2
        simp [MapW.set]
      · simp [h1, h2, MapW.set, ih]

/-- A write through the reference of a child that is there is the store of the new
child under its key. -/
theorem MapW.update_eq_set (f : JsonW → JsonW) (key : List Nat) :
    ∀ (m : List (List Nat × Option JsonW)) (c : JsonW),
    ascending (m.map Prod.fst) = true → MapW.find m key = some (some c) →
    MapW.update f key m = MapW.set m key (some (f c)) := by
  intro m
  induction m with
  | nil => intro c _ h; simp [MapW.find] at h
  | cons e rest ih =>
    obtain ⟨k, v⟩ := e
    intro c hasc hf
    simp only [List.map_cons] at hasc
    obtain ⟨hlt, htl⟩ := (ascending_cons k _).1 hasc
    by_cases hk : k = key
    · subst hk
      simp only [MapW.find, beq_self_eq_true, if_true, Option.some.injEq] at hf
      subst hf
      simp [MapW.update, MapW.set]
    · have hk' : (k == key) = false := by simpa using hk
      simp only [MapW.find, hk', Bool.false_eq_true, if_false] at hf
      have hmem : key ∈ rest.map Prod.fst :=
        (MapW.find_isSome_iff rest key).1 (by rw [hf]; rfl)
      have h1 : ¬ key < k := lt_asymm (hlt key hmem)
      have h2 : ¬ key = k := fun e => hk e.symm
      simp only [MapW.update, hk', Bool.false_eq_true, if_false, MapW.set, h1, h2]
      rw [ih c htl hf]

theorem wellFormedMembers_set (o : List (List Nat × Option JsonW)) (k : List Nat) (v : JsonW)
    (ho : wellFormedMembers o = true) (hv : v.wellFormed = true) :
    wellFormedMembers (MapW.set o k (some v)) = true := by
  induction o with
  | nil => simp [MapW.set, wellFormedMembers, hv]
  | cons e rest ih =>
    obtain ⟨k', c⟩ := e
    cases c with
    | none => simp [wellFormedMembers] at ho
    | some c =>
      simp only [wellFormedMembers, Bool.and_eq_true] at ho
      simp only [MapW.set]
      split_ifs
      · simp [wellFormedMembers, hv, ho.1, ho.2]
      · simp [wellFormedMembers, hv, ho.2]
      · simp [wellFormedMembers, ho.1, ih ho.2]

/-- The call `set(k, v)` keeps a tree well formed. -/
theorem set_wellFormed (n : JsonW) (k : List Nat) (v : JsonW) (hn : n.wellFormed = true)
    (hv : v.wellFormed = true) : (n.set k (some v)).2.wellFormed = true := by
  obtain ⟨t, va, i, f, s, b, o, a⟩ := n
  simp only [JsonW.wellFormed, Bool.and_eq_true] at hn
  by_cases hk : (k.length == 0) = true
  · simp only [JsonW.set, hk, if_true, JsonW.wellFormed, Bool.and_eq_true]
    exact hn
  · by_cases ht : (t != JsonW.OBJECT) = true
    · simp only [JsonW.set, hk, Bool.false_eq_true, if_false, ht, if_true, JsonW.wellFormed,
        Bool.and_eq_true]
      exact ⟨⟨rfl, by simp [MapW.set, wellFormedMembers, hv]⟩, rfl⟩
    · simp only [JsonW.set, hk, Bool.false_eq_true, if_false, ht, JsonW.wellFormed,
        Bool.and_eq_true]
      exact ⟨⟨MapW.ascending_set o k _ hn.1.1, wellFormedMembers_set o k v hn.1.2 hv⟩, hn.2⟩

/-- The statement `n[k] = v;` stores what `n.set(k, v)` stores, on a well-formed node
that is an OBJECT or valid. -/
theorem putCopy_eq_set (instance_ n : JsonW) (k : List Nat) (v : JsonW) (hk : k ≠ [])
    (hn : n.wellFormed = true) (hv : v.wellFormed = true)
    (ht : n.type_ = JsonW.OBJECT ∨ n.valid_ = true) :
    JsonW.putCopy instance_ n k v = some (n.set k (some v)).2 := by
  obtain ⟨t, va, i, f, s, b, o, a⟩ := n
  have hlen : (k.length == 0) = false := by
    cases k with
    | nil => exact absurd rfl hk
    | cons _ _ => rfl
  simp only [JsonW.wellFormed, Bool.and_eq_true] at hn
  have key : ∀ (va' : Bool) (o1 : List (List Nat × Option JsonW)) (a1 : List JsonW),
      ascending (o1.map Prod.fst) = true → wellFormedMembers o1 = true →
      JsonW.subscriptKey (JsonW.mk t va i f s b o a) k =
        (JsonW.mk JsonW.OBJECT va' i f s b
          (if (MapW.find o1 k).isNone then MapW.set o1 k (some JsonW.new) else o1) a1,
          Ref.member k) →
      JsonW.putCopy instance_ (JsonW.mk t va i f s b o a) k v =
        some (JsonW.mk JsonW.OBJECT va' i f s b (MapW.set o1 k (some v)) a1) := by
    intro va' o1 a1 hasc hwf hsub
    cases hf : MapW.find o1 k with
    | none =>
      simp only [hf, Option.isNone_none, if_true] at hsub
      have hread : JsonW.read (JsonW.bad instance_)
          (JsonW.mk JsonW.OBJECT va' i f s b (MapW.set o1 k (some JsonW.new)) a1)
          (Ref.member k) = some JsonW.new := by
        simp [JsonW.read, JsonW.find, JsonW.jobject_, MapW.find_set_self]
      simp only [JsonW.putCopy, hsub, hread, copy_wellFormed v hv JsonW.new, JsonW.write]
      rw [MapW.update_eq_set (fun _ => v) k _ JsonW.new
        (MapW.ascending_set o1 k _ hasc) (MapW.find_set_self _ _ _), MapW.set_set]
    | some x =>
      cases x with
      | none => exact absurd hf (wellFormedMembers_find o1 hwf k)
      | some c =>
        simp only [hf, Option.isNone_some, Bool.false_eq_true, if_false] at hsub
        have hread : JsonW.read (JsonW.bad instance_)
            (JsonW.mk JsonW.OBJECT va' i f s b o1 a1) (Ref.member k) = some c := by
          simp [JsonW.read, JsonW.find, JsonW.jobject_, hf]
        simp only [JsonW.putCopy, hsub, hread, copy_wellFormed v hv c, JsonW.write]
        rw [MapW.update_eq_set (fun _ => v) k _ c hasc hf]
  by_cases hto : t = JsonW.OBJECT
  · subst hto
    rw [key va o a hn.1.1 hn.1.2 (by simp [JsonW.subscriptKey, hlen])]
    simp [JsonW.set, hlen]
  · have hva : va = true := by
      rcases ht with h | h
      · exact absurd h hto
      · exact h
    subst hva
    have hto' : (t != JsonW.OBJECT) = true := by simpa using hto
    rw [key true [] [] rfl rfl (by
      simp only [JsonW.subscriptKey, hlen, hto', Bool.false_eq_true, if_false, if_true])]
    simp [JsonW.set, hlen, hto']

/-- A run of keyed assignments stores what the run of `set` calls stores. -/
theorem putAll_eq_setAll (instance_ : JsonW) (l : List (List Nat × JsonW)) :
    ∀ n : JsonW, n.wellFormed = true → (n.type_ = JsonW.OBJECT ∨ n.valid_ = true) →
    (∀ p ∈ l, p.1 ≠ []) → (∀ p ∈ l, p.2.wellFormed = true) →
    JsonW.putAll instance_ n l = some (n.setAll l) := by
  induction l with
  | nil => intro n _ _ _ _; rfl
  | cons q l ih =>
    obtain ⟨k, v⟩ := q
    intro n hn ht hne hwf
    have hk := hne (k, v) (List.mem_cons_self _ _)
    have hv := hwf (k, v) (List.mem_cons_self _ _)
    simp only [JsonW.putAll, putCopy_eq_set instance_ n k v hk hn hv ht, JsonW.setAll,
      List.foldl_cons]
    have hty : (n.set k (some v)).2.type_ = JsonW.OBJECT := by
      obtain ⟨t, va, i, f, s, b, o, a⟩ := n
      have hlen : (k.length == 0) = false := by
        cases k with
        | nil => exact absurd rfl hk
        | cons _ _ => rfl
      simp [JsonW.set, hlen, JsonW.type_]
    exact ih _ (set_wellFormed n k v hn hv) (Or.inl hty)
      (fun p hp => hne p (List.mem_cons_of_mem _ hp))
      (fun p hp => hwf p (List.mem_cons_of_mem _ hp))

/-! ### The container-slot condition -/

theorem slotsOkMembers_iff (o : List (List Nat × Option JsonW)) :
    slotsOkMembers o = true ↔ ∀ k c, (k, some c) ∈ o → c.slotsOk = true := by
  induction o with
  | nil => simp [slotsOkMembers]
  | cons e rest ih =>
    obtain ⟨k, c⟩ := e
    cases c with
    | none =>
      simp only [slotsOkMembers, ih, List.mem_cons, Prod.mk.injEq, reduceCtorEq, and_false,
        false_or]
    | some c =>
      simp only [slotsOkMembers, Bool.and_eq_true, ih, List.mem_cons, Prod.mk.injEq,
        Option.some.injEq]
      constructor
      · rintro ⟨h1, h2⟩ k' c' (⟨-, rfl⟩ | h)
        · exact h1
        · exact h2 k' c' h
      · intro h
        exact ⟨h k c (Or.inl ⟨rfl, rfl⟩), fun k' c' h' => h k' c' (Or.inr h')⟩

theorem slotsOkElements_iff (a : List JsonW) :
    slotsOkElements a = true ↔ ∀ c ∈ a, c.slotsOk = true := by
  induction a with
  | nil => simp [slotsOkElements]
  | cons c rest ih => simp [slotsOkElements, ih]

theorem MapW.mem_set {α : Type} (m : List (List Nat × α)) (key : List Nat) (value : α)
    (e : List Nat × α) (h : e ∈ MapW.set m key value) : e = (key, value) ∨ e ∈ m := by
  induction m with
  | nil => simpa [MapW.set] using h
  | cons e0 rest ih =>
    obtain ⟨k, v⟩ := e0
    simp only [MapW.set] at h
    split_ifs at h with h1 h2
    · rcases List.mem_cons.1 h with h | h
      · exact Or.inl h
      · exact Or.inr h
    · rcases List.mem_cons.1 h with h | h
      · subst h2; exact Or.inl h
      · exact Or.inr (List.mem_cons_of_mem _ h)
    · rcases List.mem_cons.1 h with h | h
      · exact Or.inr (h ▸ List.mem_cons_self _ _)
      · rcases ih h with h | h
        · exact Or.inl h
        · exact Or.inr (List.mem_cons_of_mem _ h)

theorem slotsOkMembers_set (o : List (List Nat × Option JsonW)) (k : List Nat)
    (v : Option JsonW) (ho : slotsOkMembers o = true)
    (hv : ∀ c, v = some c → c.slotsOk = true) :
    slotsOkMembers (MapW.set o k v) = true := by
  rw [slotsOkMembers_iff] at ho ⊢
  intro k' c h
  rcases MapW.mem_set o k v _ h with h | h
  · simp only [Prod.mk.injEq] at h
    exact hv c h.2.symm
  · exact ho k' c h

theorem slotsOkElements_append (a : List JsonW) (c : JsonW) (ha : slotsOkElements a = true)
    (hc : c.slotsOk = true) : slotsOkElements (a ++ [c]) = true := by
  rw [slotsOkElements_iff] at ha ⊢
  intro c' h
  rcases List.mem_append.1 h with h | h
  · exact ha c' h
  · simp only [List.mem_singleton] at h
    subst h; exact hc

theorem slotsOk_mk (t : Nat) (v : Bool) (i : Int) (f : LongDouble) (s : List Nat) (b : Bool)
    (o : List (List Nat × Option JsonW)) (a : List JsonW) :
    (JsonW.mk t v i f s b o a).slotsOk = true ↔
      (o = [] ∨ t = JsonW.OBJECT ∨ t = JsonW.BAD) ∧ (a = [] ∨ t = JsonW.ARRAY ∨ t = JsonW.BAD) ∧
      slotsOkMembers o = true ∧ slotsOkElements a = true := by
  simp only [JsonW.slotsOk, Bool.and_eq_true, Bool.or_eq_true, List.isEmpty_iff, beq_iff_eq]
  tauto

theorem slotsOk_children (n : JsonW) (h : n.slotsOk = true) :
    (∀ c ∈ n.jarray_, c.slotsOk = true) ∧ ∀ k c, (k, some c) ∈ n.jobject_ → c.slotsOk = true := by
  obtain ⟨t, v, i, f, s, b, o, a⟩ := n
  rw [slotsOk_mk] at h
  exact ⟨(slotsOkElements_iff a).1 h.2.2.2, (slotsOkMembers_iff o).1 h.2.2.1⟩

theorem slotsOk_top (n : JsonW) (h : n.slotsOk = true) :
    (n.jobject_ ≠ [] → n.type = JsonW.OBJECT ∨ n.type = JsonW.BAD) ∧
    (n.jarray_ ≠ [] → n.type = JsonW.ARRAY ∨ n.type = JsonW.BAD) := by
  obtain ⟨t, v, i, f, s, b, o, a⟩ := n
  rw [slotsOk_mk] at h
  exact ⟨fun ho => h.1.resolve_left ho, fun ha => h.2.1.resolve_left ha⟩

theorem slotsOk_empty (t : Nat) (v : Bool) (i : Int) (f : LongDouble) (s : List Nat)
    (b : Bool) : (JsonW.mk t v i f s b [] []).slotsOk = true := by
  simp [slotsOk_mk, slotsOkMembers, slotsOkElements]

theorem add_slotsOk (n : JsonW) (junit : Option JsonW) (hn : n.slotsOk = true)
    (hj : ∀ c, junit = some c → c.slotsOk = true) : (n.add junit).slotsOk = true := by
  obtain ⟨t, v, i, f, s, b, o, a⟩ := n
  have hc : (junit.getD JsonW.new).slotsOk = true := by
    cases junit with
    | none => rfl
    | some c => exact hj c rfl
  rw [slotsOk_mk] at hn
  by_cases ht : t = JsonW.ARRAY
  · subst ht
    have ho : o = [] := by
      rcases hn.1 with h | h | h
      · exact h
      · exact absurd h (by decide)
      · exact absurd h (by decide)
    subst ho
    simp only [JsonW.add, bne_self_eq_false, Bool.false_eq_true, if_false, slotsOk_mk]
    exact ⟨Or.inl trivial, Or.inr (Or.inl trivial), rfl, slotsOkElements_append a _ hn.2.2.2 hc⟩
  · have ht' : (t != JsonW.ARRAY) = true := by simpa using ht
    simp only [JsonW.add, ht', if_true, slotsOk_mk, List.nil_append]
    exact ⟨Or.inl trivial, Or.inr (Or.inl trivial), rfl, by simp [slotsOkElements, hc]⟩

theorem addNulls_slotsOk (left : Nat) (n : JsonW) (hn : n.slotsOk = true) :
    (JsonW.addNulls left n).slotsOk = true := by
  induction left generalizing n with
  | zero => exact hn
  | succ left ih =>
    simp only [JsonW.addNulls]
    exact ih _ (add_slotsOk n none hn (fun c h => by cases h))

theorem subscript_slotsOk (n : JsonW) (index : Nat) (hn : n.slotsOk = true) :
    (n.subscript index).1.slotsOk = true := by
  have key : ∀ m : JsonW, m.slotsOk = true →
      (if index ≥ m.size then JsonW.addNulls (index + 1 - m.size) m else m).slotsOk = true := by
    intro m hm
    split
    · exact addNulls_slotsOk _ _ hm
    · exact hm
  simp only [JsonW.subscript]
  apply key
  split
  · obtain ⟨t, v, i, f, s, b, o, a⟩ := n
    exact slotsOk_empty _ _ _ _ _ _
  · exact hn

theorem set_slotsOk (n : JsonW) (k : List Nat) (v : Option JsonW) (hn : n.slotsOk = true)
    (hv : ∀ c, v = some c → c.slotsOk = true) : (n.set k v).2.slotsOk = true := by
  obtain ⟨t, va, i, f, s, b, o, a⟩ := n
  simp only [JsonW.set]
  split
  · exact hn
  · rw [slotsOk_mk] at hn
    by_cases ht : t = JsonW.OBJECT
    · subst ht
      have ha : a = [] := by
        rcases hn.2.1 with h | h | h
        · exact h
        · exact absurd h (by decide)
        · exact absurd h (by decide)
      subst ha
      simp only [bne_self_eq_false, Bool.false_eq_true, if_false, slotsOk_mk]
      exact ⟨Or.inr (Or.inl trivial), Or.inl trivial, slotsOkMembers_set o k v hn.2.2.1 hv, rfl⟩
    · have ht' : (t != JsonW.OBJECT) = true := by simpa using ht
      simp only [ht', if_true, slotsOk_mk]
      exact ⟨Or.inr (Or.inl trivial), Or.inl trivial, slotsOkMembers_set [] k v rfl hv, rfl⟩

theorem subscriptKey_slotsOk (n : JsonW) (k : List Nat) (hn : n.slotsOk = true) :
    (n.subscriptKey k).1.slotsOk = true := by
  obtain ⟨t, va, i, f, s, b, o, a⟩ := n
  simp only [JsonW.subscriptKey]
  split
  · exact hn
  · rw [slotsOk_mk] at hn
    have hnew : ∀ c, some JsonW.new = some c → c.slotsOk = true := by
      intro c h
      cases h
      rfl
    by_cases ht : t = JsonW.OBJECT
    · subst ht
      have ha : a = [] := by
        rcases hn.2.1 with h | h | h
        · exact h
        · exact absurd h (by decide)
        · exact absurd h (by decide)
      subst ha
      simp only [bne_self_eq_false, Bool.false_eq_true, if_false, slotsOk_mk]
      refine ⟨Or.inr (Or.inl trivial), Or.inl trivial, ?_, rfl⟩
      split
      · exact slotsOkMembers_set o k _ hn.2.2.1 hnew
      · exact hn.2.2.1
    · have ht' : (t != JsonW.OBJECT) = true := by simpa using ht
      simp only [ht', if_true, slotsOk_mk]
      refine ⟨Or.inr (Or.inl trivial), Or.inl trivial, ?_, rfl⟩
      split
      · exact slotsOkMembers_set [] k _ rfl hnew
      · rfl

theorem bad_slotsOk (n : JsonW) (hn : n.slotsOk = true) : n.bad.slotsOk = true := by
  obtain ⟨t, va, i, f, s, b, o, a⟩ := n
  rw [slotsOk_mk] at hn
  simp only [JsonW.bad, slotsOk_mk]
  exact ⟨Or.inr (Or.inr trivial), Or.inr (Or.inr trivial), hn.2.2⟩

theorem mem_updateAt {α : Type} (c0 : α) (index : Nat) (a : List α) (c : α)
    (h : c ∈ updateAt (fun _ => c0) index a) : c = c0 ∨ c ∈ a := by
  induction a generalizing index with
  | nil => simp [updateAt] at h
  | cons x xs ih =>
    cases index with
    | zero =>
      simp only [updateAt, List.mem_cons] at h
      rcases h with h | h
      · exact Or.inl h
      · exact Or.inr (List.mem_cons_of_mem _ h)
    | succ index =>
      simp only [updateAt, List.mem_cons] at h
      rcases h with h | h
      · exact Or.inr (h ▸ List.mem_cons_self _ _)
      · rcases ih index h with h | h
        · exact Or.inl h
        · exact Or.inr (List.mem_cons_of_mem _ h)

theorem updateAt_nil_iff {α : Type} (f : α → α) (index : Nat) (a : List α) :
    updateAt f index a = [] ↔ a = [] := by
  cases a with
  | nil => simp [updateAt]
  | cons x xs => cases index <;> simp [updateAt]

theorem MapW.mem_update {α : Type} (c0 : α) (wname : List Nat)
    (o : List (List Nat × Option α)) (k : List Nat) (c : α)
    (h : (k, some c) ∈ MapW.update (fun _ => c0) wname o) : c = c0 ∨ (k, some c) ∈ o := by
  induction o with
  | nil => simp [MapW.update] at h
  | cons e rest ih =>
    obtain ⟨k0, v0⟩ := e
    simp only [MapW.update] at h
    split_ifs at h
    · rcases List.mem_cons.1 h with h | h
      · simp only [Prod.mk.injEq] at h
        cases v0 with
        | none => simp at h
        | some x =>
          simp only [Option.map_some', Option.some.injEq] at h
          exact Or.inl h.2
      · exact Or.inr (List.mem_cons_of_mem _ h)
    · rcases List.mem_cons.1 h with h | h
      · exact Or.inr (h ▸ List.mem_cons_self _ _)
      · rcases ih h with h | h
        · exact Or.inl h
        · exact Or.inr (List.mem_cons_of_mem _ h)

theorem MapW.update_nil_iff {α : Type} (f : α → α) (wname : List Nat)
    (o : List (List Nat × Option α)) : MapW.update f wname o = [] ↔ o = [] := by
  cases o with
  | nil => simp [MapW.update]
  | cons e rest =>
    obtain ⟨k0, v0⟩ := e
    simp only [MapW.update]
    split <;> simp

theorem write_slotsOk (n : JsonW) (ref : Ref) (c : JsonW) (hn : n.slotsOk = true)
    (hc : c.slotsOk = true) : (n.write ref (fun _ => c)).slotsOk = true := by
  obtain ⟨t, va, i, f, s, b, o, a⟩ := n
  cases ref with
  | bad => exact hn
  | element index =>
    rw [slotsOk_mk] at hn
    simp only [JsonW.write, slotsOk_mk, updateAt_nil_iff]
    refine ⟨hn.1, hn.2.1, hn.2.2.1, ?_⟩
    rw [slotsOkElements_iff]
    intro c' h
    rcases mem_updateAt c index a c' h with h | h
    · exact h ▸ hc
    · exact (slotsOkElements_iff a).1 hn.2.2.2 c' h
  | member wname =>
    rw [slotsOk_mk] at hn
    simp only [JsonW.write, slotsOk_mk, MapW.update_nil_iff]
    refine ⟨hn.1, hn.2.1, ?_, hn.2.2.2⟩
    rw [slotsOkMembers_iff]
    intro k c' h
    rcases MapW.mem_update c wname o k c' h with h | h
    · exact h ▸ hc
    · exact (slotsOkMembers_iff o).1 hn.2.2.1 k c' h

theorem copyElements_slotsOk (a : List JsonW)
    (IH : ∀ c ∈ a, c.slotsOk = true → ∀ j, JsonW.copy JsonW.raw c = some j → j.slotsOk = true) :
    ∀ acc out, slotsOkElements a = true → slotsOkElements acc = true →
      copyElements a acc = some out → slotsOkElements out = true := by
  induction a with
  | nil =>
    intro acc out _ hacc h
    simp only [copyElements, Option.some.injEq] at h
    exact h ▸ hacc
  | cons c rest ih =>
    intro acc out ha hacc h
    simp only [slotsOkElements, Bool.and_eq_true] at ha
    rw [copyElements] at h
    cases hc : JsonW.copy JsonW.raw c with
    | none => simp [hc] at h
    | some j =>
      simp only [hc] at h
      exact ih (fun c hc => IH c (List.mem_cons_of_mem _ hc)) _ out ha.2
        (slotsOkElements_append acc j hacc (IH c (List.mem_cons_self _ _) ha.1 j hc)) h

theorem copyMembers_slotsOk (o : List (List Nat × Option JsonW))
    (IH : ∀ k c, (k, some c) ∈ o → c.slotsOk = true →
      ∀ j, JsonW.copy JsonW.raw c = some j → j.slotsOk = true) :
    ∀ acc out, slotsOkMembers o = true → slotsOkMembers acc = true →
      copyMembers o acc = some out → slotsOkMembers out = true := by
  induction o with
  | nil =>
    intro acc out _ hacc h
    simp only [copyMembers, Option.some.injEq] at h
    exact h ▸ hacc
  | cons e rest ih =>
    obtain ⟨k, c⟩ := e
    intro acc out ho hacc h
    cases c with
    | none => simp [copyMembers] at h
    | some c =>
      simp only [slotsOkMembers, Bool.and_eq_true] at ho
      rw [copyMembers] at h
      cases hc : JsonW.copy JsonW.raw c with
      | none => simp [hc] at h
      | some j =>
        simp only [hc] at h
        refine ih (fun k c hc => IH k c (List.mem_cons_of_mem _ hc)) _ out ho.2 ?_ h
        apply slotsOkMembers_set acc k (some j) hacc
        intro c' hc'
        cases hc'
        exact IH k c (List.mem_cons_self _ _) ho.1 j hc

/-- The copy of a tree that meets the container-slot condition meets it. -/
theorem copy_slotsOk (rhs : JsonW) : rhs.slotsOk = true →
    ∀ this j, JsonW.copy this rhs = some j → j.slotsOk = true := by
  induction rhs using JsonW.tree_induction with
  | h t v i f s b o a ho ha =>
    intro hr this j h
    rw [slotsOk_mk] at hr
    rw [JsonW.copy] at h
    cases h1 : copyMembers o [] with
    | none => simp [h1] at h
    | some o' =>
      cases h2 : copyElements a [] with
      | none => simp [h1, h2] at h
      | some a' =>
        simp only [h1, h2, Option.some.injEq] at h
        subst h
        rw [slotsOk_mk]
        refine ⟨?_, ?_, ?_, ?_⟩
        · rcases hr.1 with h | h
          · left
            subst h
            simpa [copyMembers] using h1.symm
          · exact Or.inr h
        · rcases hr.2.1 with h | h
          · left
            subst h
            simpa [copyElements] using h2.symm
          · exact Or.inr h
        · exact copyMembers_slotsOk o (fun k c hc hs j hj => ho k c hc hs JsonW.raw j hj) [] o'
            hr.2.2.1 rfl h1
        · exact copyElements_slotsOk a (fun c hc hs j hj => ha c hc hs JsonW.raw j hj) [] a'
            hr.2.2.2 rfl h2

theorem jarrayLoop_slotsOk (fuel : Nat)
    (IH : ∀ self tokens j rest, JsonW.parse fuel self tokens = some (j, rest) →
      j.slotsOk = true)
    (IHL : ∀ tokens acc r, jarrayLoop fuel tokens acc = some r → slotsOkElements acc = true →
      slotsOkElements r.2.2 = true) :
    ∀ tokens acc r, jarrayLoop (fuel + 1) tokens acc = some r → slotsOkElements acc = true →
      slotsOkElements r.2.2 = true := by
  intro tokens acc r h hacc
  cases tokens with
  | nil =>
    simp only [jarrayLoop, Option.some.injEq] at h
    exact h ▸ hacc
  | cons front rest =>
    have value : (front.type_ = TokType.LeftCurlyBracket ∨
        front.type_ = TokType.LeftSquareBracket ∨ front.type_ = TokType.NumberInteger ∨
        front.type_ = TokType.NumberFloat ∨ front.type_ = TokType.Boolean ∨
        front.type_ = TokType.Null) → slotsOkElements r.2.2 = true := by
      intro hty
      cases hp : JsonW.parse fuel JsonW.raw (front :: rest) with
      | none =>
        exfalso
        rcases hty with e | e | e | e | e | e <;> simp [jarrayLoop, e, hp] at h
      | some p =>
        obtain ⟨junit, tokens⟩ := p
        rw [jarrayLoop_value fuel front rest acc junit tokens hty hp] at h
        have hj := IH _ _ _ _ hp
        have hacc' := slotsOkElements_append acc junit hacc hj
        split_ifs at h with hv
        · simp only [Option.some.injEq] at h
          exact h ▸ hacc
        · cases tokens with
          | nil =>
            simp only [Option.some.injEq] at h
            exact h ▸ hacc'
          | cons t tokens' =>
            simp only at h
            split_ifs at h
            · exact IHL _ _ _ h hacc'
            · simp only [Option.some.injEq] at h
              exact h ▸ hacc'
            · simp only [Option.some.injEq] at h
              exact h ▸ hacc'
    cases hft : front.type_ with
    | LeftCurlyBracket => exact value (by simp [hft])
    | LeftSquareBracket => exact value (by simp [hft])
    | NumberInteger => exact value (by simp [hft])
    | NumberFloat => exact value (by simp [hft])
    | Boolean => exact value (by simp [hft])
    | Null => exact value (by simp [hft])
    | RightSquareBracket =>
      simp only [jarrayLoop, hft, Option.some.injEq] at h
      exact h ▸ hacc
    | RightCurlyBracket =>
      simp only [jarrayLoop, hft, Option.some.injEq] at h
      exact h ▸ hacc
    | String =>
      simp only [jarrayLoop, hft, Option.some.injEq] at h
      exact h ▸ hacc
    | Colon =>
      simp only [jarrayLoop, hft, Option.some.injEq] at h
      exact h ▸ hacc
    | Comma =>
      simp only [jarrayLoop, hft, Option.some.injEq] at h
      exact h ▸ hacc
    | Bad =>
      simp only [jarrayLoop, hft, Option.some.injEq] at h
      exact h ▸ hacc

theorem jobjectLoop_slotsOk (fuel : Nat)
    (IH : ∀ self tokens j rest, JsonW.parse fuel self tokens = some (j, rest) →
      j.slotsOk = true)
    (IHL : ∀ tokens acc r, jobjectLoop fuel tokens acc = some r → slotsOkMembers acc = true →
      slotsOkMembers r.2.2 = true) :
    ∀ tokens acc r, jobjectLoop (fuel + 1) tokens acc = some r → slotsOkMembers acc = true →
      slotsOkMembers r.2.2 = true := by
  intro tokens acc r h hacc
  cases tokens with
  | nil =>
    simp only [jobjectLoop, Option.some.injEq] at h
    exact h ▸ hacc
  | cons front rest =>
    cases hft : front.type_ with
    | String =>
      by_cases hk : front.wstring_ = []
      · simp only [jobjectLoop, hft, hk, List.length_nil, beq_self_eq_true, if_true,
          Option.some.injEq] at h
        exact h ▸ hacc
      · have hk' : (front.wstring_.length == 0) = false := by
          cases hw : front.wstring_ with
          | nil => exact absurd hw hk
          | cons _ _ => rfl
        by_cases hm : MapW.count acc front.wstring_ = 0
        · cases rest with
          | nil =>
            simp only [jobjectLoop, hft, hk', hm, Bool.false_eq_true, if_false, gt_iff_lt,
              lt_self_iff_false, Option.some.injEq] at h
            exact h ▸ hacc
          | cons colon rest =>
            by_cases hc : colon.type_ = TokType.Colon
            · cases rest with
              | nil =>
                simp only [jobjectLoop, hft, hk', hm, hc, Bool.false_eq_true, if_false,
                  gt_iff_lt, lt_self_iff_false, bne_self_eq_false, Option.some.injEq] at h
                exact h ▸ hacc
              | cons hd tl =>
                cases hp : JsonW.parse fuel JsonW.raw (hd :: tl) with
                | none =>
                  simp [jobjectLoop, hft, hk', hm, hc, hp] at h
                | some p =>
                  obtain ⟨junit, tokens⟩ := p
                  rw [jobjectLoop_step fuel front colon hd tl acc junit tokens hft hk hm hc hp]
                    at h
                  have hj := IH _ _ _ _ hp
                  have hacc' := slotsOkMembers_set acc front.wstring_ (some junit) hacc
                    (fun c hc => by cases hc; exact hj)
                  split_ifs at h with hv
                  · simp only [Option.some.injEq] at h
                    exact h ▸ hacc
                  · cases tokens with
                    | nil => exact IHL _ _ _ h hacc'
                    | cons t tokens' =>
                      simp only at h
                      split_ifs at h
                      · exact IHL _ _ _ h hacc'
                      · exact IHL _ _ _ h hacc'
            · have hc' : (colon.type_ != TokType.Colon) = true := by simpa using hc
              simp only [jobjectLoop, hft, hk', hm, hc', Bool.false_eq_true, if_false,
                gt_iff_lt, lt_self_iff_false, if_true, Option.some.injEq] at h
              exact h ▸ hacc
        · have hm' : MapW.count acc front.wstring_ > 0 := Nat.pos_of_ne_zero hm
          simp only [jobjectLoop, hft, hk', hm', Bool.false_eq_true, if_false, if_true,
            Option.some.injEq] at h
          exact h ▸ hacc
    | RightCurlyBracket =>
      simp only [jobjectLoop, hft, Option.some.injEq] at h
      exact h ▸ hacc
    | LeftCurlyBracket =>
      simp only [jobjectLoop, hft, Option.some.injEq] at h
      exact h ▸ hacc
    | LeftSquareBracket =>
      simp only [jobjectLoop, hft, Option.some.injEq] at h
      exact h ▸ hacc
    | NumberInteger =>
      simp only [jobjectLoop, hft, Option.some.injEq] at h
      exact h ▸ hacc
    | NumberFloat =>
      simp only [jobjectLoop, hft, Option.some.injEq] at h
      exact h ▸ hacc
    | Boolean =>
      simp only [jobjectLoop, hft, Option.some.injEq] at h
      exact h ▸ hacc
    | Null =>
      simp only [jobjectLoop, hft, Option.some.injEq] at h
      exact h ▸ hacc
    | RightSquareBracket =>
      simp only [jobjectLoop, hft, Option.some.injEq] at h
      exact h ▸ hacc
    | Colon =>
      simp only [jobjectLoop, hft, Option.some.injEq] at h
      exact h ▸ hacc
    | Comma =>
      simp only [jobjectLoop, hft, Option.some.injEq] at h
      exact h ▸ hacc
    | Bad =>
      simp only [jobjectLoop, hft, Option.some.injEq] at h
      exact h ▸ hacc

theorem jobject_slotsOk (fuel : Nat)
    (IHL : ∀ tokens acc r, jobjectLoop fuel tokens acc = some r → slotsOkMembers acc = true →
      slotsOkMembers r.2.2 = true) :
    ∀ tokens acc r, jobject (fuel + 1) tokens acc = some r → slotsOkMembers acc = true →
      slotsOkMembers r.2.2 = true := by
  intro tokens acc r h hacc
  rcases tokens with _ | ⟨front, _ | ⟨second, tl⟩⟩
  · simp only [jobject, Option.some.injEq] at h
    exact h ▸ hacc
  · simp only [jobject, Option.some.injEq] at h
    exact h ▸ hacc
  · simp only [jobject, List.tail_cons] at h
    split_ifs at h
    · simp only [Option.some.injEq] at h
      exact h ▸ hacc
    · exact IHL _ _ _ h hacc

theorem jarray_slotsOk (fuel : Nat)
    (IHL : ∀ tokens acc r, jarrayLoop fuel tokens acc = some r → slotsOkElements acc = true →
      slotsOkElements r.2.2 = true) :
    ∀ tokens acc r, jarray (fuel + 1) tokens acc = some r → slotsOkElements acc = true →
      slotsOkElements r.2.2 = true := by
  intro tokens acc r h hacc
  rcases tokens with _ | ⟨front, _ | ⟨second, tl⟩⟩
  · simp only [jarray, Option.some.injEq] at h
    exact h ▸ hacc
  · simp only [jarray, Option.some.injEq] at h
    exact h ▸ hacc
  · simp only [jarray, List.tail_cons] at h
    split_ifs at h
    · simp only [Option.some.injEq] at h
      exact h ▸ hacc
    · exact IHL _ _ _ h hacc

theorem parse_slotsOk_step (fuel : Nat)
    (IHO : ∀ tokens acc r, jobject fuel tokens acc = some r → slotsOkMembers acc = true →
      slotsOkMembers r.2.2 = true)
    (IHA : ∀ tokens acc r, jarray fuel tokens acc = some r → slotsOkElements acc = true →
      slotsOkElements r.2.2 = true) :
    ∀ self tokens j rest, JsonW.parse (fuel + 1) self tokens = some (j, rest) →
      j.slotsOk = true := by
  intro self tokens j rest h
  obtain ⟨t, v, i, f, s, b, o, a⟩ := self
  cases tokens with
  | nil =>
    simp only [JsonW.parse, Option.some.injEq, Prod.mk.injEq] at h
    exact h.1 ▸ slotsOk_empty _ _ _ _ _ _
  | cons front tl =>
    cases hft : front.type_ with
    | LeftCurlyBracket =>
      simp only [JsonW.parse, hft] at h
      cases hj : jobject fuel (front :: tl) [] with
      | none => simp [hj] at h
      | some r =>
        obtain ⟨ok, tokens, out⟩ := r
        simp only [hj, Option.some.injEq, Prod.mk.injEq] at h
        have ho := IHO _ _ _ hj rfl
        rw [← h.1, slotsOk_mk]
        refine ⟨Or.inr ?_, Or.inl rfl, ho, rfl⟩
        cases ok
        · exact Or.inr rfl
        · exact Or.inl rfl
    | LeftSquareBracket =>
      simp only [JsonW.parse, hft] at h
      cases hj : jarray fuel (front :: tl) [] with
      | none => simp [hj] at h
      | some r =>
        obtain ⟨ok, tokens, out⟩ := r
        simp only [hj, Option.some.injEq, Prod.mk.injEq] at h
        have ho := IHA _ _ _ hj rfl
        rw [← h.1, slotsOk_mk]
        refine ⟨Or.inl rfl, Or.inr ?_, rfl, ho⟩
        cases ok
        · exact Or.inr rfl
        · exact Or.inl rfl
    | NumberInteger =>
      simp only [JsonW.parse, hft, Option.some.injEq, Prod.mk.injEq] at h
      exact h.1 ▸ slotsOk_empty _ _ _ _ _ _
    | NumberFloat =>
      simp only [JsonW.parse, hft, Option.some.injEq, Prod.mk.injEq] at h
      exact h.1 ▸ slotsOk_empty _ _ _ _ _ _
    | String =>
      simp only [JsonW.parse, hft, Option.some.injEq, Prod.mk.injEq] at h
      exact h.1 ▸ slotsOk_empty _ _ _ _ _ _
    | Boolean =>
      simp only [JsonW.parse, hft, Option.some.injEq, Prod.mk.injEq] at h
      exact h.1 ▸ slotsOk_empty _ _ _ _ _ _
    | Null =>
      simp only [JsonW.parse, hft, Option.some.injEq, Prod.mk.injEq] at h
      exact h.1 ▸ slotsOk_empty _ _ _ _ _ _
    | RightCurlyBracket =>
      simp only [JsonW.parse, hft, Option.some.injEq, Prod.mk.injEq] at h
      exact h.1 ▸ slotsOk_empty _ _ _ _ _ _
    | RightSquareBracket =>
      simp only [JsonW.parse, hft, Option.some.injEq, Prod.mk.injEq] at h
      exact h.1 ▸ slotsOk_empty _ _ _ _ _ _
    | Colon =>
      simp only [JsonW.parse, hft, Option.some.injEq, Prod.mk.injEq] at h
      exact h.1 ▸ slotsOk_empty _ _ _ _ _ _
    | Comma =>
      simp only [JsonW.parse, hft, Option.some.injEq, Prod.mk.injEq] at h
      exact h.1 ▸ slotsOk_empty _ _ _ _ _ _
    | Bad =>
      simp only [JsonW.parse, hft, Option.some.injEq, Prod.mk.injEq] at h
      exact h.1 ▸ slotsOk_empty _ _ _ _ _ _

/-- Whatever `parse` and its helpers return meets the container-slot condition. -/
theorem parser_slotsOk (fuel : Nat) :
    (∀ self tokens j rest, JsonW.parse fuel self tokens = some (j, rest) →
      j.slotsOk = true) ∧
    (∀ tokens acc r, jobject fuel tokens acc = some r → slotsOkMembers acc = true →
      slotsOkMembers r.2.2 = true) ∧
    (∀ tokens acc r, jobjectLoop fuel tokens acc = some r → slotsOkMembers acc = true →
      slotsOkMembers r.2.2 = true) ∧
    (∀ tokens acc r, jarray fuel tokens acc = some r → slotsOkElements acc = true →
      slotsOkElements r.2.2 = true) ∧
    (∀ tokens acc r, jarrayLoop fuel tokens acc = some r → slotsOkElements acc = true →
      slotsOkElements r.2.2 = true) := by
  induction fuel with
  | zero =>
    refine ⟨?_, ?_, ?_, ?_, ?_⟩
    · intro self tokens j rest h
      simp [JsonW.parse] at h
    · intro tokens acc r h
      simp [jobject] at h
    · intro tokens acc r h
      simp [jobjectLoop] at h
    · intro tokens acc r h
      simp [jarray] at h
    · intro tokens acc r h
      simp [jarrayLoop] at h
  | succ fuel ih =>
    obtain ⟨hp, ho, hol, ha, hal⟩ := ih
    exact ⟨parse_slotsOk_step fuel ho ha, jobject_slotsOk fuel hol,
      jobjectLoop_slotsOk fuel hp hol, jarray_slotsOk fuel hal, jarrayLoop_slotsOk fuel hp hal⟩

theorem reachable_slotsOk (env : FloatEnv) (n : JsonW) (h : Reachable env n) :
    n.slotsOk = true := by
  induction h with
  | raw => rfl
  | new => rfl
  | init ins j h =>
    simp only [JsonW.init] at h
    cases hs : JsonTokenW.parse env ins with
    | none => simp [hs] at h
    | some r =>
      simp only [hs, Option.map_eq_some', Prod.exists, exists_and_right, exists_eq_right] at h
      obtain ⟨rest, h⟩ := h
      exact (parser_slotsOk _).1 _ _ _ _ h
  | parse fuel n tokens j rest _ h _ => exact (parser_slotsOk _).1 _ _ _ _ h
  | copy this rhs j _ _ h _ ih => exact copy_slotsOk rhs ih this j h
  | assignInteger n value _ _ =>
    obtain ⟨t, v, i, f, s, b, o, a⟩ := n
    exact slotsOk_empty _ _ _ _ _ _
  | assignFloat n value _ _ =>
    obtain ⟨t, v, i, f, s, b, o, a⟩ := n
    exact slotsOk_empty _ _ _ _ _ _
  | assignWString n value _ _ =>
    obtain ⟨t, v, i, f, s, b, o, a⟩ := n
    exact slotsOk_empty _ _ _ _ _ _
  | assignBool n value _ _ =>
    obtain ⟨t, v, i, f, s, b, o, a⟩ := n
    exact slotsOk_empty _ _ _ _ _ _
  | subscript n index _ ih => exact subscript_slotsOk n index ih
  | subscriptInt n index _ ih =>
    simp only [JsonW.subscriptInt]
    split
    · exact ih
    · exact subscript_slotsOk n _ ih
  | subscriptKey n wname _ ih => exact subscriptKey_slotsOk n wname ih
  | add n junit _ _ ih ihc => exact add_slotsOk n junit ih ihc
  | set n wkey jvalue _ _ ih ihc => exact set_slotsOk n wkey jvalue ih ihc
  | bad instance_ _ ih => exact bad_slotsOk instance_ ih
  | element n c _ hc ih => exact (slotsOk_children n ih).1 c hc
  | member n k c _ hc ih => exact (slotsOk_children n ih).2 k c hc
  | write n ref c _ _ ih ihc => exact write_slotsOk n ref c ih ihc

theorem reachable_within (env : FloatEnv) (n d : JsonW) (h : Within n d)
    (hn : Reachable env n) : Reachable env d := by
  induction h with
  | self n => exact hn
  | element n c d hc _ ih => exact ih (Reachable.element n c hn hc)
  | member n k c d hc _ ih => exact ih (Reachable.member n k c hn hc)

/-! ### Queues only shrink -/

theorem jarrayLoop_suffix (fuel : Nat)
    (IH : ∀ self tokens j rest, JsonW.parse fuel self tokens = some (j, rest) →
      rest <:+ tokens)
    (IHL : ∀ tokens acc r, jarrayLoop fuel tokens acc = some r → r.2.1 <:+ tokens) :
    ∀ tokens acc r, jarrayLoop (fuel + 1) tokens acc = some r → r.2.1 <:+ tokens := by
  intro tokens acc r h
  cases tokens with
  | nil =>
    simp only [jarrayLoop, Option.some.injEq] at h
    exact h ▸ List.suffix_refl _
  | cons front rest =>
    have value : (front.type_ = TokType.LeftCurlyBracket ∨
        front.type_ = TokType.LeftSquareBracket ∨ front.type_ = TokType.NumberInteger ∨
        front.type_ = TokType.NumberFloat ∨ front.type_ = TokType.Boolean ∨
        front.type_ = TokType.Null) → r.2.1 <:+ front :: rest := by
      intro hty
      cases hp : JsonW.parse fuel JsonW.raw (front :: rest) with
      | none =>
        exfalso
        rcases hty with e | e | e | e | e | e <;> simp [jarrayLoop, e, hp] at h
      | some p =>
        obtain ⟨junit, tokens⟩ := p
        rw [jarrayLoop_value fuel front rest acc junit tokens hty hp] at h
        have hj : tokens <:+ front :: rest := IH _ _ _ _ hp
        split_ifs at h with hv
        · simp only [Option.some.injEq] at h
          exact h ▸ hj
        · cases tokens with
          | nil =>
            simp only [Option.some.injEq] at h
            exact h ▸ hj
          | cons t tokens' =>
            have ht : tokens' <:+ front :: rest := (List.suffix_cons t tokens').trans hj
            simp only at h
            split_ifs at h
            · exact (IHL _ _ _ h).trans ht
            · simp only [Option.some.injEq] at h
              exact h ▸ ht
            · simp only [Option.some.injEq] at h
              exact h ▸ hj
    have stop : jarrayLoop (fuel + 1) (front :: rest) acc = some (false, front :: rest, acc) →
        r.2.1 <:+ front :: rest := by
      intro e
      rw [e] at h
      simp only [Option.some.injEq] at h
      exact h ▸ List.suffix_refl _
    cases hft : front.type_ with
    | LeftCurlyBracket => exact value (by simp [hft])
    | LeftSquareBracket => exact value (by simp [hft])
    | NumberInteger => exact value (by simp [hft])
    | NumberFloat => exact value (by simp [hft])
    | Boolean => exact value (by simp [hft])
    | Null => exact value (by simp [hft])
    | RightSquareBracket =>
      simp only [jarrayLoop, hft, Option.some.injEq] at h
      exact h ▸ List.suffix_cons _ _
    | RightCurlyBracket => exact stop (by simp only [jarrayLoop, hft])
    | String => exact stop (by simp only [jarrayLoop, hft])
    | Colon => exact stop (by simp only [jarrayLoop, hft])
    | Comma => exact stop (by simp only [jarrayLoop, hft])
    | Bad => exact stop (by simp only [jarrayLoop, hft])

theorem jobjectLoop_suffix (fuel : Nat)
    (IH : ∀ self tokens j rest, JsonW.parse fuel self tokens = some (j, rest) →
      rest <:+ tokens)
    (IHL : ∀ tokens acc r, jobjectLoop fuel tokens acc = some r → r.2.1 <:+ tokens) :
    ∀ tokens acc r, jobjectLoop (fuel + 1) tokens acc = some r → r.2.1 <:+ tokens := by
  intro tokens acc r h
  cases tokens with
  | nil =>
    simp only [jobjectLoop, Option.some.injEq] at h
    exact h ▸ List.suffix_refl _
  | cons front rest =>
    have stop : jobjectLoop (fuel + 1) (front :: rest) acc = some (false, front :: rest, acc) →
        r.2.1 <:+ front :: rest := by
      intro e
      rw [e] at h
      simp only [Option.some.injEq] at h
      exact h ▸ List.suffix_refl _
    cases hft : front.type_ with
    | String =>
      by_cases hk : front.wstring_ = []
      · exact stop (by simp [jobjectLoop, hft, hk])
      · have hk' : (front.wstring_.length == 0) = false := by
          cases hw : front.wstring_ with
          | nil => exact absurd hw hk
          | cons _ _ => rfl
        by_cases hm : MapW.count acc front.wstring_ = 0
        · cases rest with
          | nil =>
            simp only [jobjectLoop, hft, hk', hm, Bool.false_eq_true, if_false, gt_iff_lt,
              lt_self_iff_false, Option.some.injEq] at h
            exact h ▸ List.nil_suffix
          | cons colon rest =>
            by_cases hc : colon.type_ = TokType.Colon
            · cases rest with
              | nil =>
                simp only [jobjectLoop, hft, hk', hm, hc, Bool.false_eq_true, if_false,
                  gt_iff_lt, lt_self_iff_false, bne_self_eq_false, Option.some.injEq] at h
                exact h ▸ List.nil_suffix
              | cons hd tl =>
                cases hp : JsonW.parse fuel JsonW.raw (hd :: tl) with
                | none =>
                  simp [jobjectLoop, hft, hk', hm, hc, hp] at h
                | some p =>
                  obtain ⟨junit, tokens⟩ := p
                  rw [jobjectLoop_step fuel front colon hd tl acc junit tokens hft hk hm hc hp]
                    at h
                  have hj : tokens <:+ front :: colon :: hd :: tl :=
                    (IH _ _ _ _ hp).trans
                      ((List.suffix_cons colon _).trans (List.suffix_cons front _))
                  split_ifs at h with hv
                  · simp only [Option.some.injEq] at h
                    exact h ▸ hj
                  · cases tokens with
                    | nil => exact (IHL _ _ _ h).trans hj
                    | cons t tokens' =>
                      simp only at h
                      split_ifs at h
                      · exact (IHL _ _ _ h).trans ((List.suffix_cons t tokens').trans hj)
                      · exact (IHL _ _ _ h).trans hj
            · have hc' : (colon.type_ != TokType.Colon) = true := by simpa using hc
              simp only [jobjectLoop, hft, hk', hm, hc', Bool.false_eq_true, if_false,
                gt_iff_lt, lt_self_iff_false, if_true, Option.some.injEq] at h
              exact h ▸ List.suffix_cons _ _
        · have hm' : MapW.count acc front.wstring_ > 0 := Nat.pos_of_ne_zero hm
          exact stop (by simp only [jobjectLoop, hft, hk', hm', Bool.false_eq_true, if_false,
            if_true])
    | RightCurlyBracket =>
      simp only [jobjectLoop, hft, Option.some.injEq] at h
      exact h ▸ List.suffix_cons _ _
    | LeftCurlyBracket => exact stop (by simp only [jobjectLoop, hft])
    | LeftSquareBracket => exact stop (by simp only [jobjectLoop, hft])
    | NumberInteger => exact stop (by simp only [jobjectLoop, hft])
    | NumberFloat => exact stop (by simp only [jobjectLoop, hft])
    | Boolean => exact stop (by simp only [jobjectLoop, hft])
    | Null => exact stop (by simp only [jobjectLoop, hft])
    | RightSquareBracket => exact stop (by simp only [jobjectLoop, hft])
    | Colon => exact stop (by simp only [jobjectLoop, hft])
    | Comma => exact stop (by simp only [jobjectLoop, hft])
    | Bad => exact stop (by simp only [jobjectLoop, hft])

theorem jobject_suffix (fuel : Nat)
    (IHL : ∀ tokens acc r, jobjectLoop fuel tokens acc = some r → r.2.1 <:+ tokens) :
    ∀ tokens acc r, jobject (fuel + 1) tokens acc = some r →
      r.2.1 <:+ tokens ∧ (r.1 = true → r.2.1.length < tokens.length) := by
  intro tokens acc r h
  rcases tokens with _ | ⟨front, _ | ⟨second, tl⟩⟩
  · simp only [jobject, Option.some.injEq] at h
    subst h
    exact ⟨List.suffix_refl _, fun e => by cases e⟩
  · simp only [jobject, Option.some.injEq] at h
    subst h
    exact ⟨List.suffix_refl _, fun e => by cases e⟩
  · simp only [jobject, List.tail_cons] at h
    split_ifs at h
    · simp only [Option.some.injEq] at h
      subst h
      exact ⟨List.suffix_refl _, fun e => by cases e⟩
    · have hs := IHL _ _ _ h
      exact ⟨hs.trans (List.suffix_cons _ _), fun _ => Nat.lt_succ_of_le hs.length_le⟩

theorem jarray_suffix (fuel : Nat)
    (IHL : ∀ tokens acc r, jarrayLoop fuel tokens acc = some r → r.2.1 <:+ tokens) :
    ∀ tokens acc r, jarray (fuel + 1) tokens acc = some r →
      r.2.1 <:+ tokens ∧ (r.1 = true → r.2.1.length < tokens.length) := by
  intro tokens acc r h
  rcases tokens with _ | ⟨front, _ | ⟨second, tl⟩⟩
  · simp only [jarray, Option.some.injEq] at h
    subst h
    exact ⟨List.suffix_refl _, fun e => by cases e⟩
  · simp only [jarray, Option.some.injEq] at h
    subst h
    exact ⟨List.suffix_refl _, fun e => by cases e⟩
  · simp only [jarray, List.tail_cons] at h
    split_ifs at h
    · simp only [Option.some.injEq] at h
      subst h
      exact ⟨List.suffix_refl _, fun e => by cases e⟩
    · have hs := IHL _ _ _ h
      exact ⟨hs.trans (List.suffix_cons _ _), fun _ => Nat.lt_succ_of_le hs.length_le⟩

theorem parse_suffix_step (fuel : Nat)
    (IHO : ∀ tokens acc r, jobject fuel tokens acc = some r →
      r.2.1 <:+ tokens ∧ (r.1 = true → r.2.1.length < tokens.length))
    (IHA : ∀ tokens acc r, jarray fuel tokens acc = some r →
      r.2.1 <:+ tokens ∧ (r.1 = true → r.2.1.length < tokens.length)) :
    ∀ self tokens j rest, JsonW.parse (fuel + 1) self tokens = some (j, rest) →
      rest <:+ tokens ∧ (tokens ≠ [] → j.valid_ = true → rest.length < tokens.length) := by
  intro self tokens j rest h
  obtain ⟨t, v, i, f, s, b, o, a⟩ := self
  cases tokens with
  | nil =>
    simp only [JsonW.parse, Option.some.injEq, Prod.mk.injEq] at h
    exact ⟨h.2 ▸ List.suffix_refl _, fun e => absurd rfl e⟩
  | cons front tl =>
    have scalar : ∀ n : JsonW, some (n, tl) = some (j, rest) →
        rest <:+ front :: tl ∧
          (front :: tl ≠ [] → j.valid_ = true → rest.length < (front :: tl).length) := by
      intro n e
      simp only [Option.some.injEq, Prod.mk.injEq] at e
      rw [← e.2]
      exact ⟨List.suffix_cons _ _, fun _ _ => Nat.lt_succ_self _⟩
    have other : some (JsonW.mk JsonW.BAD false i f s b [] [], front :: tl) = some (j, rest) →
        rest <:+ front :: tl ∧
          (front :: tl ≠ [] → j.valid_ = true → rest.length < (front :: tl).length) := by
      intro e
      simp only [Option.some.injEq, Prod.mk.injEq] at e
      rw [← e.2, ← e.1]
      exact ⟨List.suffix_refl _, fun _ e => by cases e⟩
    cases hft : front.type_ with
    | LeftCurlyBracket =>
      simp only [JsonW.parse, hft] at h
      cases hj : jobject fuel (front :: tl) [] with
      | none => simp [hj] at h
      | some r =>
        obtain ⟨ok, tokens, out⟩ := r
        simp only [hj, Option.some.injEq, Prod.mk.injEq] at h
        have ho := IHO _ _ _ hj
        rw [← h.1, ← h.2]
        exact ⟨ho.1, fun _ e => ho.2 e⟩
    | LeftSquareBracket =>
      simp only [JsonW.parse, hft] at h
      cases hj : jarray fuel (front :: tl) [] with
      | none => simp [hj] at h
      | some r =>
        obtain ⟨ok, tokens, out⟩ := r
        simp only [hj, Option.some.injEq, Prod.mk.injEq] at h
        have ho := IHA _ _ _ hj
        rw [← h.1, ← h.2]
        exact ⟨ho.1, fun _ e => ho.2 e⟩
    | NumberInteger =>
      simp only [JsonW.parse, hft] at h
      exact scalar _ h
    | NumberFloat =>
      simp only [JsonW.parse, hft] at h
      exact scalar _ h
    | String =>
      simp only [JsonW.parse, hft] at h
      exact scalar _ h
    | Boolean =>
      simp only [JsonW.parse, hft] at h
      exact scalar _ h
    | Null =>
      simp only [JsonW.parse, hft] at h
      exact scalar _ h
    | RightCurlyBracket =>
      simp only [JsonW.parse, hft] at h
      exact other h
    | RightSquareBracket =>
      simp only [JsonW.parse, hft] at h
      exact other h
    | Colon =>
      simp only [JsonW.parse, hft] at h
      exact other h
    | Comma =>
      simp only [JsonW.parse, hft] at h
      exact other h
    | Bad =>
      simp only [JsonW.parse, hft] at h
      exact other h

/-- Whatever `parse` and its helpers return, the queue afterwards is a suffix of the
queue before: tokens are only popped from the front.  A valid node, and a helper that
returns true, has popped at least one token. -/
theorem parser_suffix (fuel : Nat) :
    (∀ self tokens j rest, JsonW.parse fuel self tokens = some (j, rest) →
      rest <:+ tokens ∧ (tokens ≠ [] → j.valid_ = true → rest.length < tokens.length)) ∧
    (∀ tokens acc r, jobject fuel tokens acc = some r →
      r.2.1 <:+ tokens ∧ (r.1 = true → r.2.1.length < tokens.length)) ∧
    (∀ tokens acc r, jobjectLoop fuel tokens acc = some r → r.2.1 <:+ tokens) ∧
    (∀ tokens acc r, jarray fuel tokens acc = some r →
      r.2.1 <:+ tokens ∧ (r.1 = true → r.2.1.length < tokens.length)) ∧
    (∀ tokens acc r, jarrayLoop fuel tokens acc = some r → r.2.1 <:+ tokens) := by
  induction fuel with
  | zero =>
    refine ⟨?_, ?_, ?_, ?_, ?_⟩
    · intro self tokens j rest h
      simp [JsonW.parse] at h
    · intro tokens acc r h
      simp [jobject] at h
    · intro tokens acc r h
      simp [jobjectLoop] at h
    · intro tokens acc r h
      simp [jarray] at h
    · intro tokens acc r h
      simp [jarrayLoop] at h
  | succ fuel ih =>
    obtain ⟨hp, ho, hol, ha, hal⟩ := ih
    have hp' : ∀ self tokens j rest, JsonW.parse fuel self tokens = some (j, rest) →
        rest <:+ tokens := fun self tokens j rest h => (hp self tokens j rest h).1
    exact ⟨parse_suffix_step fuel ho ha, jobject_suffix fuel hol,
      jobjectLoop_suffix fuel hp' hol, jarray_suffix fuel hal, jarrayLoop_suffix fuel hp' hal⟩

/-! ### The parser returns -/

theorem parse_total_step (tokens : List JsonTokenW)
    (HO : ∀ q : List JsonTokenW, q.length < tokens.length → ∀ acc, ∃ r, ∀ fuel,
      3 * q.length + 1 ≤ fuel → jobjectLoop fuel q acc = some r)
    (HA : ∀ q : List JsonTokenW, q.length < tokens.length → ∀ acc, ∃ r, ∀ fuel,
      3 * q.length + 1 ≤ fuel → jarrayLoop fuel q acc = some r) :
    ∀ self, ∃ r, ∀ fuel, 3 * tokens.length ≤ fuel → 0 < fuel →
      JsonW.parse fuel self tokens = some r := by
  intro self
  cases tokens with
  | nil =>
    obtain ⟨t, v, i, f, s, b, o, a⟩ := self
    apply Exists.intro
    intro fuel _ h0
    obtain ⟨g, rfl⟩ : ∃ g, fuel = g + 1 := ⟨fuel - 1, by omega⟩
    simp only [JsonW.parse]
    rfl
  | cons front tl =>
    have simple : ∀ r, (∀ g, JsonW.parse (g + 1) self (front :: tl) = some r) →
        ∃ r, ∀ fuel, 3 * (front :: tl).length ≤ fuel → 0 < fuel →
          JsonW.parse fuel self (front :: tl) = some r := by
      intro r hr
      refine ⟨r, fun fuel _ h0 => ?_⟩
      obtain ⟨g, rfl⟩ : ∃ g, fuel = g + 1 := ⟨fuel - 1, by omega⟩
      exact hr g
    cases hft : front.type_ with
    | LeftCurlyBracket =>
      cases tl with
      | nil =>
        obtain ⟨t, v, i, f, s, b, o, a⟩ := self
        apply Exists.intro
        intro fuel h3 _
        obtain ⟨g, rfl⟩ : ∃ g, fuel = g + 2 := ⟨fuel - 2, by simp at h3; omega⟩
        simp only [JsonW.parse, hft, jobject]
        rfl
      | cons x xs =>
        obtain ⟨r, hr⟩ := HO (x :: xs) (by simp) []
        apply Exists.intro
        intro fuel h3 _
        obtain ⟨g, rfl⟩ : ∃ g, fuel = g + 2 := ⟨fuel - 2, by simp at h3; omega⟩
        rw [parse_object_enter g self front x xs hft, hr g (by simp at h3 ⊢; omega)]
        rfl
    | LeftSquareBracket =>
      cases tl with
      | nil =>
        obtain ⟨t, v, i, f, s, b, o, a⟩ := self
        apply Exists.intro
        intro fuel h3 _
        obtain ⟨g, rfl⟩ : ∃ g, fuel = g + 2 := ⟨fuel - 2, by simp at h3; omega⟩
        simp only [JsonW.parse, hft, jarray]
        rfl
      | cons x xs =>
        obtain ⟨r, hr⟩ := HA (x :: xs) (by simp) []
        apply Exists.intro
        intro fuel h3 _
        obtain ⟨g, rfl⟩ : ∃ g, fuel = g + 2 := ⟨fuel - 2, by simp at h3; omega⟩
        rw [parse_array_enter g self front x xs hft, hr g (by simp at h3 ⊢; omega)]
        rfl
    | NumberInteger =>
      obtain ⟨t, v, i, f, s, b, o, a⟩ := self
      exact simple _ (fun g => by simp only [JsonW.parse, hft]; rfl)
    | NumberFloat =>
      obtain ⟨t, v, i, f, s, b, o, a⟩ := self
      exact simple _ (fun g => by simp only [JsonW.parse, hft]; rfl)
    | String =>
      obtain ⟨t, v, i, f, s, b, o, a⟩ := self
      exact simple _ (fun g => by simp only [JsonW.parse, hft]; rfl)
    | Boolean =>
      obtain ⟨t, v, i, f, s, b, o, a⟩ := self
      exact simple _ (fun g => by simp only [JsonW.parse, hft]; rfl)
    | Null =>
      obtain ⟨t, v, i, f, s, b, o, a⟩ := self
      exact simple _ (fun g => by simp only [JsonW.parse, hft]; rfl)
    | RightCurlyBracket =>
      obtain ⟨t, v, i, f, s, b, o, a⟩ := self
      exact simple _ (fun g => by simp only [JsonW.parse, hft]; rfl)
    | RightSquareBracket =>
      obtain ⟨t, v, i, f, s, b, o, a⟩ := self
      exact simple _ (fun g => by simp only [JsonW.parse, hft]; rfl)
    | Colon =>
      obtain ⟨t, v, i, f, s, b, o, a⟩ := self
      exact simple _ (fun g => by simp only [JsonW.parse, hft]; rfl)
    | Comma =>
      obtain ⟨t, v, i, f, s, b, o, a⟩ := self
      exact simple _ (fun g => by simp only [JsonW.parse, hft]; rfl)
    | Bad =>
      obtain ⟨t, v, i, f, s, b, o, a⟩ := self
      exact simple _ (fun g => by simp only [JsonW.parse, hft]; rfl)

theorem jarrayLoop_total_step (tokens : List JsonTokenW)
    (HP : ∀ self, ∃ r, ∀ fuel, 3 * tokens.length ≤ fuel → 0 < fuel →
      JsonW.parse fuel self tokens = some r)
    (HA : ∀ q : List JsonTokenW, q.length < tokens.length → ∀ acc, ∃ r, ∀ fuel,
      3 * q.length + 1 ≤ fuel → jarrayLoop fuel q acc = some r) :
    ∀ acc, ∃ r, ∀ fuel, 3 * tokens.length + 1 ≤ fuel → jarrayLoop fuel tokens acc = some r := by
  intro acc
  cases tokens with
  | nil =>
    apply Exists.intro
    intro fuel h3
    obtain ⟨g, rfl⟩ : ∃ g, fuel = g + 1 := ⟨fuel - 1, by omega⟩
    simp only [jarrayLoop]
    rfl
  | cons front rest =>
    have simple : ∀ r, (∀ g, jarrayLoop (g + 1) (front :: rest) acc = some r) →
        ∃ r, ∀ fuel, 3 * (front :: rest).length + 1 ≤ fuel →
          jarrayLoop fuel (front :: rest) acc = some r := by
      intro r hr
      refine ⟨r, fun fuel h3 => ?_⟩
      obtain ⟨g, rfl⟩ : ∃ g, fuel = g + 1 := ⟨fuel - 1, by omega⟩
      exact hr g
    have value : (front.type_ = TokType.LeftCurlyBracket ∨
        front.type_ = TokType.LeftSquareBracket ∨ front.type_ = TokType.NumberInteger ∨
        front.type_ = TokType.NumberFloat ∨ front.type_ = TokType.Boolean ∨
        front.type_ = TokType.Null) → ∃ r, ∀ fuel, 3 * (front :: rest).length + 1 ≤ fuel →
          jarrayLoop fuel (front :: rest) acc = some r := by
      intro hty
      obtain ⟨⟨junit, tokens⟩, hp⟩ := HP JsonW.raw
      have hp' : ∀ g, 3 * (front :: rest).length ≤ g →
          JsonW.parse g JsonW.raw (front :: rest) = some (junit, tokens) :=
        fun g hg => hp g hg (by simp at hg; omega)
      have hsfx := (parser_suffix _).1 _ _ _ _ (hp' _ (le_refl _))
      by_cases hv : junit.valid_ = false
      · refine ⟨(false, tokens, acc), fun fuel h3 => ?_⟩
        obtain ⟨g, rfl⟩ : ∃ g, fuel = g + 1 := ⟨fuel - 1, by omega⟩
        rw [jarrayLoop_value g front rest acc junit _ hty (hp' g (by omega)), if_pos hv]
      · have hv' : junit.valid_ = true := by simpa using hv
        have hlt := hsfx.2 (by simp) hv'
        cases tokens with
        | nil =>
          refine ⟨(false, [], acc ++ [junit]), fun fuel h3 => ?_⟩
          obtain ⟨g, rfl⟩ : ∃ g, fuel = g + 1 := ⟨fuel - 1, by omega⟩
          rw [jarrayLoop_value g front rest acc junit _ hty (hp' g (by omega)), if_neg hv]
        | cons t tokens' =>
          by_cases hc : t.type_ = TokType.Comma
          · obtain ⟨r, hr⟩ := HA tokens' (by simp at hlt ⊢; omega) (acc ++ [junit])
            refine ⟨r, fun fuel h3 => ?_⟩
            obtain ⟨g, rfl⟩ : ∃ g, fuel = g + 1 := ⟨fuel - 1, by omega⟩
            rw [jarrayLoop_value g front rest acc junit _ hty (hp' g (by omega)), if_neg hv]
            dsimp only
            rw [if_pos hc]
            exact hr g (by simp at hlt h3 ⊢; omega)
          · by_cases hb : t.type_ = TokType.RightSquareBracket
            · refine ⟨(true, tokens', acc ++ [junit]), fun fuel h3 => ?_⟩
              obtain ⟨g, rfl⟩ : ∃ g, fuel = g + 1 := ⟨fuel - 1, by omega⟩
              rw [jarrayLoop_value g front rest acc junit _ hty (hp' g (by omega)), if_neg hv]
              dsimp only
              rw [if_neg hc, if_pos hb]
            · refine ⟨(false, t :: tokens', acc ++ [junit]), fun fuel h3 => ?_⟩
              obtain ⟨g, rfl⟩ : ∃ g, fuel = g + 1 := ⟨fuel - 1, by omega⟩
              rw [jarrayLoop_value g front rest acc junit _ hty (hp' g (by omega)), if_neg hv]
              dsimp only
              rw [if_neg hc, if_neg hb]
    cases hft : front.type_ with
    | LeftCurlyBracket => exact value (by simp [hft])
    | LeftSquareBracket => exact value (by simp [hft])
    | NumberInteger => exact value (by simp [hft])
    | NumberFloat => exact value (by simp [hft])
    | Boolean => exact value (by simp [hft])
    | Null => exact value (by simp [hft])
    | RightSquareBracket => exact simple _ (fun g => by simp only [jarrayLoop, hft]; rfl)
    | RightCurlyBracket => exact simple _ (fun g => by simp only [jarrayLoop, hft]; rfl)
    | String => exact simple _ (fun g => by simp only [jarrayLoop, hft]; rfl)
    | Colon => exact simple _ (fun g => by simp only [jarrayLoop, hft]; rfl)
    | Comma => exact simple _ (fun g => by simp only [jarrayLoop, hft]; rfl)
    | Bad => exact simple _ (fun g => by simp only [jarrayLoop, hft]; rfl)

theorem jobjectLoop_total_step (tokens : List JsonTokenW)
    (HP : ∀ q : List JsonTokenW, q.length < tokens.length → ∀ self, ∃ r, ∀ fuel,
      3 * q.length ≤ fuel → 0 < fuel → JsonW.parse fuel self q = some r)
    (HO : ∀ q : List JsonTokenW, q.length < tokens.length → ∀ acc, ∃ r, ∀ fuel,
      3 * q.length + 1 ≤ fuel → jobjectLoop fuel q acc = some r) :
    ∀ acc, ∃ r, ∀ fuel, 3 * tokens.length + 1 ≤ fuel →
      jobjectLoop fuel tokens acc = some r := by
  intro acc
  cases tokens with
  | nil =>
    apply Exists.intro
    intro fuel h3
    obtain ⟨g, rfl⟩ : ∃ g, fuel = g + 1 := ⟨fuel - 1, by omega⟩
    simp only [jobjectLoop]
    rfl
  | cons front rest =>
    have simple : ∀ r, (∀ g, jobjectLoop (g + 1) (front :: rest) acc = some r) →
        ∃ r, ∀ fuel, 3 * (front :: rest).length + 1 ≤ fuel →
          jobjectLoop fuel (front :: rest) acc = some r := by
      intro r hr
      refine ⟨r, fun fuel h3 => ?_⟩
      obtain ⟨g, rfl⟩ : ∃ g, fuel = g + 1 := ⟨fuel - 1, by omega⟩
      exact hr g
    cases hft : front.type_ with
    | String =>
      by_cases hk : front.wstring_ = []
      · exact simple (false, front :: rest, acc) (fun g => by simp [jobjectLoop, hft, hk])
      · have hk' : (front.wstring_.length == 0) = false := by
          cases hw : front.wstring_ with
          | nil => exact absurd hw hk
          | cons _ _ => rfl
        by_cases hm : MapW.count acc front.wstring_ = 0
        · cases rest with
          | nil =>
            exact simple (false, [], acc) (fun g => by
              simp only [jobjectLoop, hft, hk', hm, Bool.false_eq_true, if_false, gt_iff_lt,
                lt_self_iff_false])
          | cons colon rest =>
            by_cases hc : colon.type_ = TokType.Colon
            · cases rest with
              | nil =>
                exact simple (false, [], acc) (fun g => by
                  simp only [jobjectLoop, hft, hk', hm, hc, Bool.false_eq_true, if_false,
                    gt_iff_lt, lt_self_iff_false, bne_self_eq_false])
              | cons hd tl =>
                obtain ⟨⟨junit, tokens⟩, hp⟩ := HP (hd :: tl) (by simp) JsonW.raw
                have hp' : ∀ g, 3 * (hd :: tl).length ≤ g →
                    JsonW.parse g JsonW.raw (hd :: tl) = some (junit, tokens) :=
                  fun g hg => hp g hg (by simp at hg; omega)
                have hsfx := (parser_suffix _).1 _ _ _ _ (hp' _ (le_refl _))
                have hle := hsfx.1.length_le
                by_cases hv : junit.valid_ = false
                · refine ⟨(false, tokens, acc), fun fuel h3 => ?_⟩
                  obtain ⟨g, rfl⟩ : ∃ g, fuel = g + 1 := ⟨fuel - 1, by omega⟩
                  rw [jobjectLoop_step g front colon hd tl acc junit _ hft hk hm hc
                    (hp' g (by simp at h3 ⊢; omega)), if_pos hv]
                · cases tokens with
                  | nil =>
                    obtain ⟨r, hr⟩ := HO [] (by simp)
                      (MapW.set acc front.wstring_ (some junit))
                    refine ⟨r, fun fuel h3 => ?_⟩
                    obtain ⟨g, rfl⟩ : ∃ g, fuel = g + 1 := ⟨fuel - 1, by omega⟩
                    rw [jobjectLoop_step g front colon hd tl acc junit _ hft hk hm hc
                      (hp' g (by simp at h3 ⊢; omega)), if_neg hv]
                    dsimp only
                    exact hr g (by simp at h3 ⊢; omega)
                  | cons t tokens' =>
                    by_cases hcm : t.type_ = TokType.Comma
                    · obtain ⟨r, hr⟩ := HO tokens' (by simp at hle ⊢; omega)
                        (MapW.set acc front.wstring_ (some junit))
                      refine ⟨r, fun fuel h3 => ?_⟩
                      obtain ⟨g, rfl⟩ : ∃ g, fuel = g + 1 := ⟨fuel - 1, by omega⟩
                      rw [jobjectLoop_step g front colon hd tl acc junit _ hft hk hm hc
                        (hp' g (by simp at h3 ⊢; omega)), if_neg hv]
                      dsimp only
                      rw [if_pos hcm]
                      exact hr g (by simp at h3 hle ⊢; omega)
                    · obtain ⟨r, hr⟩ := HO (t :: tokens') (by simp at hle ⊢; omega)
                        (MapW.set acc front.wstring_ (some junit))
                      refine ⟨r, fun fuel h3 => ?_⟩
                      obtain ⟨g, rfl⟩ : ∃ g, fuel = g + 1 := ⟨fuel - 1, by omega⟩
                      rw [jobjectLoop_step g front colon hd tl acc junit _ hft hk hm hc
                        (hp' g (by simp at h3 ⊢; omega)), if_neg hv]
                      dsimp only
                      rw [if_neg hcm]
                      exact hr g (by simp at h3 hle ⊢; omega)
            · have hc' : (colon.type_ != TokType.Colon) = true := by simpa using hc
              exact simple (false, colon :: rest, acc) (fun g => by
                simp only [jobjectLoop, hft, hk', hm, hc', Bool.false_eq_true, if_false,
                  gt_iff_lt, lt_self_iff_false, if_true])
        · have hm' : MapW.count acc front.wstring_ > 0 := Nat.pos_of_ne_zero hm
          exact simple (false, front :: rest, acc) (fun g => by
            simp only [jobjectLoop, hft, hk', hm', Bool.false_eq_true, if_false, if_true])
    | RightCurlyBracket => exact simple _ (fun g => by simp only [jobjectLoop, hft]; rfl)
    | LeftCurlyBracket => exact simple _ (fun g => by simp only [jobjectLoop, hft]; rfl)
    | LeftSquareBracket => exact simple _ (fun g => by simp only [jobjectLoop, hft]; rfl)
    | NumberInteger => exact simple _ (fun g => by simp only [jobjectLoop, hft]; rfl)
    | NumberFloat => exact simple _ (fun g => by simp only [jobjectLoop, hft]; rfl)
    | Boolean => exact simple _ (fun g => by simp only [jobjectLoop, hft]; rfl)
    | Null => exact simple _ (fun g => by simp only [jobjectLoop, hft]; rfl)
    | RightSquareBracket => exact simple _ (fun g => by simp only [jobjectLoop, hft]; rfl)
    | Colon => exact simple _ (fun g => by simp only [jobjectLoop, hft]; rfl)
    | Comma => exact simple _ (fun g => by simp only [jobjectLoop, hft]; rfl)
    | Bad => exact simple _ (fun g => by simp only [jobjectLoop, hft]; rfl)

/-- On every queue, `parse` and the two loops return, and with every amount of fuel
from three per token on they return the same. -/
theorem parser_total (n : Nat) : ∀ tokens : List JsonTokenW, tokens.length = n →
    (∀ self, ∃ r, ∀ fuel, 3 * tokens.length ≤ fuel → 0 < fuel →
      JsonW.parse fuel self tokens = some r) ∧
    (∀ acc, ∃ r, ∀ fuel, 3 * tokens.length + 1 ≤ fuel →
      jobjectLoop fuel tokens acc = some r) ∧
    (∀ acc, ∃ r, ∀ fuel, 3 * tokens.length + 1 ≤ fuel →
      jarrayLoop fuel tokens acc = some r) := by
  induction n using Nat.strong_induction_on with
  | _ n ih =>
    intro tokens hn
    subst hn
    have hp := parse_total_step tokens (fun q hq => (ih q.length hq q rfl).2.1)
      (fun q hq => (ih q.length hq q rfl).2.2)
    exact ⟨hp,
      jobjectLoop_total_step tokens (fun q hq => (ih q.length hq q rfl).1)
        (fun q hq => (ih q.length hq q rfl).2.1),
      jarrayLoop_total_step tokens hp (fun q hq => (ih q.length hq q rfl).2.2)⟩

theorem jobject_total (tokens : List JsonTokenW) (acc : List (List Nat × Option JsonW)) :
    ∃ r, ∀ fuel, 3 * tokens.length + 1 ≤ fuel → jobject fuel tokens acc = some r := by
  rcases tokens with _ | ⟨front, _ | ⟨second, tl⟩⟩
  · refine ⟨(false, [], acc), fun fuel h3 => ?_⟩
    obtain ⟨g, rfl⟩ : ∃ g, fuel = g + 1 := ⟨fuel - 1, by omega⟩
    simp only [jobject]
  · refine ⟨(false, [front], acc), fun fuel h3 => ?_⟩
    obtain ⟨g, rfl⟩ : ∃ g, fuel = g + 1 := ⟨fuel - 1, by omega⟩
    simp only [jobject]
  · by_cases hf : front.type_ = TokType.LeftCurlyBracket
    · obtain ⟨r, hr⟩ := (parser_total _ (second :: tl) rfl).2.1 acc
      refine ⟨r, fun fuel h3 => ?_⟩
      obtain ⟨g, rfl⟩ : ∃ g, fuel = g + 1 := ⟨fuel - 1, by omega⟩
      simp only [jobject, hf, bne_self_eq_false, Bool.false_eq_true, if_false, List.tail_cons]
      exact hr g (by simp only [List.length_cons] at h3 ⊢; omega)
    · have hf' : (front.type_ != TokType.LeftCurlyBracket) = true := by simpa using hf
      refine ⟨(false, front :: second :: tl, acc), fun fuel h3 => ?_⟩
      obtain ⟨g, rfl⟩ : ∃ g, fuel = g + 1 := ⟨fuel - 1, by omega⟩
      simp only [jobject, hf', if_true]

theorem jarray_total (tokens : List JsonTokenW) (acc : List JsonW) :
    ∃ r, ∀ fuel, 3 * tokens.length + 1 ≤ fuel → jarray fuel tokens acc = some r := by
  rcases tokens with _ | ⟨front, _ | ⟨second, tl⟩⟩
  · refine ⟨(false, [], acc), fun fuel h3 => ?_⟩
    obtain ⟨g, rfl⟩ : ∃ g, fuel = g + 1 := ⟨fuel - 1, by omega⟩
    simp only [jarray]
  · refine ⟨(false, [front], acc), fun fuel h3 => ?_⟩
    obtain ⟨g, rfl⟩ : ∃ g, fuel = g + 1 := ⟨fuel - 1, by omega⟩
    simp only [jarray]
  · by_cases hf : front.type_ = TokType.LeftSquareBracket
    · obtain ⟨r, hr⟩ := (parser_total _ (second :: tl) rfl).2.2 acc
      refine ⟨r, fun fuel h3 => ?_⟩
      obtain ⟨g, rfl⟩ : ∃ g, fuel = g + 1 := ⟨fuel - 1, by omega⟩
      simp only [jarray, hf, bne_self_eq_false, Bool.false_eq_true, if_false, List.tail_cons]
      exact hr g (by simp only [List.length_cons] at h3 ⊢; omega)
    · have hf' : (front.type_ != TokType.LeftSquareBracket) = true := by simpa using hf
      refine ⟨(false, front :: second :: tl, acc), fun fuel h3 => ?_⟩
      obtain ⟨g, rfl⟩ : ∃ g, fuel = g + 1 := ⟨fuel - 1, by omega⟩
      simp only [jarray, hf', if_true]

/-- The fuel that `JsonW.init` hands to `parse` is enough: a text that the model of the
scanner reads gives a node. -/
theorem init_fuel_enough (env : FloatEnv) (ins : List Nat)
    (h : (JsonTokenW.parse env ins).isSome = true) : (JsonW.init env ins).isSome = true := by
  cases hs : JsonTokenW.parse env ins with
  | none => simp [hs] at h
  | some r =>
    obtain ⟨r', hr⟩ := (parser_total _ r.2 rfl).1 JsonW.raw
    simp only [JsonW.init, hs]
    rw [hr _ (by omega) (by omega)]
    rfl

/-! ### The assertion on the queue length -/

theorem jarrayLoopChecked_eq (fuel : Nat)
    (IHP : ∀ self tokens, JsonW.parseChecked fuel self tokens = JsonW.parse fuel self tokens)
    (IHL : ∀ limit tokens acc, tokens.length < limit →
      jarrayLoopChecked fuel limit tokens acc = jarrayLoop fuel tokens acc) :
    ∀ limit tokens acc, tokens.length < limit →
      jarrayLoopChecked (fuel + 1) limit tokens acc = jarrayLoop (fuel + 1) tokens acc := by
  intro limit tokens acc hl
  cases tokens with
  | nil => simp only [jarrayLoopChecked, jarrayLoop]
  | cons front rest =>
    have hg : ¬ limit ≤ (front :: rest).length := Nat.not_le.2 hl
    have value : (front.type_ = TokType.LeftCurlyBracket ∨
        front.type_ = TokType.LeftSquareBracket ∨ front.type_ = TokType.NumberInteger ∨
        front.type_ = TokType.NumberFloat ∨ front.type_ = TokType.Boolean ∨
        front.type_ = TokType.Null) →
        jarrayLoopChecked (fuel + 1) limit (front :: rest) acc =
          jarrayLoop (fuel + 1) (front :: rest) acc := by
      intro hty
      cases hp : JsonW.parse fuel JsonW.raw (front :: rest) with
      | none =>
        rcases hty with e | e | e | e | e | e <;>
          simp only [jarrayLoopChecked, jarrayLoop, e, IHP, hp, if_neg hg]
      | some p =>
        obtain ⟨junit, tokens⟩ := p
        have hs := ((parser_suffix _).1 _ _ _ _ hp).1.length_le
        cases tokens with
        | nil =>
          rcases hty with e | e | e | e | e | e <;>
            simp only [jarrayLoopChecked, jarrayLoop, e, IHP, hp, if_neg hg]
        | cons t tokens' =>
          have h1 := IHL limit tokens' (acc ++ [junit])
            (by simp only [List.length_cons] at hs hl ⊢; omega)
          rcases hty with e | e | e | e | e | e <;>
            simp only [jarrayLoopChecked, jarrayLoop, e, IHP, hp, if_neg hg, h1]
    cases hft : front.type_ with
    | LeftCurlyBracket => exact value (by simp [hft])
    | LeftSquareBracket => exact value (by simp [hft])
    | NumberInteger => exact value (by simp [hft])
    | NumberFloat => exact value (by simp [hft])
    | Boolean => exact value (by simp [hft])
    | Null => exact value (by simp [hft])
    | RightSquareBracket => simp only [jarrayLoopChecked, jarrayLoop, hft]
    | RightCurlyBracket => simp only [jarrayLoopChecked, jarrayLoop, hft]
    | String => simp only [jarrayLoopChecked, jarrayLoop, hft]
    | Colon => simp only [jarrayLoopChecked, jarrayLoop, hft]
    | Comma => simp only [jarrayLoopChecked, jarrayLoop, hft]
    | Bad => simp only [jarrayLoopChecked, jarrayLoop, hft]

theorem jobjectLoopChecked_eq (fuel : Nat)
    (IHP : ∀ self tokens, JsonW.parseChecked fuel self tokens = JsonW.parse fuel self tokens)
    (IHL : ∀ limit tokens acc, tokens.length < limit →
      jobjectLoopChecked fuel limit tokens acc = jobjectLoop fuel tokens acc) :
    ∀ limit tokens acc, tokens.length < limit →
      jobjectLoopChecked (fuel + 1) limit tokens acc = jobjectLoop (fuel + 1) tokens acc := by
  intro limit tokens acc hl
  cases tokens with
  | nil => simp only [jobjectLoopChecked, jobjectLoop]
  | cons front rest =>
    cases hft : front.type_ with
    | String =>
      rcases rest with _ | ⟨colon, _ | ⟨hd, tl⟩⟩
      · simp only [jobjectLoopChecked, jobjectLoop, hft]
      · simp only [jobjectLoopChecked, jobjectLoop, hft]
      · have hg : ¬ limit ≤ (hd :: tl).length := by
          simp only [List.length_cons] at hl ⊢
          omega
        cases hp : JsonW.parse fuel JsonW.raw (hd :: tl) with
        | none => simp only [jobjectLoopChecked, jobjectLoop, hft, IHP, hp, if_neg hg]
        | some p =>
          obtain ⟨junit, tokens⟩ := p
          have hs := ((parser_suffix _).1 _ _ _ _ hp).1.length_le
          cases tokens with
          | nil =>
            have h0 := IHL limit [] (MapW.set acc front.wstring_ (some junit))
              (by simp only [List.length_nil]; omega)
            simp only [jobjectLoopChecked, jobjectLoop, hft, IHP, hp, if_neg hg, h0]
          | cons t tokens' =>
            have h1 := IHL limit tokens' (MapW.set acc front.wstring_ (some junit))
              (by simp only [List.length_cons] at hs hl ⊢; omega)
            have h2 := IHL limit (t :: tokens') (MapW.set acc front.wstring_ (some junit))
              (by simp only [List.length_cons] at hs hl ⊢; omega)
            simp only [jobjectLoopChecked, jobjectLoop, hft, IHP, hp, if_neg hg, h1, h2]
    | RightCurlyBracket => simp only [jobjectLoopChecked, jobjectLoop, hft]
    | LeftCurlyBracket => simp only [jobjectLoopChecked, jobjectLoop, hft]
    | LeftSquareBracket => simp only [jobjectLoopChecked, jobjectLoop, hft]
    | NumberInteger => simp only [jobjectLoopChecked, jobjectLoop, hft]
    | NumberFloat => simp only [jobjectLoopChecked, jobjectLoop, hft]
    | Boolean => simp only [jobjectLoopChecked, jobjectLoop, hft]
    | Null => simp only [jobjectLoopChecked, jobjectLoop, hft]
    | RightSquareBracket => simp only [jobjectLoopChecked, jobjectLoop, hft]
    | Colon => simp only [jobjectLoopChecked, jobjectLoop, hft]
    | Comma => simp only [jobjectLoopChecked, jobjectLoop, hft]
    | Bad => simp only [jobjectLoopChecked, jobjectLoop, hft]

theorem jobjectChecked_eq (fuel : Nat)
    (IHL : ∀ limit tokens acc, tokens.length < limit →
      jobjectLoopChecked fuel limit tokens acc = jobjectLoop fuel tokens acc) :
    ∀ limit tokens acc, tokens.length ≤ limit →
      jobjectChecked (fuel + 1) limit tokens acc = jobject (fuel + 1) tokens acc := by
  intro limit tokens acc hl
  rcases tokens with _ | ⟨front, _ | ⟨second, tl⟩⟩
  · simp only [jobjectChecked, jobject]
  · simp only [jobjectChecked, jobject]
  · simp only [jobjectChecked, jobject, List.tail_cons]
    rw [IHL limit (second :: tl) acc (by simp only [List.length_cons] at hl ⊢; omega)]

theorem jarrayChecked_eq (fuel : Nat)
    (IHL : ∀ limit tokens acc, tokens.length < limit →
      jarrayLoopChecked fuel limit tokens acc = jarrayLoop fuel tokens acc) :
    ∀ limit tokens acc, tokens.length ≤ limit →
      jarrayChecked (fuel + 1) limit tokens acc = jarray (fuel + 1) tokens acc := by
  intro limit tokens acc hl
  rcases tokens with _ | ⟨front, _ | ⟨second, tl⟩⟩
  · simp only [jarrayChecked, jarray]
  · simp only [jarrayChecked, jarray]
  · simp only [jarrayChecked, jarray, List.tail_cons]
    rw [IHL limit (second :: tl) acc (by simp only [List.length_cons] at hl ⊢; omega)]

theorem parseChecked_eq_step (fuel : Nat)
    (IHO : ∀ limit tokens acc, tokens.length ≤ limit →
      jobjectChecked fuel limit tokens acc = jobject fuel tokens acc)
    (IHA : ∀ limit tokens acc, tokens.length ≤ limit →
      jarrayChecked fuel limit tokens acc = jarray fuel tokens acc) :
    ∀ self tokens, JsonW.parseChecked (fuel + 1) self tokens =
      JsonW.parse (fuel + 1) self tokens := by
  intro self tokens
  obtain ⟨t, v, i, f, s, b, o, a⟩ := self
  cases tokens with
  | nil => simp only [JsonW.parseChecked, JsonW.parse]
  | cons front tl =>
    cases hft : front.type_ with
    | LeftCurlyBracket =>
      have e := IHO (front :: tl).length (front :: tl) [] (le_refl _)
      cases hj : jobject fuel (front :: tl) [] with
      | none => simp only [JsonW.parseChecked, JsonW.parse, hft, e, hj]
      | some r =>
        obtain ⟨ok, tokens, out⟩ := r
        simp only [JsonW.parseChecked, JsonW.parse, hft, e, hj]
    | LeftSquareBracket =>
      have e := IHA (front :: tl).length (front :: tl) [] (le_refl _)
      cases hj : jarray fuel (front :: tl) [] with
      | none => simp only [JsonW.parseChecked, JsonW.parse, hft, e, hj]
      | some r =>
        obtain ⟨ok, tokens, out⟩ := r
        simp only [JsonW.parseChecked, JsonW.parse, hft, e, hj]
    | NumberInteger => simp only [JsonW.parseChecked, JsonW.parse, hft]
    | NumberFloat => simp only [JsonW.parseChecked, JsonW.parse, hft]
    | String => simp only [JsonW.parseChecked, JsonW.parse, hft]
    | Boolean => simp only [JsonW.parseChecked, JsonW.parse, hft]
    | Null => simp only [JsonW.parseChecked, JsonW.parse, hft]
    | RightCurlyBracket => simp only [JsonW.parseChecked, JsonW.parse, hft]
    | RightSquareBracket => simp only [JsonW.parseChecked, JsonW.parse, hft]
    | Colon => simp only [JsonW.parseChecked, JsonW.parse, hft]
    | Comma => simp only [JsonW.parseChecked, JsonW.parse, hft]
    | Bad => simp only [JsonW.parseChecked, JsonW.parse, hft]

/-- The assertions never fail: the parser with the assertions returns what the parser
returns, with every amount of fuel. -/
theorem parserChecked_eq (fuel : Nat) :
    (∀ self tokens, JsonW.parseChecked fuel self tokens = JsonW.parse fuel self tokens) ∧
    (∀ limit tokens acc, tokens.length ≤ limit →
      jobjectChecked fuel limit tokens acc = jobject fuel tokens acc) ∧
    (∀ limit tokens acc, tokens.length < limit →
      jobjectLoopChecked fuel limit tokens acc = jobjectLoop fuel tokens acc) ∧
    (∀ limit tokens acc, tokens.length ≤ limit →
      jarrayChecked fuel limit tokens acc = jarray fuel tokens acc) ∧
    (∀ limit tokens acc, tokens.length < limit →
      jarrayLoopChecked fuel limit tokens acc = jarrayLoop fuel tokens acc) := by
  induction fuel with
  | zero =>
    refine ⟨?_, ?_, ?_, ?_, ?_⟩
    · intro self tokens
      simp only [JsonW.parseChecked, JsonW.parse]
    · intro limit tokens acc _
      simp only [jobjectChecked, jobject]
    · intro limit tokens acc _
      simp only [jobjectLoopChecked, jobjectLoop]
    · intro limit tokens acc _
      simp only [jarrayChecked, jarray]
    · intro limit tokens acc _
      simp only [jarrayLoopChecked, jarrayLoop]
  | succ fuel ih =>
    obtain ⟨hp, ho, hol, ha, hal⟩ := ih
    exact ⟨parseChecked_eq_step fuel ho ha, jobjectChecked_eq fuel hol,
      jobjectLoopChecked_eq fuel hp hol, jarrayChecked_eq fuel hal,
      jarrayLoopChecked_eq fuel hp hal⟩

/-! ## The claims on containers, mutation and termination -/

/-- C31: for every valid ARRAY, `wtext()` is `[`, the texts of the elements in storage
order with one comma between two of them, and `]`; for every valid OBJECT, `wtext()` is
`{`, the pairs in the order in which `wkeys()` lists the keys, each as the escaped key, a
colon and the text of the child, with one comma between two pairs, and `}`.  Nothing
else is written, so an empty container gives `[]` or `{}`.  The text is defined when
the text of every child is (no stored pointer that is dereferenced is `NULL`). -/
theorem C31_container_rendering (env : FloatEnv) (n : JsonW) (hv : n.valid = true) :
    (n.type = JsonW.ARRAY →
      n.wtext env = (collect (n.jarray_.map (JsonW.wtext env))).map
        (fun ts => [91] ++ commaSeparated ts ++ [93]) ∧
      (n.size = 0 → n.wtext env = some (ws "[]"))) ∧
    (n.type = JsonW.OBJECT →
      n.wtext env = (collect (n.jobject_.map
          (fun p => p.2.bind (fun c => (c.wtext env).map (memberText p.1))))).map
        (fun ts => [123] ++ commaSeparated ts ++ [125]) ∧
      n.wkeys = n.jobject_.map Prod.fst ∧
      (n.wkeys = [] → n.wtext env = some (ws "\x7b\x7d"))) := by
  obtain ⟨t, va, i, f, s, b, o, a⟩ := n
  have hva : va = true := hv
  subst hva
  constructor
  · intro ht
    have ht' : t = JsonW.ARRAY := ht
    subst ht'
    have h : JsonW.wtext env (JsonW.mk JsonW.ARRAY true i f s b o a) =
        (wss_items env a).map (fun body => [91] ++ body ++ [93]) := by
      simp only [JsonW.wtext]
      rw [wss_junit]
      cases wss_items env a <;>
        simp [JsonW.ARRAY, JsonW.INTEGER, JsonW.FLOAT, JsonW.BOOLEAN, JsonW.NULLVALUE,
          JsonW.STRING, JsonW.OBJECT]
    have hfun : JsonW.wtext env = wss_junit env := rfl
    refine ⟨?_, ?_⟩
    · rw [h, wss_items_eq, hfun]
      simp [JsonW.jarray_, Option.map_map, Function.comp_def]
    · intro h0
      have : a = [] := by
        simpa [JsonW.size, JsonW.jarray_] using h0
      subst this
      rw [h]
      rfl
  · intro ht
    have ht' : t = JsonW.OBJECT := ht
    subst ht'
    have h : JsonW.wtext env (JsonW.mk JsonW.OBJECT true i f s b o a) =
        (wss_pairs env o).map (fun body => [123] ++ body ++ [125]) := by
      simp only [JsonW.wtext]
      rw [wss_junit]
      cases wss_pairs env o <;>
        simp [JsonW.ARRAY, JsonW.INTEGER, JsonW.FLOAT, JsonW.BOOLEAN, JsonW.NULLVALUE,
          JsonW.STRING, JsonW.OBJECT]
    have hfun : JsonW.wtext env = wss_junit env := rfl
    refine ⟨?_, rfl, ?_⟩
    · rw [h, wss_pairs_eq, hfun]
      simp [JsonW.jobject_, Option.map_map, Function.comp_def]
    · intro h0
      have : o = [] := by
        simpa [JsonW.wkeys, JsonW.jobject_] using h0
      subst this
      rw [h]
      rfl

/-- C31, witness: the array `[1,[2]]` and the object `{"a":1}`. -/
theorem C31_container_rendering_witness :
    sampleArray.valid = true ∧ sampleArray.type = JsonW.ARRAY ∧
    sampleArray.wtext FloatEnv.unbounded = some (ws "[1,[2]]") ∧
    (collect (sampleArray.jarray_.map (JsonW.wtext FloatEnv.unbounded))).map
        (fun ts => [91] ++ commaSeparated ts ++ [93]) = some (ws "[1,[2]]") ∧
    sampleObject.wtext FloatEnv.unbounded = some (ws "\x7b\"a\":1\x7d") :=
  ⟨rfl, rfl, rfl,
    ((C31_container_rendering FloatEnv.unbounded sampleArray rfl).1 rfl).1 ▸ rfl, rfl⟩

/-- C33: for every list of pairs with non-empty, pairwise different keys and values the
parser accepts, and for every choice of which commas between two pairs are written,
`JsonW::parse` on the queue `{ k1 : v1 [,] k2 : v2 [,] ... kn : vn }`, followed by
any tokens, gives the valid OBJECT that the queue with every comma written gives, and
leaves the tokens that follow. -/
theorem C33_optional_comma (members : List (List Nat × Syn)) (commas : List Bool)
    (rest : List JsonTokenW) (fuel : Nat) (hacc : acceptedMembers [] members = true)
    (hf : 3 * (toksMembers members).length + 7 ≤ fuel) :
    JsonW.parse fuel JsonW.raw
        (tok TokType.LeftCurlyBracket ::
          (toksMembersOpt commas members ++ tok TokType.RightCurlyBracket :: rest)) =
      some ((Syn.obj members).build, rest) ∧
    JsonW.parse fuel JsonW.raw ((Syn.obj members).toks ++ rest) =
      some ((Syn.obj members).build, rest) ∧
    (Syn.obj members).build.valid = true ∧ (Syn.obj members).build.type = JsonW.OBJECT := by
  refine ⟨?_, ?_, rfl, rfl⟩
  · obtain ⟨f, rfl⟩ : ∃ f, fuel = f + 2 := ⟨fuel - 2, by omega⟩
    have hl := jobjectLoop_membersOpt members commas [] [] hacc (by simp) f rest (by omega)
    cases hti : toksMembersOpt commas members ++ tok TokType.RightCurlyBracket :: rest with
    | nil => simp at hti
    | cons x xs =>
      rw [hti] at hl
      show JsonW.parse (f + 1 + 1) _ _ = _
      rw [parse_object, jobject_enter, hl]
      simp [Syn.build]
  · refine parse_accepted (Syn.obj members) (by simpa [Syn.accepted] using hacc) fuel rest ?_
    simp only [Syn.toks, List.length_cons, List.length_append, List.length_nil]
    omega

/-- C33, witness: the pairs `"a":1` and `"b":2` without the comma between them, and the
texts `{"a":1 "b":2}` and `{"a":1,"b":2}`. -/
theorem C33_optional_comma_witness :
    acceptedMembers [] [(ws "a", Syn.scalar (intTok 1) rfl), (ws "b", Syn.scalar (intTok 2) rfl)] =
      true ∧
    JsonW.parse 31 JsonW.raw
        [tok TokType.LeftCurlyBracket, strTok (ws "a"), tok TokType.Colon, intTok 1,
          strTok (ws "b"), tok TokType.Colon, intTok 2, tok TokType.RightCurlyBracket] =
      some ((Syn.obj [(ws "a", Syn.scalar (intTok 1) rfl),
        (ws "b", Syn.scalar (intTok 2) rfl)]).build, []) ∧
    JsonW.init FloatEnv.unbounded (ws "\x7b\"a\":1 \"b\":2\x7d") =
      JsonW.init FloatEnv.unbounded (ws "\x7b\"a\":1,\"b\":2\x7d") :=
  ⟨by decide,
    (C33_optional_comma [(ws "a", Syn.scalar (intTok 1) rfl), (ws "b", Syn.scalar (intTok 2) rfl)]
      [false] [] 31 (by decide) (by decide)).1,
    rfl⟩

/-- C34, the code at the failing inputs: each of the literals `"\u00g1"` and `"\ugggg"`
scans to a String token whose payload is the one code unit zero, and the text parses to
a valid STRING node; the literal `"\u12g4"` gives the code unit `0x12`. -/
theorem C34_nonhex_escape_accepted (env : FloatEnv) :
    JsonTokenW.scan env (ws "\"\\u00g1\"") = (strTok [0], []) ∧
    JsonTokenW.scan env (ws "\"\\ugggg\"") = (strTok [0], []) ∧
    JsonTokenW.scan env (ws "\"\\u12g4\"") = (strTok [18], []) ∧
    (JsonW.init env (ws "\"\\u00g1\"")).map (fun j => (j.valid, j.type, j.wstr)) =
      some (true, JsonW.STRING, [0]) ∧
    (JsonW.init env (ws "\"\\ugggg\"")).map (fun j => (j.valid, j.type, j.wstr)) =
      some (true, JsonW.STRING, [0]) :=
  ⟨rfl, rfl, rfl, rfl, rfl⟩

/-- C35: on every finite token queue `parse` returns, and so do `jobject` and `jarray`:
with every amount of fuel from three per token plus one on, the model returns one
and the same result.  No step adds a token: the queue afterwards is a suffix of the
queue before.  Every recursive call of `parse` is made on a queue strictly shorter than
the queue of the enclosing call: the parser with that assertion in front of each
recursive call returns the same result, so the assertion never fails. -/
theorem C35_parser_terminates (self : JsonW) (tokens : List JsonTokenW) :
    (∃ j rest,
      (∀ fuel, 3 * tokens.length + 1 ≤ fuel →
        JsonW.parse fuel self tokens = some (j, rest) ∧
        JsonW.parseChecked fuel self tokens = some (j, rest)) ∧
      rest <:+ tokens) ∧
    (∀ jobject_, ∃ ok rest out,
      (∀ fuel, 3 * tokens.length + 1 ≤ fuel →
        jobject fuel tokens jobject_ = some (ok, rest, out) ∧
        jobjectChecked fuel tokens.length tokens jobject_ = some (ok, rest, out)) ∧
      rest <:+ tokens) ∧
    (∀ jarray_, ∃ ok rest out,
      (∀ fuel, 3 * tokens.length + 1 ≤ fuel →
        jarray fuel tokens jarray_ = some (ok, rest, out) ∧
        jarrayChecked fuel tokens.length tokens jarray_ = some (ok, rest, out)) ∧
      rest <:+ tokens) := by
  refine ⟨?_, ?_, ?_⟩
  · obtain ⟨⟨j, rest⟩, hr⟩ := (parser_total _ tokens rfl).1 self
    have h0 := hr (3 * tokens.length + 1) (by omega) (by omega)
    refine ⟨j, rest, fun fuel hf => ?_, ((parser_suffix _).1 _ _ _ _ h0).1⟩
    have h1 := hr fuel (by omega) (by omega)
    exact ⟨h1, ((parserChecked_eq fuel).1 self tokens).trans h1⟩
  · intro m
    obtain ⟨⟨ok, rest, out⟩, hr⟩ := jobject_total tokens m
    have h0 := hr (3 * tokens.length + 1) (le_refl _)
    refine ⟨ok, rest, out, fun fuel hf => ?_, ((parser_suffix _).2.1 _ _ _ h0).1⟩
    have h1 := hr fuel hf
    exact ⟨h1, ((parserChecked_eq fuel).2.1 _ tokens m (le_refl _)).trans h1⟩
  · intro a
    obtain ⟨⟨ok, rest, out⟩, hr⟩ := jarray_total tokens a
    have h0 := hr (3 * tokens.length + 1) (le_refl _)
    refine ⟨ok, rest, out, fun fuel hf => ?_, ((parser_suffix _).2.2.2.1 _ _ _ h0).1⟩
    have h1 := hr fuel hf
    exact ⟨h1, ((parserChecked_eq fuel).2.2.2.1 _ tokens a (le_refl _)).trans h1⟩

/-- C36: in every state of a node that the constructors, `parse`, `copy`, the assignment
operators, indexed and keyed access, `add`, `set` and `bad()` produce, the node and
every node below it has a non-empty object map only with type OBJECT or BAD and a
non-empty element vector only with type ARRAY or BAD; so a node of scalar or null type
owns no children, an ARRAY has no object entries and an OBJECT no array elements. -/
theorem C36_container_slots (env : FloatEnv) (n : JsonW) (h : Reachable env n) (d : JsonW)
    (hd : Within n d) :
    (d.jobject_ ≠ [] → d.type = JsonW.OBJECT ∨ d.type = JsonW.BAD) ∧
    (d.jarray_ ≠ [] → d.type = JsonW.ARRAY ∨ d.type = JsonW.BAD) ∧
    (d.type = JsonW.INTEGER ∨ d.type = JsonW.FLOAT ∨ d.type = JsonW.STRING ∨
      d.type = JsonW.BOOLEAN ∨ d.type = JsonW.NULLVALUE → d.jobject_ = [] ∧ d.jarray_ = []) ∧
    (d.type = JsonW.ARRAY → d.jobject_ = []) ∧ (d.type = JsonW.OBJECT → d.jarray_ = []) := by
  have hs := slotsOk_top d (reachable_slotsOk env d (reachable_within env n d hd h))
  obtain ⟨ho, ha⟩ := hs
  have hO : d.jobject_ = [] ∨ d.type = JsonW.OBJECT ∨ d.type = JsonW.BAD := by
    by_cases e : d.jobject_ = []
    · exact Or.inl e
    · exact Or.inr (ho e)
  have hA : d.jarray_ = [] ∨ d.type = JsonW.ARRAY ∨ d.type = JsonW.BAD := by
    by_cases e : d.jarray_ = []
    · exact Or.inl e
    · exact Or.inr (ha e)
  refine ⟨ho, ha, ?_, ?_, ?_⟩
  · intro ht
    constructor
    · rcases hO with e | e | e
      · exact e
      · rw [e] at ht; exact absurd ht (by decide)
      · rw [e] at ht; exact absurd ht (by decide)
    · rcases hA with e | e | e
      · exact e
      · rw [e] at ht; exact absurd ht (by decide)
      · rw [e] at ht; exact absurd ht (by decide)
  · intro ht
    rcases hO with e | e | e
    · exact e
    · rw [e] at ht; exact absurd ht (by decide)
    · rw [e] at ht; exact absurd ht (by decide)
  · intro ht
    rcases hA with e | e | e
    · exact e
    · rw [e] at ht; exact absurd ht (by decide)
    · rw [e] at ht; exact absurd ht (by decide)

/-- C36, witness: the object read from the text `{"a":1}`, then given a second entry
by `set`, and its child under the key `a`. -/
theorem C36_container_slots_witness :
    Reachable FloatEnv.unbounded (sampleObject.set (ws "b") none).2 ∧
    Within (sampleObject.set (ws "b") none).2 (integerNode 1) ∧
    ((integerNode 1).jobject_ ≠ [] →
      (integerNode 1).type = JsonW.OBJECT ∨ (integerNode 1).type = JsonW.BAD) ∧
    ((integerNode 1).jarray_ ≠ [] →
      (integerNode 1).type = JsonW.ARRAY ∨ (integerNode 1).type = JsonW.BAD) ∧
    ((integerNode 1).type = JsonW.INTEGER ∨ (integerNode 1).type = JsonW.FLOAT ∨
      (integerNode 1).type = JsonW.STRING ∨ (integerNode 1).type = JsonW.BOOLEAN ∨
      (integerNode 1).type = JsonW.NULLVALUE →
      (integerNode 1).jobject_ = [] ∧ (integerNode 1).jarray_ = []) ∧
    ((integerNode 1).type = JsonW.ARRAY → (integerNode 1).jobject_ = []) ∧
    ((integerNode 1).type = JsonW.OBJECT → (integerNode 1).jarray_ = []) :=
  have hr : Reachable FloatEnv.unbounded (sampleObject.set (ws "b") none).2 :=
    Reachable.set sampleObject (ws "b") none
      (Reachable.init (ws "\x7b\"a\":1\x7d") sampleObject rfl) (fun c hc => by cases hc)
  have hw : Within (sampleObject.set (ws "b") none).2 (integerNode 1) :=
    Within.member _ (ws "a") (integerNode 1) _
      (show (ws "a", some (integerNode 1)) ∈
        [(ws "a", some (integerNode 1)), (ws "b", none)] from List.mem_cons_self _ _)
      (Within.self _)
  ⟨hr, hw, C36_container_slots FloatEnv.unbounded _ hr _ hw⟩

/-- C37: for every node `n` with `valid()` false, every non-empty key `k` and every node
`v`: `set(k, v)` returns true, afterwards `type()` is OBJECT and `find(k)` is `v`, but
`valid()` is still false and `wtext()` is the empty text; `add(v)` on the same `n`
makes it a valid ARRAY of the one element `v`, whose `wtext()` is the text of `v` in
square brackets.  (An ARRAY is never invalid: hypothesis `ha`.) -/
theorem C37_set_keeps_invalid (env : FloatEnv) (n : JsonW) (k : List Nat) (v : JsonW)
    (hv : n.valid = false) (hk : k ≠ []) (ha : n.type = JsonW.ARRAY → n.valid = true) :
    (n.set k (some v)).1 = true ∧ (n.set k (some v)).2.type = JsonW.OBJECT ∧
    (n.set k (some v)).2.find k = some (some v) ∧
    (n.set k (some v)).2.valid = false ∧
    (n.set k (some v)).2.wtext env = some [] ∧
    (n.add (some v)).valid = true ∧ (n.add (some v)).type = JsonW.ARRAY ∧
    (n.add (some v)).size = 1 ∧ (n.add (some v)).at 0 = some v ∧
    (n.add (some v)).wtext env = (v.wtext env).map (fun t => [91] ++ t ++ [93]) := by
  obtain ⟨t, va, i, f, s, b, o, a⟩ := n
  have hva : va = false := hv
  subst hva
  have hlen : (k.length == 0) = false := by
    cases k with
    | nil => exact absurd rfl hk
    | cons _ _ => rfl
  have hta : (t != JsonW.ARRAY) = true := by
    by_cases h : t = JsonW.ARRAY
    · exact absurd (ha h) (by simp [JsonW.valid, JsonW.valid_])
    · simpa using h
  refine ⟨?_, ?_, ?_, ?_, ?_, ?_, ?_, ?_, ?_, ?_⟩
  · simp [JsonW.set, hlen]
  · simp [JsonW.set, hlen, JsonW.type, JsonW.type_]
  · simp only [JsonW.set, hlen, Bool.false_eq_true, if_false, JsonW.find, JsonW.jobject_]
    exact MapW.find_set_self _ _ _
  · simp [JsonW.set, hlen, JsonW.valid, JsonW.valid_]
  · simp [JsonW.set, hlen, JsonW.wtext, wss_junit]
  · simp [JsonW.add, JsonW.valid, JsonW.valid_]
  · simp [JsonW.add, JsonW.type, JsonW.type_]
  · simp [JsonW.add, hta, JsonW.size, JsonW.jarray_]
  · simp [JsonW.add, hta, JsonW.at, JsonW.jarray_]
  · simp only [JsonW.add, hta, if_true, Option.getD_some, List.nil_append, JsonW.wtext]
    rw [wss_junit]
    simp only [wss_items]
    cases wss_junit env v <;>
      simp [JsonW.ARRAY, JsonW.INTEGER, JsonW.FLOAT, JsonW.BOOLEAN, JsonW.NULLVALUE,
        JsonW.STRING, JsonW.OBJECT]

/-- C37, witness: the invalid node of the failed parse of `[1,2`. -/
theorem C37_set_keeps_invalid_witness :
    ∃ n, JsonW.init FloatEnv.unbounded (ws "[1,2") = some n ∧ n.valid = false ∧
      (n.set (ws "a") (some (integerNode 7))).2.valid = false ∧
      (n.set (ws "a") (some (integerNode 7))).2.wtext FloatEnv.unbounded = some [] ∧
      (n.add (some (integerNode 7))).wtext FloatEnv.unbounded = some (ws "[7]") :=
  ⟨_, rfl, rfl,
    (C37_set_keeps_invalid FloatEnv.unbounded
      (JsonW.mk JsonW.BAD false 0 LongDouble.zero [] true [] [integerNode 1, integerNode 2])
      (ws "a") (integerNode 7) rfl (by decide) (by decide)).2.2.2.1,
    (C37_set_keeps_invalid FloatEnv.unbounded
      (JsonW.mk JsonW.BAD false 0 LongDouble.zero [] true [] [integerNode 1, integerNode 2])
      (ws "a") (integerNode 7) rfl (by decide) (by decide)).2.2.2.2.1,
    rfl⟩

/-- C38: for every character `c` other than `"`, `\`, `/`, `b`, `f`, `n`, `r`, `t` and
`u` (a raw carriage return or line feed included), the string loop after a backslash
and `c` is in the state in which it was before them, so the two characters add nothing
to the payload and do not end the literal; a literal with such an escape between the
renderings of `w1` and `w2` scans to the String token with payload `w1 ++ w2`. -/
theorem C38_unknown_escape_dropped (env : FloatEnv) (c : Nat)
    (hc : c ≠ 34 ∧ c ≠ 92 ∧ c ≠ 47 ∧ c ≠ 98 ∧ c ≠ 102 ∧ c ≠ 110 ∧ c ≠ 114 ∧ c ≠ 116 ∧ c ≠ 117) :
    (∀ buf rest, stringLoop false buf (92 :: c :: rest) = stringLoop false buf rest) ∧
    ∀ w1 w2 tail, JsonTokenW.scan env
        (34 :: (wss_json_chars w1 ++ 92 :: c :: (wss_json_chars w2 ++ 34 :: tail))) =
      (strTok (w1 ++ w2), tail) := by
  refine ⟨fun buf rest => stringLoop_unknown buf c rest hc, fun w1 w2 tail => ?_⟩
  have hscan : ∀ body, JsonTokenW.scan env (34 :: body) = stringLoop false [] body := by
    intro body
    simp [JsonTokenW.scan, iswdigit]
  rw [hscan, stringLoop_rendered, stringLoop_unknown _ c _ hc, stringLoop_chars]
  simp

/-- C38, witness: the literal `"a\xb"` scans to the String token with payload `ab`, and
a backslash before a raw line feed is dropped with it. -/
theorem C38_unknown_escape_dropped_witness :
    ((120 : Nat) ≠ 34 ∧ (120 : Nat) ≠ 92 ∧ (120 : Nat) ≠ 47 ∧ (120 : Nat) ≠ 98 ∧
      (120 : Nat) ≠ 102 ∧ (120 : Nat) ≠ 110 ∧ (120 : Nat) ≠ 114 ∧ (120 : Nat) ≠ 116 ∧
      (120 : Nat) ≠ 117) ∧
    JsonTokenW.scan FloatEnv.unbounded (ws "\"a\\xb\"") = (strTok (ws "ab"), []) ∧
    JsonTokenW.scan FloatEnv.unbounded (ws "\"a\\\nb\"") = (strTok (ws "ab"), []) :=
  ⟨by decide,
    (C38_unknown_escape_dropped FloatEnv.unbounded 120 (by decide)).2 (ws "a") (ws "b") [],
    rfl⟩

/-- C39: for pairs with non-empty, pairwise different keys, listed in two orders:
storing them into a default-constructed node with `set`, one call per pair, gives the
same node in both orders; `wkeys()` of that node lists exactly the keys of the pairs,
in strictly ascending order of their code units; the texts agree; and storing the
pairs by keyed assignment `n[k] = v` (the values being trees without stored `NULL`)
gives that same node. -/
theorem C39_key_order (env : FloatEnv) (instance_ : JsonW)
    (pairs1 pairs2 : List (List Nat × JsonW)) (hp : pairs1.Perm pairs2)
    (hn : (pairs1.map Prod.fst).Nodup) (hne : ∀ p ∈ pairs1, p.1 ≠ [])
    (hwf : ∀ p ∈ pairs1, p.2.wellFormed = true) :
    JsonW.new.setAll pairs1 = JsonW.new.setAll pairs2 ∧
    ascending (JsonW.new.setAll pairs1).wkeys = true ∧
    (∀ k, k ∈ (JsonW.new.setAll pairs1).wkeys ↔ k ∈ pairs1.map Prod.fst) ∧
    (JsonW.new.setAll pairs1).wkeys.length = pairs1.length ∧
    (JsonW.new.setAll pairs1).wtext env = (JsonW.new.setAll pairs2).wtext env ∧
    JsonW.putAll instance_ JsonW.new pairs1 = some (JsonW.new.setAll pairs1) ∧
    JsonW.putAll instance_ JsonW.new pairs2 = some (JsonW.new.setAll pairs1) := by
  have hne2 : ∀ p ∈ pairs2, p.1 ≠ [] := fun p h => hne p (hp.mem_iff.2 h)
  have hwf2 : ∀ p ∈ pairs2, p.2.wellFormed = true := fun p h => hwf p (hp.mem_iff.2 h)
  have heq : JsonW.new.setAll pairs1 = JsonW.new.setAll pairs2 := by
    by_cases h1 : pairs1 = []
    · subst h1
      rw [hp.nil_eq]
    · have h2 : pairs2 ≠ [] := fun h => h1 (by subst h; exact hp.eq_nil)
      rw [setAll_new pairs1 hne h1, setAll_new pairs2 hne2 h2,
        MapW.foldl_perm pairs1 pairs2 hp hn [] rfl]
  have hkeys : (JsonW.new.setAll pairs1).wkeys =
      (pairs1.foldl (fun m p => MapW.set m p.1 (some p.2)) []).map Prod.fst := by
    by_cases h1 : pairs1 = []
    · subst h1; rfl
    · rw [setAll_new pairs1 hne h1]; rfl
  have hasc : ascending (JsonW.new.setAll pairs1).wkeys = true := by
    rw [hkeys]; exact MapW.ascending_foldl pairs1 [] rfl
  have hmem : ∀ k, k ∈ (JsonW.new.setAll pairs1).wkeys ↔ k ∈ pairs1.map Prod.fst := by
    intro k
    rw [hkeys, MapW.keys_foldl]
    simp
  refine ⟨heq, hasc, hmem, ?_, by rw [heq], ?_, ?_⟩
  · have hperm : ((JsonW.new.setAll pairs1).wkeys).Perm (pairs1.map Prod.fst) :=
      (List.perm_ext_iff_of_nodup (ascending_nodup _ hasc) hn).2 hmem
    simpa using hperm.length_eq
  · exact putAll_eq_setAll instance_ pairs1 JsonW.new rfl (Or.inr rfl) hne hwf
  · rw [heq]
    exact putAll_eq_setAll instance_ pairs2 JsonW.new rfl (Or.inr rfl) hne2 hwf2

/-- C39, witness: the pairs `"b":1` and `"a":2` stored in both orders. -/
theorem C39_key_order_witness :
    [(ws "b", integerNode 1), (ws "a", integerNode 2)].Perm
      [(ws "a", integerNode 2), (ws "b", integerNode 1)] ∧
    JsonW.new.setAll [(ws "b", integerNode 1), (ws "a", integerNode 2)] =
      JsonW.new.setAll [(ws "a", integerNode 2), (ws "b", integerNode 1)] ∧
    (JsonW.new.setAll [(ws "b", integerNode 1), (ws "a", integerNode 2)]).wkeys =
      [ws "a", ws "b"] ∧
    (JsonW.new.setAll [(ws "b", integerNode 1), (ws "a", integerNode 2)]).wtext
      FloatEnv.unbounded = some (ws "\x7b\"a\":2,\"b\":1\x7d") :=
  ⟨List.Perm.swap _ _ _,
    (C39_key_order FloatEnv.unbounded JsonW.new
      [(ws "b", integerNode 1), (ws "a", integerNode 2)]
      [(ws "a", integerNode 2), (ws "b", integerNode 1)] (List.Perm.swap _ _ _)
      (by decide) (by decide) (by decide)).1, rfl, rfl⟩

/-- C40: for every node `n`, non-empty key `k` and node `v`, the call `set(k, v)` returns
true and makes the node an OBJECT in which `find(k)` is `v`.  When `n` was an OBJECT
every other key keeps its child, the element vector and the scalar members are as
before, and the number of keys is unchanged if `k` was present and one larger
otherwise (the keys of the map being in ascending order, as a `std::map` keeps them).
When `n` was not an OBJECT both containers are emptied first and the node becomes the
object with the one entry `k: v`.  For the empty key `set` returns false and leaves `n`
as it is. -/
theorem C40_set_one_entry (n : JsonW) (k : List Nat) (v : JsonW) (hk : k ≠ [])
    (hm : ascending n.wkeys = true) :
    (n.set k (some v)).1 = true ∧ (n.set k (some v)).2.type = JsonW.OBJECT ∧
    (n.set k (some v)).2.find k = some (some v) ∧
    (n.type = JsonW.OBJECT →
      (∀ k', k' ≠ k → (n.set k (some v)).2.find k' = n.find k') ∧
      (n.set k (some v)).2.wkeys.length =
        (if k ∈ n.wkeys then n.wkeys.length else n.wkeys.length + 1) ∧
      (n.set k (some v)).2.jarray_ = n.jarray_) ∧
    (n.type ≠ JsonW.OBJECT →
      (n.set k (some v)).2 = JsonW.mk JsonW.OBJECT n.valid_ n.integer_ n.frac_ n.wstring_
        n.boolean_ [(k, some v)] []) ∧
    n.set [] (some v) = (false, n) := by
  obtain ⟨t, va, i, f, s, b, o, a⟩ := n
  have hlen : (k.length == 0) = false := by
    cases k with
    | nil => exact absurd rfl hk
    | cons _ _ => rfl
  simp only [JsonW.wkeys, JsonW.jobject_] at hm
  refine ⟨?_, ?_, ?_, ?_, ?_, ?_⟩
  · simp [JsonW.set, hlen]
  · simp [JsonW.set, hlen, JsonW.type, JsonW.type_]
  · simp only [JsonW.set, hlen, Bool.false_eq_true, if_false, JsonW.find, JsonW.jobject_]
    exact MapW.find_set_self _ _ _
  · intro ht
    have ht' : t = JsonW.OBJECT := ht
    subst ht'
    refine ⟨fun k' hk' => ?_, ?_, ?_⟩
    · simp only [JsonW.set, hlen, Bool.false_eq_true, if_false, JsonW.find, JsonW.jobject_,
        bne_self_eq_false]
      exact MapW.find_set_ne _ _ _ _ hk'
    · simp only [JsonW.set, hlen, Bool.false_eq_true, if_false, JsonW.wkeys, JsonW.jobject_,
        bne_self_eq_false, List.length_map]
      exact MapW.length_set o k (some v) hm
    · simp [JsonW.set, hlen, JsonW.jarray_]
  · intro ht
    have ht' : (t != JsonW.OBJECT) = true := by simpa [JsonW.type, JsonW.type_] using ht
    simp [JsonW.set, hlen, ht', MapW.set, JsonW.valid_, JsonW.integer_, JsonW.frac_,
      JsonW.wstring_, JsonW.boolean_]
  · simp [JsonW.set]

/-- C40, witness: on the object `{"a":1}`, `set` of the key `b` adds one entry and
`set` of the key `a` replaces the child. -/
theorem C40_set_one_entry_witness :
    ws "b" ≠ [] ∧ ascending sampleObject.wkeys = true ∧
    (sampleObject.set (ws "b") (some (integerNode 2))).2.wkeys = [ws "a", ws "b"] ∧
    (sampleObject.set (ws "b") (some (integerNode 2))).2.find (ws "b") =
      some (some (integerNode 2)) :=
  ⟨by decide, by decide, by decide,
    (C40_set_one_entry sampleObject (ws "b") (integerNode 2) (by decide) (by decide)).2.2.1⟩

end octillion
